import Mathlib

/-!
# CRC idiom recognition: a verification development

Shallow embedding of the reference CRC routines (`crcu8`, `crcu8_optimized`),
of the instruction graph the recognizers walk, of the recognizers and
rewrites of `RecognizingCRC.cpp`, and of an interpreter for the rewritten
control flow; and, in `CRC.AggressiveInstCombine`, of the idiom folds of
`AggressiveInstCombine.cpp` (table-based cttz, popcount, any/all bits set,
guarded funnel shifts, consecutive and patterned loads) over a value tree
with an evaluator.

Machine integers are natural numbers reduced modulo `2 ^ w`; signed
operations read them in two's complement.
-/

namespace CRC

/-! ## Machine arithmetic -/

/-- Truncation of a value to `w` bits. -/
def truncTo (w x : Nat) : Nat := x % 2 ^ w

/-- Arithmetic shift right of a `w`-bit two's complement value by `k < w`:
the vacated high bits are filled with the sign bit. -/
def ashr (w x k : Nat) : Nat :=
  if x < 2 ^ (w - 1) then x >>> k else (x >>> k) ||| (2 ^ w - 2 ^ (w - k))

/-- Signed reading of a `w`-bit value. -/
def toSigned (w x : Nat) : Int :=
  if x < 2 ^ (w - 1) then (x : Int) else (x : Int) - (2 ^ w : Nat)

/-- Sign extension of a `w`-bit value to `w2` bits. -/
def sextTo (w w2 x : Nat) : Nat :=
  if x < 2 ^ (w - 1) then x else x + (2 ^ w2 - 2 ^ w)

/-! ## The reference routines (C sources) -/

/-- Local variables of `crcu8`: `unsigned char data, i, x16, carry` and
`unsigned short crc`. -/
structure CrcState where
  data : Nat
  crc : Nat
  i : Nat
  x16 : Nat
  carry : Nat
  deriving DecidableEq, Repr

namespace syrmia_crc_unoptimized

/-- Body of the `for` loop of `crcu8` in `crc_algorithms/syrmia_crc_unoptimized.c`
(the `x16 == 1` branch does `crc ^= 0x4002` first, then `carry = 1`). -/
def crcu8_body (s : CrcState) : CrcState :=
  let x16 := truncTo 8 ((s.data &&& 1) ^^^ (truncTo 8 s.crc &&& 1))
  let data := truncTo 8 (s.data >>> 1)
  let s1 : CrcState := { s with x16 := x16, data := data }
  let s2 : CrcState :=
    if s1.x16 = 1 then
      let s' := { s1 with crc := truncTo 16 (s1.crc ^^^ 0x4002) }
      { s' with carry := 1 }
    else
      { s1 with carry := 0 }
  let s3 : CrcState := { s2 with crc := truncTo 16 (s2.crc >>> 1) }
  if s3.carry ≠ 0 then
    { s3 with crc := truncTo 16 (s3.crc ||| 0x8000) }
  else
    { s3 with crc := truncTo 16 (s3.crc &&& 0x7fff) }

/-- Loop `for (i = 0; i < 8; i++)` of `crcu8`; `none` when the fuel runs out. -/
def crcu8_loop : Nat → CrcState → Option CrcState
  | 0, _ => none
  | fuel + 1, s =>
    if s.i < 8 then
      let s' := crcu8_body s
      crcu8_loop fuel { s' with i := truncTo 8 (s'.i + 1) }
    else some s

/-- Function `crcu8(data, crc)` of `crc_algorithms/syrmia_crc_unoptimized.c`. -/
def crcu8 (data crc : Nat) : Option Nat :=
  (crcu8_loop 256 { data := data, crc := crc, i := 0, x16 := 0, carry := 0 }).map (·.crc)

end syrmia_crc_unoptimized

namespace functional_equivalence

/-- Body of the `for` loop of `crcu8` in
`evaluation/functional_equivalence/unoptimized_crc.c` (and `tests/test_2.c`):
the `x16 == 1` branch does `carry = 1` first, then `crc ^= 0x4002`. -/
def crcu8_body (s : CrcState) : CrcState :=
  let x16 := truncTo 8 ((s.data &&& 1) ^^^ (truncTo 8 s.crc &&& 1))
  let data := truncTo 8 (s.data >>> 1)
  let s1 : CrcState := { s with x16 := x16, data := data }
  let s2 : CrcState :=
    if s1.x16 = 1 then
      let s' := { s1 with carry := 1 }
      { s' with crc := truncTo 16 (s'.crc ^^^ 0x4002) }
    else
      { s1 with carry := 0 }
  let s3 : CrcState := { s2 with crc := truncTo 16 (s2.crc >>> 1) }
  if s3.carry ≠ 0 then
    { s3 with crc := truncTo 16 (s3.crc ||| 0x8000) }
  else
    { s3 with crc := truncTo 16 (s3.crc &&& 0x7fff) }

/-- Loop `for (i = 0; i < 8; i++)`; `none` when the fuel runs out. -/
def crcu8_loop : Nat → CrcState → Option CrcState
  | 0, _ => none
  | fuel + 1, s =>
    if s.i < 8 then
      let s' := crcu8_body s
      crcu8_loop fuel { s' with i := truncTo 8 (s'.i + 1) }
    else some s

/-- Function `crcu8(data, crc)` of
`evaluation/functional_equivalence/unoptimized_crc.c`. -/
def crcu8 (data crc : Nat) : Option Nat :=
  (crcu8_loop 256 { data := data, crc := crc, i := 0, x16 := 0, carry := 0 }).map (·.crc)

end functional_equivalence

/-- Local variables of `crcu8_optimized`: `unsigned char data, i, x16, carry`
and the 64-bit `long crc` (two's complement). -/
structure OptState where
  data : Nat
  crc : Nat
  i : Nat
  x16 : Nat
  carry : Nat
  deriving DecidableEq, Repr

/-- Body of the `for` loop of `crcu8_optimized`
(`crc_algorithms/syrmia_crc_optimized.c`). -/
def crcu8_optimized_body (s : OptState) : OptState :=
  let s1 : OptState := { s with x16 := truncTo 8 (truncTo 8 s.crc &&& 1) }
  let s2 : OptState := { s1 with data := truncTo 8 (s1.data >>> 1) }
  let s3 : OptState := { s2 with crc := ashr 64 s2.crc 1 }
  { s3 with crc := s3.crc ^^^ sextTo 32 64 (if s3.x16 &&& 1 ≠ 0 then 0xa001 else 0) }

/-- Loop `for (i = 0; i < 8; i++)` of `crcu8_optimized`. -/
def crcu8_optimized_loop : Nat → OptState → Option OptState
  | 0, _ => none
  | fuel + 1, s =>
    if s.i < 8 then
      let s' := crcu8_optimized_body s
      crcu8_optimized_loop fuel { s' with i := truncTo 8 (s'.i + 1) }
    else some s

/-- Function `crcu8_optimized(data, _crc)`: `long crc = _crc; crc ^= data;`
then the loop, then the conversion of `crc` to `unsigned short`. -/
def crcu8_optimized (data _crc : Nat) : Option Nat :=
  (crcu8_optimized_loop 256
    { data := data, crc := _crc ^^^ data, i := 0, x16 := 0, carry := 0 }).map
    (fun s => truncTo 16 s.crc)

/-! ## Arithmetic of one CRC round -/

/-- One round of the reflected CRC-16 update with polynomial `0xA001`:
shift right, and fold the polynomial in when the feedback bit `b` is set. -/
def crcRound (c : Nat) (b : Bool) : Nat := (c >>> 1) ^^^ (if b then 0xA001 else 0)

/-- Reference recurrence: `k` rounds fed with the low bits of `d`. -/
def refRounds : Nat → Nat → Nat → Nat
  | 0, _, c => c
  | k + 1, d, c => refRounds k (d / 2) (crcRound c (decide (d % 2 ≠ c % 2)))

/-- Optimized recurrence: `k` rounds driven by the low bit of the accumulator. -/
def optRounds : Nat → Nat → Nat
  | 0, c => c
  | k + 1, c => optRounds k (crcRound c (decide (c % 2 = 1)))

/-! ## The instruction graph

Functions are ordered lists of basic blocks, blocks are ordered lists of
instructions. Instructions and blocks carry a numeric identity (the `%n` of
the printed IR); operands refer to instructions by that identity, branch
targets refer to blocks by theirs. -/

inductive BinOp
  | add | and | or | xor | ashr
  deriving DecidableEq, Repr

inductive CastOp
  | zext | sext | trunc
  deriving DecidableEq, Repr

inductive Pred
  | eq | ne | slt
  deriving DecidableEq, Repr

/-- An operand: a function argument, an integer constant of a given bit
width, the result of an instruction, or poison. -/
inductive Value
  | arg (n : Nat)
  | const (bits v : Nat)
  | inst (id : Nat)
  | poison
  deriving DecidableEq, Repr

/-- The operation of an instruction; `ty` fields are bit widths. -/
inductive Op
  | alloca (ty : Nat)
  | load (ty : Nat) (ptr : Value)
  | store (ty : Nat) (val ptr : Value)
  | binop (o : BinOp) (ty : Nat) (lhs rhs : Value)
  | cast (o : CastOp) (fromTy toTy : Nat) (v : Value)
  | icmp (p : Pred) (ty : Nat) (lhs rhs : Value)
  | select (ty : Nat) (c t f : Value)
  | br (dest : Nat)
  | condBr (c : Value) (t f : Nat)
  | ret (ty : Nat) (v : Value)
  | call (callee : String) (args : List Value)
  deriving DecidableEq, Repr

structure Instr where
  id : Nat
  name : String
  op : Op
  deriving DecidableEq, Repr

structure BasicBlock where
  id : Nat
  name : String
  insts : List Instr
  deriving DecidableEq, Repr

structure Function where
  name : String
  args : List Nat
  blocks : List BasicBlock
  deriving DecidableEq, Repr

/-- A non-null `Instruction *`: block position in the function, instruction
position in the block. A nullable pointer is an `Option InstPtr`. -/
structure InstPtr where
  bb : Nat
  idx : Nat
  deriving DecidableEq, Repr

/-- The instruction a pointer designates. -/
def Function.inst? (F : Function) (p : InstPtr) : Option Instr :=
  match F.blocks[p.bb]? with
  | none => none
  | some B => B.insts[p.idx]?

/-- The instruction that defines the value `%id` (first definition in
program order). -/
def Function.def? (F : Function) (id : Nat) : Option Instr :=
  (F.blocks.flatMap (·.insts)).find? (fun i => i.id == id)

/-- Pointer `&F.back().back()`: the last instruction of the last block. -/
def Function.backBack (F : Function) : Option InstPtr :=
  match F.blocks.getLast? with
  | none => none
  | some B => if B.insts.isEmpty then none
              else some { bb := F.blocks.length - 1, idx := B.insts.length - 1 }

/-- The instruction classes the recognizers `dyn_cast` to. -/
inductive Kind
  | instruction | ret | load | store | br | trunc | zext | icmp | alloca
  deriving DecidableEq, Repr

/-- Result of `isa<K>(I)`. `BranchInst` covers both branch forms. -/
def Op.isKind : Kind → Op → Bool
  | .instruction, _ => true
  | .ret, .ret _ _ => true
  | .load, .load _ _ => true
  | .store, .store _ _ _ => true
  | .br, .br _ => true
  | .br, .condBr _ _ _ => true
  | .trunc, .cast .trunc _ _ _ => true
  | .zext, .cast .zext _ _ _ => true
  | .icmp, .icmp _ _ _ _ => true
  | .alloca, .alloca _ => true
  | _, _ => false

/-! ## Structural patterns (`PatternMatch`) -/

/-- The pattern combinators used by the recognizers. Captures made by
`m_Value` are never read back by the source and are not recorded. -/
inductive Pat
  | value
  | specificInt (v : Nat)
  | load (p : Pat)
  | store (v p : Pat)
  | binop (o : BinOp) (l r : Pat)
  | cast (o : CastOp) (p : Pat)
  deriving Repr

/-- The operation that defines an operand, when the operand is the result
of an instruction. -/
def Function.resolve (F : Function) : Value → Option Op
  | .inst id => (F.def? id).map (·.op)
  | _ => none

/-- Core of `match(V, P)`: the subject is the value `v`, and `op` is its
defining operation when it is an instruction. `m_Value` accepts anything,
`m_SpecificInt(n)` accepts an integer constant of that (zero-extended)
value, an opcode pattern accepts an instruction with that opcode whose
operands match in the written order (none of the patterns used is
commutative). -/
def Pat.matchSubj (F : Function) : Pat → Value → Option Op → Bool
  | .value, _, _ => true
  | .specificInt n, .const _ c, _ => c == n
  | .specificInt _, _, _ => false
  | .load p, _, some (.load _ ptr) => Pat.matchSubj F p ptr (F.resolve ptr)
  | .store v p, _, some (.store _ val ptr) =>
    Pat.matchSubj F v val (F.resolve val) && Pat.matchSubj F p ptr (F.resolve ptr)
  | .binop o l r, _, some (.binop o2 _ a b) =>
    o == o2 && Pat.matchSubj F l a (F.resolve a) && Pat.matchSubj F r b (F.resolve b)
  | .cast o p, _, some (.cast o2 _ _ v) => o == o2 && Pat.matchSubj F p v (F.resolve v)
  | _, _, _ => false

/-- `match(I, P)` for an instruction `I`. -/
def Pat.matchInst (F : Function) (p : Pat) (i : Instr) : Bool :=
  Pat.matchSubj F p (.inst i.id) (some i.op)

/-! ## Walking the instruction lists

The recognizers walk backwards from the `ret` through `getPrevNode()` of
instructions and of blocks, casting each instruction they reach with
`dyn_cast`. A walk either goes on at an instruction, makes the recognizer
return `false`, or dereferences a null pointer. -/

/-- What the source does when a cast yields null: `reject` is an effective
`if (!X) return false;`, `fault` is a dereference of `X` with no effective
null check before it (as in `if (!X && X->f())`, which evaluates `X->f()`
exactly when `X` is null). -/
inductive OnNull
  | reject | fault
  deriving DecidableEq, Repr

/-- State of a walk. -/
inductive Walk
  | fault
  | reject
  | at (p : InstPtr)
  deriving DecidableEq, Repr

def OnNull.walk : OnNull → Walk
  | .reject => .reject
  | .fault => .fault

/-- One statement group of a recognizer, acting on the pointer assigned last.

* `isa k n`: `X = dyn_cast<k>(&I)`.
* `prev k n`: `X = dyn_cast<k>(cur->getPrevNode())`. For a proper subclass
  `k` the cast reads the class of its argument, so a null `getPrevNode()`
  is a null dereference whatever check follows; `dyn_cast<Instruction>` of a
  null `Instruction *` yields null (assertions compiled out).
* `prevBlockBack nBB k n`: `BB = cur->getParent()->getPrevNode();` then
  `X = dyn_cast<k>(&BB->back())`; `nBB` tells whether `if (!BB) return false;`
  stands in between.
* `test p`: `if (!match(cur, p)) return false;`.
* `isUnconditional`, `isConditional`: `if (... !cur->isUnconditional())
  return false;` and its dual, on a branch. -/
inductive Check
  | isa (k : Kind) (n : OnNull)
  | prev (k : Kind) (n : OnNull)
  | prevBlockBack (nBB : OnNull) (k : Kind) (n : OnNull)
  | test (p : Pat)
  | isUnconditional
  | isConditional
  deriving Repr

/-- Cast of the instruction at `q` to class `k`. -/
def castAt (F : Function) (k : Kind) (n : OnNull) (q : InstPtr) : Walk :=
  match F.inst? q with
  | none => .fault
  | some i => if i.op.isKind k then .at q else n.walk

def Check.run (F : Function) (p : InstPtr) : Check → Walk
  | .isa k n => castAt F k n p
  | .prev k n =>
    if p.idx = 0 then
      (if k = .instruction then n.walk else .fault)
    else castAt F k n { bb := p.bb, idx := p.idx - 1 }
  | .prevBlockBack nBB k n =>
    if p.bb = 0 then nBB.walk
    else
      match F.blocks[p.bb - 1]? with
      | none => .fault
      | some B =>
        if B.insts.isEmpty then .fault
        else castAt F k n { bb := p.bb - 1, idx := B.insts.length - 1 }
  | .test pat =>
    match F.inst? p with
    | none => .fault
    | some i => if pat.matchInst F i then .at p else .reject
  | .isUnconditional =>
    match F.inst? p with
    | some ⟨_, _, .br _⟩ => .at p
    | some ⟨_, _, .condBr _ _ _⟩ => .reject
    | _ => .fault
  | .isConditional =>
    match F.inst? p with
    | some ⟨_, _, .condBr _ _ _⟩ => .at p
    | some ⟨_, _, .br _⟩ => .reject
    | _ => .fault

/-- A sequence of statement groups. -/
def runChecks (F : Function) : List Check → InstPtr → Walk
  | [], p => .at p
  | c :: cs, p =>
    match c.run F p with
    | .at q => runChecks F cs q
    | w => w

/-- Outcome of a recognizer: `none` is a null dereference, `some b` is the
returned boolean. -/
def Walk.toResult : Walk → Option Bool
  | .fault => none
  | .reject => some false
  | .at _ => some true

/-! ## The recognizer of `implementations/crc-recognition/RecognizingCRC.cpp` -/

namespace CrcRecognition

open Check Kind OnNull in
/-- Lines 72-249 of `recognizingUnoptimizedCRCInstructions`: from the `ret`
back to the branch that ends `if.then`. -/
def checksToIfThen : List Check :=
  [ -- for.end: ret i16 %57 ; %57 = load i16 (the builder is made on the load before it is checked)
    isa ret fault,
    prev load fault,
    -- for.inc: br label %8 ; store i8 %55 ; %55 = add i8 %54, 1 ; %54 = load i8
    prevBlockBack fault br fault,
    prev store fault,
    prev instruction reject,
    test (.binop .add (.load .value) (.specificInt 1)),
    prev load reject,
    -- if.end25: br label %53
    prevBlockBack fault br fault,
    -- if.else21: br label %52 ; store i16 %51 ; %51 = trunc ; %50 = and i32 %49, 32767 ; zext ; load
    prevBlockBack fault br fault,
    prev store reject,
    test (.store (.cast .trunc .value) .value),
    prev trunc reject,
    test (.cast .trunc (.binop .and .value (.specificInt 32767))),
    prev instruction fault,
    test (.binop .and (.cast .zext .value) (.specificInt 32767)),
    prev zext reject,
    test (.cast .zext (.load .value)),
    prev load reject,
    -- if.then18: br label %52 ; store i16 %46 ; %46 = trunc ; or i32 %44, 32768 ; zext ; load
    prevBlockBack reject br reject,
    isUnconditional,
    prev store reject,
    prev trunc reject,
    prev instruction fault,
    test (.binop .or .value .value),
    prev zext reject,
    prev load reject,
    -- if.end: br i1 %41 ; icmp ne ; load i8 ; store i16 %39 ; trunc ; ashr i32 %37, 1 ; zext ; load
    prevBlockBack reject br reject,
    isConditional,
    prev icmp reject,
    prev load reject,
    prev store reject,
    prev trunc reject,
    prev instruction fault,
    test (.binop .ashr .value (.specificInt 1)),
    prev zext reject,
    prev load reject,
    -- if.else: br label %35 ; store i8 0
    prevBlockBack reject br reject,
    prev store reject,
    -- if.then: br label %35
    prevBlockBack reject br reject ]

open Check Kind OnNull in
/-- Lines 253-290, the body of `while (true)`: `if.then` ending in the two
stores `store i16 %33` and `store i8 1`; a failed check sets `flag = false`. -/
def checksIfThenLoop : List Check :=
  [ prev store reject,
    prev store reject,
    prev trunc reject,
    prev instruction fault,
    test (.binop .xor .value (.specificInt 16386)),
    prev zext reject,
    prev load reject ]

open Check Kind OnNull in
/-- Lines 292-322, run when `flag` is false: `if.then` with `store i8 1`
first. -/
def checksIfThenOther : List Check :=
  [ prev store reject,
    prev trunc reject,
    prev instruction fault,
    test (.binop .xor .value (.specificInt 16386)),
    prev zext reject,
    prev load reject,
    prev store reject ]

open Check Kind OnNull in
/-- Lines 324-511: `for.body`, `for.cond` and the first block. -/
def checksFromForBody : List Check :=
  [ -- for.body
    prevBlockBack reject br reject,
    prev icmp reject,
    prev zext reject,
    prev load reject,
    prev store reject,
    prev trunc reject,
    prev instruction fault,
    test (.binop .ashr .value (.specificInt 1)),
    prev zext reject,
    prev load reject,
    prev store reject,
    prev trunc reject,
    prev instruction fault,
    test (.binop .xor .value .value),
    prev instruction fault,
    test (.binop .and .value (.specificInt 1)),
    prev zext reject,
    prev trunc reject,
    prev load reject,
    prev instruction fault,
    test (.binop .and .value (.specificInt 1)),
    prev zext reject,
    prev load reject,
    -- for.cond
    prevBlockBack reject br reject,
    prev icmp reject,
    prev zext reject,
    prev load reject,
    -- first block: six stores (`if (!SI && SI->...)`, one plain `if (!SI)`), five allocas
    prevBlockBack reject br reject,
    prev store fault,
    prev store fault,
    prev store fault,
    prev store fault,
    prev store reject,
    prev store fault,
    prev alloca fault,
    prev alloca fault,
    prev alloca fault,
    prev alloca fault,
    prev alloca fault ]

/-- The two ways through `if.then` (lines 251-322): the `while (true)` body
first; if it clears `flag`, the second sequence starts again from the branch. -/
def walkIfThen (F : Function) (BI : InstPtr) : Walk :=
  match runChecks F checksIfThenLoop BI with
  | .reject => runChecks F checksIfThenOther BI
  | w => w

/-- Function `recognizingUnoptimizedCRCInstructions(I)`, with `F` the function
that contains `I`. -/
def recognizingUnoptimizedCRCInstructions (F : Function) (I : InstPtr) : Option Bool :=
  if F.name = "main" then some false
  else
    match runChecks F checksToIfThen I with
    | .at BI =>
      match walkIfThen F BI with
      | .at LI => (runChecks F checksFromForBody LI).toResult
      | w => w.toResult
    | w => w.toResult

end CrcRecognition

/-! ## The recognizers of `src/RecognizingCRC.cpp` -/

namespace RecognizingCRC

open Check Kind OnNull in
/-- The checks of `tryToRecognizeCRC32_v1` (lines 45-387) and, with
`addPat := m_Add(m_Load(m_Value), m_SpecificInt(1))`, of
`tryToRecognizeCRC32_v2` (lines 486-824); `addPat` is the pattern tested on
the increment of `for.inc`. -/
def checks (addPat : Pat) : List Check :=
  [ -- for.end
    isa ret reject,
    prev load reject,
    -- for.inc
    prevBlockBack fault br reject,
    prev store reject,
    prev instruction reject,
    test addPat,
    prev load reject,
    -- if.end25
    prevBlockBack fault br reject,
    -- if.else21
    prevBlockBack fault br reject,
    prev store reject,
    prev trunc reject,
    prev instruction fault,
    test (.binop .and .value (.specificInt 32767)),
    prev zext reject,
    prev load reject,
    -- if.then18
    prevBlockBack reject br reject,
    prev store reject,
    prev trunc reject,
    prev instruction fault,
    test (.binop .or .value .value),
    prev zext reject,
    prev load reject,
    -- if.end
    prevBlockBack reject br reject,
    prev icmp reject,
    prev load reject,
    prev store reject,
    prev trunc reject,
    prev instruction fault,
    test (.binop .ashr .value (.specificInt 1)),
    prev zext reject,
    prev load reject,
    -- if.else
    prevBlockBack reject br reject,
    prev store reject,
    -- if.then
    prevBlockBack reject br reject,
    prev store reject,
    prev store reject,
    prev trunc reject,
    prev instruction fault,
    test (.binop .xor .value (.specificInt 16386)),
    prev zext reject,
    prev load reject,
    -- for.body
    prevBlockBack reject br reject,
    prev icmp reject,
    prev zext reject,
    prev load reject,
    prev store reject,
    prev trunc reject,
    prev instruction fault,
    test (.binop .ashr .value (.specificInt 1)),
    prev zext reject,
    prev load reject,
    prev store reject,
    prev trunc reject,
    prev instruction fault,
    test (.binop .xor .value .value),
    prev instruction fault,
    test (.binop .and .value (.specificInt 1)),
    prev zext reject,
    prev trunc reject,
    prev load reject,
    prev instruction fault,
    test (.binop .and .value (.specificInt 1)),
    prev zext reject,
    prev load reject,
    -- for.cond
    prevBlockBack reject br reject,
    prev icmp reject,
    prev zext reject,
    prev load reject,
    -- first block: six stores, five allocas
    prevBlockBack reject br reject,
    prev store reject,
    prev store reject,
    prev store reject,
    prev store reject,
    prev store reject,
    prev store reject,
    prev alloca reject,
    prev alloca reject,
    prev alloca reject,
    prev alloca reject,
    prev alloca reject ]

/-- The matching part of `tryToRecognizeCRC32_v1` (lines 45-387). -/
def matches_v1 (F : Function) (I : InstPtr) : Option Bool :=
  (runChecks F (checks (.binop .add .value .value)) I).toResult

/-- The matching part of `tryToRecognizeCRC32_v2` (lines 486-824). -/
def matches_v2 (F : Function) (I : InstPtr) : Option Bool :=
  (runChecks F (checks (.binop .add (.load .value) (.specificInt 1))) I).toResult

end RecognizingCRC

/-! ## The documented IR of the unoptimized `crcu8` -/

/-- An unnamed instruction. -/
def ins (id : Nat) (op : Op) : Instr := { id := id, name := "", op := op }

/-- The block `if.then` (`%29`); `xorConst` is the constant of its `xor`
(16386 in the listing), `carryFirst` puts `store i8 1, %7` first, as the
statement order of `tests/test_2.c` does. -/
def ifThenBlock (xorConst : Nat) (carryFirst : Bool) : BasicBlock :=
  let body : List Instr :=
    [ ins 30 (.load 16 (.inst 4)),
      ins 31 (.cast .zext 16 32 (.inst 30)),
      ins 32 (.binop .xor 32 (.inst 31) (.const 32 xorConst)),
      ins 33 (.cast .trunc 32 16 (.inst 32)),
      ins 118 (.store 16 (.inst 33) (.inst 4)) ]
  let carry : Instr := ins 119 (.store 8 (.const 8 1) (.inst 7))
  { id := 29, name := "if.then",
    insts := (if carryFirst then carry :: body else body ++ [carry]) ++ [ins 120 (.br 35)] }

/-- The IR of `crcu8` listed in `AggressiveInstCombine.cpp` (lines 562-655),
with the `if.then` block as a parameter. Instructions keep the numbers of the
listing; instructions without a result are numbered from 101. -/
def crcu8_ir (xorConst : Nat) (carryFirst : Bool) : Function :=
  { name := "crcu8", args := [8, 16],
    blocks :=
    [ { id := 2, name := "entry", insts :=
        [ ins 3 (.alloca 8), ins 4 (.alloca 16), ins 5 (.alloca 8), ins 6 (.alloca 8),
          ins 7 (.alloca 8),
          ins 101 (.store 8 (.arg 0) (.inst 3)),
          ins 102 (.store 16 (.arg 1) (.inst 4)),
          ins 103 (.store 8 (.const 8 0) (.inst 5)),
          ins 104 (.store 8 (.const 8 0) (.inst 6)),
          ins 105 (.store 8 (.const 8 0) (.inst 7)),
          ins 106 (.store 8 (.const 8 0) (.inst 5)),
          ins 107 (.br 8) ] },
      { id := 8, name := "for.cond", insts :=
        [ ins 9 (.load 8 (.inst 5)),
          ins 10 (.cast .zext 8 32 (.inst 9)),
          ins 11 (.icmp .slt 32 (.inst 10) (.const 32 8)),
          ins 108 (.condBr (.inst 11) 12 56) ] },
      { id := 12, name := "for.body", insts :=
        [ ins 13 (.load 8 (.inst 3)),
          ins 14 (.cast .zext 8 32 (.inst 13)),
          ins 15 (.binop .and 32 (.inst 14) (.const 32 1)),
          ins 16 (.load 16 (.inst 4)),
          ins 17 (.cast .trunc 16 8 (.inst 16)),
          ins 18 (.cast .zext 8 32 (.inst 17)),
          ins 19 (.binop .and 32 (.inst 18) (.const 32 1)),
          ins 20 (.binop .xor 32 (.inst 15) (.inst 19)),
          ins 21 (.cast .trunc 32 8 (.inst 20)),
          ins 109 (.store 8 (.inst 21) (.inst 6)),
          ins 22 (.load 8 (.inst 3)),
          ins 23 (.cast .zext 8 32 (.inst 22)),
          ins 24 (.binop .ashr 32 (.inst 23) (.const 32 1)),
          ins 25 (.cast .trunc 32 8 (.inst 24)),
          ins 110 (.store 8 (.inst 25) (.inst 3)),
          ins 26 (.load 8 (.inst 6)),
          ins 27 (.cast .zext 8 32 (.inst 26)),
          ins 28 (.icmp .eq 32 (.inst 27) (.const 32 1)),
          ins 111 (.condBr (.inst 28) 29 34) ] },
      ifThenBlock xorConst carryFirst,
      { id := 34, name := "if.else", insts :=
        [ ins 112 (.store 8 (.const 8 0) (.inst 7)),
          ins 113 (.br 35) ] },
      { id := 35, name := "if.end", insts :=
        [ ins 36 (.load 16 (.inst 4)),
          ins 37 (.cast .zext 16 32 (.inst 36)),
          ins 38 (.binop .ashr 32 (.inst 37) (.const 32 1)),
          ins 39 (.cast .trunc 32 16 (.inst 38)),
          ins 114 (.store 16 (.inst 39) (.inst 4)),
          ins 40 (.load 8 (.inst 7)),
          ins 41 (.icmp .ne 8 (.inst 40) (.const 8 0)),
          ins 115 (.condBr (.inst 41) 42 47) ] },
      { id := 42, name := "if.then18", insts :=
        [ ins 43 (.load 16 (.inst 4)),
          ins 44 (.cast .zext 16 32 (.inst 43)),
          ins 45 (.binop .or 32 (.inst 44) (.const 32 32768)),
          ins 46 (.cast .trunc 32 16 (.inst 45)),
          ins 116 (.store 16 (.inst 46) (.inst 4)),
          ins 117 (.br 52) ] },
      { id := 47, name := "if.else21", insts :=
        [ ins 48 (.load 16 (.inst 4)),
          ins 49 (.cast .zext 16 32 (.inst 48)),
          ins 50 (.binop .and 32 (.inst 49) (.const 32 32767)),
          ins 51 (.cast .trunc 32 16 (.inst 50)),
          ins 121 (.store 16 (.inst 51) (.inst 4)),
          ins 122 (.br 52) ] },
      { id := 52, name := "if.end25", insts := [ ins 123 (.br 53) ] },
      { id := 53, name := "for.inc", insts :=
        [ ins 54 (.load 8 (.inst 5)),
          ins 55 (.binop .add 8 (.inst 54) (.const 8 1)),
          ins 124 (.store 8 (.inst 55) (.inst 5)),
          ins 125 (.br 8) ] },
      { id := 56, name := "for.end", insts :=
        [ ins 57 (.load 16 (.inst 4)),
          ins 126 (.ret 16 (.inst 57)) ] } ] }

/-! ## Graph surgery

The primitives of the IR library that the rewrites call. Instructions made
by a rewrite receive identities above every identity of the function. -/

/-- Replace the element at position `n`. -/
def modifyAt {α : Type} (f : α → α) : Nat → List α → List α
  | _, [] => []
  | 0, x :: xs => f x :: xs
  | n + 1, x :: xs => x :: modifyAt f n xs

/-- Remove the element at position `n`. -/
def removeAt {α : Type} : Nat → List α → List α
  | _, [] => []
  | 0, _ :: xs => xs
  | n + 1, x :: xs => x :: removeAt n xs

/-- An identity above all identities in use (arguments, blocks, instructions). -/
def Function.freshId (F : Function) : Nat :=
  (F.blocks.flatMap (fun B => B.id :: B.insts.map (·.id))).foldl max F.args.length + 1

def Op.mapValues (f : Value → Value) : Op → Op
  | .alloca ty => .alloca ty
  | .load ty ptr => .load ty (f ptr)
  | .store ty val ptr => .store ty (f val) (f ptr)
  | .binop o ty a b => .binop o ty (f a) (f b)
  | .cast o t1 t2 v => .cast o t1 t2 (f v)
  | .icmp p ty a b => .icmp p ty (f a) (f b)
  | .select ty c t e => .select ty (f c) (f t) (f e)
  | .br d => .br d
  | .condBr c t e => .condBr (f c) t e
  | .ret ty v => .ret ty (f v)
  | .call callee args => .call callee (args.map f)

def Instr.mapValues (f : Value → Value) (i : Instr) : Instr :=
  { i with op := i.op.mapValues f }

def BasicBlock.mapValues (f : Value → Value) (B : BasicBlock) : BasicBlock :=
  { B with insts := B.insts.map (Instr.mapValues f) }

def Function.mapValues (f : Value → Value) (F : Function) : Function :=
  { F with blocks := F.blocks.map (BasicBlock.mapValues f) }

/-- `Old->replaceAllUsesWith(New)`: every operand that is the instruction
`old` becomes `new`. -/
def Function.replaceAllUsesWith (F : Function) (old : Nat) (new : Value) : Function :=
  F.mapValues fun v => if v = .inst old then new else v

/-- An `IRBuilder` positioned before the instruction at `p`: the created
instructions land before it, in creation order. -/
def Function.insertBefore (F : Function) (p : InstPtr) (new : List Instr) : Function :=
  let f : BasicBlock → BasicBlock := fun B =>
    { B with insts := B.insts.take p.idx ++ new ++ B.insts.drop p.idx }
  { F with blocks := modifyAt f p.bb F.blocks }

/-- An `IRBuilder` positioned at the end of block `b`. -/
def Function.appendTo (F : Function) (b : Nat) (new : List Instr) : Function :=
  { F with blocks := modifyAt (fun B => { B with insts := B.insts ++ new }) b F.blocks }

/-- `I->eraseFromParent()` (and `removeFromParent()`) for the instruction at `p`. -/
def Function.eraseAt (F : Function) (p : InstPtr) : Function :=
  { F with blocks := modifyAt (fun B => { B with insts := removeAt p.idx B.insts }) p.bb F.blocks }

/-- `BB->setName(name)`. -/
def Function.setBlockName (F : Function) (b : Nat) (name : String) : Function :=
  { F with blocks := modifyAt (fun B => { B with name := name }) b F.blocks }

/-- `BasicBlock::Create(ctx, name, F, nullptr)`: a new empty block at the end. -/
def Function.createBlockAtEnd (F : Function) (id : Nat) (name : String) : Function :=
  { F with blocks := F.blocks ++ [{ id := id, name := name, insts := [] }] }

/-- `BasicBlock::Create(ctx, name, F, Before)` with `Before` the block at
position `b`: a new empty block right before it. -/
def Function.createBlockBefore (F : Function) (b : Nat) (id : Nat) (name : String) : Function :=
  { F with blocks := F.blocks.take b ++ [{ id := id, name := name, insts := [] }] ++ F.blocks.drop b }

/-- The replacement made for the instructions of deleted blocks: a use of one
of them becomes poison. -/
def poisonDead (deadIds : List Nat) : Value → Value
  | .inst id => if id ∈ deadIds then .poison else .inst id
  | v => v

/-- `DeleteDeadBlocks(BBs)` of `BasicBlockUtils` for the blocks at positions
`lo, ..., lo + n - 1`: every use of a value defined in one of them is
replaced by poison and the blocks are erased from the function. The library
leaves it to the caller that no other block branches to them. -/
def Function.deleteDeadBlocks (F : Function) (lo n : Nat) : Function :=
  let dead := (F.blocks.drop lo).take n
  let deadIds := dead.flatMap fun B => B.insts.map (·.id)
  let F1 := F.mapValues (poisonDead deadIds)
  { F1 with blocks := F1.blocks.take lo ++ F1.blocks.drop (lo + n) }

/-- `F->back().back().getPrevNode()->eraseFromParent()`. -/
def Function.eraseBeforeLast (F : Function) : Option Function :=
  match F.backBack with
  | none => none
  | some p => if p.idx = 0 then none else some (F.eraseAt { bb := p.bb, idx := p.idx - 1 })

/-- The blocks `bb_help1 .. bb_help10`: ten `getPrevNode()` hops from the
block at position `b`. Returns the position of `bb_help10`; a hop from the
first block yields null and the next hop dereferences it. -/
def tenPrevBlocks (b : Nat) : Option Nat :=
  if 10 ≤ b then some (b - 10) else none

/-! ## The rewrites -/

/-- A named instruction. -/
def insn (id : Nat) (name : String) (op : Op) : Instr := { id := id, name := name, op := op }

/-- Name of the CRC intrinsic `Intrinsic::riscv_crc_petar`. -/
def crcIntrinsic : String := "llvm.riscv.crc.petar"

/-- The instructions `AI1 .. SI8` that the loop rewrites create in front of
the final load: six slots, their initialisation, `crc = zext(_crc)`,
`crc ^= zext(data)`, `i = 0`. Identities are `n + 4 .. n + 23`; `AIk` is
`n + 3 + k`. -/
def entryInsts (n ArgType1 ArgType2 : Nat) : List Instr :=
  [ insn (n + 4) "data.addr" (.alloca ArgType1),
    insn (n + 5) "_crc.addr" (.alloca ArgType2),
    insn (n + 6) "i" (.alloca ArgType1),
    insn (n + 7) "x16" (.alloca ArgType1),
    insn (n + 8) "carry" (.alloca ArgType1),
    insn (n + 9) "crc" (.alloca 64),
    insn (n + 10) "" (.store ArgType1 (.arg 0) (.inst (n + 4))),
    insn (n + 11) "" (.store ArgType2 (.arg 1) (.inst (n + 5))),
    insn (n + 12) "" (.store 8 (.const 8 0) (.inst (n + 6))),
    insn (n + 13) "" (.store 8 (.const 8 0) (.inst (n + 7))),
    insn (n + 14) "" (.store 8 (.const 8 0) (.inst (n + 8))),
    insn (n + 15) "" (.load ArgType2 (.inst (n + 5))),
    insn (n + 16) "conv" (.cast .zext ArgType2 64 (.inst (n + 15))),
    insn (n + 17) "" (.store 64 (.inst (n + 16)) (.inst (n + 9))),
    insn (n + 18) "" (.load 8 (.inst (n + 4))),
    insn (n + 19) "conv1" (.cast .zext 8 64 (.inst (n + 18))),
    insn (n + 20) "" (.load 64 (.inst (n + 9))),
    insn (n + 21) "xor" (.binop .xor 64 (.inst (n + 20)) (.inst (n + 19))),
    insn (n + 22) "" (.store 64 (.inst (n + 21)) (.inst (n + 9))),
    insn (n + 23) "" (.store 8 (.const 8 0) (.inst (n + 6))) ]

/-- The branch `BI1 = CreateBr(ForCondBB)` that closes the `entry` block. -/
def entryBranch (n : Nat) : Instr := insn (n + 24) "" (.br (n + 1))

/-- The instructions `LI4, ZI3, ICI1, BI2` of `for.cond`; `slot` is the
pointer operand given to `CreateLoad(getInt8Ty(), slot)`. -/
def forCondInsts (n : Nat) (slot : Value) : List Instr :=
  [ insn (n + 25) "" (.load 8 slot),
    insn (n + 26) "conv2" (.cast .zext 8 32 (.inst (n + 25))),
    insn (n + 27) "cmp" (.icmp .slt 32 (.inst (n + 26)) (.const 32 8)),
    insn (n + 28) "" (.condBr (.inst (n + 27)) (n + 2) n) ]

/-- The instructions `LI5 .. BI3` of `for.body`. -/
def forBodyInsts (n : Nat) : List Instr :=
  [ insn (n + 29) "" (.load 64 (.inst (n + 9))),
    insn (n + 30) "conv4" (.cast .trunc 64 8 (.inst (n + 29))),
    insn (n + 31) "conv5" (.cast .zext 8 32 (.inst (n + 30))),
    insn (n + 32) "and" (.binop .and 32 (.inst (n + 31)) (.const 32 1)),
    insn (n + 33) "conv6" (.cast .trunc 32 8 (.inst (n + 32))),
    insn (n + 34) "" (.store 8 (.inst (n + 33)) (.inst (n + 7))),
    insn (n + 35) "" (.load 8 (.inst (n + 4))),
    insn (n + 36) "conv7" (.cast .zext 8 32 (.inst (n + 35))),
    insn (n + 37) "shr" (.binop .ashr 32 (.inst (n + 36)) (.const 32 1)),
    insn (n + 38) "conv8" (.cast .trunc 32 8 (.inst (n + 37))),
    insn (n + 39) "" (.store 8 (.inst (n + 38)) (.inst (n + 4))),
    insn (n + 40) "" (.load 64 (.inst (n + 9))),
    insn (n + 41) "shr9" (.binop .ashr 64 (.inst (n + 40)) (.const 64 1)),
    insn (n + 42) "" (.store 64 (.inst (n + 41)) (.inst (n + 9))),
    insn (n + 43) "" (.load 8 (.inst (n + 7))),
    insn (n + 44) "conv10" (.cast .zext 8 32 (.inst (n + 43))),
    insn (n + 45) "and11" (.binop .and 32 (.inst (n + 44)) (.const 32 1)),
    insn (n + 46) "tobool" (.icmp .ne 32 (.inst (n + 45)) (.const 32 0)),
    insn (n + 47) "" (.cast .zext 1 64 (.inst (n + 46))),
    insn (n + 48) "" (.select 32 (.inst (n + 46)) (.const 32 40961) (.const 32 0)),
    insn (n + 49) "conv12" (.cast .sext 32 64 (.inst (n + 48))),
    insn (n + 50) "" (.load 64 (.inst (n + 9))),
    insn (n + 51) "xor13" (.binop .xor 64 (.inst (n + 50)) (.inst (n + 49))),
    insn (n + 52) "" (.store 64 (.inst (n + 51)) (.inst (n + 9))),
    insn (n + 53) "" (.br (n + 3)) ]

/-- The instructions `LI10, Add1, SI20, BI4` of `for.inc`. -/
def forIncInsts (n : Nat) : List Instr :=
  [ insn (n + 54) "" (.load 8 (.inst (n + 6))),
    insn (n + 55) "inc" (.binop .add 8 (.inst (n + 54)) (.const 8 1)),
    insn (n + 56) "" (.store 8 (.inst (n + 55)) (.inst (n + 6))),
    insn (n + 57) "" (.br (n + 1)) ]

/-- The instructions `LI11, TI20` put in front of the final load in `for.end`. -/
def forEndInsts (n : Nat) : List Instr :=
  [ insn (n + 58) "" (.load 64 (.inst (n + 9))),
    insn (n + 59) "conv14" (.cast .trunc 64 16 (.inst (n + 58))) ]

/-- The intrinsic rewrite, lines 521-599 of the crc-recognition pass
(`tryToRecognizeCRC32_v2`), lines 391-469 of `src/RecognizingCRC.cpp` and
lines 1003-1028 of `AggressiveInstCombine.cpp` (`tryToRecognizeCRC32_v1`),
run once the checks have passed on the `ret` at `I`: a call of the CRC
intrinsic on the two arguments is created before the final load, the uses
of the load are redirected to it, the ten blocks before the block of `I` are
deleted, and the instruction before the last one of the function is erased. -/
def rewriteToIntrinsic (F : Function) (I : InstPtr) : Option Function :=
  if I.idx = 0 then none
  else
    -- LIfinal = RIfinal->getPrevNode()
    let LIfinal : InstPtr := { bb := I.bb, idx := I.idx - 1 }
    match F.inst? LIfinal, F.args[0]?, F.args[1]?, tenPrevBlocks I.bb with
    | some li, some _, some _, some lo =>
      let n := F.freshId
      -- CRC8 = B.CreateIntrinsic(Intrinsic::riscv_crc_petar, {}, {argument1, argument2})
      let F1 := F.insertBefore LIfinal [insn n "" (.call crcIntrinsic [.arg 0, .arg 1])]
      -- LIfinal->replaceAllUsesWith(CRC8)
      let F2 := F1.replaceAllUsesWith li.id (.inst n)
      -- DeleteDeadBlocks({bb_help1, ..., bb_help10})
      let F3 := F2.deleteDeadBlocks lo 10
      -- F->back().back().getPrevNode()->eraseFromParent()
      F3.eraseBeforeLast
    | _, _, _, _ => none

namespace CrcRecognition

/-- Function `tryToRecognizeCRC32_v2(I)` of the crc-recognition pass: the
returned flag and the function as it is left. -/
def tryToRecognizeCRC32_v2 (F : Function) (I : InstPtr) : Option (Bool × Function) :=
  match recognizingUnoptimizedCRCInstructions F I with
  | none => none
  | some false => some (false, F)
  | some true => (rewriteToIntrinsic F I).map fun F' => (true, F')

/-- Lines 612-787 of `tryToRecognizeCRC32_v1` of the crc-recognition pass,
run once the checks have passed on the `ret` at `I`. New blocks get the
identities `n` (`for.end`), `n + 1` (`for.cond`), `n + 2` (`for.body`),
`n + 3` (`for.inc`). -/
def synthesizeLoop (F : Function) (I : InstPtr) : Option Function :=
  match F.args[0]?, F.args[1]?, tenPrevBlocks I.bb with
  | some ArgType1, some ArgType2, some lo =>
    if I.idx = 0 then none
    else
      -- DeleteDeadBlocks({bb_help1, ..., bb_help10})
      let F1 := F.deleteDeadBlocks lo 10
      let LIfinal : InstPtr := { bb := lo, idx := I.idx - 1 }
      let n := F1.freshId
      let F2 := F1.setBlockName lo "entry"
      -- ForEndBB at the end, then ForCondBB, ForBodyBB, ForIncBB each before ForEndBB
      let F3 := F2.createBlockAtEnd n "for.end"
      let F4 := F3.createBlockBefore (F3.blocks.length - 1) (n + 1) "for.cond"
      let F5 := F4.createBlockBefore (F4.blocks.length - 1) (n + 2) "for.body"
      let F6 := F5.createBlockBefore (F5.blocks.length - 1) (n + 3) "for.inc"
      let len := F6.blocks.length
      -- Builder(LIfinal): AI1 .. SI8, BI1
      let F7 := F6.insertBefore LIfinal (entryInsts n ArgType1 ArgType2 ++ [entryBranch n])
      let LIfinal7 : InstPtr := { bb := lo, idx := LIfinal.idx + 21 }
      -- I1 = LIfinal, I2 = LIfinal->getNextNode(): moved to the end of ForEndBB
      match F7.inst? LIfinal7, F7.inst? { bb := lo, idx := LIfinal7.idx + 1 } with
      | some I1, some I2 =>
        let F8 := (F7.eraseAt LIfinal7).eraseAt LIfinal7
        let F9 := F8.appendTo (len - 1) [I1, I2]
        -- LI4 = ForCondBuilder.CreateLoad(getInt8Ty(), AI3)
        let F10 := F9.appendTo (len - 4) (forCondInsts n (.inst (n + 6)))
        let F11 := F10.appendTo (len - 3) (forBodyInsts n)
        let F12 := F11.appendTo (len - 2) (forIncInsts n)
        -- ForEndBuilder(LIfinal); LIfinal->replaceAllUsesWith(TI20)
        let F13 := F12.insertBefore { bb := len - 1, idx := 0 } (forEndInsts n)
        let F14 := F13.replaceAllUsesWith I1.id (.inst (n + 59))
        -- F->back().back().getPrevNode()->eraseFromParent()
        F14.eraseBeforeLast
      | _, _ => none
  | _, _, _ => none

/-- Function `tryToRecognizeCRC32_v1(I)` of the crc-recognition pass. -/
def tryToRecognizeCRC32_v1 (F : Function) (I : InstPtr) : Option (Bool × Function) :=
  match recognizingUnoptimizedCRCInstructions F I with
  | none => none
  | some false => some (false, F)
  | some true => (synthesizeLoop F I).map fun F' => (true, F')

end CrcRecognition

namespace RecognizingCRC

/-- Function `tryToRecognizeCRC32_v1(I)` of `src/RecognizingCRC.cpp`. -/
def tryToRecognizeCRC32_v1 (F : Function) (I : InstPtr) : Option (Bool × Function) :=
  match matches_v1 F I with
  | none => none
  | some false => some (false, F)
  | some true => (rewriteToIntrinsic F I).map fun F' => (true, F')

/-- Lines 828-1010 of `tryToRecognizeCRC32_v2` of `src/RecognizingCRC.cpp`
(the same text as lines 1337-1448 of `AggressiveInstCombine.cpp`), run once
the checks have passed on the `ret` at `I`. Identities as in the
crc-recognition pass. -/
def synthesizeLoop (F : Function) (I : InstPtr) : Option Function :=
  match F.args[0]?, F.args[1]?, tenPrevBlocks I.bb with
  | some ArgType1, some ArgType2, some lo =>
    if I.idx = 0 then none
    else
      -- DeleteDeadBlocks({bb_help1, ..., bb_help10})
      let F1 := F.deleteDeadBlocks lo 10
      let LIfinal : InstPtr := { bb := lo, idx := I.idx - 1 }
      let n := F1.freshId
      let F2 := F1.setBlockName lo "entry"
      -- Builder(LIfinal): AI1 .. SI8
      let F3 := F2.insertBefore LIfinal (entryInsts n ArgType1 ArgType2)
      let LIfinal3 : InstPtr := { bb := lo, idx := LIfinal.idx + 20 }
      -- ForEndBB at the end; I1 = LIfinal, I2 = LIfinal->getNextNode() moved into it
      let F4 := F3.createBlockAtEnd n "for.end"
      match F4.inst? LIfinal3, F4.inst? { bb := lo, idx := LIfinal3.idx + 1 } with
      | some I1, some I2 =>
        let F5 := (F4.eraseAt LIfinal3).eraseAt LIfinal3
        let F6 := F5.appendTo (F5.blocks.length - 1) [I1, I2]
        -- ForCondBB, ForBodyBB, ForIncBB each before ForEndBB
        let F7 := F6.createBlockBefore (F6.blocks.length - 1) (n + 1) "for.cond"
        let F8 := F7.createBlockBefore (F7.blocks.length - 1) (n + 2) "for.body"
        let F9 := F8.createBlockBefore (F8.blocks.length - 1) (n + 3) "for.inc"
        let len := F9.blocks.length
        -- Builder1(SI8->getParent(), SI8->getParent()->end()): BI1
        let F10 := F9.appendTo lo [entryBranch n]
        -- LI4 = ForCondBuilder.CreateLoad(ForCondBuilder.getInt8Ty(), AI6)
        let F11 := F10.appendTo (len - 4) (forCondInsts n (.inst (n + 9)))
        let F12 := F11.appendTo (len - 3) (forBodyInsts n)
        let F13 := F12.appendTo (len - 2) (forIncInsts n)
        -- ForEndBuilder(LIfinal); LIfinal->replaceAllUsesWith(TI20)
        let F14 := F13.insertBefore { bb := len - 1, idx := 0 } (forEndInsts n)
        let F15 := F14.replaceAllUsesWith I1.id (.inst (n + 59))
        -- F->back().back().getPrevNode()->eraseFromParent()
        F15.eraseBeforeLast
      | _, _ => none
  | _, _, _ => none

/-- Function `tryToRecognizeCRC32_v2(I)` of `src/RecognizingCRC.cpp`. -/
def tryToRecognizeCRC32_v2 (F : Function) (I : InstPtr) : Option (Bool × Function) :=
  match matches_v2 F I with
  | none => none
  | some false => some (false, F)
  | some true => (synthesizeLoop F I).map fun F' => (true, F')

end RecognizingCRC

/-! ## Executing a function

A stack slot made by `alloca` holds an integer of the allocated width, or
nothing before its first store. Memory is little-endian (the target of the
intrinsic is RISC-V): a load narrower than the slot reads its low-order
bits. Calls are not interpreted. -/

structure Slot where
  bits : Nat
  val : Option Nat
  deriving DecidableEq, Repr

/-- Values of the instructions executed so far (latest first) and the stack
slots; a pointer is the position of its slot. -/
structure Env where
  regs : List (Nat × Nat)
  mem : List Slot
  deriving DecidableEq, Repr

/-- Value bound to the instruction `id`. -/
def lookupReg (id : Nat) : List (Nat × Nat) → Option Nat
  | [] => none
  | (k, v) :: rest => if k = id then some v else lookupReg id rest

def Env.setReg (e : Env) (id v : Nat) : Env := { e with regs := (id, v) :: e.regs }

/-- Replace the content of slot `p`. -/
def setSlot (p : Nat) (s : Slot) : List Slot → List Slot
  | [] => []
  | x :: xs =>
    match p with
    | 0 => s :: xs
    | q + 1 => x :: setSlot q s xs

def evalValue (args : List Nat) (e : Env) : Value → Option Nat
  | .arg n => args[n]?
  | .const _ v => some v
  | .inst id => lookupReg id e.regs
  | .poison => none

def evalBinOp : BinOp → Nat → Nat → Nat → Nat
  | .add, w, a, b => truncTo w (a + b)
  | .and, _, a, b => a &&& b
  | .or, _, a, b => a ||| b
  | .xor, _, a, b => a ^^^ b
  | .ashr, w, a, b => ashr w a b

def evalCast : CastOp → Nat → Nat → Nat → Nat
  | .zext, _, _, v => v
  | .sext, w, w2, v => sextTo w w2 v
  | .trunc, _, w2, v => truncTo w2 v

def evalPred : Pred → Nat → Nat → Nat → Bool
  | .eq, _, a, b => decide (a = b)
  | .ne, _, a, b => decide (a ≠ b)
  | .slt, w, a, b => decide (toSigned w a < toSigned w b)

/-- Effect of one instruction. -/
inductive Next
  | fall (e : Env)
  | jump (e : Env) (dest : Nat)
  | done (v : Nat)
  deriving DecidableEq, Repr

def execInst (args : List Nat) (e : Env) (i : Instr) : Option Next :=
  match i.op with
  | .alloca ty =>
    some (.fall { regs := (i.id, e.mem.length) :: e.regs, mem := e.mem ++ [{ bits := ty, val := none }] })
  | .load ty ptr =>
    match evalValue args e ptr with
    | none => none
    | some p =>
      match e.mem[p]? with
      | some { bits := w, val := some v } =>
        if ty ≤ w then some (.fall (e.setReg i.id (truncTo ty v))) else none
      | _ => none
  | .store ty val ptr =>
    match evalValue args e val, evalValue args e ptr with
    | some v, some p =>
      match e.mem[p]? with
      | some { bits := w, val := old } =>
        if ty = w then
          some (.fall { e with mem := setSlot p { bits := w, val := some v } e.mem })
        else if ty < w then
          match old with
          | some o =>
            let merged : Slot := { bits := w, val := some (o / 2 ^ ty * 2 ^ ty + v) }
            some (.fall { e with mem := setSlot p merged e.mem })
          | none => none
        else none
      | none => none
    | _, _ => none
  | .binop o ty a b =>
    match evalValue args e a, evalValue args e b with
    | some x, some y => some (.fall (e.setReg i.id (evalBinOp o ty x y)))
    | _, _ => none
  | .cast o t1 t2 v =>
    match evalValue args e v with
    | some x => some (.fall (e.setReg i.id (evalCast o t1 t2 x)))
    | none => none
  | .icmp p ty a b =>
    match evalValue args e a, evalValue args e b with
    | some x, some y => some (.fall (e.setReg i.id (if evalPred p ty x y then 1 else 0)))
    | _, _ => none
  | .select _ c t f =>
    match evalValue args e c, evalValue args e t, evalValue args e f with
    | some x, some y, some z => some (.fall (e.setReg i.id (if x ≠ 0 then y else z)))
    | _, _, _ => none
  | .br d => some (.jump e d)
  | .condBr c t f =>
    match evalValue args e c with
    | some x => some (.jump e (if x ≠ 0 then t else f))
    | none => none
  | .ret _ v =>
    match evalValue args e v with
    | some x => some (.done x)
    | none => none
  | .call _ _ => none

/-- Execute the instructions of a block in order, up to its terminator. -/
def execInsts (args : List Nat) : List Instr → Env → Option Next
  | [], _ => none
  | i :: rest, e =>
    match execInst args e i with
    | some (.fall e') => execInsts args rest e'
    | r => r

/-- The block with identity `id`. -/
def Function.blockById (F : Function) (id : Nat) : Option BasicBlock :=
  F.blocks.find? (fun B => B.id == id)

/-- Run from the start of block `id`; the fuel bounds the number of blocks
entered. -/
def Function.runFrom (F : Function) (args : List Nat) : Nat → Nat → Env → Option Nat
  | 0, _, _ => none
  | fuel + 1, id, e =>
    match F.blockById id with
    | none => none
    | some B =>
      match execInsts args B.insts e with
      | some (.jump e' d) => F.runFrom args fuel d e'
      | some (.done v) => some v
      | _ => none

/-- Call the function on `args`: `some v` when it returns `v` within the
fuel, `none` when it faults or the fuel runs out. -/
def Function.exec (F : Function) (args : List Nat) (fuel : Nat) : Option Nat :=
  match F.blocks with
  | [] => none
  | B :: _ => F.runFrom args fuel B.id { regs := [], mem := [] }

/-! ## The rewritten functions, in closed form -/

/-- The function the loop synthesis produces from the documented `crcu8`;
`condSlot` is the slot that `for.cond` loads from. -/
def crcu8_loop_ir (condSlot : Value) : Function :=
  { name := "crcu8", args := [8, 16],
    blocks :=
    [ { id := 56, name := "entry", insts := entryInsts 127 8 16 ++ [entryBranch 127] },
      { id := 128, name := "for.cond", insts := forCondInsts 127 condSlot },
      { id := 129, name := "for.body", insts := forBodyInsts 127 },
      { id := 130, name := "for.inc", insts := forIncInsts 127 },
      { id := 127, name := "for.end",
        insts := forEndInsts 127 ++ [ins 126 (.ret 16 (.inst 186))] } ] }

/-- State of the synthesized loop at a block boundary: the slot pointers are
bound, `data.addr` holds `d`, `i` holds `i`, `crc` holds `c`. -/
def LoopInv (e : Env) (d c i : Nat) : Prop :=
  lookupReg 131 e.regs = some 0 ∧ lookupReg 133 e.regs = some 2 ∧
  lookupReg 134 e.regs = some 3 ∧ lookupReg 136 e.regs = some 5 ∧
  ∃ c0 x y, e.mem = [⟨8, some d⟩, ⟨16, c0⟩, ⟨8, some i⟩, ⟨8, some x⟩, ⟨8, y⟩, ⟨64, some c⟩]

/-- The block result `r` is a jump to `dst` in a state satisfying `P`. -/
def JumpsTo (r : Option Next) (dst : Nat) (P : Env → Prop) : Prop :=
  match r with
  | some (.jump e' d) => d = dst ∧ P e'
  | _ => False

/-- The function the intrinsic rewrite produces from the documented `crcu8`:
one block, the call of the CRC intrinsic on the two arguments and the return
of its result. -/
def crcu8_intrinsic_ir : Function :=
  { name := "crcu8", args := [8, 16],
    blocks :=
    [ { id := 56, name := "for.end", insts :=
        [ insn 127 "" (.call crcIntrinsic [.arg 0, .arg 1]),
          ins 126 (.ret 16 (.inst 127)) ] } ] }

/-! ## The pass entry points -/

/-- What a pass reports to the pass manager: `PreservedAnalyses::all()`
("no changes, all analyses are preserved") or a proper subset. -/
inductive PreservedAnalyses
  | all
  | cfgOnly
  deriving DecidableEq, Repr

namespace RecognizingCRC

/-- `RecognizingCRCPass::run(F, AM)` of `src/RecognizingCRC.cpp` under the
options `use-option-one` and `use-option-two`: the value returned and the
function as it is left. `F.back().back()` of a function without a last
instruction is a null dereference. -/
def run (UseOptionOne UseOptionTwo : Bool) (F : Function) :
    Option (PreservedAnalyses × Function) :=
  if UseOptionOne && !UseOptionTwo then
    match F.backBack with
    | none => none
    | some I => (tryToRecognizeCRC32_v1 F I).map fun r => (PreservedAnalyses.all, r.2)
  else if !UseOptionOne && UseOptionTwo then
    match F.backBack with
    | none => none
    | some I => (tryToRecognizeCRC32_v2 F I).map fun r => (PreservedAnalyses.all, r.2)
  else some (PreservedAnalyses.all, F)

end RecognizingCRC

/-! ## Well-formedness of a function -/

def Op.isTerminator : Op → Bool
  | .br _ => true
  | .condBr _ _ _ => true
  | .ret _ _ => true
  | _ => false

/-- The blocks a terminator may transfer control to. -/
def Op.targets : Op → List Nat
  | .br d => [d]
  | .condBr _ t f => [t, f]
  | _ => []

/-- The block ends in a terminator and holds no other terminator. -/
def BasicBlock.terminated (B : BasicBlock) : Bool :=
  match B.insts.reverse with
  | [] => false
  | t :: rest => t.op.isTerminator && rest.all fun i => !i.op.isTerminator

def Function.blocksTerminated (F : Function) : Bool := F.blocks.all (·.terminated)

/-- Branch targets that are not blocks of the function. -/
def Function.danglingTargets (F : Function) : List Nat :=
  ((F.blocks.flatMap (·.insts)).flatMap (·.op.targets)).filter fun t => (F.blockById t).isNone

/-! ## Further input functions -/

/-- The documented `crcu8` behind one more block: the function starts with a
block that only branches to the block of the allocas. -/
def crcu8_after_branch_ir : Function :=
  { crcu8_ir 16386 false with
    blocks := { id := 200, name := "start", insts := [ins 201 (.br 2)] }
      :: (crcu8_ir 16386 false).blocks }

/-- The function `sum` of `tests/test_2.c` as compiled without optimization:
`return a + b;`, the `ret` preceded by the `add`. -/
def sum_ir : Function :=
  { name := "sum", args := [32, 32],
    blocks :=
    [ { id := 2, name := "entry", insts :=
        [ ins 3 (.alloca 32), ins 4 (.alloca 32),
          ins 101 (.store 32 (.arg 0) (.inst 3)),
          ins 102 (.store 32 (.arg 1) (.inst 4)),
          ins 5 (.load 32 (.inst 3)),
          ins 6 (.load 32 (.inst 4)),
          ins 7 (.binop .add 32 (.inst 5) (.inst 6)),
          ins 103 (.ret 32 (.inst 7)) ] } ] }

/-- A function of one block that loads through its pointer argument and
returns the loaded value: `%2 = load i16, ptr %0 ; ret i16 %2`. -/
def load_ret_ir : Function :=
  { name := "get", args := [64],
    blocks :=
    [ { id := 1, name := "entry", insts :=
        [ ins 2 (.load 16 (.arg 0)), ins 101 (.ret 16 (.inst 2)) ] } ] }

/-- A function whose only instruction is `ret i32 0`. -/
def ret_only_ir : Function :=
  { name := "zero", args := [],
    blocks := [ { id := 0, name := "entry", insts := [ins 101 (.ret 32 (.const 32 0))] } ] }

/-- A function that never returns: `br label %loop ; loop: br label %loop`.
Its last instruction is a branch. -/
def spin_ir : Function :=
  { name := "spin", args := [],
    blocks :=
    [ { id := 0, name := "entry", insts := [ins 101 (.br 1)] },
      { id := 1, name := "loop", insts := [ins 102 (.br 1)] } ] }

/-! ## The last block of a function -/

/-- The function has `L` blocks followed by a last block whose instructions
are `X`. -/
def EndsIn (F : Function) (L : Nat) (X : List Instr) : Prop :=
  ∃ ys B, F.blocks = ys ++ [B] ∧ ys.length = L ∧ B.insts = X

/-! ## Executing a function, with the blocks entered -/

/-- Run from the start of block `id` as `Function.runFrom` does, recording
the identities of the blocks entered, in order. -/
def Function.traceFrom (F : Function) (args : List Nat) :
    Nat → Nat → Env → Option (Nat × List Nat)
  | 0, _, _ => none
  | fuel + 1, id, e =>
    match F.blockById id with
    | none => none
    | some B =>
      match execInsts args B.insts e with
      | some (.jump e' d) =>
        match F.traceFrom args fuel d e' with
        | some (v, tr) => some (v, id :: tr)
        | none => none
      | some (.done v) => some (v, [id])
      | _ => none

/-- Call the function on `args`: the value returned and the blocks entered,
`none` when it faults or the fuel runs out. -/
def Function.trace (F : Function) (args : List Nat) (fuel : Nat) : Option (Nat × List Nat) :=
  match F.blocks with
  | [] => none
  | B :: _ => F.traceFrom args fuel B.id { regs := [], mem := [] }

/-- The blocks entered by `k` rounds of the synthesized loop followed by the
exit: `for.cond, for.body, for.inc` (`128, 129, 130`) `k` times, then
`for.cond, for.end`. -/
def loopTrace : Nat → List Nat
  | 0 => [128, 127]
  | k + 1 => 128 :: 129 :: 130 :: loopTrace k

/-! ## Reachability, and the blocks handed to `DeleteDeadBlocks` -/

/-- Successors of a block: the targets of its last instruction. -/
def BasicBlock.successors (B : BasicBlock) : List Nat :=
  match B.insts.getLast? with
  | some t => t.op.targets
  | none => []

/-- Add the blocks `new` that are not yet in `seen`. -/
def addUnseen (seen new : List Nat) : List Nat :=
  new.foldl (fun acc b => if b ∈ acc then acc else acc ++ [b]) seen

/-- One round of the search: the successors of the blocks seen so far. -/
def Function.reachStep (F : Function) (seen : List Nat) : List Nat :=
  addUnseen seen (seen.flatMap fun b =>
    match F.blockById b with
    | some B => B.successors
    | none => [])

/-- Identities of the blocks reachable from the entry block, the first block
of the function: as many rounds as there are blocks. -/
def Function.reachable (F : Function) : List Nat :=
  match F.blocks with
  | [] => []
  | B :: _ => Nat.iterate F.reachStep F.blocks.length [B.id]

/-- Identities of the `n` blocks from position `lo` on. -/
def Function.blockIdsAt (F : Function) (lo n : Nat) : List Nat :=
  ((F.blocks.drop lo).take n).map (·.id)

/-- Identities of the blocks outside positions `lo .. lo + n - 1` that
branch to one of the blocks at these positions. -/
def Function.outsidePredecessors (F : Function) (lo n : Nat) : List Nat :=
  ((F.blocks.take lo ++ F.blocks.drop (lo + n)).filter fun B =>
    B.successors.any fun t => t ∈ F.blockIdsAt lo n).map (·.id)

/-- The intrinsic rewrite up to its call of `DeleteDeadBlocks`: the function
as it is at that moment (the call of the intrinsic created, the uses of the
final load redirected) and the position of `bb_help10`, the first of the ten
blocks passed. -/
def atDeleteDeadBlocks (F : Function) (I : InstPtr) : Option (Function × Nat) :=
  if I.idx = 0 then none
  else
    let LIfinal : InstPtr := { bb := I.bb, idx := I.idx - 1 }
    match F.inst? LIfinal, F.args[0]?, F.args[1]?, tenPrevBlocks I.bb with
    | some li, some _, some _, some lo =>
      let n := F.freshId
      let F1 := F.insertBefore LIfinal [insn n "" (.call crcIntrinsic [.arg 0, .arg 1])]
      let F2 := F1.replaceAllUsesWith li.id (.inst n)
      some (F2, lo)
    | _, _, _, _ => none

/-! ## `AggressiveInstCombine.cpp`: the table of a count-trailing-zeros lookup -/

namespace AggressiveInstCombine

/-- Function `isCTTZTable(Table, Mul, Shift, InputBits)`. `Table` lists the
elements of the constant array as `getElementAsInteger` returns them;
`Length` is an `unsigned`, `Mul << Element` a 64-bit shift, `Mask` the value
of `APInt::getBitsSetFrom(InputBits, Shift)`. -/
def isCTTZTable (Table : List Nat) (Mul Shift InputBits : Nat) : Bool :=
  let Length := Table.length % 2 ^ 32
  if Length < InputBits || Length > InputBits * 2 % 2 ^ 64 then false
  else
    let Mask := 2 ^ InputBits - 2 ^ Shift
    let Matched := (List.range Length).foldl (fun Matched i =>
      let Element := Table.getD i 0
      if Element ≥ InputBits then Matched
      else if ((Mul <<< Element) % 2 ^ 64 &&& Mask) >>> Shift = i then Matched + 1
      else Matched) 0
    Matched == InputBits

/-- The table of the example in the comment of `tryToRecognizeTableBasedCttz`:
`static const char table[32]`, used with `0x077CB531U` and `>> 27`. -/
def ctzTable32 : List Nat :=
  [0, 1, 28, 2, 29, 14, 24, 3, 30, 22, 20, 15, 25, 17, 4, 8, 31, 27,
   13, 23, 21, 19, 16, 7, 26, 12, 18, 6, 11, 5, 10, 9]

end AggressiveInstCombine

/-! ## `AggressiveInstCombine.cpp`: values and their patterns

The folds look at an instruction through its operands. A value is modelled
together with the operand tree above it; `id` stands for the identity of an
argument or an instruction (two values are the same `Value *` when the trees
are equal), `uses` for its number of uses. -/

namespace AggressiveInstCombine

inductive Opcode
  | add | sub | mul | and | or | shl | lshr
  deriving DecidableEq, Repr

inductive Predicate
  | eq | ne | ugt | ult | sgt | slt
  deriving DecidableEq, Repr

inductive IntrinsicID
  | ctpop | cttz | fshl | fshr
  deriving DecidableEq, Repr

/-- A value: an argument (or any instruction the folds do not look into), an
integer constant, a binary operator, a zero extension, or one of the
instructions that the folds create. -/
inductive Val
  | arg (id bits : Nat)
  | const (bits v : Nat)
  | bin (id uses : Nat) (op : Opcode) (lhs rhs : Val)
  | zext (id uses bits : Nat) (v : Val)
  | trunc (bits : Nat) (v : Val)
  | icmp (p : Predicate) (lhs rhs : Val)
  | select (c t f : Val)
  | freeze (v : Val)
  | call1 (iid : IntrinsicID) (a : Val)
  | call2 (iid : IntrinsicID) (a b : Val)
  | call3 (iid : IntrinsicID) (a b c : Val)
  deriving DecidableEq, Repr

/-- `V->getType()->getScalarSizeInBits()`. -/
def Val.bits : Val → Nat
  | .arg _ b => b
  | .const b _ => b
  | .bin _ _ _ a _ => a.bits
  | .zext _ _ b _ => b
  | .trunc b _ => b
  | .icmp _ _ _ => 1
  | .select _ t _ => t.bits
  | .freeze v => v.bits
  | .call1 _ a => a.bits
  | .call2 _ a _ => a.bits
  | .call3 _ a _ _ => a.bits

/-- `V->hasOneUse()`. -/
def Val.hasOneUse : Val → Bool
  | .bin _ u _ _ _ => u == 1
  | .zext _ u _ _ => u == 1
  | _ => false

/-- `match(V, m_BinOp(op, m_Value(A), m_Value(B)))`: the two operands. -/
def Val.asBin (op : Opcode) : Val → Option (Val × Val)
  | .bin _ _ o a b => if o = op then some (a, b) else none
  | _ => none

/-- `match(V, m_APInt(C))` and `match(V, m_ConstantInt(C))`: the value of an
integer constant. -/
def Val.asInt : Val → Option Nat
  | .const _ v => some v
  | _ => none

/-- `match(V, m_SpecificInt(c))`; `m_One()` is `isInt 1`, `m_ZeroInt()` is
`isInt 0`. -/
def Val.isInt (c : Nat) (V : Val) : Bool :=
  V.asInt == some c

/-! ### Values of expressions

All the arithmetic of an expression that one of the folds accepts is done in
one integer type, of width `w`. `env` gives the values of the arguments. An
expression without a value (`none`) is poison. -/

/-- Number of set bits among the low `w` bits (`llvm.ctpop`). -/
def ctpop : Nat → Nat → Nat
  | 0, _ => 0
  | w + 1, x => x % 2 + ctpop w (x / 2)

/-- Number of trailing zero bits of a `w`-bit value, `w` for zero
(`llvm.cttz`). -/
def cttz : Nat → Nat → Nat
  | 0, _ => 0
  | w + 1, x => if x % 2 = 1 then 0 else 1 + cttz w (x / 2)

/-- Funnel shift left: the high `w` bits of `a:b` shifted left by `s mod w`. -/
def fshl (w a b s : Nat) : Nat := ((a * 2 ^ w + b) <<< (s % w)) >>> w % 2 ^ w

/-- Funnel shift right: the low `w` bits of `a:b` shifted right by `s mod w`. -/
def fshr (w a b s : Nat) : Nat := ((a * 2 ^ w + b) >>> (s % w)) % 2 ^ w

def evalOp (w : Nat) : Opcode → Nat → Nat → Option Nat
  | .add, x, y => some ((x + y) % 2 ^ w)
  | .sub, x, y => some ((x + 2 ^ w - y % 2 ^ w) % 2 ^ w)
  | .mul, x, y => some (x * y % 2 ^ w)
  | .and, x, y => some (x &&& y)
  | .or, x, y => some (x ||| y)
  | .shl, x, y => if y < w then some ((x <<< y) % 2 ^ w) else none
  | .lshr, x, y => if y < w then some (x >>> y) else none

def evalPredicate (w : Nat) : Predicate → Nat → Nat → Bool
  | .eq, x, y => x == y
  | .ne, x, y => x != y
  | .ugt, x, y => decide (y < x)
  | .ult, x, y => decide (x < y)
  | .sgt, x, y => decide (toSigned w y < toSigned w x)
  | .slt, x, y => decide (toSigned w x < toSigned w y)

def eval (w : Nat) (env : Nat → Nat) : Val → Option Nat
  | .arg id _ => some (env id % 2 ^ w)
  | .const _ v => some (v % 2 ^ w)
  | .bin _ _ op a b =>
    match eval w env a, eval w env b with
    | some x, some y => evalOp w op x y
    | _, _ => none
  | .zext _ _ _ v => eval w env v
  | .trunc bits v => (eval w env v).map (· % 2 ^ bits)
  | .icmp p a b =>
    match eval w env a, eval w env b with
    | some x, some y => some (if evalPredicate w p x y then 1 else 0)
    | _, _ => none
  | .select c t f =>
    match eval w env c with
    | some x => if x ≠ 0 then eval w env t else eval w env f
    | none => none
  | .freeze v => eval w env v
  | .call1 .ctpop a => (eval w env a).map (ctpop w)
  | .call2 .cttz a (.const _ zeroIsPoison) =>
    match eval w env a with
    | some x => if x = 0 ∧ zeroIsPoison ≠ 0 then none else some (cttz w x)
    | none => none
  | .call3 .fshl a b c =>
    match eval w env a, eval w env b, eval w env c with
    | some x, some y, some z => some (fshl w x y z)
    | _, _, _ => none
  | .call3 .fshr a b c =>
    match eval w env a, eval w env b, eval w env c with
    | some x, some y, some z => some (fshr w x y z)
    | _, _, _ => none
  | _ => none

/-! ### Any-bits-set and all-bits-set -/

/-- `struct MaskOps`; `BitWidth` is the width of the `APInt` `Mask`. -/
structure MaskOps where
  Root : Option Val
  Mask : Nat
  BitWidth : Nat
  MatchAndChain : Bool
  FoundAnd1 : Bool
  deriving DecidableEq, Repr

/-- Constructor `MaskOps(BitWidth, MatchAnds)`. -/
def MaskOps.init (BitWidth : Nat) (MatchAnds : Bool) : MaskOps :=
  { Root := none, Mask := 0, BitWidth := BitWidth, MatchAndChain := MatchAnds, FoundAnd1 := false }

/-- `match(V, m_LShr(m_Value(Candidate), m_APInt(BitIndex)))`: the shifted
value and the shift constant. -/
def leafShift (V : Val) : Option (Val × Nat) :=
  match V.asBin .lshr with
  | some (c, k) => k.asInt.map fun n => (c, n)
  | none => none

/-- The end of `matchAndOrChain`, reached when `V` is not taken apart as an
`and` or an `or`: a shift right by a constant or a bare value. -/
def matchChainLeaf (V : Val) (MOps : MaskOps) : Bool × MaskOps :=
  -- if (!match(V, m_LShr(m_Value(Candidate), m_APInt(BitIndex)))) Candidate = V;
  let Candidate : Val := match leafShift V with
    | some (c, _) => c
    | none => V
  let BitIndex : Option Nat := (leafShift V).map (·.2)
  -- if (!MOps.Root) MOps.Root = Candidate;
  let MOps1 : MaskOps := if MOps.Root.isNone then { MOps with Root := some Candidate } else MOps
  -- if (BitIndex && BitIndex->uge(MOps.Mask.getBitWidth())) return false;
  if BitIndex.any (fun n => decide (n ≥ MOps1.BitWidth)) then (false, MOps1)
  else
    -- MOps.Mask.setBit(BitIndex ? BitIndex->getZExtValue() : 0);
    let MOps2 : MaskOps := { MOps1 with Mask := MOps1.Mask ||| 2 ^ BitIndex.getD 0 }
    -- return MOps.Root == Candidate;
    (decide (MOps2.Root = some Candidate), MOps2)

/-- Function `matchAndOrChain(V, MOps)`: the returned flag and `MOps` as it
is left. -/
def matchAndOrChain : Val → MaskOps → Bool × MaskOps
  | .bin id uses op Op0 Op1, MOps =>
    if MOps.MatchAndChain then
      if op = .and ∧ Op1.isInt 1 then
        matchAndOrChain Op0 { MOps with FoundAnd1 := true }
      else if op = .and then
        match matchAndOrChain Op0 MOps with
        | (true, MOps1) => matchAndOrChain Op1 MOps1
        | r => r
      else matchChainLeaf (.bin id uses op Op0 Op1) MOps
    else
      if op = .or then
        match matchAndOrChain Op0 MOps with
        | (true, MOps1) => matchAndOrChain Op1 MOps1
        | r => r
      else matchChainLeaf (.bin id uses op Op0 Op1) MOps
  | V, MOps => matchChainLeaf V MOps

/-- The first test of `foldAnyOrAllBitsSet`: `some true` for the
all-bits-set shape, `some false` for the any-bits-set shape. -/
def anyOrAllShape (I : Val) : Option Bool :=
  match I.asBin .and with
  | none => none
  | some (a, b) =>
    -- m_c_And(m_OneUse(m_And(m_Value(), m_Value())), m_Value())
    if (a.hasOneUse && (a.asBin .and).isSome) || (b.hasOneUse && (b.asBin .and).isSome) then
      some true
    -- m_And(m_OneUse(m_Or(m_Value(), m_Value())), m_One())
    else if a.hasOneUse && (a.asBin .or).isSome && b.isInt 1 then some false
    else none

/-- The matching part of `foldAnyOrAllBitsSet(I)`: `MatchAllBitsSet`,
`MOps.Root` and `MOps.Mask` when the pattern is found. -/
def matchAnyOrAllBitsSet (I : Val) : Option (Bool × Val × Nat) :=
  match anyOrAllShape I with
  | none => none
  | some MatchAllBitsSet =>
    let MOps := MaskOps.init I.bits MatchAllBitsSet
    let r : Bool × MaskOps :=
      if MatchAllBitsSet then
        -- !matchAndOrChain(cast<BinaryOperator>(&I), MOps) || !MOps.FoundAnd1
        match matchAndOrChain I MOps with
        | (ok, M) => (ok && M.FoundAnd1, M)
      else
        -- matchAndOrChain(cast<BinaryOperator>(&I)->getOperand(0), MOps)
        match I.asBin .and with
        | some (Op0, _) => matchAndOrChain Op0 MOps
        | none => (false, MOps)
    match r with
    | (true, M) => M.Root.map fun Root => (MatchAllBitsSet, Root, M.Mask)
    | _ => none

/-- Function `foldAnyOrAllBitsSet(I)`: `none` when it returns false, else the
value `Zext` that replaces the uses of `I`. The created `and` and `zext`
get the identities `n` and `n + 1`. -/
def foldAnyOrAllBitsSet (n : Nat) (I : Val) : Option Val :=
  (matchAnyOrAllBitsSet I).map fun (MatchAllBitsSet, Root, m) =>
    let Mask : Val := .const I.bits m
    let And : Val := .bin n 1 .and Root Mask
    let Cmp : Val := if MatchAllBitsSet then .icmp .eq And Mask
                     else .icmp .ne And (.const I.bits 0)
    .zext (n + 1) 1 I.bits Cmp

/-- Leaves of a chain, left to right, as `matchAndOrChain` descends it: in
an `and` chain an `and _, 1` counts for its first operand only. -/
def chainLeaves (andChain : Bool) : Val → List Val
  | .bin id uses op a b =>
    if andChain then
      if op = .and ∧ b.isInt 1 then chainLeaves andChain a
      else if op = .and then chainLeaves andChain a ++ chainLeaves andChain b
      else [.bin id uses op a b]
    else
      if op = .or then chainLeaves andChain a ++ chainLeaves andChain b
      else [.bin id uses op a b]
  | V => [V]

/-- The source value of a leaf: the shifted value of a shift right by a
constant, the leaf itself otherwise. -/
def leafSource (V : Val) : Val :=
  match leafShift V with
  | some (c, _) => c
  | none => V

/-- The bit a leaf stands for: the shift constant, 0 for a bare value. -/
def leafIndex (V : Val) : Nat := ((leafShift V).map (·.2)).getD 0

/-- The chain holds an `and _, 1`. -/
def chainHasAnd1 : Val → Bool
  | .bin _ _ op a b =>
    if op = .and ∧ b.isInt 1 then true
    else if op = .and then chainHasAnd1 a || chainHasAnd1 b
    else false
  | _ => false

/-- What a successful `matchAndOrChain V MOps` leaves in `M`: width and
mode are kept, `FoundAnd1` records an `and _, 1` of the chain, the root is
the source of every leaf and the root given on entry if there was one, every
shift constant is below the width, and the mask has gained exactly the bits
of the leaves. -/
def ChainSpec (V : Val) (MOps M : MaskOps) : Prop :=
  M.BitWidth = MOps.BitWidth ∧ M.MatchAndChain = MOps.MatchAndChain ∧
  M.FoundAnd1 = (MOps.FoundAnd1 || (MOps.MatchAndChain && chainHasAnd1 V)) ∧
  ∃ R, M.Root = some R ∧ (∀ R0, MOps.Root = some R0 → R0 = R) ∧
    (∀ l ∈ chainLeaves MOps.MatchAndChain V,
      leafSource l = R ∧ ∀ p, leafShift l = some p → p.2 < MOps.BitWidth) ∧
    (∀ c, M.Mask.testBit c = (MOps.Mask.testBit c ||
      (chainLeaves MOps.MatchAndChain V).any (fun l => leafIndex l == c)))

/-- The examples of the comment of `matchAndOrChain`, over a 32-bit `X`:
`or (or (or X, (X >> 3)), (X >> 5)), (X >> 8)`. -/
def orChainExample : Val :=
  .bin 6 1 .or
    (.bin 5 1 .or
      (.bin 4 1 .or (.arg 0 32) (.bin 1 1 .lshr (.arg 0 32) (.const 32 3)))
      (.bin 2 1 .lshr (.arg 0 32) (.const 32 5)))
    (.bin 3 1 .lshr (.arg 0 32) (.const 32 8))

/-- Example `and (and (X >> 1), 1), (X >> 4)`. -/
def andChainExample : Val :=
  .bin 4 1 .and
    (.bin 3 1 .and (.bin 1 1 .lshr (.arg 0 32) (.const 32 1)) (.const 32 1))
    (.bin 2 1 .lshr (.arg 0 32) (.const 32 4))

end AggressiveInstCombine

/-! ### Guarded funnel shifts -/

namespace AggressiveInstCombine

/-- A phi with the incoming values and blocks of its operands and its own
block. -/
structure PhiNode where
  bits : Nat
  incoming : List (Val × Nat)
  parent : Nat
  deriving DecidableEq, Repr

/-- The terminator of a block, as far as the fold looks at it. -/
inductive Terminator
  | br (dest : Nat)
  | condBr (cond : Val) (ifTrue ifFalse : Nat)
  | other
  deriving DecidableEq, Repr

/-- Result of `isPowerOf2_32`. -/
def isPowerOf2_32 (x : Nat) : Bool := x != 0 && (x &&& (x - 1)) == 0

/-- First pattern of `matchFunnelShift` on the operands of the `or` in one
order: `m_Shl(m_Value(ShVal0), m_Value(ShAmt))` and
`m_LShr(m_Value(ShVal1), m_Sub(m_SpecificInt(Width), m_Deferred(ShAmt)))`. -/
def matchFshlOperands (Width : Nat) (L R : Val) : Option (Val × Val × Val) :=
  match L.asBin .shl, R.asBin .lshr with
  | some (ShVal0, ShAmt), some (ShVal1, S) =>
    match S.asBin .sub with
    | some (Wc, A) => if Wc.isInt Width ∧ A = ShAmt then some (ShVal0, ShVal1, ShAmt) else none
    | none => none
  | _, _ => none

/-- Second pattern of `matchFunnelShift` on the operands of the `or` in one
order: `m_Shl(m_Value(ShVal0), m_Sub(m_SpecificInt(Width), m_Value(ShAmt)))`
and `m_LShr(m_Value(ShVal1), m_Deferred(ShAmt))`. -/
def matchFshrOperands (Width : Nat) (L R : Val) : Option (Val × Val × Val) :=
  match L.asBin .shl, R.asBin .lshr with
  | some (ShVal0, S), some (ShVal1, A) =>
    match S.asBin .sub with
    | some (Wc, ShAmt) => if Wc.isInt Width ∧ A = ShAmt then some (ShVal0, ShVal1, ShAmt) else none
    | none => none
  | _, _ => none

/-- The lambda `matchFunnelShift(V, ShVal0, ShVal1, ShAmt)`: the intrinsic
and the captures, `none` for `Intrinsic::not_intrinsic`. The `or` is
commutative (`m_c_Or`) and must have one use. -/
def matchFunnelShift (V : Val) : Option (IntrinsicID × Val × Val × Val) :=
  let Width := V.bits
  match (if V.hasOneUse then V.asBin .or else none) with
  | none => none
  | some (L, R) =>
    match (matchFshlOperands Width L R).orElse fun _ => matchFshlOperands Width R L with
    | some c => some (.fshl, c)
    | none =>
      match (matchFshrOperands Width L R).orElse fun _ => matchFshrOperands Width R L with
      | some c => some (.fshr, c)
      | none => none

/-- The test made on what `matchFunnelShift` returns for one phi operand,
`Other` being the other operand: the funnel shift is usable when its source
value is the other operand. -/
def funnelShiftOf (P Other : Val) : Option (IntrinsicID × Val × Val × Val) :=
  match matchFunnelShift P with
  | some (.fshl, ShVal0, ShVal1, ShAmt) =>
    if ShVal0 ≠ Other then none else some (.fshl, ShVal0, ShVal1, ShAmt)
  | some (.fshr, ShVal0, ShVal1, ShAmt) =>
    if ShVal1 ≠ Other then none else some (.fshr, ShVal0, ShVal1, ShAmt)
  | _ => none

/-- What `foldGuardedFunnelShift` has found when it reaches the creation of
the call. -/
structure GuardedFunnelShift where
  IID : IntrinsicID
  ShVal0 : Val
  ShVal1 : Val
  ShAmt : Val
  FunnelVal : Val
  FunnelBB : Nat
  GuardVal : Val
  GuardBB : Nat
  deriving DecidableEq, Repr

/-- The matching part of `foldGuardedFunnelShift(I, DT)`. `terminator` gives
the terminator of a block, `dominates V B` is `DT.dominates(V, T)` for the
terminator `T` of block `B`. -/
def matchGuardedFunnelShift (I : PhiNode) (terminator : Nat → Terminator)
    (dominates : Val → Nat → Bool) : Option GuardedFunnelShift :=
  match I.incoming with
  | [(P0, B0), (P1, B1)] =>
    if !isPowerOf2_32 I.bits then none
    else
      -- FunnelOp = 0, GuardOp = 1, swapped when the first attempt fails
      let found : Option GuardedFunnelShift :=
        match funnelShiftOf P0 P1 with
        | some (IID, ShVal0, ShVal1, ShAmt) =>
          some { IID := IID, ShVal0 := ShVal0, ShVal1 := ShVal1, ShAmt := ShAmt,
                 FunnelVal := P0, FunnelBB := B0, GuardVal := P1, GuardBB := B1 }
        | none =>
          match funnelShiftOf P1 P0 with
          | some (IID, ShVal0, ShVal1, ShAmt) =>
            some { IID := IID, ShVal0 := ShVal0, ShVal1 := ShVal1, ShAmt := ShAmt,
                   FunnelVal := P1, FunnelBB := B1, GuardVal := P0, GuardBB := B0 }
          | none => none
      match found with
      | none => none
      | some G =>
        if !dominates G.ShVal0 G.GuardBB || !dominates G.ShVal1 G.GuardBB then none
        else
          -- m_Br(m_ICmp(Pred, m_Specific(ShAmt), m_ZeroInt()),
          --      m_SpecificBB(PhiBB), m_SpecificBB(FunnelBB)); Pred == ICMP_EQ
          match terminator G.GuardBB with
          | .condBr (.icmp Pred A Z) T F =>
            if A = G.ShAmt ∧ Z.isInt 0 ∧ T = I.parent ∧ F = G.FunnelBB then
              if Pred ≠ .eq then none else some G
            else none
          | _ => none
  | _ => none

/-- Function `foldGuardedFunnelShift(I, DT)`: `none` when it returns false,
else the call that replaces the uses of the phi. `notPoison` is
`isGuaranteedNotToBePoison`. -/
def foldGuardedFunnelShift (I : PhiNode) (terminator : Nat → Terminator)
    (dominates : Val → Nat → Bool) (notPoison : Val → Bool) : Option Val :=
  (matchGuardedFunnelShift I terminator dominates).map fun G =>
    let IsFshl := decide (G.IID = .fshl)
    let ShVal1 :=
      if G.ShVal0 ≠ G.ShVal1 ∧ IsFshl ∧ !notPoison G.ShVal1 then Val.freeze G.ShVal1
      else G.ShVal1
    let ShVal0 :=
      if G.ShVal0 ≠ G.ShVal1 ∧ ¬ (IsFshl ∧ !notPoison G.ShVal1) ∧ !IsFshl ∧ !notPoison G.ShVal0
      then Val.freeze G.ShVal0
      else G.ShVal0
    .call3 G.IID ShVal0 ShVal1 G.ShAmt

/-- The value of the phi when its block is entered through the guard
`br (icmp eq ShAmt, 0), PhiBB, FunnelBB`: from the guard block when the shift
amount is 0, from the funnel block otherwise. -/
def guardedValue (w : Nat) (env : Nat → Nat) (G : GuardedFunnelShift) : Option Nat :=
  match eval w env G.ShAmt with
  | some s => if s = 0 then eval w env G.GuardVal else eval w env G.FunnelVal
  | none => none

/-- The shape of the source comment for `fshl`, 32 bits wide:
`phi [ or (shl %a, %s), (lshr %b, (sub 32, %s)), FunnelBB ], [ %a, GuardBB ]`,
with blocks 1 (guard), 2 (funnel), 3 (phi). -/
def guardedFshlExample : PhiNode :=
  { bits := 32,
    incoming :=
      [ (.bin 6 1 .or
          (.bin 5 1 .shl (.arg 0 32) (.arg 2 32))
          (.bin 4 1 .lshr (.arg 1 32) (.bin 3 1 .sub (.const 32 32) (.arg 2 32))), 2),
        (.arg 0 32, 1) ],
    parent := 3 }

/-- Terminators of the example: the guard block compares the shift amount
with 0 and branches to the phi block or the funnel block. -/
def guardedFshlTerminator : Nat → Terminator
  | 1 => .condBr (.icmp .eq (.arg 2 32) (.const 32 0)) 3 2
  | 2 => .br 3
  | _ => .other

end AggressiveInstCombine

/-! ### Population count -/

namespace AggressiveInstCombine

/-- The byte `b` repeated `n` times. -/
def splatBytes : Nat → Nat → Nat
  | 0, _ => 0
  | n + 1, b => b + 256 * splatBytes n b

/-- `APInt::getSplat(NewLen, APInt(8, b))`: the byte `b` repeated across
`NewLen` bits. -/
def getSplat (NewLen b : Nat) : Nat := splatBytes ((NewLen + 7) / 8) b % 2 ^ NewLen

/-- `m_c_Add(m_LShr(m_Value(ShiftOp0), m_SpecificInt(4)), m_Deferred(ShiftOp0))`
on the operands of the `add` in one order. -/
def matchShift4Operands (L R : Val) : Option Val :=
  match L.asBin .lshr with
  | some (ShiftOp0, c) => if c.isInt 4 ∧ R = ShiftOp0 then some ShiftOp0 else none
  | none => none

/-- `m_c_Add(m_And(m_Value(AndOp0), m_SpecificInt(Mask33)),
m_And(m_LShr(m_Deferred(AndOp0), m_SpecificInt(2)), m_SpecificInt(Mask33)))`
on the operands of the `add` in one order. -/
def matchPairsOperands (Mask33 : Nat) (L R : Val) : Option Val :=
  match L.asBin .and, R.asBin .and with
  | some (AndOp0, c1), some (S, c2) =>
    match S.asBin .lshr with
    | some (A, c) =>
      if c1.isInt Mask33 ∧ A = AndOp0 ∧ c.isInt 2 ∧ c2.isInt Mask33 then some AndOp0 else none
    | none => none
  | _, _ => none

/-- The matching part of `tryToRecognizePopCount(I)`: the captured `Root`. -/
def matchPopCount (I : Val) : Option Val :=
  -- if (I.getOpcode() != Instruction::LShr) return false;
  match I.asBin .lshr with
  | none => none
  | some (Op0, Op1) =>
    let Len := I.bits
    if !(decide (Len ≤ 128) && decide (Len > 8) && Len % 8 == 0) then none
    else
      let Mask55 := getSplat Len 0x55
      let Mask33 := getSplat Len 0x33
      let Mask0F := getSplat Len 0x0F
      let Mask01 := getSplat Len 0x01
      let MaskShift := Len - 8
      -- Matching "(i * 0x01010101...) >> 24".
      match Op0.asBin .mul with
      | none => none
      | some (MulOp0, c01) =>
        if !(c01.isInt Mask01 && Op1.isInt MaskShift) then none
        else
          -- Matching "((i + (i >> 4)) & 0x0F0F0F0F...)".
          match MulOp0.asBin .and with
          | none => none
          | some (Sum4, c0F) =>
            if !c0F.isInt Mask0F then none
            else
              match Sum4.asBin .add with
              | none => none
              | some (L4, R4) =>
                match (matchShift4Operands L4 R4).orElse fun _ => matchShift4Operands R4 L4 with
                | none => none
                | some ShiftOp0 =>
                  -- Matching "(i & 0x33333333...) + ((i >> 2) & 0x33333333...)".
                  match ShiftOp0.asBin .add with
                  | none => none
                  | some (L2, R2) =>
                    match (matchPairsOperands Mask33 L2 R2).orElse
                        fun _ => matchPairsOperands Mask33 R2 L2 with
                    | none => none
                    | some AndOp0 =>
                      -- Matching "i - ((i >> 1) & 0x55555555...)".
                      match AndOp0.asBin .sub with
                      | none => none
                      | some (Root, SubOp1) =>
                        match SubOp1.asBin .and with
                        | none => none
                        | some (S1, c55) =>
                          match S1.asBin .lshr with
                          | none => none
                          | some (R1, c1) =>
                            if R1 = Root ∧ c1.isInt 1 ∧ c55.isInt Mask55 then some Root
                            else none

/-- Function `tryToRecognizePopCount(I)`: `none` when it returns false, else
the call of `llvm.ctpop` that replaces the uses of `I`. -/
def tryToRecognizePopCount (I : Val) : Option Val :=
  (matchPopCount I).map fun Root => .call1 .ctpop Root

/-- The three masked steps of the parallel bit count. -/
def pairSums (M55 x : Nat) : Nat := x - ((x >>> 1) &&& M55)

def nibbleSums (M33 y : Nat) : Nat := (y &&& M33) + ((y >>> 2) &&& M33)

def byteSums (M0F z : Nat) : Nat := (z + (z >>> 4)) &&& M0F

/-- The sum of the low `n` bytes. -/
def byteSum : Nat → Nat → Nat
  | 0, _ => 0
  | n + 1, y => y % 256 + byteSum n (y / 256)

/-- The expression of the source comment at width `w`:
`i = i - ((i >> 1) & 0x55..); i = (i & 0x33..) + ((i >> 2) & 0x33..);
i = (i + (i >> 4)) & 0x0F..; return (i * 0x01..) >> (w - 8)`. -/
def popcountFormula (w x : Nat) : Nat :=
  let i1 := pairSums (getSplat w 0x55) x
  let i2 := nibbleSums (getSplat w 0x33) i1
  let i3 := byteSums (getSplat w 0x0F) i2
  ((i3 * getSplat w 0x01) % 2 ^ w) >>> (w - 8)

/-- The source comment's `popcount` as 32-bit instructions over `%i`. -/
def popcountExample32 : Val :=
  let i : Val := .arg 0 32
  let i1 : Val := .bin 3 2 .sub i (.bin 2 1 .and (.bin 1 1 .lshr i (.const 32 1)) (.const 32 0x55555555))
  let i2 : Val := .bin 7 2 .add (.bin 4 1 .and i1 (.const 32 0x33333333))
    (.bin 6 1 .and (.bin 5 1 .lshr i1 (.const 32 2)) (.const 32 0x33333333))
  let i3 : Val := .bin 10 1 .and (.bin 9 1 .add i2 (.bin 8 1 .lshr i2 (.const 32 4)))
    (.const 32 0x0F0F0F0F)
  .bin 12 1 .lshr (.bin 11 1 .mul i3 (.const 32 0x01010101)) (.const 32 24)

end AggressiveInstCombine

/-! ### Table-based count of trailing zeros -/

namespace AggressiveInstCombine

/-- A global variable, as far as the fold reads it: `dataArray` lists the
elements of its initializer (`getElementAsInteger`) when that is a
`ConstantDataArray`. -/
structure GlobalVariable where
  hasInitializer : Bool
  isConstant : Bool
  dataArray : Option (List Nat)
  deriving DecidableEq, Repr

/-- A `getelementptr`: `sourceArray` is the number of elements of its source
element type when that is an array type, `global` its pointer operand when
that is a global variable. -/
structure GetElementPtrInst where
  isInBounds : Bool
  sourceArray : Option Nat
  global : Option GlobalVariable
  indices : List Val
  deriving DecidableEq, Repr

/-- A load: `AccessType` is the width of its type when that is an integer
type, `gep` its pointer operand when that is a `getelementptr`. -/
structure LoadInst where
  AccessType : Option Nat
  gep : Option GetElementPtrInst
  deriving DecidableEq, Repr

/-- Result of `Log2_32` on a 32-bit value other than 0: the position of its
highest set bit. -/
def Log2_32 (x : Nat) : Nat :=
  (List.range 32).foldl (fun r i => if x.testBit i then i else r) 0

/-- `m_c_And(m_Neg(m_Value(X1)), m_Deferred(X1))` on the operands of the
`and` in one order; `m_Neg(V)` is `m_Sub(m_ZeroInt(), V)`. -/
def matchNegAndOperands (L R : Val) : Option Val :=
  match L.asBin .sub with
  | some (Z, X1) => if Z.isInt 0 ∧ R = X1 then some X1 else none
  | none => none

/-- The pattern `m_LShr(m_Mul(m_c_And(m_Neg(m_Value(X1)), m_Deferred(X1)),
m_ConstantInt(MulConst)), m_ConstantInt(ShiftConst))`: `X1`, `MulConst`,
`ShiftConst`. `m_ConstantInt` binds a constant of at most 64 bits. -/
def matchCttzIndexCore (V : Val) : Option (Val × Nat × Nat) :=
  match V.asBin .lshr with
  | none => none
  | some (Mul, Sh) =>
    match Mul.asBin .mul, Sh.asInt with
    | some (And, Mc), some ShiftConst =>
      match And.asBin .and, Mc.asInt with
      | some (L, R), some MulConst =>
        if MulConst < 2 ^ 64 ∧ ShiftConst < 2 ^ 64 then
          ((matchNegAndOperands L R).orElse fun _ => matchNegAndOperands R L).map
            fun X1 => (X1, MulConst, ShiftConst)
        else none
      | _, _ => none
    | _, _ => none

/-- `m_ZExtOrSelf(P)`: the pattern under a zero extension, or on the value
itself. -/
def matchCttzIndex (Idx2 : Val) : Option (Val × Nat × Nat) :=
  match Idx2 with
  | .zext _ _ _ V => (matchCttzIndexCore V).orElse fun _ => matchCttzIndexCore Idx2
  | _ => matchCttzIndexCore Idx2

/-- What `tryToRecognizeTableBasedCttz` has found when it reaches the
creation of the intrinsic. -/
structure TableBasedCttz where
  AccessType : Nat
  Table : List Nat
  Idx2 : Val
  X1 : Val
  MulConst : Nat
  ShiftConst : Nat
  InputBits : Nat
  deriving DecidableEq, Repr

/-- The matching part of `tryToRecognizeTableBasedCttz(I)` for a load `LI`. -/
def matchTableBasedCttz (LI : LoadInst) : Option TableBasedCttz :=
  match LI.AccessType, LI.gep with
  | some AccessType, some GEP =>
    if !GEP.isInBounds || GEP.indices.length != 2 then none
    else
      match GEP.sourceArray, GEP.global, GEP.indices with
      | some ArraySize, some GVTable, [Idx1, Idx2] =>
        if ArraySize != 32 && ArraySize != 64 then none
        else if !GVTable.hasInitializer || !GVTable.isConstant then none
        else
          match GVTable.dataArray with
          | none => none
          | some ConstData =>
            if !Idx1.isInt 0 then none
            else
              match matchCttzIndex Idx2 with
              | none => none
              | some (X1, MulConst, ShiftConst) =>
                let InputBits := X1.bits
                if InputBits != 32 && InputBits != 64 then none
                -- Shift should extract top 5..7 bits.
                else if InputBits - Log2_32 InputBits != ShiftConst &&
                    InputBits - Log2_32 InputBits - 1 != ShiftConst then none
                else if !isCTTZTable ConstData MulConst ShiftConst InputBits then none
                else some { AccessType := AccessType, Table := ConstData, Idx2 := Idx2, X1 := X1,
                            MulConst := MulConst, ShiftConst := ShiftConst,
                            InputBits := InputBits }
      | _, _, _ => none
  | _, _ => none

/-- `B.CreateZExtOrTrunc(V, DestTy)` for a value of width `bits`; a created
`zext` gets the identity `n`. -/
def createZExtOrTrunc (n bits dest : Nat) (V : Val) : Val :=
  if bits < dest then .zext n 1 dest V
  else if dest < bits then .trunc dest V
  else V

/-- Function `tryToRecognizeTableBasedCttz(I)` for a load: `none` when it
returns false, else the value `ZExtOrTrunc` that replaces the uses of the
load. `ConstantInt::get(XType, ZeroTableElem)` keeps the low `InputBits` bits
of the 64-bit `ZeroTableElem`. -/
def tryToRecognizeTableBasedCttz (n : Nat) (LI : LoadInst) : Option Val :=
  (matchTableBasedCttz LI).map fun T =>
    let ZeroTableElem := T.Table.getD 0 0
    let DefinedForZero := ZeroTableElem == T.InputBits
    let BoolConst : Val := .const 1 (if !DefinedForZero then 1 else 0)
    let Cttz : Val := .call2 .cttz T.X1 BoolConst
    if DefinedForZero then createZExtOrTrunc n T.InputBits T.AccessType Cttz
    else
      let Cmp : Val := .icmp .eq T.X1 (.const T.InputBits 0)
      let Select : Val := .select Cmp (.const T.InputBits (ZeroTableElem % 2 ^ T.InputBits)) Cttz
      createZExtOrTrunc n T.InputBits T.AccessType Select

/-- The index `(((0 - x) & x) * Mul mod 2^w) >> Shift` of the lookup. -/
def cttzIndex (w Mul Shift x : Nat) : Nat :=
  ((((2 ^ w - x) % 2 ^ w) &&& x) * Mul % 2 ^ w) >>> Shift

/-- The element that the original load reads: the table entry at the value
of the index expression. -/
def loadedElement (w : Nat) (env : Nat → Nat) (T : TableBasedCttz) : Option Nat :=
  match eval w env T.Idx2 with
  | some i => T.Table[i]?
  | none => none

/-- The index expression `zext (lshr (mul (and (sub 0, %x), %x), Mul), Shift)`
over the `bits`-wide argument `%x`. -/
def cttzIndexExpr (bits Mul Shift : Nat) : Val :=
  .zext 5 1 64
    (.bin 4 1 .lshr
      (.bin 3 1 .mul
        (.bin 2 1 .and (.bin 1 1 .sub (.const bits 0) (.arg 0 bits)) (.arg 0 bits))
        (.const bits Mul))
      (.const bits Shift))

/-- Case 1 of the source comment: `load i8` from the 32-entry table, index
`((x & -x) * 125613361) >> 27` over a 32-bit `x`. -/
def ctz1Load : LoadInst :=
  { AccessType := some 8,
    gep := some
      { isInBounds := true, sourceArray := some 32,
        global := some { hasInitializer := true, isConstant := true, dataArray := some ctzTable32 },
        indices := [.const 64 0, cttzIndexExpr 32 125613361 27] } }

/-- A 64-entry table of 64-bit elements for a 32-bit input, used with
`72416175` and `>> 26` (case 2 of the source comment): the answers `k` sit at
their indices, the entries that no `k` indexes, entry 0 among them, hold
`-1`, that is `2^64 - 1`. -/
def ctzTable64Wide : List Nat :=
  [18446744073709551615, 0, 1, 12, 2, 6, 18446744073709551615, 13,
   3, 18446744073709551615, 7, 18446744073709551615, 18446744073709551615, 18446744073709551615, 18446744073709551615, 14,
   10, 4, 18446744073709551615, 18446744073709551615, 8, 18446744073709551615, 18446744073709551615, 25,
   18446744073709551615, 18446744073709551615, 18446744073709551615, 18446744073709551615, 18446744073709551615, 21, 27, 15,
   31, 11, 5, 18446744073709551615, 18446744073709551615, 18446744073709551615, 18446744073709551615, 18446744073709551615,
   9, 18446744073709551615, 18446744073709551615, 24, 18446744073709551615, 18446744073709551615, 20, 26,
   30, 18446744073709551615, 18446744073709551615, 18446744073709551615, 18446744073709551615, 23, 18446744073709551615, 19,
   29, 18446744073709551615, 22, 18, 28, 17, 16, 18446744073709551615]

/-- The load of an `i64` element of `ctzTable64Wide`, index
`((x & -x) * 72416175) >> 26` over a 32-bit `x`. -/
def ctzWideLoad : LoadInst :=
  { AccessType := some 64,
    gep := some
      { isInBounds := true, sourceArray := some 64,
        global := some
          { hasInitializer := true, isConstant := true, dataArray := some ctzTable64Wide },
        indices := [.const 64 0, cttzIndexExpr 32 72416175 26] } }

end AggressiveInstCombine

/-! ## `foldLoadsRecursive` and `foldConsecutiveLoads`

The consecutive-load merge of `AggressiveInstCombine.cpp`, lines 1914-2133,
on scalar integer values. Alias analysis, the target cost model, the
dominator tree and the data layout are parameters; the result of
`stripAndAccumulateConstantOffsets` on a pointer is recorded in the pointer.
-/

namespace AggressiveInstCombine

namespace ConsecutiveLoads

/-- Default of the option `aggressive-instcombine-max-scan-instrs`
(`cl::init(64)`, line 64). -/
def MaxInstrsToScan : Nat := 64

/-- A pointer operand: `base` and `offset` are what
`stripAndAccumulateConstantOffsets` returns for it, the offset as a value of
the index width. -/
structure Pointer where
  id : Nat
  base : Nat
  offset : Nat
  deriving DecidableEq, Repr

/-- A load instruction: `bits` is `getType()->getPrimitiveSizeInBits()`,
`parent` the id of its block, `uses` the number of its uses. -/
structure LoadInst where
  id : Nat
  uses : Nat
  bits : Nat
  isSimple : Bool
  isVolatile : Bool
  addressSpace : Nat
  align : Nat
  parent : Nat
  pointer : Pointer
  deriving DecidableEq, Repr

/-- A value as the matchers of the merge see it. `inst` is any instruction
other than the ones listed, `arg` a value that is no instruction. -/
inductive Value where
  | load (L : LoadInst)
  | zext (id uses bits : Nat) (x : Value)
  | shl (id uses bits : Nat) (x amt : Value)
  | or (id uses bits : Nat) (a b : Value)
  | constInt (bits c : Nat)
  | inst (id uses bits : Nat)
  | arg (id uses bits : Nat)
  deriving DecidableEq, Repr

/-- Width of the type of a value. -/
def Value.bits : Value → Nat
  | .load L => L.bits
  | .zext _ _ b _ => b
  | .shl _ _ b _ _ => b
  | .or _ _ b _ _ => b
  | .constInt b _ => b
  | .inst _ _ b => b
  | .arg _ _ b => b

/-- `hasOneUse()`. -/
def Value.hasOneUse : Value → Bool
  | .load L => L.uses == 1
  | .zext _ u _ _ => u == 1
  | .shl _ u _ _ _ => u == 1
  | .or _ u _ _ _ => u == 1
  | .constInt _ _ => false
  | .inst _ u _ => u == 1
  | .arg _ u _ => u == 1

/-- `isa<Instruction>`. -/
def Value.isInstruction : Value → Bool
  | .load _ => true
  | .zext _ _ _ _ => true
  | .shl _ _ _ _ _ => true
  | .or _ _ _ _ _ => true
  | .inst _ _ _ => true
  | .constInt _ _ => false
  | .arg _ _ _ => false

/-- `dyn_cast<LoadInst>`. -/
def Value.asLoad : Value → Option LoadInst
  | .load L => some L
  | _ => none

/-- `m_APInt`: the value of a constant integer. -/
def Value.asAPInt : Value → Option Nat
  | .constInt _ c => some c
  | _ => none

/-- `m_OneUse(m_ZExt(m_OneUse(m_Instruction(L))))`. -/
def matchZExtOneUseInst : Value → Option Value
  | .zext _ u _ L => if u == 1 && L.hasOneUse && L.isInstruction then some L else none
  | _ => none

/-- `m_OneUse(m_ZExt(m_Instruction(L)))`. -/
def matchZExtInst : Value → Option Value
  | .zext _ u _ L => if u == 1 && L.isInstruction then some L else none
  | _ => none

/-- `m_OneUse(m_Shl(m_OneUse(m_ZExt(m_OneUse(m_Instruction(L)))),
m_APInt(ShAmt)))`. -/
def matchShlZExtInst : Value → Option (Value × Nat)
  | .shl _ u _ x amt =>
    if u == 1 then
      match matchZExtOneUseInst x, amt.asAPInt with
      | some L, some ShAmt => some (L, ShAmt)
      | _, _ => none
    else none
  | _ => none

/-- An instruction of a block as the memory scan sees it. -/
structure Instruction where
  id : Nat
  mayWriteToMemory : Bool
  deriving DecidableEq, Repr

/-- `MemoryLocation`: the pointer and the size. -/
structure MemoryLocation where
  ptr : Nat
  size : Nat
  deriving DecidableEq, Repr

/-- `ModRefInfo`. -/
inductive ModRefInfo where
  | NoModRef
  | Ref
  | Mod
  | ModRef
  deriving DecidableEq, Repr

/-- `isModSet`. -/
def isModSet : ModRefInfo → Bool
  | .Mod => true
  | .ModRef => true
  | _ => false

/-- `DataLayout`: endianness and the width of the index type. -/
structure DataLayout where
  isBigEndian : Bool
  indexBits : Nat

/-- `DataLayout::getTypeStoreSize` of the integer type of `bits` bits. -/
def getTypeStoreSize (bits : Nat) : Nat := (bits + 7) / 8

/-- `MemoryLocation::get` of a load. -/
def MemoryLocation.get (L : LoadInst) : MemoryLocation :=
  { ptr := L.pointer.id, size := getTypeStoreSize L.bits }

/-- `getWithNewSize`. -/
def MemoryLocation.getWithNewSize (Loc : MemoryLocation) (size : Nat) : MemoryLocation :=
  { Loc with size := size }

/-- The analyses and the block contents that the merge queries:
`getModRefInfo` is alias analysis, `isTypeLegal` and
`allowsMisalignedMemoryAccesses` (its result and the value it leaves in
`Fast`) are the target cost model, `dominates` the dominator tree, `block`
gives the instructions of a block in order. -/
structure Analyses where
  DL : DataLayout
  getModRefInfo : Instruction → MemoryLocation → ModRefInfo
  isTypeLegal : Nat → Bool
  allowsMisalignedMemoryAccesses : Nat → Nat → Nat → Bool × Nat
  dominates : Nat → Nat → Bool
  block : Nat → List Instruction

/-- `LoadOps`, without the alias metadata. -/
structure LoadOps where
  Root : Option LoadInst
  RootInsert : Option LoadInst
  FoundRoot : Bool
  LoadSize : Nat
  Shift : Option Nat
  ZextType : Option Nat
  deriving DecidableEq, Repr

/-- A default-constructed `LoadOps`. -/
def LoadOps.init : LoadOps :=
  { Root := none, RootInsert := none, FoundRoot := false, LoadSize := 0,
    Shift := none, ZextType := none }

/-- `isPowerOf2_64`. -/
def isPowerOf2_64 (x : Nat) : Bool := x != 0 && (x &&& (x - 1)) == 0

/-- Position of the instruction `id` in a block. -/
def position (id : Nat) : List Instruction → Nat
  | [] => 0
  | Inst :: rest => if Inst.id = id then 0 else position id rest + 1

/-- `Start->comesBefore(End)`. -/
def comesBefore (BB : List Instruction) (Start End : LoadInst) : Bool :=
  decide (position Start.id BB < position End.id BB)

/-- The instructions of `make_range(Start->getIterator(), End->getIterator())`. -/
def instructionRange (BB : List Instruction) (Start End : LoadInst) : List Instruction :=
  (BB.drop (position Start.id BB)).take (position End.id BB - position Start.id BB)

/-- The loop of lines 2006-2012 over the instructions of the range, with the
counter `NumScanned`: `false` stands for the `return false` of the loop. -/
def scanRange (A : Analyses) (Max : Nat) (Loc : MemoryLocation) :
    List Instruction → Nat → Bool
  | [], _ => true
  | Inst :: rest, NumScanned =>
    if Inst.mayWriteToMemory && isModSet (A.getModRefInfo Inst Loc) then false
    else if NumScanned + 1 > Max then false
    else scanRange A Max Loc rest (NumScanned + 1)

/-- Signed value of an `APInt` of `w` bits. -/
def toSigned (w x : Nat) : Int :=
  if x % 2 ^ w < 2 ^ (w - 1) then (x % 2 ^ w : Nat) else (x % 2 ^ w : Nat) - (2 ^ w : Nat)

/-- The start, the end and the location of the scan (lines 1995-2004).
`LOps.RootInsert` is set wherever `LOps.FoundRoot` is. -/
def scanBounds (BB : List Instruction) (LOps : LoadOps) (LI1 LI2 : LoadInst) :
    LoadInst × LoadInst × MemoryLocation :=
  let Start := if LOps.FoundRoot then LOps.RootInsert.getD LI1 else LI1
  let End := LI2
  if !comesBefore BB Start End then
    let Loc := MemoryLocation.get Start
    (End, Start, if LOps.FoundRoot then Loc.getWithNewSize LOps.LoadSize else Loc)
  else (Start, End, MemoryLocation.get End)

/-- The load `LI1` and the shift `ShAmt1` (lines 1950-1958): taken from `X`
when no root was found yet and `X` is a zero-extended instruction or a
shifted one, otherwise `LOps.Root` and `LOps.Shift`. -/
def rootLoad (X : Value) (LOps : LoadOps) : Option LoadInst × Option Nat :=
  if LOps.FoundRoot == false then
    match matchZExtInst X with
    | some L1 => (L1.asLoad, LOps.Shift)
    | none =>
      match matchShlZExtInst X with
      | some (L1, Sh) => (L1.asLoad, some Sh)
      | none => (LOps.Root, LOps.Shift)
  else (LOps.Root, LOps.Shift)

/-- Lines 2014-2068 of `foldLoadsRecursive`, after the scan: the order of the
two loads by offset, the shifts, the check that the loads are consecutive,
and the update of `LOps`. `Start` is the start of the scan. -/
def mergePair (A : Analyses) (X : Value) (ShAmt1 ShAmt2 : Option Nat) (LOps : LoadOps)
    (LI1 LI2 Start : LoadInst) : Bool × LoadOps :=
  let BW := A.DL.indexBits
  let Offset1 := LI1.pointer.offset % 2 ^ BW
  let Offset2 := LI2.pointer.offset % 2 ^ BW
  let Reverse := decide (toSigned BW Offset2 < toSigned BW Offset1)
  let LI1r := if Reverse then LI2 else LI1
  let ShAmt1r := if Reverse then ShAmt2 else ShAmt1
  let ShAmt2r := if Reverse then ShAmt1 else ShAmt2
  let Offset1r := if Reverse then Offset2 else Offset1
  let Offset2r := if Reverse then Offset1 else Offset2
  let ShAmt1e := if A.DL.isBigEndian then ShAmt2r else ShAmt1r
  let ShAmt2e := if A.DL.isBigEndian then ShAmt1r else ShAmt2r
  let Shift1 := (ShAmt1e.getD 0) % 2 ^ 64
  let Shift2 := (ShAmt2e.getD 0) % 2 ^ 64
  let LoadSize1 := if LOps.FoundRoot && !Reverse then LOps.LoadSize else LI1.bits
  let LoadSize2 := if LOps.FoundRoot && Reverse then LOps.LoadSize else LI2.bits
  let ShiftDiff := if A.DL.isBigEndian then LoadSize2 else LoadSize1
  let PrevSize := getTypeStoreSize LoadSize1
  if (Shift2 + 2 ^ 64 - Shift1) % 2 ^ 64 != ShiftDiff ||
      (Offset2r + 2 ^ BW - Offset1r) % 2 ^ BW != PrevSize then (false, LOps)
  else
    (true, { Root := some LI1r, RootInsert := some Start, FoundRoot := true,
             LoadSize := (LoadSize1 + LoadSize2) % 2 ^ 64, Shift := ShAmt1e,
             ZextType := some X.bits })

/-- Lines 1961-2012 of `foldLoadsRecursive`: the checks on the two loads and
the scan of the instructions between them, then `mergePair`. -/
def foldLoadsPair (A : Analyses) (Max : Nat) (X : Value) (ShAmt1 ShAmt2 : Option Nat)
    (LOps : LoadOps) (LI1 LI2 : LoadInst) : Bool × LoadOps :=
  if LI1.id = LI2.id || !LI1.isSimple || !LI2.isSimple ||
      LI1.addressSpace != LI2.addressSpace then (false, LOps)
  else if LI1.parent != LI2.parent then (false, LOps)
  else if LI1.pointer.base != LI2.pointer.base || LI1.bits != LI2.bits then (false, LOps)
  else if LI1.bits < 8 || !isPowerOf2_64 LI1.bits then (false, LOps)
  else if !scanRange A Max (scanBounds (A.block LI1.parent) LOps LI1 LI2).2.2
      (instructionRange (A.block LI1.parent)
        (scanBounds (A.block LI1.parent) LOps LI1 LI2).1
        (scanBounds (A.block LI1.parent) LOps LI1 LI2).2.1) 0 then (false, LOps)
  else mergePair A X ShAmt1 ShAmt2 LOps LI1 LI2 (scanBounds (A.block LI1.parent) LOps LI1 LI2).1

/-- The body of `foldLoadsRecursive` after the recursive call (lines
1950-2068): `X`, `L2` and `ShAmt2` are what the pattern bound, `LOps` is the
state the recursive call left. -/
def foldLoadsStep (A : Analyses) (Max : Nat) (X L2 : Value) (ShAmt2 : Option Nat)
    (LOps : LoadOps) : Bool × LoadOps :=
  match (rootLoad X LOps).1, L2.asLoad with
  | some LI1, some LI2 => foldLoadsPair A Max X (rootLoad X LOps).2 ShAmt2 LOps LI1 LI2
  | _, _ => (false, LOps)

/-- What follows the recursive call: "avoid partial chain merge", then the
body. -/
def foldLoadsAfter (A : Analyses) (Max : Nat) (X L2 : Value) (ShAmt2 : Option Nat)
    (rec : Bool × LoadOps) : Bool × LoadOps :=
  if !rec.1 && rec.2.FoundRoot then (false, rec.2)
  else foldLoadsStep A Max X L2 ShAmt2 rec.2

/-- Model of `foldLoadsRecursive`: the result and the state of `LOps`
afterwards. The first pattern is `m_c_Or` of any `X` and a shifted
zero-extended instruction, tried on the operands in both orders; the second
is `m_Or` of any `X` and a zero-extended instruction. -/
def foldLoadsRecursive (A : Analyses) (Max : Nat) : Value → LoadOps → Bool × LoadOps
  | .or _ u _ a b, LOps =>
    if u == 1 then
      match matchShlZExtInst b with
      | some (L2, ShAmt2) =>
        foldLoadsAfter A Max a L2 (some ShAmt2) (foldLoadsRecursive A Max a LOps)
      | none =>
        match matchShlZExtInst a with
        | some (L2, ShAmt2) =>
          foldLoadsAfter A Max b L2 (some ShAmt2) (foldLoadsRecursive A Max b LOps)
        | none =>
          match matchZExtOneUseInst b with
          | some L2 => foldLoadsAfter A Max a L2 none (foldLoadsRecursive A Max a LOps)
          | none => (false, LOps)
    else (false, LOps)
  | _, LOps => (false, LOps)

/-- A call of the `IRBuilder` that creates an instruction. -/
inductive BuilderCall where
  | CreateGEP (base offset : Nat)
  | CreateBitCast (bits addressSpace : Nat)
  | CreateAlignedLoad (bits align : Nat) (isVolatile : Bool)
  | CreateZExt (bits : Nat)
  | CreateShl (amount : Nat)
  deriving DecidableEq, Repr

/-- Outcome of `foldConsecutiveLoads`: the returned flag, the builder calls
made in order, and whether the uses of `I` were replaced. -/
structure MergeResult where
  changed : Bool
  created : List BuilderCall
  replaced : Bool
  deriving DecidableEq, Repr

/-- The `return false` of `foldConsecutiveLoads`: nothing was created and no
use was replaced. -/
def MergeResult.refused : MergeResult :=
  { changed := false, created := [], replaced := false }

/-- Model of `foldConsecutiveLoads` on a scalar value `I`. -/
def foldConsecutiveLoads (A : Analyses) (Max : Nat) (I : Value) : MergeResult :=
  let r := foldLoadsRecursive A Max I LoadOps.init
  let LOps := r.2
  if !r.1 || !LOps.FoundRoot then MergeResult.refused
  else
  match LOps.Root, LOps.RootInsert with
  | some LI1, some RootInsert =>
    if !A.isTypeLegal LOps.LoadSize then MergeResult.refused
    else
    let access := A.allowsMisalignedMemoryAccesses LOps.LoadSize LI1.addressSpace LI1.align
    if !access.1 || access.2 == 0 then MergeResult.refused
    else
    let gep : List BuilderCall :=
      if !A.dominates LI1.pointer.id RootInsert.id then
        [.CreateGEP LI1.pointer.base (LI1.pointer.offset % 2 ^ A.DL.indexBits % 2 ^ 32)]
      else []
    let load : List BuilderCall :=
      [.CreateBitCast LOps.LoadSize LI1.addressSpace,
       .CreateAlignedLoad LOps.LoadSize LI1.align LI1.isVolatile]
    let zext : List BuilderCall :=
      match LOps.ZextType with
      | some t => [.CreateZExt t]
      | none => []
    let shl : List BuilderCall :=
      match LOps.Shift with
      | some s => [.CreateShl s]
      | none => []
    { changed := true, created := gep ++ load ++ zext ++ shl, replaced := true }
  | _, _ => MergeResult.refused

/-- The value `Y` is a zero-extended load of `L`, shifted left by a constant
or not: one operand of the `or` that the merge looks for. -/
def IsExtendedLoad (L : LoadInst) (Y : Value) : Prop :=
  (∃ i u b, Y = .zext i u b (.load L)) ∨
  (∃ i u b j v c w s, Y = .shl i u b (.zext j v c (.load L)) (.constInt w s))

/-- Two adjacent byte loads from the base pointer `100` at offsets 0 and 1,
in block 0. -/
def byteLoad (id offset : Nat) : LoadInst :=
  { id := id, uses := 1, bits := 8, isSimple := true, isVolatile := false,
    addressSpace := 0, align := 1, parent := 0,
    pointer := { id := 200 + offset, base := 100, offset := offset } }

/-- The value `zext(load p[0]) | (zext(load p[1]) << 8)` of 16 bits. -/
def twoByteOr : Value :=
  .or 7 1 16 (.zext 3 1 16 (.load (byteLoad 1 0)))
    (.shl 6 1 16 (.zext 5 1 16 (.load (byteLoad 4 1))) (.constInt 16 8))

/-- A little-endian target on which every type is legal and every access is
allowed and fast, with an alias analysis that reports `Mod` for exactly the
instructions that may write; `BB` is the content of every block. -/
def permissive (BB : List Instruction) : Analyses :=
  { DL := { isBigEndian := false, indexBits := 64 }
    getModRefInfo := fun Inst _ => if Inst.mayWriteToMemory then .Mod else .NoModRef
    isTypeLegal := fun _ => true
    allowsMisalignedMemoryAccesses := fun _ _ _ => (true, 1)
    dominates := fun _ _ => true
    block := fun _ => BB }

/-- The block of `twoByteOr` with nothing between the loads. -/
def plainBlock : List Instruction :=
  [⟨1, false⟩, ⟨4, false⟩, ⟨3, false⟩, ⟨5, false⟩, ⟨6, false⟩, ⟨7, false⟩]

/-- The block of `twoByteOr` with a store (instruction 2) between the loads. -/
def storeBlock : List Instruction :=
  [⟨1, false⟩, ⟨2, true⟩, ⟨4, false⟩, ⟨3, false⟩, ⟨5, false⟩, ⟨6, false⟩, ⟨7, false⟩]

end ConsecutiveLoads

end AggressiveInstCombine

/-! ## `getStrideAndModOffsetOfGEP` and `foldPatternedLoads`

The patterned-load fold of `AggressiveInstCombine.cpp`, lines 2135-2222.
Types and constants are abstract; the data layout, `GEPOperator::collectOffset`
and `ConstantFoldLoadFromConst` are parameters.
-/

namespace AggressiveInstCombine

namespace PatternedLoads

/-- A global variable: `initializer` is the constant `C`, `initializerType`
its type, `align` what `getAlign()` returns. -/
structure GlobalVariable where
  isConstant : Bool
  hasDefinitiveInitializer : Bool
  initializer : Nat
  initializerType : Nat
  align : Option Nat
  deriving DecidableEq, Repr

/-- A pointer operand. For a `gep`, `collectOffset` is what
`GEPOperator::collectOffset` gives: `none` when it fails, otherwise the
scales of the variable indices in order and the constant offset it adds. -/
inductive PtrOp where
  | global (GV : GlobalVariable)
  | gep (isInBounds : Bool) (collectOffset : Option (List Nat × Nat)) (pointerOperand : PtrOp)
  | other (id : Nat)
  deriving DecidableEq, Repr

/-- A load: `LoadTy` is its type, `align` its alignment. -/
structure LoadInst where
  isVolatile : Bool
  LoadTy : Nat
  align : Nat
  pointerOperand : PtrOp
  deriving DecidableEq, Repr

/-- `DataLayout`: the width of the index type and the sizes of types. -/
structure DataLayout where
  indexBits : Nat
  getTypeAllocSize : Nat → Nat
  getTypeStoreSize : Nat → Nat

/-- `getUnderlyingObject` on a chain of `getelementptr`s, looking through at
most `MaxLookup` of them. -/
def getUnderlyingObject : Nat → PtrOp → PtrOp
  | MaxLookup + 1, .gep _ _ P => getUnderlyingObject MaxLookup P
  | _, P => P

/-- Signed value of an `APInt` of `w` bits. -/
def getSExtValue (w x : Nat) : Int :=
  if x % 2 ^ w < 2 ^ (w - 1) then (x % 2 ^ w : Nat) else (x % 2 ^ w : Nat) - (2 ^ w : Nat)

/-- `APInt::srem` on `w` bits, for a divisor other than 0. -/
def srem (w a b : Nat) : Nat :=
  (Int.tmod (getSExtValue w a) (getSExtValue w b) % (2 ^ w : Nat)).toNat

/-- `APInt::isNegative` on `w` bits. -/
def isNegative (w x : Nat) : Bool := decide (2 ^ (w - 1) ≤ x % 2 ^ w)

/-- The loop over `VarOffsets` of one `getelementptr` (lines 2150-2159):
for a `getelementptr` that is not inbounds only the power-of-two factor
`getOneBitSet(BW, Scale.countr_zero())` of a scale is kept; the stride is
the first scale, then the greatest common divisor. -/
def strideOfScales (BW : Nat) (isInBounds : Bool) : List Nat → Option Nat → Option Nat
  | [], Stride => Stride
  | Scale :: rest, Stride =>
    let Scale1 := if !isInBounds then 2 ^ cttz BW Scale % 2 ^ BW else Scale
    match Stride with
    | none => strideOfScales BW isInBounds rest (some Scale1)
    | some S => strideOfScales BW isInBounds rest (some (Nat.gcd S Scale1))

/-- The `while` loop of `getStrideAndModOffsetOfGEP` (lines 2146-2162): the
pointer it stops at, the stride and the accumulated constant offset. -/
def walkGEPs (BW : Nat) : PtrOp → Option Nat → Nat → PtrOp × Option Nat × Nat
  | .gep isInBounds (some (Scales, c)) P, Stride, ModOffset =>
    walkGEPs BW P (strideOfScales BW isInBounds Scales Stride) ((ModOffset + c) % 2 ^ BW)
  | P, Stride, ModOffset => (P, Stride, ModOffset)

/-- Model of `getStrideAndModOffsetOfGEP`: the stride and the offset modulo
the stride, as values of `BW` bits. -/
def getStrideAndModOffsetOfGEP (BW : Nat) (P : PtrOp) : Nat × Nat :=
  match walkGEPs BW P none 0 with
  | (.global _, some Stride, ModOffset) =>
    let M := srem BW ModOffset Stride
    (Stride, if isNegative BW M then (M + Stride) % 2 ^ BW else M)
  | _ => (1, 0)

/-- The stride and the offset that `foldPatternedLoads` checks (lines
2199-2208): those of `getStrideAndModOffsetOfGEP`, or the load alignment
and 0 when the alignment is at most that of the global and above the
stride. -/
def strideAndOffset (DL : DataLayout) (LI : LoadInst) (GV : GlobalVariable) : Nat × Nat :=
  if LI.align ≤ GV.align.getD 1 ∧
      (getStrideAndModOffsetOfGEP DL.indexBits LI.pointerOperand).1 < LI.align then
    (LI.align % 2 ^ DL.indexBits, 0)
  else getStrideAndModOffsetOfGEP DL.indexBits LI.pointerOperand

/-- The loop of lines 2215-2217 with at most `fuel` iterations: `some true`
when the loop ends, `some false` for its `return false`, `none` when the
fuel runs out. -/
def checkOffsets (fold : Nat → Option Nat) (BW Stride E Ca : Nat) : Nat → Nat → Option Bool
  | 0, ConstOffset => if ConstOffset ≤ E then none else some true
  | fuel + 1, ConstOffset =>
    if ConstOffset ≤ E then
      if fold ConstOffset ≠ some Ca then some false
      else checkOffsets fold BW Stride E Ca fuel ((ConstOffset + Stride) % 2 ^ BW)
    else some true

/-- What `foldPatternedLoads` does to the load: `unchanged` is `return
false`, `replaced Ca` is `I.replaceAllUsesWith(Ca)` and `return true`. -/
inductive Outcome where
  | unchanged
  | replaced (Ca : Nat)
  deriving DecidableEq, Repr

/-- `GVSize`: the allocation size of the type of the initializer, a 64-bit
value. -/
def GVSize (DL : DataLayout) (GV : GlobalVariable) : Nat :=
  DL.getTypeAllocSize GV.initializerType % 2 ^ 64

/-- `unsigned E = GVSize - DL.getTypeStoreSize(LoadTy)`: a difference of
64-bit values, kept in 32 bits. -/
def lastOffset (DL : DataLayout) (LI : LoadInst) (GV : GlobalVariable) : Nat :=
  (GVSize DL GV + 2 ^ 64 - DL.getTypeStoreSize LI.LoadTy % 2 ^ 64) % 2 ^ 64 % 2 ^ 32

/-- Model of `foldPatternedLoads` on a load, with at most `fuel` iterations
of its loop; `ConstantFoldLoadFromConst C LoadTy Offset` is `none` for a null
result. -/
def foldPatternedLoads (fuel : Nat) (DL : DataLayout)
    (ConstantFoldLoadFromConst : Nat → Nat → Nat → Option Nat) (LI : LoadInst) :
    Option Outcome :=
  if LI.isVolatile then some .unchanged
  else
    match getUnderlyingObject 6 LI.pointerOperand with
    | .global GV =>
      if !GV.isConstant || !GV.hasDefinitiveInitializer then some .unchanged
      else if GVSize DL GV = 0 ∨ 4096 < GVSize DL GV then some .unchanged
      else
        match ConstantFoldLoadFromConst GV.initializer LI.LoadTy (strideAndOffset DL LI GV).2 with
        | none => some .unchanged
        | some Ca =>
          match checkOffsets (ConstantFoldLoadFromConst GV.initializer LI.LoadTy) DL.indexBits
              (strideAndOffset DL LI GV).1 (lastOffset DL LI GV) Ca fuel
              (strideAndOffset DL LI GV).2 with
          | none => none
          | some true => some (.replaced Ca)
          | some false => some .unchanged
    | _ => some .unchanged

/-- A constant global of 8 bytes, aligned to 1. -/
def patternGlobal : GlobalVariable :=
  { isConstant := true, hasDefinitiveInitializer := true, initializer := 0,
    initializerType := 0, align := some 1 }

/-- A 64-bit data layout in which the initializer takes 8 bytes and the
loaded type 1 byte. -/
def byteLayout : DataLayout :=
  { indexBits := 64, getTypeAllocSize := fun _ => 8, getTypeStoreSize := fun _ => 1 }

/-- Constant folding of a byte load from the initializer `7,1,7,2,7,3,7,4`;
no result beyond it. -/
def foldByte (_C _LoadTy Offset : Nat) : Option Nat :=
  [7, 1, 7, 2, 7, 3, 7, 4][Offset]?

/-- A byte load through an inbounds `getelementptr` of the global with one
variable index of the given scale and constant offset 0. -/
def patternLoad (Scale : Nat) : LoadInst :=
  { isVolatile := false, LoadTy := 0, align := 1,
    pointerOperand := .gep true (some ([Scale], 0)) (.global patternGlobal) }

end PatternedLoads

end AggressiveInstCombine

namespace CrcRecognition

/-- `RecognizingCRCPass::run(F, AM)` of the crc-recognition pass (lines
795-815) under the options `crc-opt` and `crc-opt-intrinsic`: the value
returned and the function as it is left. `F.back().back()` of a function
without a last instruction is a null dereference. -/
def run (UseNaiveCRCOptimization UseIntrinsicsCRCOptimization : Bool) (F : Function) :
    Option (PreservedAnalyses × Function) :=
  if UseNaiveCRCOptimization && !UseIntrinsicsCRCOptimization then
    match F.backBack with
    | none => none
    | some I => (tryToRecognizeCRC32_v1 F I).map fun r => (PreservedAnalyses.all, r.2)
  else if !UseNaiveCRCOptimization && UseIntrinsicsCRCOptimization then
    match F.backBack with
    | none => none
    | some I => (tryToRecognizeCRC32_v2 F I).map fun r => (PreservedAnalyses.all, r.2)
  else some (PreservedAnalyses.all, F)

end CrcRecognition

/-! ## Block hops of a walk -/

/-- Number of `getParent()->getPrevNode()` hops a statement group makes. -/
def Check.hops : Check → Nat
  | .prevBlockBack _ _ _ => 1
  | _ => 0

/-! ## Variants of the documented IR -/

/-- The function with `f` applied to the operation of the instruction at
`p`. -/
def Function.modifyOp (F : Function) (p : InstPtr) (f : Op → Op) : Function :=
  let onInst : Instr → Instr := fun i => { i with op := f i.op }
  let onBlock : BasicBlock → BasicBlock := fun B =>
    { B with insts := modifyAt onInst p.idx B.insts }
  { F with blocks := modifyAt onBlock p.bb F.blocks }

/-- The documented `crcu8` with the comparison of `for.cond` against `bound`
instead of 8: `%11 = icmp slt i32 %10, bound`. -/
def crcu8_bound_ir (bound : Nat) : Function :=
  (crcu8_ir 16386 false).modifyOp ⟨1, 2⟩ (fun _ => .icmp .slt 32 (.inst 10) (.const 32 bound))

/-- The documented `crcu8` with the alloca at position `slot` of the first
block allocating `ty` bits. -/
def crcu8_alloca_ir (slot ty : Nat) : Function :=
  (crcu8_ir 16386 false).modifyOp ⟨0, slot⟩ (fun _ => .alloca ty)

/-- The operation with the operands of an `or` replaced by `a` and `b`;
any other operation is left as it is. -/
def Op.setOrOperands (a b : Value) : Op → Op
  | .binop .or ty _ _ => .binop .or ty a b
  | op => op

/-- The `or` of `if.then18` as seen from the `ret` at `I`: four blocks
before the block of `I`, the fourth instruction from the end (`or`, `trunc`,
`store`, `br`). -/
def orOfIfThen18 (F : Function) (I : InstPtr) : InstPtr :=
  { bb := I.bb - 4, idx := ((F.blocks[I.bb - 4]?).map fun B => B.insts.length).getD 0 - 4 }

/-- Two operations that are the same up to the operands of an `or`. -/
def Op.sameUpToOr (op op2 : Op) : Prop :=
  op2 = op ∨ ∃ ty x y a b, op = .binop .or ty x y ∧ op2 = .binop .or ty a b

/-- Two instructions that are the same up to the operands of an `or`. -/
def Instr.sameUpToOr (i i2 : Instr) : Prop :=
  i2.id = i.id ∧ Op.sameUpToOr i.op i2.op

/-- Two blocks whose instructions are pairwise the same up to the operands
of an `or`. -/
def BasicBlock.sameUpToOr (B B2 : BasicBlock) : Prop :=
  List.Forall₂ Instr.sameUpToOr B.insts B2.insts

/-- Two functions of one name whose blocks are pairwise the same up to the
operands of an `or`. -/
def Function.sameUpToOr (F F2 : Function) : Prop :=
  F2.name = F.name ∧ List.Forall₂ BasicBlock.sameUpToOr F.blocks F2.blocks

/-- A pattern that looks at the operands of an `or` only through
`m_Value`. -/
def Pat.orOperandsFree : Pat → Bool
  | .value => true
  | .specificInt _ => true
  | .load p => p.orOperandsFree
  | .store v p => v.orOperandsFree && p.orOperandsFree
  | .binop .or .value .value => true
  | .binop .or _ _ => false
  | .binop _ l r => l.orOperandsFree && r.orOperandsFree
  | .cast _ p => p.orOperandsFree

/-- A statement group whose pattern, if it has one, looks at the operands of
an `or` only through `m_Value`. -/
def Check.orOperandsFree : Check → Bool
  | .test p => p.orOperandsFree
  | _ => true

/-- Where a statement group that goes on leaves the pointer: `prev` one
instruction back, `prevBlockBack` at the last instruction of the block
before. -/
def Check.move (F : Function) (p : InstPtr) : Check → InstPtr
  | .prev _ _ => { bb := p.bb, idx := p.idx - 1 }
  | .prevBlockBack _ _ _ =>
    { bb := p.bb - 1, idx := ((F.blocks[p.bb - 1]?).map fun B => B.insts.length).getD 0 - 1 }
  | _ => p

namespace AggressiveInstCombine

namespace ConsecutiveLoads

/-- The block of `twoByteOr` with `n` instructions that do not write between
the two loads: the range from the first load up to the second holds `n + 1`
instructions. -/
def paddedBlock (n : Nat) : List Instruction :=
  ⟨1, false⟩ :: (List.replicate n ⟨1000, false⟩
    ++ [⟨4, false⟩, ⟨3, false⟩, ⟨5, false⟩, ⟨6, false⟩, ⟨7, false⟩])

end ConsecutiveLoads

end AggressiveInstCombine

/-! ## `foldUnusualPatterns`

The driver of `AggressiveInstCombine.cpp`, lines 2227-2300, over a module
given as the list of its functions. The folds it calls, the two CRC rewrites
and `SimplifyInstructionsInBlock` are parameters that act on the function
they are called in; the run records every call of a fold. The instructions
of a block are taken when the block is entered, as the early-increment range
of the source advances before each instruction is handed to the folds.
-/

namespace AggressiveInstCombine

namespace UnusualPatterns

/-- The folds called on every instruction, lines 2266-2289. -/
inductive CatalogEntry
  | foldAnyOrAllBitsSet
  | foldGuardedFunnelShift
  | tryToRecognizePopCount
  | tryToFPToSat
  | tryToRecognizeTableBasedCttz
  | foldConsecutiveLoads
  | foldPatternedLoads
  | foldSqrt
  deriving DecidableEq, Repr

/-- The folds in the order of the calls. -/
def catalog : List CatalogEntry :=
  [.foldAnyOrAllBitsSet, .foldGuardedFunnelShift, .tryToRecognizePopCount, .tryToFPToSat,
   .tryToRecognizeTableBasedCttz, .foldConsecutiveLoads, .foldPatternedLoads, .foldSqrt]

/-- One call of a fold: the position of the function in the module, the
identities of the block and of the instruction, the fold, and what it
returned. -/
structure Attempt where
  function : Nat
  block : Nat
  inst : Nat
  entry : CatalogEntry
  succeeded : Bool
  deriving DecidableEq, Repr

/-- A dominator tree: the function it was built for (by position in the
module) and the blocks that have a node in it, which are the blocks
reachable from the entry of that function. -/
structure DominatorTree where
  function : Nat
  nodes : List Nat
  deriving DecidableEq, Repr

/-- `DT.isReachableFromEntry(&BB)` for the block `b` of the function at
position `fn`: whether the block has a node in the tree. -/
def DominatorTree.isReachableFromEntry (DT : DominatorTree) (fn b : Nat) : Bool :=
  fn == DT.function && DT.nodes.contains b

/-- What the driver calls: `apply e b i G` is the fold `e` on the
instruction `i` of block `b` of the function `G` (the returned flag and the
function as it is left); the CRC rewrites are called on the last instruction
of a function and may dereference null. -/
structure Callees where
  apply : CatalogEntry → Nat → Nat → Function → Bool × Function
  tryToRecognizeCRC32_v1 : Function → InstPtr → Option (Bool × Function)
  tryToRecognizeCRC32_v2 : Function → InstPtr → Option (Bool × Function)
  SimplifyInstructionsInBlock : Nat → Function → Function

/-- State of the scan: `MadeChange`, the function being scanned, and the
calls made so far. -/
structure Scan where
  MadeChange : Bool
  G : Function
  attempts : List Attempt

/-- The statements `MadeChange |= fold(I)` for the folds of the list, on the
instruction `i` of block `b`. -/
def runCatalog (C : Callees) (fn b i : Nat) : List CatalogEntry → Scan → Scan
  | [], s => s
  | e :: es, s =>
    runCatalog C fn b i es
      { MadeChange := s.MadeChange || (C.apply e b i s.G).1,
        G := (C.apply e b i s.G).2,
        attempts := s.attempts ++ [⟨fn, b, i, e, (C.apply e b i s.G).1⟩] }

/-- The loop over the instructions of a block (lines 2265-2290). -/
def scanInsts (C : Callees) (fn b : Nat) : List Nat → Scan → Scan
  | [], s => s
  | i :: rest, s => scanInsts C fn b rest (runCatalog C fn b i catalog s)

/-- The instructions of block `b`, last first (`llvm::reverse(BB)`). -/
def reverseInsts (G : Function) (b : Nat) : List Nat :=
  match G.blockById b with
  | some B => (B.insts.map fun i => i.id).reverse
  | none => []

/-- The loop over the blocks of a function (lines 2253-2291): a block
without a node in the dominator tree is skipped. -/
def scanBlocks (C : Callees) (DT : DominatorTree) (fn : Nat) : List Nat → Scan → Scan
  | [], s => s
  | b :: rest, s =>
    if !DT.isReachableFromEntry fn b then scanBlocks C DT fn rest s
    else scanBlocks C DT fn rest (scanInsts C fn b (reverseInsts s.G b) s)

/-- The loop `for (Function &F : *M)` (line 2252) from the function at
position `fn` on: `MadeChange`, the functions as they are left, and the
calls made. -/
def scanModule (C : Callees) (DT : DominatorTree) :
    Nat → List Function → Bool → List Attempt → Bool × List Function × List Attempt
  | _, [], MadeChange, attempts => (MadeChange, [], attempts)
  | fn, G :: rest, MadeChange, attempts =>
    let s := scanBlocks C DT fn (G.blocks.map fun B => B.id)
      { MadeChange := MadeChange, G := G, attempts := attempts }
    let r := scanModule C DT (fn + 1) rest s.MadeChange s.attempts
    (r.1, s.G :: r.2.1, r.2.2)

/-- Lines 2237-2248: the CRC rewrites under the two options. -/
def recognizeCRC (C : Callees) (UseOptionOne UseOptionTwo : Bool) (F : Function) :
    Option Function :=
  if UseOptionOne && !UseOptionTwo then
    match F.backBack with
    | none => none
    | some I => (C.tryToRecognizeCRC32_v1 F I).map fun r => r.2
  else if !UseOptionOne && UseOptionTwo then
    match F.backBack with
    | none => none
    | some I => (C.tryToRecognizeCRC32_v2 F I).map fun r => r.2
  else some F

/-- Lines 2293-2295: `SimplifyInstructionsInBlock` on every block of `F`. -/
def simplifyBlocks (C : Callees) (F : Function) : Function :=
  (F.blocks.map fun B => B.id).foldl (fun G b => C.SimplifyInstructionsInBlock b G) F

/-- Model of `foldUnusualPatterns(F, DT, ...)`, with `F` the function at
position `k` of the module `M`: the returned `MadeChange`, the module as it
is left, and the calls of folds in order. `none` is a null dereference. -/
def foldUnusualPatterns (C : Callees) (UseOptionOne UseOptionTwo : Bool) (DT : DominatorTree)
    (M : List Function) (k : Nat) : Option (Bool × List Function × List Attempt) :=
  match M[k]? with
  | none => none
  | some F =>
    if F.name = "reverse" then some (false, M, [])
    else
      match recognizeCRC C UseOptionOne UseOptionTwo F with
      | none => none
      | some F1 =>
        let r := scanModule C DT 0 (M.set k F1) false []
        if r.1 then
          match r.2.1[k]? with
          | some F2 => some (true, r.2.1.set k (simplifyBlocks C F2), r.2.2)
          | none => some (true, r.2.1, r.2.2)
        else some (false, r.2.1, r.2.2)

/-- The dominator tree of the function at position `k`. -/
def dominatorTreeOf (k : Nat) (F : Function) : DominatorTree :=
  { function := k, nodes := F.reachable }

/-- Callees that change nothing: a fold succeeds exactly when `succeeds`
says so. -/
def callees (succeeds : CatalogEntry → Nat → Nat → Bool) : Callees :=
  { apply := fun e b i G => (succeeds e b i, G)
    tryToRecognizeCRC32_v1 := fun F _ => some (false, F)
    tryToRecognizeCRC32_v2 := fun F _ => some (false, F)
    SimplifyInstructionsInBlock := fun _ G => G }

/-- The instructions visited and the folds called on each, in order. -/
def fullCatalogOn (visited : List (Nat × Nat × Nat)) : List (Nat × Nat × Nat × CatalogEntry) :=
  visited.flatMap fun v => catalog.map fun e => (v.1, v.2.1, v.2.2, e)

/-- What identifies a call: function, block, instruction and fold. -/
def Attempt.key (a : Attempt) : Nat × Nat × Nat × CatalogEntry :=
  (a.function, a.block, a.inst, a.entry)

/-- The identities of the blocks of a function and of their instructions,
in order. -/
def shape (G : Function) : List (Nat × List Nat) :=
  G.blocks.map fun B => (B.id, B.insts.map fun i => i.id)

/-- The instructions of the blocks of `F` that have a node in the dominator
tree, block by block, each block last instruction first. -/
def expectedVisits (DT : DominatorTree) (k : Nat) (F : Function) : List (Nat × Nat × Nat) :=
  ((F.blocks.map fun B => B.id).filter fun b => DT.isReachableFromEntry k b).flatMap
    fun b => (reverseInsts F b).map fun i => (k, b, i)

/-- The folds leave the identities of the blocks and of their instructions
as they are. -/
def Callees.keepsShape (C : Callees) : Prop :=
  ∀ e b i G, shape (C.apply e b i G).2 = shape G

/-- Calls of all folds of the catalog, in order, on one instruction, all
with the same result. -/
def callsOn (fn b i : Nat) (succeeded : Bool) : List Attempt :=
  catalog.map fun e => ⟨fn, b, i, e, succeeded⟩

end UnusualPatterns

end AggressiveInstCombine

/-! ## `findBinomialSquare`

The recognizer and rewrite of `ExpressionOptimizer.cpp`, lines 39-175, on
the block that ends with the instruction it is called on, and an
interpreter for such a block. Arithmetic wraps at the width of the type;
the address of a stack slot is a parameter of the interpreter.
-/

namespace ExpressionOptimizer

/-- The operation of an instruction; `ty` fields are bit widths. -/
inductive Op
  | alloca (ty : Nat)
  | load (ty : Nat) (ptr : Value)
  | store (ty : Nat) (val ptr : Value)
  | add (ty : Nat) (lhs rhs : Value)
  | mul (ty : Nat) (lhs rhs : Value)
  | ptrtoint (ty : Nat) (ptr : Value)
  | call (callee : String) (args : List Value)
  | ret (ty : Nat) (v : Value)
  deriving DecidableEq, Repr

structure Instr where
  id : Nat
  op : Op
  deriving DecidableEq, Repr

/-- A function: its name, the number of its arguments and the instructions
of its last block. -/
structure Function where
  name : String
  numArgs : Nat
  insts : List Instr
  deriving DecidableEq, Repr

/-- The operation that defines an operand, when the operand is the result
of an instruction. -/
def Function.resolve (F : Function) : Value → Option Op
  | .inst id => (F.insts.find? fun i => i.id == id).map fun i => i.op
  | _ => none

/-- The pattern combinators used: `m_Value(x)` and `m_Deferred(x)` name the
variable `x` by a number. -/
inductive Pat
  | value (x : Nat)
  | deferred (x : Nat)
  | specificInt (v : Nat)
  | load (p : Pat)
  | add (l r : Pat)
  | mul (l r : Pat)
  deriving Repr

/-- Value bound to the variable `x`. -/
def lookup (x : Nat) : List (Nat × Value) → Option Value
  | [] => none
  | (k, v) :: rest => if k = x then some v else lookup x rest

/-- Core of `match(V, P)`: the subject is the value `v`, `op` its defining
operation when it is an instruction, `env` the variables bound so far; the
result is the bindings after a successful match. Operands are matched in the
written order. -/
def Pat.matchSubj (F : Function) : Pat → Value → Option Op → List (Nat × Value) →
    Option (List (Nat × Value))
  | .value x, v, _, env => some ((x, v) :: env)
  | .deferred x, v, _, env => if lookup x env = some v then some env else none
  | .specificInt n, .const _ c, _, env => if c = n then some env else none
  | .specificInt _, _, _, _ => none
  | .load p, _, some (.load _ ptr), env => Pat.matchSubj F p ptr (F.resolve ptr) env
  | .add l r, _, some (.add _ a b), env =>
    match Pat.matchSubj F l a (F.resolve a) env with
    | some env1 => Pat.matchSubj F r b (F.resolve b) env1
    | none => none
  | .mul l r, _, some (.mul _ a b), env =>
    match Pat.matchSubj F l a (F.resolve a) env with
    | some env1 => Pat.matchSubj F r b (F.resolve b) env1
    | none => none
  | _, _, _, _ => none

/-- `match(I, P)` for an instruction `I`. -/
def Pat.matchInst (F : Function) (p : Pat) (i : Instr) : Bool :=
  (Pat.matchSubj F p (.inst i.id) (some i.op) []).isSome

/-- The instruction classes the recognizer casts to. -/
inductive Kind
  | load | store | alloca
  deriving DecidableEq, Repr

def Op.isKind : Kind → Op → Bool
  | .load, .load _ _ => true
  | .store, .store _ _ _ => true
  | .alloca, .alloca _ => true
  | _, _ => false

/-- One statement group of the recognizer, acting on the pointer assigned
last: `prevIs k` is `X = dyn_cast<k>(cur->getPrevNode()); if (!X) return
false;`, `prevMatch p` is `II = dyn_cast<Instruction>(cur->getPrevNode());
if (!match(II, p)) return false;`. -/
inductive Step
  | prevIs (k : Kind)
  | prevMatch (p : Pat)
  deriving Repr

/-- Outcome of a walk: a null dereference, `return false`, or the position
reached. -/
inductive Walk
  | fault
  | reject
  | at (idx : Nat)
  deriving DecidableEq, Repr

/-- One statement group at position `idx`: a null `getPrevNode()` is
dereferenced by the cast to a subclass and by `match`. -/
def Step.run (F : Function) (idx : Nat) : Step → Walk
  | .prevIs k =>
    if idx = 0 then .fault
    else
      match F.insts[idx - 1]? with
      | none => .fault
      | some i => if i.op.isKind k then .at (idx - 1) else .reject
  | .prevMatch p =>
    if idx = 0 then .fault
    else
      match F.insts[idx - 1]? with
      | none => .fault
      | some i => if p.matchInst F i then .at (idx - 1) else .reject

def runSteps (F : Function) : List Step → Nat → Walk
  | [], idx => .at idx
  | s :: rest, idx =>
    match s.run F idx with
    | .at j => runSteps F rest j
    | w => w

/-- The pattern of line 57: `a*a + 2*a*b + b*b` on loads of two pointers
`a` (variable 0) and `b` (variable 1). -/
def binomialPat : Pat :=
  .add (.add (.mul (.load (.value 0)) (.load (.deferred 0)))
             (.mul (.mul (.specificInt 2) (.load (.deferred 0))) (.load (.value 1))))
       (.mul (.load (.deferred 1)) (.load (.deferred 1)))

open Step Kind in
/-- The statement groups of lines 50-120, from the instruction before the
`ret` back to the two allocas. -/
def steps : List Step :=
  [ prevMatch binomialPat,
    prevMatch (.mul (.load (.value 2)) (.load (.deferred 2))),
    prevIs load,
    prevIs load,
    prevMatch (.add (.value 2) (.value 3)),
    prevMatch (.mul (.value 2) (.value 3)),
    prevIs load,
    prevMatch (.mul (.specificInt 2) (.value 3)),
    prevIs load,
    prevMatch (.mul (.load (.value 2)) (.load (.deferred 2))),
    prevIs load,
    prevIs load,
    prevIs store,
    prevIs store,
    prevIs alloca,
    prevIs alloca ]

/-- `isSafeToRemove()`: not a call that may have side effects (every call
is taken to have some), not a terminator. -/
def Op.isSafeToRemove : Op → Bool
  | .call _ _ => false
  | .ret _ _ => false
  | _ => true

/-- Replace the operand `%old` by `new`. -/
def replaceValue (old : Nat) (new : Value) (v : Value) : Value :=
  if v = .inst old then new else v

def Op.mapValues (f : Value → Value) : Op → Op
  | .alloca ty => .alloca ty
  | .load ty p => .load ty (f p)
  | .store ty v p => .store ty (f v) (f p)
  | .add ty a b => .add ty (f a) (f b)
  | .mul ty a b => .mul ty (f a) (f b)
  | .ptrtoint ty p => .ptrtoint ty (f p)
  | .call c args => .call c (args.map f)
  | .ret ty v => .ret ty (f v)

/-- `old->replaceAllUsesWith(new)` on a list of instructions. -/
def replaceAllUsesWith (old : Nat) (new : Value) (l : List Instr) : List Instr :=
  l.map fun i => { i with op := i.op.mapValues (replaceValue old new) }

/-- The pointer operand of a store. -/
def Op.storePointer : Op → Option Value
  | .store _ _ p => some p
  | _ => none

/-- An identity above every identity of the function. -/
def Function.freshId (F : Function) : Nat :=
  (F.insts.map fun i => i.id).foldl max 0 + 1

/-- Lines 122-174, run once the checks have passed with the `ret` at
position `ret` and the first of the two stores at position `SI`: the call
of `f2` is put before the final `add` and takes its uses; every instruction
of the block other than a store, an alloca, the call and the `ret` is erased
when it is safe to remove; `ptrtoint` of the pointer operands of the two
stores, their sum and the square of the sum are put before the call, which
the square replaces. New instructions are numbered from `freshId`;
`getArg(1)` of a function of fewer than two arguments is out of bounds. -/
def rewrite (F : Function) (ret SI : Nat) : Option Function :=
  if F.numArgs < 2 then none
  else
    match F.insts[ret - 1]?, F.insts[ret]? with
    | some IIfinal, some RI =>
      let n := F.freshId
      let f2_call : Instr := { id := n, op := .call "f2" [.arg 0, .arg 1] }
      let withCall := F.insts.take (ret - 1) ++ f2_call :: F.insts.drop (ret - 1)
      let replaced := replaceAllUsesWith IIfinal.id (.inst n) withCall
      let kept := replaced.filter fun i =>
        i.op.isKind .store || i.op.isKind .alloca || i.id == n || i.id == RI.id ||
          !i.op.isSafeToRemove
      match (replaced[SI]?).bind (fun i => i.op.storePointer),
          (replaced[SI + 1]?).bind (fun i => i.op.storePointer) with
      | some p1, some p2 =>
        let new : List Instr :=
          [ { id := n + 1, op := .ptrtoint 32 p1 },
            { id := n + 2, op := .ptrtoint 32 p2 },
            { id := n + 3, op := .add 32 (.inst (n + 1)) (.inst (n + 2)) },
            { id := n + 4, op := .mul 32 (.inst (n + 3)) (.inst (n + 3)) } ]
        let before := kept.takeWhile fun i => i.id != n
        let after := (kept.dropWhile fun i => i.id != n).drop 1
        some { F with insts := replaceAllUsesWith n (.inst (n + 4)) (before ++ new ++ after) }
      | _, _ => none
    | _, _ => none

/-- Model of `findBinomialSquare(I)` for the last instruction `I` of the
function `F`: `checkedFunctions` is the global list of names, `module` the
names of the functions of the module. The result is the returned flag, the
function as it is left and the list of names; `none` is a null dereference
or the use of the uninitialized `callee` when the module has no `f2`. -/
def findBinomialSquare (checkedFunctions module : List String) (F : Function) :
    Option (Bool × Function × List String) :=
  if F.name ∈ checkedFunctions then some (false, F, checkedFunctions)
  else
    match F.insts.getLast? with
    | none => none
    | some I =>
      match I.op with
      | .ret _ _ =>
        match runSteps F steps (F.insts.length - 1) with
        | .fault => none
        | .reject => some (false, F, checkedFunctions)
        | .at AI =>
          if "f2" ∈ module then
            (rewrite F (F.insts.length - 1) (AI + 2)).map fun F2 =>
              (true, F2, checkedFunctions ++ [F.name])
          else none
      | _ => some (false, F, checkedFunctions)

/-- A run-time value: an integer or a pointer to a stack slot. -/
inductive RVal
  | int (n : Nat)
  | ptr (slot : Nat)
  deriving DecidableEq, Repr

/-- Values of the instructions executed so far and the content of the stack
slots. -/
structure Env where
  regs : List (Nat × RVal)
  mem : List (Option Nat)
  deriving DecidableEq, Repr

def lookupReg (id : Nat) : List (Nat × RVal) → Option RVal
  | [] => none
  | (k, v) :: rest => if k = id then some v else lookupReg id rest

def evalValue (args : List Nat) (e : Env) : Value → Option RVal
  | .arg n => (args[n]?).map RVal.int
  | .const _ v => some (.int v)
  | .inst id => lookupReg id e.regs
  | .poison => none

/-- Replace the content of slot `p`. -/
def setSlot (p : Nat) (v : Nat) : List (Option Nat) → List (Option Nat)
  | [] => []
  | x :: xs =>
    match p with
    | 0 => some v :: xs
    | q + 1 => x :: setSlot q v xs

/-- Execute the instructions in order up to the `ret`; `addr s` is the
address of stack slot `s`. Calls are not interpreted. -/
def execInsts (args : List Nat) (addr : Nat → Nat) : List Instr → Env → Option Nat
  | [], _ => none
  | i :: rest, e =>
    match i.op with
    | .alloca _ =>
      execInsts args addr rest
        { regs := (i.id, .ptr e.mem.length) :: e.regs, mem := e.mem ++ [none] }
    | .load ty p =>
      match evalValue args e p with
      | some (.ptr s) =>
        match e.mem[s]? with
        | some (some v) =>
          execInsts args addr rest { e with regs := (i.id, .int (v % 2 ^ ty)) :: e.regs }
        | _ => none
      | _ => none
    | .store _ v p =>
      match evalValue args e v, evalValue args e p with
      | some (.int x), some (.ptr s) =>
        execInsts args addr rest { e with mem := setSlot s x e.mem }
      | _, _ => none
    | .add ty a b =>
      match evalValue args e a, evalValue args e b with
      | some (.int x), some (.int y) =>
        execInsts args addr rest { e with regs := (i.id, .int ((x + y) % 2 ^ ty)) :: e.regs }
      | _, _ => none
    | .mul ty a b =>
      match evalValue args e a, evalValue args e b with
      | some (.int x), some (.int y) =>
        execInsts args addr rest { e with regs := (i.id, .int ((x * y) % 2 ^ ty)) :: e.regs }
      | _, _ => none
    | .ptrtoint ty p =>
      match evalValue args e p with
      | some (.ptr s) =>
        execInsts args addr rest { e with regs := (i.id, .int (addr s % 2 ^ ty)) :: e.regs }
      | _ => none
    | .call _ _ => none
    | .ret _ v =>
      match evalValue args e v with
      | some (.int x) => some x
      | _ => none

/-- Call the function on `args`. -/
def Function.exec (F : Function) (args : List Nat) (addr : Nat → Nat) : Option Nat :=
  execInsts args addr F.insts { regs := [], mem := [] }

/-- An instruction of the listing. -/
def ins (id : Nat) (op : Op) : Instr := { id := id, op := op }

/-- The function `int f1(int a, int b) { return a*a + 2*a*b + b*b; }` as
compiled without optimization. -/
def binomial_ir : Function :=
  { name := "f1", numArgs := 2,
    insts :=
      [ ins 3 (.alloca 32), ins 4 (.alloca 32),
        ins 101 (.store 32 (.arg 0) (.inst 3)),
        ins 102 (.store 32 (.arg 1) (.inst 4)),
        ins 5 (.load 32 (.inst 3)),
        ins 6 (.load 32 (.inst 3)),
        ins 7 (.mul 32 (.inst 5) (.inst 6)),
        ins 8 (.load 32 (.inst 3)),
        ins 9 (.mul 32 (.const 32 2) (.inst 8)),
        ins 10 (.load 32 (.inst 4)),
        ins 11 (.mul 32 (.inst 9) (.inst 10)),
        ins 12 (.add 32 (.inst 7) (.inst 11)),
        ins 13 (.load 32 (.inst 4)),
        ins 14 (.load 32 (.inst 4)),
        ins 15 (.mul 32 (.inst 13) (.inst 14)),
        ins 16 (.add 32 (.inst 12) (.inst 15)),
        ins 103 (.ret 32 (.inst 16)) ] }

/-- What `findBinomialSquare` leaves of `binomial_ir`: the square of the sum
of the addresses of the two stack slots. -/
def binomial_rewritten_ir : Function :=
  { name := "f1", numArgs := 2,
    insts :=
      [ ins 3 (.alloca 32), ins 4 (.alloca 32),
        ins 101 (.store 32 (.arg 0) (.inst 3)),
        ins 102 (.store 32 (.arg 1) (.inst 4)),
        ins 105 (.ptrtoint 32 (.inst 3)),
        ins 106 (.ptrtoint 32 (.inst 4)),
        ins 107 (.add 32 (.inst 105) (.inst 106)),
        ins 108 (.mul 32 (.inst 107) (.inst 107)),
        ins 103 (.ret 32 (.inst 108)) ] }

end ExpressionOptimizer

namespace AggressiveInstCombine

namespace UnusualPatterns

/-! ### The folds on the instruction graph

What the source says of the folds on a function of the instruction graph,
which has no `phi`, no `lshr`, no `getelementptr` and no global variable:
`foldAnyOrAllBitsSet` as modelled above on the expression read off the
graph, and the first test of each of the other folds. -/

/-- The operands of an instruction. -/
def operands : Op → List Value
  | .alloca _ => []
  | .load _ p => [p]
  | .store _ v p => [v, p]
  | .binop _ _ a b => [a, b]
  | .cast _ _ _ v => [v]
  | .icmp _ _ a b => [a, b]
  | .select _ c t f => [c, t, f]
  | .br _ => []
  | .condBr c _ _ => [c]
  | .ret _ v => [v]
  | .call _ args => args

/-- Number of uses of the instruction `%id`: the operand slots of the
function that hold it. -/
def numUses (G : Function) (id : Nat) : Nat :=
  ((G.blocks.flatMap fun B => B.insts).flatMap fun i => operands i.op).count (.inst id)

/-- Position of the first element that satisfies `p`. -/
def findPos? {α : Type} (p : α → Bool) : List α → Option Nat
  | [] => none
  | x :: xs => if p x then some 0 else (findPos? p xs).map (· + 1)

/-- Pointer to the instruction `%i` of block `b`. -/
def ptrOf (G : Function) (b i : Nat) : Option InstPtr :=
  match findPos? (fun B => B.id == b) G.blocks with
  | none => none
  | some bb =>
    match G.blocks[bb]? with
    | none => none
    | some B => (findPos? (fun x => x.id == i) B.insts).map fun idx => { bb := bb, idx := idx }

/-- The instruction `%i` of block `b`: its position and its operation. -/
def opAt (G : Function) (b i : Nat) : Option (InstPtr × Op) :=
  match ptrOf G b i with
  | none => none
  | some p =>
    match G.inst? p with
    | none => none
    | some x => some (p, x.op)

/-- The expression that the matchers of `foldAnyOrAllBitsSet` see at an
operand of type `i<ty>`: an `and` or an `or` with its identity, its number
of uses and its operands; any other instruction `%id` is a value they do not
look into, written as the argument `G.args.length + id`. No expression is
given for a poison operand. The fuel bounds the depth of the expression. -/
def valOf (G : Function) (ty : Nat) : Nat → Value → Option Val
  | _, .arg n => some (.arg n ty)
  | _, .const bits v => some (.const bits v)
  | _, .poison => none
  | 0, .inst _ => none
  | fuel + 1, .inst id =>
    match G.def? id with
    | none => none
    | some d =>
      match d.op with
      | .binop .and _ a b =>
        match valOf G ty fuel a, valOf G ty fuel b with
        | some x, some y => some (.bin id (numUses G id) .and x y)
        | _, _ => none
      | .binop .or _ a b =>
        match valOf G ty fuel a, valOf G ty fuel b with
        | some x, some y => some (.bin id (numUses G id) .or x y)
        | _, _ => none
      | _ => some (.arg (G.args.length + id) ty)

/-- The operand that an expression of `valOf` stands for, when it is an
argument or an instruction. -/
def valueOf (G : Function) : Val → Option Value
  | .arg n _ => if n < G.args.length then some (.arg n) else some (.inst (n - G.args.length))
  | .bin id _ _ _ _ => some (.inst id)
  | _ => none

/-- Function `foldAnyOrAllBitsSet(I)`, lines 264-295, on the instruction
`%i` of block `b`: the returned flag and the function as it is left. The
match is `matchAnyOrAllBitsSet` on the expression of `%i`; on success the
`and` of the root with the mask, the comparison and the zero extension (none
for `i1`) are created before `%i` with the identities `freshId, ...` and take
the uses of `%i`. The cases in which the builder folds constants (the root
is a constant, or an operand is poison) are left to `rest`. -/
def foldAnyOrAllBitsSetOn (rest : Function → Bool × Function) (b i : Nat) (G : Function) :
    Bool × Function :=
  match opAt G b i with
  | none => rest G
  | some (p, .binop .and ty _ _) =>
    match valOf G ty ((G.blocks.flatMap fun B => B.insts).length + 1) (.inst i) with
    | none => rest G
    | some V =>
      match matchAnyOrAllBitsSet V with
      | none => (false, G)
      | some (MatchAllBitsSet, Root, m) =>
        match valueOf G Root with
        | none => rest G
        | some R =>
          let n := G.freshId
          -- Constant *Mask = ConstantInt::get(I.getType(), MOps.Mask);
          let Mask : Value := .const ty m
          -- Value *And = Builder.CreateAnd(MOps.Root, Mask);
          let And : Instr := ins n (.binop .and ty R Mask)
          -- Value *Cmp = MatchAllBitsSet ? CreateICmpEQ(And, Mask) : CreateIsNotNull(And);
          let Cmp : Instr := ins (n + 1)
            (if MatchAllBitsSet then .icmp .eq ty (.inst n) Mask
             else .icmp .ne ty (.inst n) (.const ty 0))
          -- Value *Zext = Builder.CreateZExt(Cmp, I.getType()); I.replaceAllUsesWith(Zext);
          if ty = 1 then
            (true, (G.insertBefore p [And, Cmp]).replaceAllUsesWith i (.inst (n + 1)))
          else
            (true, (G.insertBefore p [And, Cmp, ins (n + 2) (.cast .zext 1 ty (.inst (n + 1)))]
              ).replaceAllUsesWith i (.inst (n + 2)))
  | some _ => (false, G)

/-- The first test of each of the other folds on an instruction: whether
the fold goes on past it. `foldGuardedFunnelShift` wants a `phi` (line 80)
and `tryToRecognizePopCount` an `lshr` (line 396), which the graph does not
have; `tryToFPToSat` matches a signed minimum or maximum, a `select` or a
call of an intrinsic (lines 463-468); `tryToRecognizeTableBasedCttz` (line
1823) and `foldPatternedLoads` (line 2180) want a load,
`foldLoadsRecursive` of `foldConsecutiveLoads` an `or` (lines 1937-1942),
`foldSqrt` a call (line 518). -/
def passesFirstTest : CatalogEntry → Op → Bool
  | .foldAnyOrAllBitsSet, .binop .and _ _ _ => true
  | .tryToFPToSat, .select _ _ _ _ => true
  | .tryToFPToSat, .call _ _ => true
  | .tryToRecognizeTableBasedCttz, .load _ _ => true
  | .foldConsecutiveLoads, .binop .or _ _ _ => true
  | .foldPatternedLoads, .load _ _ => true
  | .foldSqrt, .call _ _ => true
  | _, _ => false

/-- The folds as the source has them on the instruction graph:
`foldAnyOrAllBitsSet` is `foldAnyOrAllBitsSetOn`; each of the other folds
returns false and leaves the function as it is on an instruction that fails
its first test. Whatever lies beyond that, the CRC rewrites and
`SimplifyInstructionsInBlock` are those of `C`. -/
def sourceCallees (C : Callees) : Callees :=
  { C with apply := fun e b i G =>
      match e with
      | .foldAnyOrAllBitsSet => foldAnyOrAllBitsSetOn (C.apply e b i) b i G
      | e =>
        match opAt G b i with
        | none => C.apply e b i G
        | some (_, op) => if passesFirstTest e op then C.apply e b i G else (false, G) }

/-- A function of one block: `%1 = and i32 %a, 1 ; %2 = and i32 %1, %a ;
ret i32 %2`, bit 0 of `%a` by an `and` chain. -/
def and_chain_ir : Function :=
  { name := "f", args := [32],
    blocks := [ { id := 0, name := "entry", insts :=
      [ ins 1 (.binop .and 32 (.arg 0) (.const 32 1)),
        ins 2 (.binop .and 32 (.inst 1) (.arg 0)),
        ins 3 (.ret 32 (.inst 2)) ] } ] }

/-- What `foldAnyOrAllBitsSet` makes of `and_chain_ir` on `%2`: `%4 = and i32
%a, 1 ; %5 = icmp eq i32 %4, 1 ; %6 = zext i1 %5 to i32` before `%2`, and the
`ret` returns `%6`. -/
def and_chain_folded_ir : Function :=
  { name := "f", args := [32],
    blocks := [ { id := 0, name := "entry", insts :=
      [ ins 1 (.binop .and 32 (.arg 0) (.const 32 1)),
        ins 4 (.binop .and 32 (.arg 0) (.const 32 1)),
        ins 5 (.icmp .eq 32 (.inst 4) (.const 32 1)),
        ins 6 (.cast .zext 1 32 (.inst 5)),
        ins 2 (.binop .and 32 (.inst 1) (.arg 0)),
        ins 3 (.ret 32 (.inst 6)) ] } ] }

/-- The calls of folds in the run on `and_chain_ir`: all folds on the `ret`,
then on `%2`, where `foldAnyOrAllBitsSet` succeeds, then on `%1`. -/
def and_chain_calls : List Attempt :=
  callsOn 0 0 3 false ++
  [⟨0, 0, 2, .foldAnyOrAllBitsSet, true⟩, ⟨0, 0, 2, .foldGuardedFunnelShift, false⟩,
   ⟨0, 0, 2, .tryToRecognizePopCount, false⟩, ⟨0, 0, 2, .tryToFPToSat, false⟩,
   ⟨0, 0, 2, .tryToRecognizeTableBasedCttz, false⟩,
   ⟨0, 0, 2, .foldConsecutiveLoads, false⟩, ⟨0, 0, 2, .foldPatternedLoads, false⟩,
   ⟨0, 0, 2, .foldSqrt, false⟩] ++ callsOn 0 0 1 false

end UnusualPatterns

end AggressiveInstCombine

/-! # Theorems -/

/-! ## Arithmetic of one CRC round -/

theorem crcRound_lt {c : Nat} (b : Bool) (hc : c < 65536) : crcRound c b < 65536 := by
  unfold crcRound
  have h1 : c >>> 1 < 2 ^ 16 := by
    rw [Nat.shiftRight_eq_div_pow]; omega
  have h2 : (if b then 0xA001 else 0) < 2 ^ 16 := by
    cases b <;> simp
  exact Nat.xor_lt_two_pow h1 h2

theorem crcRound_xor (c d : Nat) (b : Bool) :
    crcRound (c ^^^ d) b = crcRound c b ^^^ (d / 2) := by
  unfold crcRound
  simp only [Nat.shiftRight_eq_div_pow, pow_one, Nat.xor_div_two]
  rw [Nat.xor_assoc, Nat.xor_assoc, Nat.xor_comm (d / 2)]

theorem xor_mod_two_eq_one_iff_ne (c d : Nat) :
    ((c ^^^ d) % 2 = 1) ↔ d % 2 ≠ c % 2 := by
  rw [Nat.xor_mod_two_eq_one]
  omega

theorem optRounds_xor (k : Nat) : ∀ d c : Nat,
    optRounds k (c ^^^ d) = refRounds k d c ^^^ (d / 2 ^ k) := by
  induction k with
  | zero => intro d c; simp [optRounds, refRounds]
  | succ k ih =>
    intro d c
    simp only [optRounds, refRounds]
    have hb : decide ((c ^^^ d) % 2 = 1) = decide (d % 2 ≠ c % 2) := by
      simp only [xor_mod_two_eq_one_iff_ne]
    rw [hb, crcRound_xor, ih, Nat.div_div_eq_div_mul, pow_succ, Nat.mul_comm]

theorem or_high_bit_eq_xor {x : Nat} (hx : x < 2 ^ 15) : x ||| 0x8000 = x ^^^ 0x8000 := by
  apply Nat.eq_of_testBit_eq
  intro i
  have h8 : (0x8000 : Nat) = 2 ^ 15 := by norm_num
  rw [Nat.testBit_or, Nat.testBit_xor, h8, Nat.testBit_two_pow]
  by_cases hi : 15 = i
  · subst hi
    simp [Nat.testBit_lt_two_pow hx]
  · simp [hi]

theorem round_taken {c : Nat} (hc : c < 65536) :
    truncTo 16 (truncTo 16 (truncTo 16 (c ^^^ 0x4002) >>> 1) ||| 0x8000) = crcRound c true := by
  have h1 : c ^^^ 0x4002 < 2 ^ 16 := Nat.xor_lt_two_pow (by omega) (by norm_num)
  have h2 : (c ^^^ 0x4002) >>> 1 = (c >>> 1) ^^^ 0x2001 := by
    simp only [Nat.shiftRight_eq_div_pow, pow_one, Nat.xor_div_two]
  have h3 : (c >>> 1) ^^^ 0x2001 < 2 ^ 15 :=
    Nat.xor_lt_two_pow (by rw [Nat.shiftRight_eq_div_pow]; omega) (by norm_num)
  have h4 : ((c >>> 1) ^^^ 0x2001) ^^^ 0x8000 < 2 ^ 16 :=
    Nat.xor_lt_two_pow (by omega) (by norm_num)
  have e1 : truncTo 16 (c ^^^ 0x4002) = c ^^^ 0x4002 := Nat.mod_eq_of_lt h1
  have e2 : truncTo 16 ((c >>> 1) ^^^ 0x2001) = (c >>> 1) ^^^ 0x2001 :=
    Nat.mod_eq_of_lt (by omega)
  have e3 : truncTo 16 (((c >>> 1) ^^^ 0x2001) ^^^ 0x8000) = ((c >>> 1) ^^^ 0x2001) ^^^ 0x8000 :=
    Nat.mod_eq_of_lt h4
  rw [e1, h2, e2, or_high_bit_eq_xor h3, e3, Nat.xor_assoc]
  rfl

theorem round_skipped {c : Nat} (hc : c < 65536) :
    truncTo 16 (truncTo 16 (c >>> 1) &&& 0x7fff) = crcRound c false := by
  have h1 : c >>> 1 < 2 ^ 15 := by rw [Nat.shiftRight_eq_div_pow]; omega
  have h7 : (0x7fff : Nat) = 2 ^ 15 - 1 := by norm_num
  have e1 : truncTo 16 (c >>> 1) = c >>> 1 := Nat.mod_eq_of_lt (by omega)
  have e2 : truncTo 16 (c >>> 1) = c >>> 1 := e1
  rw [e1, h7, Nat.and_pow_two_sub_one_of_lt_two_pow h1, e2]
  simp [crcRound]

theorem x16_eq (d c : Nat) :
    truncTo 8 ((d &&& 1) ^^^ (truncTo 8 c &&& 1)) = if d % 2 ≠ c % 2 then 1 else 0 := by
  unfold truncTo
  rw [Nat.and_one_is_mod, Nat.and_one_is_mod]
  have hc : c % 2 ^ 8 % 2 = c % 2 := by omega
  rw [hc]
  rcases Nat.mod_two_eq_zero_or_one d with hd | hd <;>
    rcases Nat.mod_two_eq_zero_or_one c with hc2 | hc2 <;> simp [hd, hc2]

/-! ## The three C routines against the recurrences -/

theorem data_shift {d : Nat} (hd : d < 256) : truncTo 8 (d >>> 1) = d / 2 := by
  unfold truncTo
  rw [Nat.shiftRight_eq_div_pow]
  omega

theorem syrmia_body_spec (s : CrcState) (hc : s.crc < 65536) (hd : s.data < 256) :
    (syrmia_crc_unoptimized.crcu8_body s).crc
        = crcRound s.crc (decide (s.data % 2 ≠ s.crc % 2)) ∧
      (syrmia_crc_unoptimized.crcu8_body s).data = s.data / 2 ∧
      (syrmia_crc_unoptimized.crcu8_body s).i = s.i := by
  unfold syrmia_crc_unoptimized.crcu8_body
  simp only [x16_eq, data_shift hd]
  by_cases h : s.data % 2 ≠ s.crc % 2
  · simp [h, round_taken hc]
  · simp [h, round_skipped hc]

theorem funeq_body_spec (s : CrcState) (hc : s.crc < 65536) (hd : s.data < 256) :
    (functional_equivalence.crcu8_body s).crc
        = crcRound s.crc (decide (s.data % 2 ≠ s.crc % 2)) ∧
      (functional_equivalence.crcu8_body s).data = s.data / 2 ∧
      (functional_equivalence.crcu8_body s).i = s.i := by
  unfold functional_equivalence.crcu8_body
  simp only [x16_eq, data_shift hd]
  by_cases h : s.data % 2 ≠ s.crc % 2
  · simp [h, round_taken hc]
  · simp [h, round_skipped hc]

theorem syrmia_loop_spec (k : Nat) : ∀ (fuel : Nat) (s : CrcState),
    k ≤ 8 → s.i = 8 - k → s.crc < 65536 → s.data < 256 → k < fuel →
    ∃ s', syrmia_crc_unoptimized.crcu8_loop fuel s = some s' ∧
      s'.crc = refRounds k s.data s.crc := by
  induction k with
  | zero =>
    intro fuel s _ hi _ _ hf
    obtain ⟨f, rfl⟩ : ∃ f, fuel = f + 1 := ⟨fuel - 1, by omega⟩
    refine ⟨s, ?_, rfl⟩
    simp [syrmia_crc_unoptimized.crcu8_loop, hi]
  | succ k ih =>
    intro fuel s hk hi hc hd hf
    obtain ⟨f, rfl⟩ : ∃ f, fuel = f + 1 := ⟨fuel - 1, by omega⟩
    obtain ⟨h1, h2, h3⟩ := syrmia_body_spec s hc hd
    have hlt : s.i < 8 := by omega
    obtain ⟨s', hs', hcrc⟩ := ih f
      { syrmia_crc_unoptimized.crcu8_body s with
        i := truncTo 8 ((syrmia_crc_unoptimized.crcu8_body s).i + 1) }
      (by omega) (by simp only [h3, truncTo]; omega)
      (by simp only [h1]; exact crcRound_lt _ hc) (by simp only [h2]; omega) (by omega)
    refine ⟨s', ?_, ?_⟩
    · simp only [syrmia_crc_unoptimized.crcu8_loop, hlt, if_true]
      exact hs'
    · rw [hcrc]
      simp only [h1, h2, refRounds]

theorem funeq_loop_spec (k : Nat) : ∀ (fuel : Nat) (s : CrcState),
    k ≤ 8 → s.i = 8 - k → s.crc < 65536 → s.data < 256 → k < fuel →
    ∃ s', functional_equivalence.crcu8_loop fuel s = some s' ∧
      s'.crc = refRounds k s.data s.crc := by
  induction k with
  | zero =>
    intro fuel s _ hi _ _ hf
    obtain ⟨f, rfl⟩ : ∃ f, fuel = f + 1 := ⟨fuel - 1, by omega⟩
    refine ⟨s, ?_, rfl⟩
    simp [functional_equivalence.crcu8_loop, hi]
  | succ k ih =>
    intro fuel s hk hi hc hd hf
    obtain ⟨f, rfl⟩ : ∃ f, fuel = f + 1 := ⟨fuel - 1, by omega⟩
    obtain ⟨h1, h2, h3⟩ := funeq_body_spec s hc hd
    have hlt : s.i < 8 := by omega
    obtain ⟨s', hs', hcrc⟩ := ih f
      { functional_equivalence.crcu8_body s with
        i := truncTo 8 ((functional_equivalence.crcu8_body s).i + 1) }
      (by omega) (by simp only [h3, truncTo]; omega)
      (by simp only [h1]; exact crcRound_lt _ hc) (by simp only [h2]; omega) (by omega)
    refine ⟨s', ?_, ?_⟩
    · simp only [functional_equivalence.crcu8_loop, hlt, if_true]
      exact hs'
    · rw [hcrc]
      simp only [h1, h2, refRounds]

theorem ashr_nonneg {w x k : Nat} (hx : x < 2 ^ (w - 1)) : ashr w x k = x >>> k := by
  simp [ashr, hx]

theorem sextTo_nonneg {w w2 x : Nat} (hx : x < 2 ^ (w - 1)) : sextTo w w2 x = x := by
  simp [sextTo, hx]

theorem low_bit_eq (c : Nat) : truncTo 8 (truncTo 8 c &&& 1) = c % 2 := by
  unfold truncTo
  rw [Nat.and_one_is_mod]
  omega

theorem optimized_body_spec (s : OptState) (hc : s.crc < 65536) (hd : s.data < 256) :
    (crcu8_optimized_body s).crc = crcRound s.crc (decide (s.crc % 2 = 1)) ∧
      (crcu8_optimized_body s).data = s.data / 2 ∧
      (crcu8_optimized_body s).i = s.i := by
  unfold crcu8_optimized_body
  have hs : s.crc < 2 ^ (64 - 1) := by
    have : (65536 : Nat) < 2 ^ (64 - 1) := by norm_num
    omega
  simp only [low_bit_eq, data_shift hd, ashr_nonneg hs]
  simp only [Nat.and_one_is_mod, Nat.mod_mod]
  rcases Nat.mod_two_eq_zero_or_one s.crc with h | h
  · simp [h, crcRound, sextTo]
  · simp [h, crcRound, sextTo]

theorem optimized_loop_spec (k : Nat) : ∀ (fuel : Nat) (s : OptState),
    k ≤ 8 → s.i = 8 - k → s.crc < 65536 → s.data < 256 → k < fuel →
    ∃ s', crcu8_optimized_loop fuel s = some s' ∧ s'.crc = optRounds k s.crc := by
  induction k with
  | zero =>
    intro fuel s _ hi _ _ hf
    obtain ⟨f, rfl⟩ : ∃ f, fuel = f + 1 := ⟨fuel - 1, by omega⟩
    refine ⟨s, ?_, rfl⟩
    simp [crcu8_optimized_loop, hi]
  | succ k ih =>
    intro fuel s hk hi hc hd hf
    obtain ⟨f, rfl⟩ : ∃ f, fuel = f + 1 := ⟨fuel - 1, by omega⟩
    obtain ⟨h1, h2, h3⟩ := optimized_body_spec s hc hd
    have hlt : s.i < 8 := by omega
    obtain ⟨s', hs', hcrc⟩ := ih f
      { crcu8_optimized_body s with i := truncTo 8 ((crcu8_optimized_body s).i + 1) }
      (by omega) (by simp only [h3, truncTo]; omega)
      (by simp only [h1]; exact crcRound_lt _ hc) (by simp only [h2]; omega) (by omega)
    refine ⟨s', ?_, ?_⟩
    · simp only [crcu8_optimized_loop, hlt, if_true]
      exact hs'
    · rw [hcrc]
      simp only [h1, optRounds]

theorem refRounds_lt (k : Nat) : ∀ d c : Nat, c < 65536 → refRounds k d c < 65536 := by
  induction k with
  | zero => intro d c hc; simpa [refRounds] using hc
  | succ k ih =>
    intro d c hc
    simp only [refRounds]
    exact ih _ _ (crcRound_lt _ hc)

/-- The optimized recurrence started from `crc xor data` ends where the
reference recurrence ends, for an 8-bit `data`. -/
theorem optRounds_eq_refRounds {data crc : Nat} (hd : data < 256) :
    optRounds 8 (crc ^^^ data) = refRounds 8 data crc := by
  rw [optRounds_xor]
  have : data / 2 ^ 8 = 0 := by
    apply Nat.div_eq_of_lt
    norm_num
    exact hd
  rw [this, Nat.xor_zero]

theorem syrmia_crcu8_eq {data crc : Nat} (hd : data < 256) (hc : crc < 65536) :
    syrmia_crc_unoptimized.crcu8 data crc = some (refRounds 8 data crc) := by
  obtain ⟨s', h, hcrc⟩ := syrmia_loop_spec 8 256
    { data := data, crc := crc, i := 0, x16 := 0, carry := 0 }
    (by omega) rfl hc hd (by omega)
  simp only [syrmia_crc_unoptimized.crcu8, h, Option.map_some', hcrc]

theorem funeq_crcu8_eq {data crc : Nat} (hd : data < 256) (hc : crc < 65536) :
    functional_equivalence.crcu8 data crc = some (refRounds 8 data crc) := by
  obtain ⟨s', h, hcrc⟩ := funeq_loop_spec 8 256
    { data := data, crc := crc, i := 0, x16 := 0, carry := 0 }
    (by omega) rfl hc hd (by omega)
  simp only [functional_equivalence.crcu8, h, Option.map_some', hcrc]

theorem crcu8_optimized_eq {data crc : Nat} (hd : data < 256) (hc : crc < 65536) :
    crcu8_optimized data crc = some (refRounds 8 data crc) := by
  have hx : crc ^^^ data < 65536 := by
    have := @Nat.xor_lt_two_pow crc data 16 (by omega) (by omega)
    simpa using this
  obtain ⟨s', h, hcrc⟩ := optimized_loop_spec 8 256
    { data := data, crc := crc ^^^ data, i := 0, x16 := 0, carry := 0 }
    (by omega) rfl hx hd (by omega)
  have hlt := refRounds_lt 8 data crc hc
  simp only [crcu8_optimized, h, Option.map_some', hcrc, optRounds_eq_refRounds hd, truncTo]
  rw [Nat.mod_eq_of_lt (by omega)]

/-- C3: for every `data` in 0..255 and `crc` in 0..65535 the reference
`crcu8(data, crc)`, in both source orderings of the two statements of the
`x16 == 1` branch, and `crcu8_optimized(data, crc)` return the same 16-bit
value. -/
theorem C3_crcu8_eq_crcu8_optimized (data crc : Nat) (hd : data < 256) (hc : crc < 65536) :
    ∃ r, r < 65536 ∧
      syrmia_crc_unoptimized.crcu8 data crc = some r ∧
      functional_equivalence.crcu8 data crc = some r ∧
      crcu8_optimized data crc = some r :=
  ⟨refRounds 8 data crc, refRounds_lt 8 data crc hc, syrmia_crcu8_eq hd hc, funeq_crcu8_eq hd hc,
    crcu8_optimized_eq hd hc⟩

/-- C3 at `data = 241`, `crc = 40261`. -/
theorem C3_crcu8_eq_crcu8_optimized_witness :
    (241 < 256 ∧ 40261 < 65536) ∧
    ∃ r, r < 65536 ∧
      syrmia_crc_unoptimized.crcu8 241 40261 = some r ∧
      functional_equivalence.crcu8 241 40261 = some r ∧
      crcu8_optimized 241 40261 = some r :=
  ⟨by decide, C3_crcu8_eq_crcu8_optimized 241 40261 (by decide) (by decide)⟩

/-! ## The synthesized loop, executed -/

theorem crcRecognition_v1_canonical (carryFirst : Bool) :
    CrcRecognition.tryToRecognizeCRC32_v1 (crcu8_ir 16386 carryFirst) ⟨10, 1⟩
      = some (true, crcu8_loop_ir (.inst 133)) := by
  cases carryFirst <;> rfl

theorem recognizingCRC_v2_canonical :
    RecognizingCRC.tryToRecognizeCRC32_v2 (crcu8_ir 16386 false) ⟨10, 1⟩
      = some (true, crcu8_loop_ir (.inst 136)) := by
  rfl

theorem JumpsTo.elim {r : Option Next} {dst : Nat} {P : Env → Prop} (h : JumpsTo r dst P) :
    ∃ e', r = some (.jump e' dst) ∧ P e' := by
  unfold JumpsTo at h
  split at h
  · next e' d => exact ⟨e', by rw [h.1], h.2⟩
  · exact h.elim

theorem truncTo_of_lt {w x : Nat} (h : x < 2 ^ w) : truncTo w x = x := Nat.mod_eq_of_lt h

theorem toSigned_of_lt {w x : Nat} (h : x < 2 ^ (w - 1)) : toSigned w x = (x : Int) := by
  simp [toSigned, h]

theorem forCond_enter (args : List Nat) (e : Env) (d c i : Nat) (h : LoopInv e d c i)
    (hi : i < 8) :
    JumpsTo (execInsts args (forCondInsts 127 (.inst 133)) e) 129 (fun e' => LoopInv e' d c i) := by
  obtain ⟨h1, h2, h3, h4, c0, x, y, hm⟩ := h
  have t1 : truncTo 8 i = i := truncTo_of_lt (by norm_num; omega)
  have t2 : toSigned 32 i = (i : Int) := toSigned_of_lt (by norm_num; omega)
  have t3 : toSigned 32 8 = 8 := by decide
  have t4 : (i : Int) < 8 := by omega
  simp [forCondInsts, insn, execInsts, execInst, evalValue, lookupReg, Env.setReg, h1, h2, h3, h4, hm,
    evalCast, evalPred, t1, t2, t3, t4, LoopInv, JumpsTo]

theorem forCond_exit (args : List Nat) (e : Env) (d c : Nat) (h : LoopInv e d c 8) :
    JumpsTo (execInsts args (forCondInsts 127 (.inst 133)) e) 127 (fun e' => LoopInv e' d c 8) := by
  obtain ⟨h1, h2, h3, h4, c0, x, y, hm⟩ := h
  have t1 : truncTo 8 8 = 8 := by decide
  have t3 : toSigned 32 8 = 8 := by decide
  simp [forCondInsts, insn, execInsts, execInst, evalValue, lookupReg, Env.setReg, h1, h2, h3, h4, hm,
    evalCast, evalPred, t1, t3, LoopInv, JumpsTo]

theorem forInc_step (args : List Nat) (e : Env) (d c i : Nat) (h : LoopInv e d c i)
    (hi : i < 8) :
    JumpsTo (execInsts args (forIncInsts 127) e) 128 (fun e' => LoopInv e' d c (i + 1)) := by
  obtain ⟨h1, h2, h3, h4, c0, x, y, hm⟩ := h
  have t1 : truncTo 8 i = i := truncTo_of_lt (by norm_num; omega)
  have t2 : truncTo 8 (i + 1) = i + 1 := truncTo_of_lt (by norm_num; omega)
  simp [forIncInsts, insn, execInsts, execInst, evalValue, lookupReg, Env.setReg, h1, h2, h3, h4, hm,
    evalBinOp, t1, t2, LoopInv, JumpsTo, setSlot]

theorem forBody_step (args : List Nat) (e : Env) (d c i : Nat) (h : LoopInv e d c i)
    (hd : d < 256) (hc : c < 65536) :
    JumpsTo (execInsts args (forBodyInsts 127) e) 130
      (fun e' => LoopInv e' (d / 2) (crcRound c (decide (c % 2 = 1))) i) := by
  obtain ⟨h1, h2, h3, h4, c0, x, y, hm⟩ := h
  simp [forBodyInsts, insn, execInsts, execInst, evalValue, lookupReg, Env.setReg, h1, h2, h3, h4, hm,
    evalBinOp, evalCast, evalPred, LoopInv, JumpsTo, setSlot]
  have e1 : truncTo 8 d = d := truncTo_of_lt (by norm_num; omega)
  have e2 : ashr 32 d 1 = d >>> 1 := ashr_nonneg (by norm_num; omega)
  have e3 : truncTo 64 c = c := truncTo_of_lt (by norm_num; omega)
  have e4 : ashr 64 c 1 = c >>> 1 := ashr_nonneg (by norm_num; omega)
  have e5 : truncTo 64 (c >>> 1) = c >>> 1 :=
    truncTo_of_lt (by rw [Nat.shiftRight_eq_div_pow]; norm_num; omega)
  have e6 : truncTo 8 (truncTo 8 (truncTo 8 c % 2)) % 2 = c % 2 := by
    simp only [truncTo]; omega
  refine ⟨?_, ?_⟩
  · rw [e1, e2, data_shift hd]
  · rw [e3, e4, e5, e6]
    rcases Nat.mod_two_eq_zero_or_one c with h | h <;> simp [h, crcRound, sextTo]

theorem forEnd_done (args : List Nat) (e : Env) (d c i : Nat) (h : LoopInv e d c i)
    (hc : c < 65536) :
    execInsts args (forEndInsts 127 ++ [ins 126 (.ret 16 (.inst 186))]) e = some (.done c) := by
  obtain ⟨h1, h2, h3, h4, c0, x, y, hm⟩ := h
  have e3 : truncTo 64 c = c := truncTo_of_lt (by norm_num; omega)
  have e4 : truncTo 16 c = c := truncTo_of_lt (by norm_num; omega)
  simp [forEndInsts, insn, ins, execInsts, execInst, evalValue, lookupReg, Env.setReg, h1, h2, h3, h4,
    hm, evalCast, e3, e4]

theorem entry_run (d c : Nat) (hd : d < 256) (hc : c < 65536) :
    JumpsTo (execInsts [d, c] (entryInsts 127 8 16 ++ [entryBranch 127]) { regs := [], mem := [] })
      128 (fun e' => LoopInv e' d (c ^^^ d) 0) := by
  have e1 : truncTo 8 d = d := truncTo_of_lt (by norm_num; omega)
  have e2 : truncTo 16 c = c := truncTo_of_lt (by norm_num; omega)
  have e3 : truncTo 64 c = c := truncTo_of_lt (by norm_num; omega)
  simp [entryInsts, entryBranch, insn, execInsts, execInst, evalValue, lookupReg, Env.setReg,
    evalBinOp, evalCast, LoopInv, JumpsTo, setSlot, e1, e2, e3]

theorem runFrom_jump (F : Function) (args : List Nat) (fuel id dst : Nat) (e e' : Env)
    (B : BasicBlock) (hB : F.blockById id = some B)
    (hx : execInsts args B.insts e = some (.jump e' dst)) :
    F.runFrom args (fuel + 1) id e = F.runFrom args fuel dst e' := by
  simp only [Function.runFrom, hB, hx]

theorem runFrom_done (F : Function) (args : List Nat) (fuel id v : Nat) (e : Env)
    (B : BasicBlock) (hB : F.blockById id = some B)
    (hx : execInsts args B.insts e = some (.done v)) :
    F.runFrom args (fuel + 1) id e = some v := by
  simp only [Function.runFrom, hB, hx]

theorem loop_ir_block_entry (v : Value) : (crcu8_loop_ir v).blockById 56
    = some ⟨56, "entry", entryInsts 127 8 16 ++ [entryBranch 127]⟩ := rfl

theorem loop_ir_block_cond (v : Value) : (crcu8_loop_ir v).blockById 128
    = some ⟨128, "for.cond", forCondInsts 127 v⟩ := rfl

theorem loop_ir_block_body (v : Value) : (crcu8_loop_ir v).blockById 129
    = some ⟨129, "for.body", forBodyInsts 127⟩ := rfl

theorem loop_ir_block_inc (v : Value) : (crcu8_loop_ir v).blockById 130
    = some ⟨130, "for.inc", forIncInsts 127⟩ := rfl

theorem loop_ir_block_end (v : Value) : (crcu8_loop_ir v).blockById 127
    = some ⟨127, "for.end", forEndInsts 127 ++ [ins 126 (.ret 16 (.inst 186))]⟩ := rfl

/-- From `for.cond` with `k` rounds left, the synthesized loop of the
crc-recognition pass returns the optimized recurrence of the accumulator. -/
theorem loop_run (args : List Nat) (k : Nat) : ∀ (fuel : Nat) (e : Env) (d c : Nat),
    k ≤ 8 → LoopInv e d c (8 - k) → d < 256 → c < 65536 → 3 * k + 2 ≤ fuel →
    (crcu8_loop_ir (.inst 133)).runFrom args fuel 128 e = some (optRounds k c) := by
  induction k with
  | zero =>
    intro fuel e d c _ hinv hd hc hf
    obtain ⟨f, rfl⟩ : ∃ f, fuel = f + 1 + 1 := ⟨fuel - 2, by omega⟩
    obtain ⟨e1, hx1, hinv1⟩ := (forCond_exit args e d c hinv).elim
    rw [runFrom_jump _ args (f + 1) 128 127 e e1 _ (loop_ir_block_cond _) hx1]
    rw [runFrom_done _ args f 127 c e1 _ (loop_ir_block_end _)
      (forEnd_done args e1 d c 8 hinv1 hc)]
    rfl
  | succ k ih =>
    intro fuel e d c hk hinv hd hc hf
    obtain ⟨f, rfl⟩ : ∃ f, fuel = f + 1 + 1 + 1 := ⟨fuel - 3, by omega⟩
    have hi : 8 - (k + 1) < 8 := by omega
    obtain ⟨e1, hx1, hinv1⟩ := (forCond_enter args e d c _ hinv hi).elim
    obtain ⟨e2, hx2, hinv2⟩ := (forBody_step args e1 d c _ hinv1 hd hc).elim
    obtain ⟨e3, hx3, hinv3⟩ := (forInc_step args e2 _ _ _ hinv2 hi).elim
    rw [runFrom_jump _ args (f + 2) 128 129 e e1 _ (loop_ir_block_cond _) hx1]
    rw [runFrom_jump _ args (f + 1) 129 130 e1 e2 _ (loop_ir_block_body _) hx2]
    rw [runFrom_jump _ args f 130 128 e2 e3 _ (loop_ir_block_inc _) hx3]
    have hi' : 8 - (k + 1) + 1 = 8 - k := by omega
    rw [hi'] at hinv3
    rw [ih f e3 _ _ (by omega) hinv3 (by omega) (crcRound_lt _ hc) (by omega)]
    rfl

theorem loop_ir_exec_eq (v : Value) (args : List Nat) (fuel : Nat) :
    (crcu8_loop_ir v).exec args fuel
      = (crcu8_loop_ir v).runFrom args fuel 56 { regs := [], mem := [] } := rfl

/-- The loop synthesized by the crc-recognition pass computes the reference
recurrence. -/
theorem loop_ir_exec {data crc : Nat} (hd : data < 256) (hc : crc < 65536) (fuel : Nat)
    (hf : 27 ≤ fuel) :
    (crcu8_loop_ir (.inst 133)).exec [data, crc] fuel = some (refRounds 8 data crc) := by
  obtain ⟨f, rfl⟩ : ∃ f, fuel = f + 1 := ⟨fuel - 1, by omega⟩
  obtain ⟨e1, hx1, hinv1⟩ := (entry_run data crc hd hc).elim
  have hx : crc ^^^ data < 65536 := by
    have := @Nat.xor_lt_two_pow crc data 16 (by omega) (by omega)
    simpa using this
  rw [loop_ir_exec_eq]
  rw [runFrom_jump _ [data, crc] f 56 128 _ e1 _ (loop_ir_block_entry _) hx1]
  rw [loop_run [data, crc] 8 f e1 data (crc ^^^ data) (by omega) hinv1 hd hx (by omega)]
  rw [optRounds_eq_refRounds hd]

/-- C1: for every `data` in 0..255 and `crc` in 0..65535, the function that
`tryToRecognizeCRC32_v1` of the crc-recognition pass makes of the documented
`crcu8` (either statement order in `if.then`) consists of the blocks `entry`,
`for.cond`, `for.body`, `for.inc`, `for.end` over the slots `data.addr`,
`_crc.addr`, `i`, `x16`, `carry` and the 64-bit `crc`, and called on
`(data, crc)` it returns, for any fuel of at least 27 blocks, the 16-bit
value that the bit-serial `crcu8(data, crc)` returns. -/
theorem C1_loop_rewrite_returns_crcu8 (data crc : Nat) (hd : data < 256) (hc : crc < 65536)
    (carryFirst : Bool) (fuel : Nat) (hf : 27 ≤ fuel) :
    ∃ F' r,
      (crcu8_ir 16386 carryFirst).backBack = some ⟨10, 1⟩ ∧
      CrcRecognition.tryToRecognizeCRC32_v1 (crcu8_ir 16386 carryFirst) ⟨10, 1⟩ = some (true, F') ∧
      F'.blocks.map (·.name) = ["entry", "for.cond", "for.body", "for.inc", "for.end"] ∧
      (F'.blocks.flatMap fun B => B.insts.filterMap fun i =>
          if i.op.isKind .alloca then some (i.name, i.op) else none)
        = [("data.addr", .alloca 8), ("_crc.addr", .alloca 16), ("i", .alloca 8),
            ("x16", .alloca 8), ("carry", .alloca 8), ("crc", .alloca 64)] ∧
      F'.exec [data, crc] fuel = some r ∧
      syrmia_crc_unoptimized.crcu8 data crc = some r ∧
      r < 65536 := by
  refine ⟨crcu8_loop_ir (.inst 133), refRounds 8 data crc, ?_, crcRecognition_v1_canonical carryFirst,
    rfl, rfl, loop_ir_exec hd hc fuel hf, syrmia_crcu8_eq hd hc, refRounds_lt 8 data crc hc⟩
  cases carryFirst <;> rfl

/-- C1 at `data = 241`, `crc = 40261`, fuel 27. -/
theorem C1_loop_rewrite_returns_crcu8_witness :
    (241 < 256 ∧ 40261 < 65536 ∧ 27 ≤ 27) ∧
    ∃ F' r,
      (crcu8_ir 16386 false).backBack = some ⟨10, 1⟩ ∧
      CrcRecognition.tryToRecognizeCRC32_v1 (crcu8_ir 16386 false) ⟨10, 1⟩ = some (true, F') ∧
      F'.blocks.map (·.name) = ["entry", "for.cond", "for.body", "for.inc", "for.end"] ∧
      (F'.blocks.flatMap fun B => B.insts.filterMap fun i =>
          if i.op.isKind .alloca then some (i.name, i.op) else none)
        = [("data.addr", .alloca 8), ("_crc.addr", .alloca 16), ("i", .alloca 8),
            ("x16", .alloca 8), ("carry", .alloca 8), ("crc", .alloca 64)] ∧
      F'.exec [241, 40261] 27 = some r ∧
      syrmia_crc_unoptimized.crcu8 241 40261 = some r ∧
      r < 65536 :=
  ⟨by decide, C1_loop_rewrite_returns_crcu8 241 40261 (by decide) (by decide) false 27 (by decide)⟩

/-- C2 (code at the failing input): on the documented `crcu8`,
`tryToRecognizeCRC32_v2` of `src/RecognizingCRC.cpp` succeeds and produces the
loop whose `for.cond` loads its counter from the slot `crc` (`%136`, the
64-bit accumulator) instead of the slot `i`; called on `(241, 40261)` that
function returns 40372 after three blocks, whatever fuel is left, while
`crcu8(241, 40261)` is 30621. -/
theorem C2_v2_loop_returns_other_value :
    RecognizingCRC.tryToRecognizeCRC32_v2 (crcu8_ir 16386 false) ⟨10, 1⟩
      = some (true, crcu8_loop_ir (.inst 136)) ∧
    (crcu8_loop_ir (.inst 136)).def? 136 = some (insn 136 "crc" (.alloca 64)) ∧
    (crcu8_loop_ir (.inst 136)).def? 133 = some (insn 133 "i" (.alloca 8)) ∧
    (((crcu8_loop_ir (.inst 136)).blockById 128).map fun B => B.insts.head?.map (·.op))
      = some (some (.load 8 (.inst 136))) ∧
    (∀ fuel, (crcu8_loop_ir (.inst 136)).exec [241, 40261] (fuel + 3) = some 40372) ∧
    syrmia_crc_unoptimized.crcu8 241 40261 = some 30621 ∧
    crcu8_optimized 241 40261 = some 30621 := by
  refine ⟨recognizingCRC_v2_canonical, rfl, rfl, rfl, ?_, by decide, by decide⟩
  intro fuel
  rfl

/-! ## The recognizers on the documented IR -/

/-- C4: `recognizingUnoptimizedCRCInstructions` returns true on the return
instruction of the documented 11-block `crcu8` (first block with five
allocas, six stores and a branch), both when `if.then` stores
`crc xor 16386` before `carry = 1` and when it stores `carry = 1` first. -/
theorem C4_recognizer_accepts_documented_ir :
    ∀ carryFirst : Bool,
      (crcu8_ir 16386 carryFirst).blocks.map (·.name)
        = ["entry", "for.cond", "for.body", "if.then", "if.else", "if.end", "if.then18",
            "if.else21", "if.end25", "for.inc", "for.end"] ∧
      ((crcu8_ir 16386 carryFirst).blocks.head?.map fun B => B.insts.map fun i => i.op.isKind .alloca)
        = some [true, true, true, true, true, false, false, false, false, false, false, false] ∧
      ((crcu8_ir 16386 carryFirst).blocks.head?.map fun B => B.insts.map fun i => i.op.isKind .store)
        = some [false, false, false, false, false, true, true, true, true, true, true, false] ∧
      (crcu8_ir 16386 carryFirst).backBack = some ⟨10, 1⟩ ∧
      ((crcu8_ir 16386 carryFirst).inst? ⟨10, 1⟩).map (·.op) = some (.ret 16 (.inst 57)) ∧
      CrcRecognition.recognizingUnoptimizedCRCInstructions (crcu8_ir 16386 carryFirst) ⟨10, 1⟩
        = some true := by
  intro carryFirst
  cases carryFirst <;> exact ⟨rfl, rfl, rfl, rfl, rfl, rfl⟩

theorem runChecks_append (F : Function) (cs1 cs2 : List Check) : ∀ p : InstPtr,
    runChecks F (cs1 ++ cs2) p =
      match runChecks F cs1 p with
      | .at q => runChecks F cs2 q
      | w => w := by
  induction cs1 with
  | nil => intro p; rfl
  | cons c cs ih =>
    intro p
    simp only [List.cons_append, runChecks]
    cases h : c.run F p with
    | fault => rfl
    | reject => rfl
    | «at» q => exact ih q

/-- A walk that reaches `q` and fails the next check there rejects. -/
theorem runChecks_reject_at (F : Function) (pre post : List Check) (c : Check) (p q : InstPtr)
    (h1 : runChecks F pre p = .at q) (h2 : c.run F q = .reject) :
    runChecks F (pre ++ c :: post) p = .reject := by
  rw [runChecks_append, h1]
  simp only [runChecks, h2]

/-- The `xor` of `if.then` fails the test for the constant 16386 when its
constant is another one. -/
theorem xor_test_rejects (c : Nat) (hc : c ≠ 16386) (carryFirst : Bool) :
    (Check.test (.binop .xor .value (.specificInt 16386))).run (crcu8_ir c carryFirst)
      ⟨3, if carryFirst then 3 else 2⟩ = .reject := by
  cases carryFirst <;>
    simp [Check.run, Function.inst?, crcu8_ir, ifThenBlock, ins, Pat.matchInst, Pat.matchSubj, hc]

theorem crcRecognition_rejects_other_constant (c : Nat) (hc : c ≠ 16386) (carryFirst : Bool) :
    CrcRecognition.recognizingUnoptimizedCRCInstructions (crcu8_ir c carryFirst) ⟨10, 1⟩
      = some false := by
  have h1 : runChecks (crcu8_ir c carryFirst) CrcRecognition.checksToIfThen ⟨10, 1⟩ = .at ⟨3, 6⟩ := by
    cases carryFirst <;> rfl
  have h2 : CrcRecognition.walkIfThen (crcu8_ir c carryFirst) ⟨3, 6⟩ = .reject := by
    unfold CrcRecognition.walkIfThen
    cases carryFirst with
    | false =>
      have ha : runChecks (crcu8_ir c false) CrcRecognition.checksIfThenLoop ⟨3, 6⟩ = .reject :=
        runChecks_reject_at _ (CrcRecognition.checksIfThenLoop.take 4)
          (CrcRecognition.checksIfThenLoop.drop 5) _ ⟨3, 6⟩ ⟨3, 2⟩ rfl
          (xor_test_rejects c hc false)
      have hb : runChecks (crcu8_ir c false) CrcRecognition.checksIfThenOther ⟨3, 6⟩ = .reject := rfl
      rw [ha, hb]
    | true =>
      have ha : runChecks (crcu8_ir c true) CrcRecognition.checksIfThenLoop ⟨3, 6⟩ = .reject := rfl
      have hb : runChecks (crcu8_ir c true) CrcRecognition.checksIfThenOther ⟨3, 6⟩ = .reject :=
        runChecks_reject_at _ (CrcRecognition.checksIfThenOther.take 3)
          (CrcRecognition.checksIfThenOther.drop 4) _ ⟨3, 6⟩ ⟨3, 3⟩ rfl
          (xor_test_rejects c hc true)
      rw [ha, hb]
  have hn : (crcu8_ir c carryFirst).name ≠ "main" := by
    show "crcu8" ≠ "main"
    decide
  simp only [CrcRecognition.recognizingUnoptimizedCRCInstructions, if_neg hn, h1, h2, Walk.toResult]

set_option maxRecDepth 8192 in
theorem matches_v1_rejects_other_constant (c : Nat) (hc : c ≠ 16386) (carryFirst : Bool) :
    RecognizingCRC.matches_v1 (crcu8_ir c carryFirst) ⟨10, 1⟩ = some false := by
  unfold RecognizingCRC.matches_v1
  cases carryFirst with
  | false =>
    have ha := runChecks_reject_at (crcu8_ir c false)
      ((RecognizingCRC.checks (.binop .add .value .value)).take 38)
      ((RecognizingCRC.checks (.binop .add .value .value)).drop 39) _ ⟨10, 1⟩ ⟨3, 2⟩ rfl
      (xor_test_rejects c hc false)
    have hb : runChecks (crcu8_ir c false) (RecognizingCRC.checks (.binop .add .value .value))
        ⟨10, 1⟩ = .reject := ha
    rw [hb]; rfl
  | true => rfl

set_option maxRecDepth 8192 in
theorem matches_v2_rejects_other_constant (c : Nat) (hc : c ≠ 16386) (carryFirst : Bool) :
    RecognizingCRC.matches_v2 (crcu8_ir c carryFirst) ⟨10, 1⟩ = some false := by
  unfold RecognizingCRC.matches_v2
  cases carryFirst with
  | false =>
    have ha := runChecks_reject_at (crcu8_ir c false)
      ((RecognizingCRC.checks (.binop .add (.load .value) (.specificInt 1))).take 38)
      ((RecognizingCRC.checks (.binop .add (.load .value) (.specificInt 1))).drop 39) _
      ⟨10, 1⟩ ⟨3, 2⟩ rfl (xor_test_rejects c hc false)
    have hb : runChecks (crcu8_ir c false)
        (RecognizingCRC.checks (.binop .add (.load .value) (.specificInt 1))) ⟨10, 1⟩ = .reject := ha
    rw [hb]; rfl
  | true => rfl

/-- C5: for every constant other than 16386 (0x4002) in the `xor` of
`if.then` of the otherwise documented `crcu8` (either statement order), the
recognizer returns false, and `tryToRecognizeCRC32_v1` and
`tryToRecognizeCRC32_v2`, of the crc-recognition pass and of
`src/RecognizingCRC.cpp`, return false and leave the function as it was. -/
theorem C5_wrong_constant_is_rejected (c : Nat) (hc : c ≠ 16386) (carryFirst : Bool) :
    (crcu8_ir c carryFirst).backBack = some ⟨10, 1⟩ ∧
    CrcRecognition.recognizingUnoptimizedCRCInstructions (crcu8_ir c carryFirst) ⟨10, 1⟩
      = some false ∧
    CrcRecognition.tryToRecognizeCRC32_v1 (crcu8_ir c carryFirst) ⟨10, 1⟩
      = some (false, crcu8_ir c carryFirst) ∧
    CrcRecognition.tryToRecognizeCRC32_v2 (crcu8_ir c carryFirst) ⟨10, 1⟩
      = some (false, crcu8_ir c carryFirst) ∧
    RecognizingCRC.tryToRecognizeCRC32_v1 (crcu8_ir c carryFirst) ⟨10, 1⟩
      = some (false, crcu8_ir c carryFirst) ∧
    RecognizingCRC.tryToRecognizeCRC32_v2 (crcu8_ir c carryFirst) ⟨10, 1⟩
      = some (false, crcu8_ir c carryFirst) := by
  have h1 := crcRecognition_rejects_other_constant c hc carryFirst
  have h2 := matches_v1_rejects_other_constant c hc carryFirst
  have h3 := matches_v2_rejects_other_constant c hc carryFirst
  refine ⟨?_, h1, ?_, ?_, ?_, ?_⟩
  · cases carryFirst <;> rfl
  · simp only [CrcRecognition.tryToRecognizeCRC32_v1, h1]
  · simp only [CrcRecognition.tryToRecognizeCRC32_v2, h1]
  · simp only [RecognizingCRC.tryToRecognizeCRC32_v1, h2]
  · simp only [RecognizingCRC.tryToRecognizeCRC32_v2, h3]

/-- C5 at the constant 16387 (0x4003), listed statement order. -/
theorem C5_wrong_constant_is_rejected_witness :
    16387 ≠ 16386 ∧
    (crcu8_ir 16387 false).backBack = some ⟨10, 1⟩ ∧
    CrcRecognition.recognizingUnoptimizedCRCInstructions (crcu8_ir 16387 false) ⟨10, 1⟩
      = some false ∧
    CrcRecognition.tryToRecognizeCRC32_v1 (crcu8_ir 16387 false) ⟨10, 1⟩
      = some (false, crcu8_ir 16387 false) ∧
    CrcRecognition.tryToRecognizeCRC32_v2 (crcu8_ir 16387 false) ⟨10, 1⟩
      = some (false, crcu8_ir 16387 false) ∧
    RecognizingCRC.tryToRecognizeCRC32_v1 (crcu8_ir 16387 false) ⟨10, 1⟩
      = some (false, crcu8_ir 16387 false) ∧
    RecognizingCRC.tryToRecognizeCRC32_v2 (crcu8_ir 16387 false) ⟨10, 1⟩
      = some (false, crcu8_ir 16387 false) :=
  ⟨by decide, C5_wrong_constant_is_rejected 16387 (by decide) false⟩

/-! ## The intrinsic rewrite -/

set_option maxRecDepth 8192 in
theorem recognizingCRC_v1_canonical :
    RecognizingCRC.tryToRecognizeCRC32_v1 (crcu8_ir 16386 false) ⟨10, 1⟩
      = some (true, crcu8_intrinsic_ir) := by
  rfl

set_option maxRecDepth 8192 in
theorem crcRecognition_v2_canonical (carryFirst : Bool) :
    CrcRecognition.tryToRecognizeCRC32_v2 (crcu8_ir 16386 carryFirst) ⟨10, 1⟩
      = some (true, crcu8_intrinsic_ir) := by
  cases carryFirst <;> rfl

/-- C6: on the documented 11-block `crcu8` the intrinsic rewrite
(`tryToRecognizeCRC32_v2` of the crc-recognition pass for either statement
order of `if.then`, `tryToRecognizeCRC32_v1` of `src/RecognizingCRC.cpp`
for the listed order) succeeds and leaves exactly one block, whose
instructions are the call of the CRC intrinsic on arguments 0 and 1 and the
return of that call's result; the original final load `%57` is gone. -/
theorem C6_intrinsic_rewrite_result :
    (∀ carryFirst : Bool,
      CrcRecognition.tryToRecognizeCRC32_v2 (crcu8_ir 16386 carryFirst) ⟨10, 1⟩
        = some (true, crcu8_intrinsic_ir)) ∧
    RecognizingCRC.tryToRecognizeCRC32_v1 (crcu8_ir 16386 false) ⟨10, 1⟩
      = some (true, crcu8_intrinsic_ir) ∧
    crcu8_intrinsic_ir.blocks.map (fun B => B.insts.map (·.op))
      = [[.call crcIntrinsic [.arg 0, .arg 1], .ret 16 (.inst 127)]] ∧
    (crcu8_intrinsic_ir.inst? ⟨0, 0⟩).map (·.id) = some 127 ∧
    (crcu8_ir 16386 false).def? 57 = some (ins 57 (.load 16 (.inst 4))) ∧
    crcu8_intrinsic_ir.def? 57 = none := by
  exact ⟨crcRecognition_v2_canonical, recognizingCRC_v1_canonical, rfl, rfl, rfl, rfl⟩

/-! ## Functions outside the pattern, and the reported change -/

set_option maxRecDepth 8192 in
/-- C7 (code at the failing input): the 12-block function made of a first
block `start: br label %2` followed by the documented `crcu8` is well
terminated and has no dangling branch; the recognizer accepts its `ret`;
both rewrites of the crc-recognition pass return true and delete the block
`%2`, which `start` still branches to: the surviving terminator of `start`
targets a block that is no longer in the function. On the documented
11-block `crcu8` itself both results are well terminated and have no
dangling branch. -/
theorem C7_rewrite_leaves_dangling_branch :
    crcu8_after_branch_ir.blocksTerminated = true ∧
    crcu8_after_branch_ir.danglingTargets = [] ∧
    crcu8_after_branch_ir.backBack = some ⟨11, 1⟩ ∧
    CrcRecognition.recognizingUnoptimizedCRCInstructions crcu8_after_branch_ir ⟨11, 1⟩
      = some true ∧
    (∃ F', CrcRecognition.tryToRecognizeCRC32_v2 crcu8_after_branch_ir ⟨11, 1⟩ = some (true, F') ∧
      F'.blocks.map (·.id) = [200, 56] ∧
      ((F'.inst? ⟨0, 0⟩).map (·.op)) = some (.br 2) ∧
      F'.blockById 2 = none ∧ F'.danglingTargets = [2]) ∧
    (∃ F', CrcRecognition.tryToRecognizeCRC32_v1 crcu8_after_branch_ir ⟨11, 1⟩ = some (true, F') ∧
      F'.blocks.map (·.id) = [200, 56, 203, 204, 205, 202] ∧
      ((F'.inst? ⟨0, 0⟩).map (·.op)) = some (.br 2) ∧
      F'.blockById 2 = none ∧ F'.danglingTargets = [2]) ∧
    (crcu8_intrinsic_ir.blocksTerminated = true ∧ crcu8_intrinsic_ir.danglingTargets = [] ∧
      (crcu8_loop_ir (.inst 133)).blocksTerminated = true ∧
      (crcu8_loop_ir (.inst 133)).danglingTargets = []) := by
  refine ⟨rfl, rfl, rfl, rfl, ⟨_, rfl, rfl, rfl, rfl, rfl⟩, ⟨_, rfl, rfl, rfl, rfl, rfl⟩,
    rfl, rfl, rfl, rfl⟩

set_option maxRecDepth 8192 in
/-- C8 (code at the failing inputs): `none` is a null dereference.
The recognizer of the crc-recognition pass dereferences null when the last
instruction is not a return (`spin`), when the instruction before the return
is not a load (`sum`, which returns `a + b`), when nothing precedes the
return and when the return block is the first block. The recognizers of
`src/RecognizingCRC.cpp` return false in the first two cases and dereference
null in the last two. -/
theorem C8_recognizers_dereference_null :
    spin_ir.backBack = some ⟨1, 0⟩ ∧
    CrcRecognition.recognizingUnoptimizedCRCInstructions spin_ir ⟨1, 0⟩ = none ∧
    RecognizingCRC.matches_v1 spin_ir ⟨1, 0⟩ = some false ∧
    RecognizingCRC.matches_v2 spin_ir ⟨1, 0⟩ = some false ∧
    sum_ir.backBack = some ⟨0, 7⟩ ∧
    CrcRecognition.recognizingUnoptimizedCRCInstructions sum_ir ⟨0, 7⟩ = none ∧
    RecognizingCRC.matches_v1 sum_ir ⟨0, 7⟩ = some false ∧
    RecognizingCRC.matches_v2 sum_ir ⟨0, 7⟩ = some false ∧
    ret_only_ir.backBack = some ⟨0, 0⟩ ∧
    CrcRecognition.recognizingUnoptimizedCRCInstructions ret_only_ir ⟨0, 0⟩ = none ∧
    RecognizingCRC.matches_v1 ret_only_ir ⟨0, 0⟩ = none ∧
    RecognizingCRC.matches_v2 ret_only_ir ⟨0, 0⟩ = none ∧
    load_ret_ir.backBack = some ⟨0, 1⟩ ∧
    CrcRecognition.recognizingUnoptimizedCRCInstructions load_ret_ir ⟨0, 1⟩ = none ∧
    RecognizingCRC.matches_v1 load_ret_ir ⟨0, 1⟩ = none ∧
    RecognizingCRC.matches_v2 load_ret_ir ⟨0, 1⟩ = none ∧
    RecognizingCRC.tryToRecognizeCRC32_v1 load_ret_ir ⟨0, 1⟩ = none ∧
    CrcRecognition.tryToRecognizeCRC32_v1 sum_ir ⟨0, 7⟩ = none := by
  refine ⟨rfl, rfl, rfl, rfl, rfl, rfl, rfl, rfl, rfl, rfl, rfl, rfl, rfl, rfl, rfl, rfl, rfl, rfl⟩

set_option maxRecDepth 8192 in
/-- C10 (code at the failing input): with exactly one option set,
`RecognizingCRCPass::run` of `src/RecognizingCRC.cpp` rewrites the documented
`crcu8` (to the single-block intrinsic form under `use-option-one`, to the
five-block loop under `use-option-two`) and still returns
`PreservedAnalyses::all()`. -/
theorem C10_run_reports_all_preserved_after_rewrite :
    RecognizingCRC.run true false (crcu8_ir 16386 false)
      = some (PreservedAnalyses.all, crcu8_intrinsic_ir) ∧
    crcu8_intrinsic_ir ≠ crcu8_ir 16386 false ∧
    RecognizingCRC.run false true (crcu8_ir 16386 false)
      = some (PreservedAnalyses.all, crcu8_loop_ir (.inst 136)) ∧
    crcu8_loop_ir (.inst 136) ≠ crcu8_ir 16386 false ∧
    crcu8_intrinsic_ir.blocks.length = 1 ∧
    (crcu8_loop_ir (.inst 136)).blocks.length = 5 ∧
    (crcu8_ir 16386 false).blocks.length = 11 := by
  refine ⟨rfl, ?_, rfl, ?_, rfl, rfl, rfl⟩
  · intro h
    have := congrArg (fun F => F.blocks.length) h
    exact absurd this (by decide)
  · intro h
    have := congrArg (fun F => F.blocks.length) h
    exact absurd this (by decide)

/-! ## Running the pass twice -/

theorem modifyAt_length {α : Type} (f : α → α) : ∀ (n : Nat) (l : List α),
    (modifyAt f n l).length = l.length
  | n, [] => by cases n <;> rfl
  | 0, _ :: _ => rfl
  | n + 1, x :: xs => by simp [modifyAt, modifyAt_length f n xs]

theorem modifyAt_append_lt {α : Type} (f : α → α) : ∀ (n : Nat) (ys zs : List α),
    n < ys.length → modifyAt f n (ys ++ zs) = modifyAt f n ys ++ zs
  | _, [], _, h => by simp at h
  | 0, _ :: _, _, _ => rfl
  | n + 1, y :: ys, zs, h => by
    have h' : n < ys.length := by simpa using h
    simp [modifyAt, modifyAt_append_lt f n ys zs h']

theorem modifyAt_append_length {α : Type} (f : α → α) : ∀ (ys : List α) (z : α) (zs : List α),
    modifyAt f ys.length (ys ++ z :: zs) = ys ++ f z :: zs
  | [], _, _ => rfl
  | y :: ys, z, zs => by simp [modifyAt, modifyAt_append_length f ys z zs]

theorem EndsIn.length {F : Function} {L : Nat} {X : List Instr} (h : EndsIn F L X) :
    F.blocks.length = L + 1 := by
  obtain ⟨ys, B, hb, hl, _⟩ := h
  simp [hb, hl]

theorem EndsIn.inst? {F : Function} {L : Nat} {X : List Instr} (h : EndsIn F L X) (k : Nat) :
    F.inst? ⟨L, k⟩ = X[k]? := by
  obtain ⟨ys, B, hb, hl, hx⟩ := h
  simp [Function.inst?, hb, ← hl, ← hx]

theorem EndsIn.backBack {F : Function} {L : Nat} {X : List Instr} (h : EndsIn F L X)
    (hX : X ≠ []) : F.backBack = some ⟨L, X.length - 1⟩ := by
  obtain ⟨ys, B, hb, hl, hx⟩ := h
  subst hx
  have he : B.insts.isEmpty = false := by
    cases hB : B.insts with
    | nil => exact absurd hB hX
    | cons _ _ => rfl
  simp [Function.backBack, hb, hl, he]

theorem endsIn_of_backBack {F : Function} {I : InstPtr} (h : F.backBack = some I) :
    ∃ X, EndsIn F I.bb X ∧ X.length = I.idx + 1 := by
  unfold Function.backBack at h
  cases hl : F.blocks.getLast? with
  | none => simp [hl] at h
  | some B =>
    rw [hl] at h
    obtain ⟨ys, hys⟩ := List.getLast?_eq_some_iff.mp hl
    cases hB : B.insts with
    | nil => simp [hB] at h
    | cons x xs =>
      simp [hB] at h
      subst h
      refine ⟨x :: xs, ⟨ys, B, hys, ?_, hB⟩, ?_⟩
      · simp [hys]
      · simp

theorem modifyAt_of_length_le {α : Type} (f : α → α) : ∀ (n : Nat) (l : List α),
    l.length ≤ n → modifyAt f n l = l
  | n, [], _ => by cases n <;> rfl
  | 0, _ :: _, h => by simp at h
  | n + 1, x :: xs, h => by
    have h' : xs.length ≤ n := by simpa using h
    simp [modifyAt, modifyAt_of_length_le f n xs h']

theorem EndsIn.modify_other {F : Function} {L : Nat} {X : List Instr} (h : EndsIn F L X)
    (f : BasicBlock → BasicBlock) (b : Nat) (hb : b < L) :
    EndsIn { F with blocks := modifyAt f b F.blocks } L X := by
  obtain ⟨ys, B, hB, hl, hx⟩ := h
  refine ⟨modifyAt f b ys, B, ?_, ?_, hx⟩
  · show modifyAt f b F.blocks = _
    rw [hB, modifyAt_append_lt f b ys [B] (by omega)]
  · rw [modifyAt_length, hl]

theorem EndsIn.modify_last {F : Function} {L : Nat} {X : List Instr} (h : EndsIn F L X)
    (f : BasicBlock → BasicBlock) (Y : List Instr) (hf : ∀ B, B.insts = X → (f B).insts = Y) :
    EndsIn { F with blocks := modifyAt f L F.blocks } L Y := by
  obtain ⟨ys, B, hB, hl, hx⟩ := h
  refine ⟨ys, f B, ?_, hl, hf B hx⟩
  show modifyAt f L F.blocks = _
  rw [hB, ← hl, modifyAt_append_length]

theorem EndsIn.appendTo_other {F : Function} {L : Nat} {X : List Instr} (h : EndsIn F L X)
    (b : Nat) (new : List Instr) (hb : b < L) : EndsIn (F.appendTo b new) L X :=
  h.modify_other _ b hb

theorem EndsIn.appendTo_last {F : Function} {L : Nat} {X : List Instr} (h : EndsIn F L X)
    (new : List Instr) : EndsIn (F.appendTo L new) L (X ++ new) :=
  h.modify_last _ _ (fun B hB => by simp [hB])

theorem EndsIn.insertBefore_other {F : Function} {L : Nat} {X : List Instr} (h : EndsIn F L X)
    (p : InstPtr) (new : List Instr) (hb : p.bb < L) : EndsIn (F.insertBefore p new) L X :=
  h.modify_other _ p.bb hb

theorem EndsIn.insertBefore_last {F : Function} {L : Nat} {X : List Instr} (h : EndsIn F L X)
    (k : Nat) (new : List Instr) :
    EndsIn (F.insertBefore ⟨L, k⟩ new) L (X.take k ++ new ++ X.drop k) :=
  h.modify_last _ _ (fun B hB => by simp [hB])

theorem EndsIn.eraseAt_other {F : Function} {L : Nat} {X : List Instr} (h : EndsIn F L X)
    (p : InstPtr) (hb : p.bb < L) : EndsIn (F.eraseAt p) L X :=
  h.modify_other _ p.bb hb

theorem EndsIn.eraseAt_last {F : Function} {L : Nat} {X : List Instr} (h : EndsIn F L X)
    (k : Nat) : EndsIn (F.eraseAt ⟨L, k⟩) L (removeAt k X) :=
  h.modify_last _ _ (fun B hB => by simp [hB])

theorem EndsIn.setBlockName {F : Function} {L : Nat} {X : List Instr} (h : EndsIn F L X)
    (b : Nat) (name : String) : EndsIn (F.setBlockName b name) L X := by
  rcases Nat.lt_trichotomy b L with hlt | heq | hgt
  · exact h.modify_other _ b hlt
  · subst heq
    exact h.modify_last _ _ (fun B hB => by simp [hB])
  · obtain ⟨ys, B, hB, hl, hx⟩ := h
    refine ⟨ys, B, ?_, hl, hx⟩
    show modifyAt _ b F.blocks = _
    rw [hB, modifyAt_of_length_le]
    simp [hl]; omega

theorem EndsIn.createBlockAtEnd {F : Function} {L : Nat} {X : List Instr} (h : EndsIn F L X)
    (id : Nat) (name : String) : EndsIn (F.createBlockAtEnd id name) (L + 1) [] := by
  refine ⟨F.blocks, _, rfl, h.length, rfl⟩

theorem EndsIn.createBlockBefore {F : Function} {L : Nat} {X : List Instr} (h : EndsIn F L X)
    (b id : Nat) (name : String) (hb : b ≤ L) :
    EndsIn (F.createBlockBefore b id name) (L + 1) X := by
  obtain ⟨ys, B, hB, hl, hx⟩ := h
  refine ⟨ys.take b ++ [{ id := id, name := name, insts := [] }] ++ ys.drop b, B, ?_, ?_, hx⟩
  · show F.blocks.take b ++ _ ++ F.blocks.drop b = _
    rw [hB, List.take_append_of_le_length (by omega), List.drop_append_of_le_length (by omega)]
    simp
  · simp [hl]; omega

theorem EndsIn.mapValues {F : Function} {L : Nat} {X : List Instr} (h : EndsIn F L X)
    (f : Value → Value) : EndsIn (F.mapValues f) L (X.map (Instr.mapValues f)) := by
  obtain ⟨ys, B, hB, hl, hx⟩ := h
  refine ⟨ys.map (BasicBlock.mapValues f), B.mapValues f, ?_, by simp [hl], by simp [BasicBlock.mapValues, hx]⟩
  show F.blocks.map _ = _
  simp [hB]

theorem EndsIn.deleteDeadBlocks {F : Function} {L : Nat} {X : List Instr} (h : EndsIn F L X)
    (lo n : Nat) (hn : lo + n = L) :
    ∃ g, EndsIn (F.deleteDeadBlocks lo n) lo (X.map (Instr.mapValues g)) := by
  refine ⟨poisonDead (((F.blocks.drop lo).take n).flatMap fun B => B.insts.map (·.id)), ?_⟩
  obtain ⟨ys, B, hB, hl, hx⟩ :=
    h.mapValues (poisonDead (((F.blocks.drop lo).take n).flatMap fun B => B.insts.map (·.id)))
  refine ⟨ys.take lo, B, ?_, by simp [hl]; omega, hx⟩
  show List.take lo (Function.mapValues _ F).blocks
    ++ List.drop (lo + n) (Function.mapValues _ F).blocks = _
  rw [hB, hn, ← hl]
  simp
  omega

theorem removeAt_append_cons {α : Type} : ∀ (pre : List α) (x : α) (post : List α),
    removeAt pre.length (pre ++ x :: post) = pre ++ post
  | [], _, _ => rfl
  | p :: pre, x, post => by simp [removeAt, removeAt_append_cons pre x post]

/-- A list of at least two elements ends in two elements. -/
theorem exists_last_two {α : Type} (X : List α) (h : 2 ≤ X.length) :
    ∃ pre a b, X = pre ++ [a, b] ∧ pre.length = X.length - 2 := by
  refine ⟨X.take (X.length - 2), ?_⟩
  have hd : (X.drop (X.length - 2)).length = 2 := by simp; omega
  match hX : X.drop (X.length - 2), hd with
  | [a, b], _ =>
    refine ⟨a, b, ?_, by simp⟩
    rw [← hX, List.take_append_drop]

theorem EndsIn.eraseBeforeLast {F F' : Function} {L : Nat} {pre : List Instr} {a l b : Instr}
    (h : EndsIn F L (pre ++ [a, l, b])) (he : F.eraseBeforeLast = some F') :
    EndsIn F' L (pre ++ [a, b]) := by
  unfold Function.eraseBeforeLast at he
  rw [h.backBack (by simp)] at he
  simp at he
  subst he
  have := h.eraseAt_last (pre.length + 1)
  have e : removeAt (pre.length + 1) (pre ++ [a, l, b]) = pre ++ [a, b] := by
    have := removeAt_append_cons (pre ++ [a]) l [b]
    simpa using this
  rw [e] at this
  exact this

theorem EndsIn.eraseBeforeLast_of_eq {F F' : Function} {L : Nat} {X : List Instr}
    (h : EndsIn F L X) (pre : List Instr) (a l b : Instr) (hX : X = pre ++ [a, l, b])
    (he : F.eraseBeforeLast = some F') : EndsIn F' L (pre ++ [a, b]) := by
  subst hX
  exact h.eraseBeforeLast he

theorem Op.isKind_mapValues (f : Value → Value) (k : Kind) (op : Op) :
    (op.mapValues f).isKind k = op.isKind k := by
  cases op <;> cases k <;> first | rfl | (rename_i o _ _ _; cases o <;> rfl)

/-- A function whose last block ends in an instruction that is not a load,
followed by one more instruction, is rejected by the recognizers of
`src/RecognizingCRC.cpp` at their second check. -/
theorem second_check_rejects {F : Function} {L : Nat} {pre : List Instr} {a b : Instr}
    (h : EndsIn F L (pre ++ [a, b])) (ha : a.op.isKind .load = false) (addPat : Pat) :
    F.backBack = some ⟨L, pre.length + 1⟩ ∧
    runChecks F (RecognizingCRC.checks addPat) ⟨L, pre.length + 1⟩ = .reject := by
  constructor
  · rw [h.backBack (by simp)]
    simp
  · have h1 : F.inst? ⟨L, pre.length + 1⟩ = some b := by
      rw [h.inst?, List.getElem?_append_right (by omega)]; simp
    have h0 : F.inst? ⟨L, pre.length⟩ = some a := by
      rw [h.inst?, List.getElem?_append_right (by omega)]; simp
    show runChecks F (Check.isa .ret .reject :: Check.prev .load .reject :: _) _ = _
    by_cases hr : b.op.isKind .ret = true
    · simp [runChecks, Check.run, castAt, h1, h0, hr, ha, OnNull.walk]
    · simp [runChecks, Check.run, castAt, h1, hr, OnNull.walk]

theorem tenPrevBlocks_eq {b lo : Nat} (h : tenPrevBlocks b = some lo) : lo + 10 = b := by
  unfold tenPrevBlocks at h
  split at h
  · simp at h; omega
  · simp at h

/-- After the intrinsic rewrite the last block ends in the call of the
intrinsic followed by one instruction. -/
theorem rewriteToIntrinsic_endsIn {F F' : Function} {I : InstPtr}
    (hI : F.backBack = some I) (h : rewriteToIntrinsic F I = some F') :
    ∃ L pre a b, EndsIn F' L (pre ++ [a, b]) ∧ a.op.isKind .load = false := by
  obtain ⟨X, hX, hlen⟩ := endsIn_of_backBack hI
  unfold rewriteToIntrinsic at h
  split at h
  · simp at h
  · rename_i hidx
    dsimp only at h
    split at h
    · rename_i li t1 t2 lo hli ht1 ht2 hlo
      have hlo' := tenPrevBlocks_eq hlo
      obtain ⟨pre, l, b, hXe, hpl⟩ := exists_last_two X (by omega)
      have hk : I.idx - 1 = pre.length := by omega
      have hs : ∀ new : List Instr,
          X.take (I.idx - 1) ++ new ++ X.drop (I.idx - 1) = pre ++ (new ++ [l, b]) := by
        intro new
        rw [hk, hXe]
        simp
      have E1 := hX.insertBefore_last (I.idx - 1)
        [insn F.freshId "" (.call crcIntrinsic [.arg 0, .arg 1])]
      rw [hs] at E1
      have E2 := E1.mapValues (fun v => if v = .inst li.id then Value.inst F.freshId else v)
      obtain ⟨g, E3⟩ := E2.deleteDeadBlocks lo 10 hlo'
      simp only [List.map_append, List.map_cons, List.map_nil, List.singleton_append] at E3
      have E4 := E3.eraseBeforeLast h
      exact ⟨lo, _, _, _, E4, rfl⟩
    · simp at h

theorem EndsIn.appendTo_last_eq {F : Function} {L : Nat} {X : List Instr} (h : EndsIn F L X)
    (b : Nat) (new : List Instr) (hb : b = L) : EndsIn (F.appendTo b new) L (X ++ new) := by
  subst hb; exact h.appendTo_last new

theorem EndsIn.insertBefore_last_eq {F : Function} {L : Nat} {X : List Instr} (h : EndsIn F L X)
    (p : InstPtr) (new : List Instr) (hb : p.bb = L) :
    EndsIn (F.insertBefore p new) L (X.take p.idx ++ new ++ X.drop p.idx) := by
  subst hb; exact h.insertBefore_last p.idx new

/-- After the loop synthesis of `src/RecognizingCRC.cpp` the last block ends
in the truncation `conv14` followed by one instruction. -/
theorem synthesizeLoop_endsIn {F F' : Function} {I : InstPtr}
    (hI : F.backBack = some I) (h : RecognizingCRC.synthesizeLoop F I = some F') :
    ∃ L pre a b, EndsIn F' L (pre ++ [a, b]) ∧ a.op.isKind .load = false := by
  obtain ⟨X, hX, hlen⟩ := endsIn_of_backBack hI
  unfold RecognizingCRC.synthesizeLoop at h
  split at h
  · rename_i t1 t2 lo ht1 ht2 hlo
    have hlo' := tenPrevBlocks_eq hlo
    split at h
    · simp at h
    · lift_lets at h
      extract_lets F1 LIfinal n F2 F3 LIfinal3 F4 at h
      obtain ⟨g, E1⟩ : ∃ g, EndsIn F1 lo (X.map (Instr.mapValues g)) :=
        hX.deleteDeadBlocks lo 10 hlo'
      have E2 : EndsIn F2 lo _ := E1.setBlockName lo "entry"
      have E3 : EndsIn F3 lo _ := E2.insertBefore_last_eq LIfinal _ rfl
      have E4 : EndsIn F4 (lo + 1) [] := E3.createBlockAtEnd n "for.end"
      split at h
      · rename_i I1 I2 hI1 hI2
        lift_lets at h
        extract_lets F5 F6 F7 F8 F9 len F10 F11 F12 F13 F14 F15 at h
        have E5 : EndsIn F5 (lo + 1) [] :=
          (E4.eraseAt_other LIfinal3 (by show lo < lo + 1; omega)).eraseAt_other LIfinal3
            (by show lo < lo + 1; omega)
        have E6 : EndsIn F6 (lo + 1) ([] ++ [I1, I2]) :=
          E5.appendTo_last_eq _ _ (by have := E5.length; omega)
        have E7 : EndsIn F7 (lo + 2) _ :=
          E6.createBlockBefore _ _ _ (by have := E6.length; omega)
        have E8 : EndsIn F8 (lo + 3) _ :=
          E7.createBlockBefore _ _ _ (by have := E7.length; omega)
        have E9 : EndsIn F9 (lo + 4) _ :=
          E8.createBlockBefore _ _ _ (by have := E8.length; omega)
        have hlen9 : len = lo + 5 := E9.length
        have E10 : EndsIn F10 (lo + 4) _ := E9.appendTo_other _ _ (by omega)
        have E11 : EndsIn F11 (lo + 4) _ := E10.appendTo_other _ _ (by omega)
        have E12 : EndsIn F12 (lo + 4) _ := E11.appendTo_other _ _ (by omega)
        have E13 : EndsIn F13 (lo + 4) _ := E12.appendTo_other _ _ (by omega)
        have E14 : EndsIn F14 (lo + 4) _ :=
          E13.insertBefore_last_eq ⟨len - 1, 0⟩ _ (by show len - 1 = lo + 4; omega)
        have E15 : EndsIn F15 (lo + 4) _ := E14.mapValues _
        have E16 := E15.eraseBeforeLast_of_eq [_] _ _ _ rfl h
        exact ⟨lo + 4, _, _, _, E16, rfl⟩
      · simp at h
  · simp at h

theorem v1_rejects_after_rewrite {F : Function} {L : Nat} {pre : List Instr} {a b : Instr}
    (h : EndsIn F L (pre ++ [a, b])) (ha : a.op.isKind .load = false) :
    ∃ I', F.backBack = some I' ∧ RecognizingCRC.tryToRecognizeCRC32_v1 F I' = some (false, F) := by
  obtain ⟨h1, h2⟩ := second_check_rejects h ha (.binop .add .value .value)
  refine ⟨_, h1, ?_⟩
  simp only [RecognizingCRC.tryToRecognizeCRC32_v1, RecognizingCRC.matches_v1, h2, Walk.toResult]

theorem v2_rejects_after_rewrite {F : Function} {L : Nat} {pre : List Instr} {a b : Instr}
    (h : EndsIn F L (pre ++ [a, b])) (ha : a.op.isKind .load = false) :
    ∃ I', F.backBack = some I' ∧ RecognizingCRC.tryToRecognizeCRC32_v2 F I' = some (false, F) := by
  obtain ⟨h1, h2⟩ := second_check_rejects h ha (.binop .add (.load .value) (.specificInt 1))
  refine ⟨_, h1, ?_⟩
  simp only [RecognizingCRC.tryToRecognizeCRC32_v2, RecognizingCRC.matches_v2, h2, Walk.toResult]

/-- After a completed `tryToRecognizeCRC32_v1` on the last instruction, the
same call on the result returns false and changes nothing. -/
theorem v1_second_call {F F' : Function} {I : InstPtr} {b : Bool}
    (hI : F.backBack = some I)
    (h : RecognizingCRC.tryToRecognizeCRC32_v1 F I = some (b, F')) :
    ∃ I', F'.backBack = some I' ∧
      RecognizingCRC.tryToRecognizeCRC32_v1 F' I' = some (false, F') := by
  unfold RecognizingCRC.tryToRecognizeCRC32_v1 at h
  split at h
  · simp at h
  · rename_i hm
    simp only [Option.some.injEq, Prod.mk.injEq] at h
    obtain ⟨_, rfl⟩ := h
    refine ⟨I, hI, ?_⟩
    simp only [RecognizingCRC.tryToRecognizeCRC32_v1, hm]
  · cases hr : rewriteToIntrinsic F I with
    | none => simp [hr] at h
    | some G =>
      simp only [hr, Option.map_some', Option.some.injEq, Prod.mk.injEq] at h
      obtain ⟨_, rfl⟩ := h
      obtain ⟨L, pre, a, b, hE, ha⟩ := rewriteToIntrinsic_endsIn hI hr
      exact v1_rejects_after_rewrite hE ha

theorem v2_second_call {F F' : Function} {I : InstPtr} {b : Bool}
    (hI : F.backBack = some I)
    (h : RecognizingCRC.tryToRecognizeCRC32_v2 F I = some (b, F')) :
    ∃ I', F'.backBack = some I' ∧
      RecognizingCRC.tryToRecognizeCRC32_v2 F' I' = some (false, F') := by
  unfold RecognizingCRC.tryToRecognizeCRC32_v2 at h
  split at h
  · simp at h
  · rename_i hm
    simp only [Option.some.injEq, Prod.mk.injEq] at h
    obtain ⟨_, rfl⟩ := h
    refine ⟨I, hI, ?_⟩
    simp only [RecognizingCRC.tryToRecognizeCRC32_v2, hm]
  · cases hr : RecognizingCRC.synthesizeLoop F I with
    | none => simp [hr] at h
    | some G =>
      simp only [hr, Option.map_some', Option.some.injEq, Prod.mk.injEq] at h
      obtain ⟨_, rfl⟩ := h
      obtain ⟨L, pre, a, b, hE, ha⟩ := synthesizeLoop_endsIn hI hr
      exact v2_rejects_after_rewrite hE ha

/-- C9: whenever `RecognizingCRCPass::run` of `src/RecognizingCRC.cpp`, with
exactly one of its two options set, completes on a function, the recognizer
it selects returns false on the last instruction of the resulting function
and leaves it as it is, and a second run of the pass returns that same
function. -/
theorem C9_second_run_changes_nothing (one two : Bool) (hx : one ≠ two) (F F' : Function)
    (pa : PreservedAnalyses) (h : RecognizingCRC.run one two F = some (pa, F')) :
    (∃ I', F'.backBack = some I' ∧
      (if one then RecognizingCRC.tryToRecognizeCRC32_v1 F' I'
        else RecognizingCRC.tryToRecognizeCRC32_v2 F' I') = some (false, F')) ∧
    RecognizingCRC.run one two F' = some (PreservedAnalyses.all, F') := by
  cases one <;> cases two
  · exact absurd rfl hx
  · simp only [RecognizingCRC.run, Bool.false_and, Bool.not_false, Bool.and_self, if_true,
      Bool.false_eq_true, if_false] at h ⊢
    cases hb : F.backBack with
    | none => simp [hb] at h
    | some I =>
      cases hv : RecognizingCRC.tryToRecognizeCRC32_v2 F I with
      | none => simp [hb, hv] at h
      | some r =>
        obtain ⟨b, G⟩ := r
        simp only [hb, hv, Option.map_some', Option.some.injEq, Prod.mk.injEq] at h
        obtain ⟨_, rfl⟩ := h
        obtain ⟨I', h1, h2⟩ := v2_second_call hb hv
        refine ⟨⟨I', h1, h2⟩, ?_⟩
        simp only [h1, h2, Option.map_some']
  · simp only [RecognizingCRC.run, Bool.not_false, Bool.and_self, if_true] at h ⊢
    cases hb : F.backBack with
    | none => simp [hb] at h
    | some I =>
      cases hv : RecognizingCRC.tryToRecognizeCRC32_v1 F I with
      | none => simp [hb, hv] at h
      | some r =>
        obtain ⟨b, G⟩ := r
        simp only [hb, hv, Option.map_some', Option.some.injEq, Prod.mk.injEq] at h
        obtain ⟨_, rfl⟩ := h
        obtain ⟨I', h1, h2⟩ := v1_second_call hb hv
        refine ⟨⟨I', h1, h2⟩, ?_⟩
        simp only [h1, h2, Option.map_some']
  · exact absurd rfl hx

set_option maxRecDepth 8192 in
/-- C9 on the documented `crcu8` under `use-option-one`. -/
theorem C9_second_run_changes_nothing_witness :
    (true ≠ false ∧
      RecognizingCRC.run true false (crcu8_ir 16386 false)
        = some (PreservedAnalyses.all, crcu8_intrinsic_ir)) ∧
    (∃ I', crcu8_intrinsic_ir.backBack = some I' ∧
      (if true then RecognizingCRC.tryToRecognizeCRC32_v1 crcu8_intrinsic_ir I'
        else RecognizingCRC.tryToRecognizeCRC32_v2 crcu8_intrinsic_ir I')
        = some (false, crcu8_intrinsic_ir)) ∧
    RecognizingCRC.run true false crcu8_intrinsic_ir
      = some (PreservedAnalyses.all, crcu8_intrinsic_ir) :=
  ⟨⟨by decide, rfl⟩,
    C9_second_run_changes_nothing true false (by decide) (crcu8_ir 16386 false)
      crcu8_intrinsic_ir PreservedAnalyses.all rfl⟩

/-! ## The number of rounds of the synthesized loops -/

theorem traceFrom_jump (F : Function) (args : List Nat) (fuel id dst : Nat) (e e' : Env)
    (B : BasicBlock) (hB : F.blockById id = some B)
    (hx : execInsts args B.insts e = some (.jump e' dst)) :
    F.traceFrom args (fuel + 1) id e
      = (F.traceFrom args fuel dst e').map fun r => (r.1, id :: r.2) := by
  simp only [Function.traceFrom, hB, hx]
  cases F.traceFrom args fuel dst e' <;> rfl

theorem traceFrom_done (F : Function) (args : List Nat) (fuel id v : Nat) (e : Env)
    (B : BasicBlock) (hB : F.blockById id = some B)
    (hx : execInsts args B.insts e = some (.done v)) :
    F.traceFrom args (fuel + 1) id e = some (v, [id]) := by
  simp only [Function.traceFrom, hB, hx]

/-- The value of a traced run is the value of the run. -/
theorem traceFrom_fst (F : Function) (args : List Nat) : ∀ (fuel id : Nat) (e : Env),
    (F.traceFrom args fuel id e).map Prod.fst = F.runFrom args fuel id e
  | 0, _, _ => rfl
  | fuel + 1, id, e => by
    simp only [Function.traceFrom, Function.runFrom]
    cases F.blockById id with
    | none => rfl
    | some B =>
      dsimp only
      cases hx : execInsts args B.insts e with
      | none => rfl
      | some r =>
        cases r with
        | fall e' => rfl
        | done v => rfl
        | jump e' d =>
          dsimp only
          rw [← traceFrom_fst F args fuel d e']
          cases F.traceFrom args fuel d e' <;> rfl

theorem loopTrace_count (k : Nat) : (loopTrace k).count 129 = k := by
  induction k with
  | zero => decide
  | succ k ih => simp [loopTrace, ih]

/-- From `for.cond` with `k` rounds left, the loop of the crc-recognition
pass enters `for.body` `k` more times and then `for.end`. -/
theorem loop_trace (args : List Nat) (k : Nat) : ∀ (fuel : Nat) (e : Env) (d c : Nat),
    k ≤ 8 → LoopInv e d c (8 - k) → d < 256 → c < 65536 → 3 * k + 2 ≤ fuel →
    (crcu8_loop_ir (.inst 133)).traceFrom args fuel 128 e = some (optRounds k c, loopTrace k) := by
  induction k with
  | zero =>
    intro fuel e d c _ hinv hd hc hf
    obtain ⟨f, rfl⟩ : ∃ f, fuel = f + 1 + 1 := ⟨fuel - 2, by omega⟩
    obtain ⟨e1, hx1, hinv1⟩ := (forCond_exit args e d c hinv).elim
    rw [traceFrom_jump _ args (f + 1) 128 127 e e1 _ (loop_ir_block_cond _) hx1]
    rw [traceFrom_done _ args f 127 c e1 _ (loop_ir_block_end _)
      (forEnd_done args e1 d c 8 hinv1 hc)]
    rfl
  | succ k ih =>
    intro fuel e d c hk hinv hd hc hf
    obtain ⟨f, rfl⟩ : ∃ f, fuel = f + 1 + 1 + 1 := ⟨fuel - 3, by omega⟩
    have hi : 8 - (k + 1) < 8 := by omega
    obtain ⟨e1, hx1, hinv1⟩ := (forCond_enter args e d c _ hinv hi).elim
    obtain ⟨e2, hx2, hinv2⟩ := (forBody_step args e1 d c _ hinv1 hd hc).elim
    obtain ⟨e3, hx3, hinv3⟩ := (forInc_step args e2 _ _ _ hinv2 hi).elim
    rw [traceFrom_jump _ args (f + 2) 128 129 e e1 _ (loop_ir_block_cond _) hx1]
    rw [traceFrom_jump _ args (f + 1) 129 130 e1 e2 _ (loop_ir_block_body _) hx2]
    rw [traceFrom_jump _ args f 130 128 e2 e3 _ (loop_ir_block_inc _) hx3]
    have hi' : 8 - (k + 1) + 1 = 8 - k := by omega
    rw [hi'] at hinv3
    rw [ih f e3 _ _ (by omega) hinv3 (by omega) (crcRound_lt _ hc) (by omega)]
    rfl

/-- The loop synthesized by the crc-recognition pass (`for.cond` loads the
slot `i`) enters `for.body` exactly 8 times on every input and returns. -/
theorem loop_ir_trace {data crc : Nat} (hd : data < 256) (hc : crc < 65536) (fuel : Nat)
    (hf : 27 ≤ fuel) :
    (crcu8_loop_ir (.inst 133)).trace [data, crc] fuel
      = some (refRounds 8 data crc, 56 :: loopTrace 8) := by
  obtain ⟨f, rfl⟩ : ∃ f, fuel = f + 1 := ⟨fuel - 1, by omega⟩
  obtain ⟨e1, hx1, hinv1⟩ := (entry_run data crc hd hc).elim
  have hx : crc ^^^ data < 65536 := by
    have := @Nat.xor_lt_two_pow crc data 16 (by omega) (by omega)
    simpa using this
  show (crcu8_loop_ir (.inst 133)).traceFrom [data, crc] (f + 1) 56 { regs := [], mem := [] } = _
  rw [traceFrom_jump _ [data, crc] f 56 128 _ e1 _ (loop_ir_block_entry _) hx1]
  rw [loop_trace [data, crc] 8 f e1 data (crc ^^^ data) (by omega) hinv1 hd hx (by omega)]
  rw [optRounds_eq_refRounds hd]
  rfl

theorem forCond_crc_enter (args : List Nat) (e : Env) (d c i : Nat) (h : LoopInv e d c i)
    (hc : c % 256 < 8) :
    JumpsTo (execInsts args (forCondInsts 127 (.inst 136)) e) 129 (fun e' => LoopInv e' d c i) := by
  obtain ⟨h1, h2, h3, h4, c0, x, y, hm⟩ := h
  have t1 : truncTo 8 c = c % 256 := rfl
  have t2 : toSigned 32 (c % 256) = ((c % 256 : Nat) : Int) := toSigned_of_lt (by norm_num; omega)
  have t3 : toSigned 32 8 = 8 := by decide
  have t4 : ((c % 256 : Nat) : Int) < 8 := by omega
  simp [forCondInsts, insn, execInsts, execInst, evalValue, lookupReg, Env.setReg, h1, h2, h3, h4, hm,
    evalCast, evalPred, t1, t2, t3, LoopInv, JumpsTo]
  omega

theorem forInc_wrap (args : List Nat) (e : Env) (d c i : Nat) (h : LoopInv e d c i) :
    JumpsTo (execInsts args (forIncInsts 127) e) 128
      (fun e' => LoopInv e' d c (truncTo 8 (truncTo 8 i + 1))) := by
  obtain ⟨h1, h2, h3, h4, c0, x, y, hm⟩ := h
  simp [forIncInsts, insn, execInsts, execInst, evalValue, lookupReg, Env.setReg, h1, h2, h3, h4, hm,
    evalBinOp, LoopInv, JumpsTo, setSlot]

/-- With a zero accumulator the loop of `src/RecognizingCRC.cpp` (`for.cond`
loads the slot `crc`) stays in the loop whatever the fuel. -/
theorem loop_crc_spins (args : List Nat) : ∀ (fuel : Nat) (e : Env) (i : Nat),
    LoopInv e 0 0 i →
    (crcu8_loop_ir (.inst 136)).runFrom args fuel 128 e = none ∧
    (crcu8_loop_ir (.inst 136)).runFrom args fuel 129 e = none ∧
    (crcu8_loop_ir (.inst 136)).runFrom args fuel 130 e = none := by
  intro fuel
  induction fuel with
  | zero => intro e i _; exact ⟨rfl, rfl, rfl⟩
  | succ f ih =>
    intro e i hinv
    obtain ⟨e1, hx1, hinv1⟩ := (forCond_crc_enter args e 0 0 i hinv (by decide)).elim
    obtain ⟨e2, hx2, hinv2⟩ := (forBody_step args e 0 0 i hinv (by decide) (by decide)).elim
    obtain ⟨e3, hx3, hinv3⟩ := (forInc_wrap args e 0 0 i hinv).elim
    refine ⟨?_, ?_, ?_⟩
    · rw [runFrom_jump _ args f 128 129 e e1 _ (loop_ir_block_cond _) hx1]
      exact (ih e1 i hinv1).2.1
    · rw [runFrom_jump _ args f 129 130 e e2 _ (loop_ir_block_body _) hx2]
      exact (ih e2 i hinv2).2.2
    · rw [runFrom_jump _ args f 130 128 e e3 _ (loop_ir_block_inc _) hx3]
      exact (ih e3 _ hinv3).1

theorem loop_crc_never_returns (fuel : Nat) :
    (crcu8_loop_ir (.inst 136)).exec [0, 0] fuel = none := by
  cases fuel with
  | zero => rfl
  | succ f =>
    obtain ⟨e1, hx1, hinv1⟩ := (entry_run 0 0 (by decide) (by decide)).elim
    rw [loop_ir_exec_eq]
    rw [runFrom_jump _ [0, 0] f 56 128 _ e1 _ (loop_ir_block_entry _) hx1]
    exact (loop_crc_spins [0, 0] f e1 0 hinv1).1

/-- C11 (code at the failing inputs): the loop that `tryToRecognizeCRC32_v2`
of `src/RecognizingCRC.cpp` makes of the documented `crcu8` tests in
`for.cond` the low byte of the slot `crc`, not the counter `i`. Called on
`(241, 40261)` it enters `entry`, `for.cond`, `for.end` and returns without
entering `for.body` at all; called on `(0, 0)` it never reaches `for.end`,
whatever the fuel. The loop of the crc-recognition pass, which tests `i`,
enters `for.body` exactly 8 times on every input. -/
theorem C11_v2_loop_round_count :
    RecognizingCRC.tryToRecognizeCRC32_v2 (crcu8_ir 16386 false) ⟨10, 1⟩
      = some (true, crcu8_loop_ir (.inst 136)) ∧
    ((crcu8_loop_ir (.inst 136)).blocks.map fun B => (B.id, B.name))
      = [(56, "entry"), (128, "for.cond"), (129, "for.body"), (130, "for.inc"), (127, "for.end")] ∧
    (∀ fuel, (crcu8_loop_ir (.inst 136)).trace [241, 40261] (fuel + 3)
      = some (40372, [56, 128, 127])) ∧
    ([56, 128, 127] : List Nat).count 129 = 0 ∧
    (∀ fuel, (crcu8_loop_ir (.inst 136)).exec [0, 0] fuel = none) ∧
    (∀ data crc fuel, data < 256 → crc < 65536 → 27 ≤ fuel →
      ∃ r tr, (crcu8_loop_ir (.inst 133)).trace [data, crc] fuel = some (r, tr) ∧
        tr.count 129 = 8 ∧ tr.getLast? = some 127) := by
  refine ⟨recognizingCRC_v2_canonical, rfl, fun fuel => rfl, rfl, loop_crc_never_returns, ?_⟩
  intro data crc fuel hd hc hf
  exact ⟨_, _, loop_ir_trace hd hc fuel hf, by decide, by decide⟩

/-! ## The blocks handed to `DeleteDeadBlocks` -/

theorem modifyAt_map_eq {α β : Type} (f : α → α) (g : α → β) (hg : ∀ x, g (f x) = g x) :
    ∀ (n : Nat) (l : List α), (modifyAt f n l).map g = l.map g
  | n, [] => by cases n <;> rfl
  | 0, x :: xs => by simp [modifyAt, hg]
  | n + 1, x :: xs => by simp [modifyAt, modifyAt_map_eq f g hg n xs]

theorem insertBefore_ids (F : Function) (p : InstPtr) (new : List Instr) :
    (F.insertBefore p new).blocks.map (·.id) = F.blocks.map (·.id) := by
  show (modifyAt _ p.bb F.blocks).map (fun B : BasicBlock => B.id) = _
  apply modifyAt_map_eq
  intro B
  rfl

theorem eraseAt_ids (F : Function) (p : InstPtr) :
    (F.eraseAt p).blocks.map (·.id) = F.blocks.map (·.id) := by
  show (modifyAt _ p.bb F.blocks).map (fun B : BasicBlock => B.id) = _
  apply modifyAt_map_eq
  intro B
  rfl

theorem mapValues_ids (F : Function) (f : Value → Value) :
    (F.mapValues f).blocks.map (·.id) = F.blocks.map (·.id) := by
  simp [Function.mapValues, BasicBlock.mapValues, List.map_map, Function.comp_def]

theorem eraseBeforeLast_ids {F F' : Function} (h : F.eraseBeforeLast = some F') :
    F'.blocks.map (·.id) = F.blocks.map (·.id) := by
  unfold Function.eraseBeforeLast at h
  split at h
  · exact absurd h (by simp)
  · split at h
    · exact absurd h (by simp)
    · cases h
      exact eraseAt_ids _ _

theorem deleteDeadBlocks_ids (F : Function) (lo n : Nat) :
    (F.deleteDeadBlocks lo n).blocks.map (·.id)
      = (F.blocks.map (·.id)).take lo ++ (F.blocks.map (·.id)).drop (lo + n) := by
  simp only [Function.deleteDeadBlocks, List.map_append, List.map_take, List.map_drop,
    mapValues_ids]

theorem blockIdsAt_eq (F : Function) (lo n : Nat) :
    F.blockIdsAt lo n = ((F.blocks.map (·.id)).drop lo).take n := by
  simp [Function.blockIdsAt, List.map_take, List.map_drop]

/-- The intrinsic rewrite is its first part followed by the deletion of the
ten blocks and the erasure of the instruction before the last. -/
theorem rewriteToIntrinsic_eq (F : Function) (I : InstPtr) :
    rewriteToIntrinsic F I
      = (atDeleteDeadBlocks F I).bind fun r => (r.1.deleteDeadBlocks r.2 10).eraseBeforeLast := by
  unfold rewriteToIntrinsic atDeleteDeadBlocks
  split
  · rfl
  · dsimp only
    cases F.inst? { bb := I.bb, idx := I.idx - 1 } <;> cases F.args[0]? <;>
      cases F.args[1]? <;> cases tenPrevBlocks I.bb <;> rfl

/-- C12 (counterexample): on the documented `crcu8`, where the recognizer
returns true on the return instruction, the intrinsic rewrite passes to
`DeleteDeadBlocks` the blocks `%2, %8, %12, %29, %34, %35, %42, %47, %52, %53`;
at that moment `%2` is the entry block of the function and every one of the
ten is reachable from it, so it is false that each block passed is
unreachable from the entry. The loop rewrite passes the same ten blocks of
the function as it found it. -/
theorem C12_deleted_blocks_are_reachable :
    CrcRecognition.recognizingUnoptimizedCRCInstructions (crcu8_ir 16386 false) ⟨10, 1⟩ = some true ∧
    ∃ F2, atDeleteDeadBlocks (crcu8_ir 16386 false) ⟨10, 1⟩ = some (F2, 0) ∧
      F2.blockIdsAt 0 10 = [2, 8, 12, 29, 34, 35, 42, 47, 52, 53] ∧
      F2.blocks.head?.map (·.id) = some 2 ∧
      (∀ b ∈ F2.blockIdsAt 0 10, b ∈ F2.reachable) ∧
      ¬ (∀ b ∈ F2.blockIdsAt 0 10, b ∉ F2.reachable) ∧
      tenPrevBlocks 10 = some 0 ∧
      (∀ b ∈ (crcu8_ir 16386 false).blockIdsAt 0 10, b ∈ (crcu8_ir 16386 false).reachable) := by
  refine ⟨rfl, _, rfl, rfl, rfl, by decide, ?_, rfl, by decide⟩
  intro h
  exact absurd (h 2 (by decide)) (by decide)

/-- The blocks that the intrinsic rewrite passes to `DeleteDeadBlocks` are
the ten blocks at the positions before the block of `I`; these ten are
missing from the result. -/
theorem rewriteToIntrinsic_deletes_ten (F F' : Function) (I : InstPtr)
    (h : rewriteToIntrinsic F I = some F') :
    ∃ F2 lo, atDeleteDeadBlocks F I = some (F2, lo) ∧ lo + 10 = I.bb ∧
      F2.blockIdsAt lo 10 = F.blockIdsAt lo 10 ∧
      (F2.blockIdsAt lo 10).length = 10 ∧
      F2.blocks.map (·.id) = F.blocks.map (·.id) ∧
      F'.blocks.map (·.id) = (F.blocks.map (·.id)).take lo ++ (F.blocks.map (·.id)).drop (lo + 10) ∧
      (I.bb = 10 → (F2.blockIdsAt lo 10).head? = F2.blocks.head?.map (·.id)) := by
  rw [rewriteToIntrinsic_eq] at h
  cases hd : atDeleteDeadBlocks F I with
  | none => rw [hd] at h; exact absurd h (by simp)
  | some r =>
    obtain ⟨F2, lo⟩ := r
    rw [hd] at h
    simp only [Option.some_bind] at h
    have hids : F2.blocks.map (·.id) = F.blocks.map (·.id) ∧ lo + 10 = I.bb ∧
        I.bb < F.blocks.length := by
      unfold atDeleteDeadBlocks at hd
      split at hd
      · exact absurd hd (by simp)
      · dsimp only at hd
        split at hd
        · next li _ _ lo' hli _ _ hlo =>
          cases hd
          refine ⟨?_, ?_, ?_⟩
          · rw [Function.replaceAllUsesWith, mapValues_ids, insertBefore_ids]
          · unfold tenPrevBlocks at hlo
            split at hlo
            · cases hlo; omega
            · exact absurd hlo (by simp)
          · unfold Function.inst? at hli
            dsimp only at hli
            by_contra hlt
            rw [List.getElem?_eq_none (by omega)] at hli
            simp at hli
        · exact absurd hd (by simp)
    obtain ⟨h1, h2, h3⟩ := hids
    refine ⟨F2, lo, rfl, h2, ?_, ?_, h1, ?_, ?_⟩
    · rw [blockIdsAt_eq, blockIdsAt_eq, h1]
    · rw [blockIdsAt_eq, h1]
      simp
      omega
    · rw [eraseBeforeLast_ids h, deleteDeadBlocks_ids, h1]
    · intro hb
      have hlo : lo = 0 := by omega
      subst hlo
      rw [blockIdsAt_eq]
      cases hbl : F2.blocks.map (·.id) with
      | nil =>
        have : F2.blocks = [] := by simpa using hbl
        simp [this]
      | cons a l =>
        have : F2.blocks.head?.map (·.id) = (F2.blocks.map (·.id)).head? := by
          cases F2.blocks <;> rfl
        rw [this, hbl]
        rfl

set_option maxRecDepth 8192 in
theorem rewriteToIntrinsic_canonical :
    rewriteToIntrinsic (crcu8_ir 16386 false) ⟨10, 1⟩ = some crcu8_intrinsic_ir := by
  rfl

/-- The first statement group of a recognizer that goes on has found an
instruction of the class it casts to. -/
theorem runChecks_isa_kind {F : Function} {k : Kind} {n : OnNull} {cs : List Check}
    {p q : InstPtr} (h : runChecks F (.isa k n :: cs) p = .at q) :
    ∃ i, F.inst? p = some i ∧ i.op.isKind k = true := by
  rw [runChecks] at h
  cases hc : (Check.isa k n).run F p with
  | fault => rw [hc] at h; exact absurd h (by simp)
  | reject => rw [hc] at h; exact absurd h (by simp)
  | «at» m =>
    simp only [Check.run] at hc
    unfold castAt at hc
    cases hi : F.inst? p with
    | none => rw [hi] at hc; exact absurd hc (by simp)
    | some i =>
      rw [hi] at hc
      dsimp only at hc
      split at hc
      · rename_i hk
        exact ⟨i, rfl, hk⟩
      · cases n <;> exact absurd hc (by simp [OnNull.walk])

/-- The recognizer of the crc-recognition pass accepts only at a `ret`. -/
theorem crcRecognition_accepts_at_ret {F : Function} {I : InstPtr}
    (h : CrcRecognition.recognizingUnoptimizedCRCInstructions F I = some true) :
    ∃ i, F.inst? I = some i ∧ i.op.isKind .ret = true := by
  unfold CrcRecognition.recognizingUnoptimizedCRCInstructions at h
  split at h
  · exact absurd h (by simp)
  cases h1 : runChecks F CrcRecognition.checksToIfThen I with
  | fault => rw [h1] at h; exact absurd h (by simp [Walk.toResult])
  | reject => rw [h1] at h; exact absurd h (by simp [Walk.toResult])
  | «at» BI => exact runChecks_isa_kind h1

/-- The matching part of `src/RecognizingCRC.cpp` accepts only at a `ret`. -/
theorem recognizingCRC_accepts_at_ret {F : Function} {I : InstPtr} (addPat : Pat)
    (h : (runChecks F (RecognizingCRC.checks addPat) I).toResult = some true) :
    ∃ i, F.inst? I = some i ∧ i.op.isKind .ret = true := by
  cases h1 : runChecks F (RecognizingCRC.checks addPat) I with
  | fault => rw [h1] at h; exact absurd h (by simp [Walk.toResult])
  | reject => rw [h1] at h; exact absurd h (by simp [Walk.toResult])
  | «at» q => exact runChecks_isa_kind h1

/-- A `ret` has no successor. -/
theorem Op.targets_of_ret {op : Op} (h : op.isKind .ret = true) : op.targets = [] := by
  cases op <;> first | rfl | exact absurd h (by simp [Op.isKind])

/-- In a function of `n` blocks followed by a last block that ends in a
`ret`, no block outside the first `n` branches to one of them. -/
theorem outsidePredecessors_of_ret {F : Function} {n : Nat} {X : List Instr} {t : Instr}
    (h : EndsIn F n X) (hl : X.getLast? = some t) (hr : t.op.isKind .ret = true) :
    F.outsidePredecessors 0 n = [] := by
  obtain ⟨ys, B, hB, hn, hX⟩ := h
  have hs : B.successors = [] := by
    unfold BasicBlock.successors
    rw [hX, hl]
    exact Op.targets_of_ret hr
  unfold Function.outsidePredecessors
  rw [hB, ← hn]
  simp [hs]

theorem mem_addUnseen_of_mem {b : Nat} : ∀ (new seen : List Nat), b ∈ seen → b ∈ addUnseen seen new
  | [], _, h => h
  | x :: new, seen, h => by
    unfold addUnseen
    rw [List.foldl_cons]
    apply mem_addUnseen_of_mem new
    split
    · exact h
    · exact List.mem_append_left _ h

theorem mem_iterate_reachStep (F : Function) {b : Nat} {seen : List Nat} (h : b ∈ seen) :
    ∀ n, b ∈ Nat.iterate F.reachStep n seen
  | 0 => h
  | n + 1 => by
    rw [Function.iterate_succ_apply']
    exact mem_addUnseen_of_mem _ _ (mem_iterate_reachStep F h n)

/-- The entry block is reachable from the entry. -/
theorem entry_mem_reachable {F : Function} {e : Nat} (h : F.blocks.head?.map (·.id) = some e) :
    e ∈ F.reachable := by
  unfold Function.reachable
  cases hb : F.blocks with
  | nil => rw [hb] at h; exact absurd h (by simp)
  | cons B rest =>
    rw [hb] at h
    simp only [List.head?_cons, Option.map_some', Option.some.injEq] at h
    subst h
    exact mem_iterate_reachStep F (List.mem_singleton.2 rfl) _

/-- What the intrinsic rewrite has made of a function whose last block is
`X` when it calls `DeleteDeadBlocks`: the last block is still the last one,
and its last instruction is the one of `X` with its operands replaced. -/
theorem atDeleteDeadBlocks_endsIn {F F2 : Function} {I : InstPtr} {lo : Nat} {X : List Instr}
    {t : Instr} (hX : EndsIn F I.bb X) (hlen : X.length = I.idx + 1)
    (ht : X[I.idx]? = some t) (h : atDeleteDeadBlocks F I = some (F2, lo)) :
    ∃ X2 g, EndsIn F2 I.bb X2 ∧ X2.getLast? = some (t.mapValues g) := by
  unfold atDeleteDeadBlocks at h
  split at h
  · exact absurd h (by simp)
  · rename_i hidx
    dsimp only at h
    split at h
    · rename_i li t1 t2 lo2 hli ht1 ht2 hlo
      simp only [Option.some.injEq, Prod.mk.injEq] at h
      obtain ⟨hF2, _⟩ := h
      subst hF2
      have E1 := hX.insertBefore_last (I.idx - 1)
        [insn F.freshId "" (.call crcIntrinsic [.arg 0, .arg 1])]
      have E2 := E1.mapValues (fun v => if v = .inst li.id then Value.inst F.freshId else v)
      refine ⟨_, (fun v => if v = .inst li.id then Value.inst F.freshId else v), E2, ?_⟩
      have hlast : X.getLast? = some t := by
        rw [List.getLast?_eq_getElem?, hlen]
        simpa using ht
      have hd : (X.drop (I.idx - 1)).getLast? = some t := by
        rw [List.getLast?_drop, if_neg (by omega), hlast]
      rw [List.getLast?_map, List.getLast?_append, hd]
      rfl
    · exact absurd h (by simp)

/-- C12 (as amended): when the function handed to the rewrite is ten blocks
followed by its return block (the return instruction `I` is the last
instruction of the function and its block is the eleventh), as the
documented `crcu8` is, and `tryToRecognizeCRC32_v2` of the crc-recognition
pass or `tryToRecognizeCRC32_v1` of `src/RecognizingCRC.cpp` returns true,
then at the moment of the call of `DeleteDeadBlocks` the blocks passed are
the ten blocks before the return block, no block outside these ten branches
to one of them, the entry block is one of the ten and is reachable from the
entry, and the block that is left is the return block. -/
theorem C12_passed_blocks_have_no_outside_predecessor (F F' : Function) (I : InstPtr)
    (hI : F.backBack = some I) (hbb : I.bb = 10)
    (h : CrcRecognition.tryToRecognizeCRC32_v2 F I = some (true, F') ∨
      RecognizingCRC.tryToRecognizeCRC32_v1 F I = some (true, F')) :
    ∃ F2, atDeleteDeadBlocks F I = some (F2, 0) ∧
      F2.blocks.length = 11 ∧
      F2.blockIdsAt 0 10 = F.blockIdsAt 0 10 ∧
      (F2.blockIdsAt 0 10).length = 10 ∧
      F2.outsidePredecessors 0 10 = [] ∧
      (∃ e, F2.blocks.head?.map (·.id) = some e ∧ e ∈ F2.blockIdsAt 0 10 ∧ e ∈ F2.reachable) ∧
      F'.blocks.map (·.id) = (F.blocks.map (·.id)).drop 10 ∧
      F'.blocks.length = 1 := by
  have hboth : (∃ i, F.inst? I = some i ∧ i.op.isKind .ret = true) ∧
      rewriteToIntrinsic F I = some F' := by
    rcases h with h | h
    · unfold CrcRecognition.tryToRecognizeCRC32_v2 at h
      cases hr : CrcRecognition.recognizingUnoptimizedCRCInstructions F I with
      | none => rw [hr] at h; exact absurd h (by simp)
      | some b =>
        cases b
        · rw [hr] at h; exact absurd h (by simp)
        · rw [hr] at h
          refine ⟨crcRecognition_accepts_at_ret hr, ?_⟩
          cases hw : rewriteToIntrinsic F I with
          | none => rw [hw] at h; exact absurd h (by simp)
          | some G => rw [hw] at h; simpa using h
    · unfold RecognizingCRC.tryToRecognizeCRC32_v1 at h
      cases hr : RecognizingCRC.matches_v1 F I with
      | none => rw [hr] at h; exact absurd h (by simp)
      | some b =>
        cases b
        · rw [hr] at h; exact absurd h (by simp)
        · rw [hr] at h
          refine ⟨recognizingCRC_accepts_at_ret _ hr, ?_⟩
          cases hw : rewriteToIntrinsic F I with
          | none => rw [hw] at h; exact absurd h (by simp)
          | some G => rw [hw] at h; simpa using h
  obtain ⟨⟨t, hti, htr⟩, hrw⟩ := hboth
  obtain ⟨F2, lo, hat, hlo, hids, hlen10, hall, hres, _⟩ := rewriteToIntrinsic_deletes_ten F F' I hrw
  have hlo0 : lo = 0 := by omega
  subst hlo0
  obtain ⟨X, hX, hlen⟩ := endsIn_of_backBack hI
  have htX : X[I.idx]? = some t := by rw [← hX.inst? I.idx]; exact hti
  obtain ⟨X2, g, hX2, hlast⟩ := atDeleteDeadBlocks_endsIn hX hlen htX hat
  rw [hbb] at hX2 hX
  have hlen2 : F2.blocks.length = 11 := hX2.length
  have hlenF : F.blocks.length = 11 := hX.length
  refine ⟨F2, hat, hlen2, hids, hlen10, ?_, ?_, ?_, ?_⟩
  · exact outsidePredecessors_of_ret hX2 hlast
      (by rw [Instr.mapValues]; rw [Op.isKind_mapValues]; exact htr)
  · cases hb : F2.blocks with
    | nil => rw [hb] at hlen2; exact absurd hlen2 (by simp)
    | cons B rest =>
      have hh : F2.blocks.head?.map (·.id) = some B.id := by rw [hb]; rfl
      refine ⟨B.id, rfl, ?_, entry_mem_reachable hh⟩
      unfold Function.blockIdsAt
      rw [hb]
      simp
  · simpa using hres
  · have : (F'.blocks.map (·.id)).length = 1 := by
      rw [hres]
      simp
      omega
    simpa using this

set_option maxRecDepth 8192 in
/-- C12 as amended, on the documented `crcu8`. -/
theorem C12_passed_blocks_have_no_outside_predecessor_witness :
    (crcu8_ir 16386 false).backBack = some ⟨10, 1⟩ ∧
    CrcRecognition.tryToRecognizeCRC32_v2 (crcu8_ir 16386 false) ⟨10, 1⟩
      = some (true, crcu8_intrinsic_ir) ∧
    ∃ F2, atDeleteDeadBlocks (crcu8_ir 16386 false) ⟨10, 1⟩ = some (F2, 0) ∧
      F2.blocks.length = 11 ∧
      F2.blockIdsAt 0 10 = (crcu8_ir 16386 false).blockIdsAt 0 10 ∧
      (F2.blockIdsAt 0 10).length = 10 ∧
      F2.outsidePredecessors 0 10 = [] ∧
      (∃ e, F2.blocks.head?.map (·.id) = some e ∧ e ∈ F2.blockIdsAt 0 10 ∧ e ∈ F2.reachable) ∧
      crcu8_intrinsic_ir.blocks.map (·.id) = ((crcu8_ir 16386 false).blocks.map (·.id)).drop 10 ∧
      crcu8_intrinsic_ir.blocks.length = 1 :=
  ⟨rfl, rfl,
    C12_passed_blocks_have_no_outside_predecessor (crcu8_ir 16386 false) crcu8_intrinsic_ir
      ⟨10, 1⟩ rfl rfl (Or.inl rfl)⟩

/-! ## The count-trailing-zeros table -/

namespace AggressiveInstCombine

/-- Bits of `2 ^ n - 2 ^ s`, the value of `APInt::getBitsSetFrom(n, s)`. -/
theorem testBit_two_pow_sub_two_pow {n s : Nat} (h : s ≤ n) (i : Nat) :
    (2 ^ n - 2 ^ s).testBit i = (decide (s ≤ i) && decide (i < n)) := by
  have e : 2 ^ n - 2 ^ s = (2 ^ (n - s) - 1) <<< s := by
    rw [Nat.shiftLeft_eq, Nat.sub_mul, ← Nat.pow_add, Nat.sub_add_cancel h, Nat.one_mul]
  rw [e, Nat.testBit_shiftLeft, Nat.testBit_two_pow_sub_one]
  by_cases h1 : s ≤ i <;> by_cases h2 : i < n <;> simp [h1, h2] <;> omega

/-- The index expression of `isCTTZTable` extracts the bits `Shift ..
InputBits - 1` of the product. -/
theorem masked_index_eq (y Shift InputBits : Nat) (hS : Shift ≤ InputBits) (hI : InputBits ≤ 64) :
    (y % 2 ^ 64 &&& (2 ^ InputBits - 2 ^ Shift)) >>> Shift = (y % 2 ^ InputBits) >>> Shift := by
  apply Nat.eq_of_testBit_eq
  intro i
  simp only [Nat.testBit_shiftRight, Nat.testBit_and, Nat.testBit_mod_two_pow,
    testBit_two_pow_sub_two_pow hS]
  by_cases h2 : Shift + i < InputBits
  · have h3 : Shift + i < 64 := by omega
    simp [h2, h3]
  · simp [h2]

theorem foldl_count {α : Type} (c : α → Bool) (l : List α) : ∀ m : Nat,
    l.foldl (fun m i => if c i then m + 1 else m) m = m + l.countP c := by
  induction l with
  | nil => intro m; rfl
  | cons a l ih =>
    intro m
    rw [List.foldl_cons, ih, List.countP_cons]
    by_cases h : c a
    · simp [h]; omega
    · simp [h]

theorem countP_range_eq_card (c : Nat → Bool) (n : Nat) :
    (List.range n).countP c = ((Finset.range n).filter fun i => c i = true).card := by
  rw [List.countP_eq_length_filter, ← List.toFinset_card_of_nodup
    ((List.nodup_range n).filter _)]
  congr 1
  ext i
  simp

/-- The acceptance test of `isCTTZTable` as a count. -/
theorem isCTTZTable_eq (Table : List Nat) (Mul Shift InputBits : Nat)
    (hlen : Table.length < 2 ^ 32) (hI : InputBits ≤ 64) (hS : Shift ≤ InputBits) :
    isCTTZTable Table Mul Shift InputBits
      = (decide (InputBits ≤ Table.length) && decide (Table.length ≤ InputBits * 2) &&
          decide (((Finset.range Table.length).filter fun i =>
            Table.getD i 0 < InputBits ∧
              ((Mul * 2 ^ Table.getD i 0) % 2 ^ InputBits) >>> Shift = i).card = InputBits)) := by
  have hL : Table.length % 2 ^ 32 = Table.length := Nat.mod_eq_of_lt hlen
  have hI2 : InputBits * 2 % 2 ^ 64 = InputBits * 2 := Nat.mod_eq_of_lt (by omega)
  unfold isCTTZTable
  simp only [hL, hI2]
  by_cases h1 : Table.length < InputBits
  · have : ¬ InputBits ≤ Table.length := by omega
    simp [h1, this]
  by_cases h2 : Table.length > InputBits * 2
  · have : ¬ Table.length ≤ InputBits * 2 := by omega
    simp [h2, this]
  have h1' : InputBits ≤ Table.length := by omega
  have h2' : Table.length ≤ InputBits * 2 := by omega
  have hf : (fun (Matched : Nat) (i : Nat) =>
      if Table.getD i 0 ≥ InputBits then Matched
      else if ((Mul <<< Table.getD i 0) % 2 ^ 64 &&& (2 ^ InputBits - 2 ^ Shift)) >>> Shift = i
        then Matched + 1 else Matched)
      = fun (Matched : Nat) (i : Nat) =>
        if (decide (Table.getD i 0 < InputBits ∧
            ((Mul * 2 ^ Table.getD i 0) % 2 ^ InputBits) >>> Shift = i)) = true
        then Matched + 1 else Matched := by
    funext m i
    rw [masked_index_eq _ _ _ hS hI, Nat.shiftLeft_eq]
    by_cases h3 : Table.getD i 0 ≥ InputBits
    · have h4 : ¬ (Table.getD i 0 < InputBits ∧
          ((Mul * 2 ^ Table.getD i 0) % 2 ^ InputBits) >>> Shift = i) := fun h => by omega
      rw [if_pos h3, if_neg (by rw [decide_eq_true_eq]; exact h4)]
    · rw [if_neg h3]
      by_cases h5 : ((Mul * 2 ^ Table.getD i 0) % 2 ^ InputBits) >>> Shift = i
      · rw [if_pos h5, if_pos (decide_eq_true ⟨by omega, h5⟩)]
      · rw [if_neg h5, if_neg (by rw [decide_eq_true_eq]; exact fun h => h5 h.2)]
  simp only [h1, h2, Bool.or_self, Bool.false_eq_true, if_false, hf, h1', h2', decide_True,
    Bool.true_and]
  rw [foldl_count, countP_range_eq_card, Nat.zero_add]
  simp only [decide_eq_true_eq]
  rw [Bool.eq_iff_iff]
  simp

/-- A table passes the count exactly when every answer `k` sits at its index. -/
theorem card_matched_eq_iff (Table : List Nat) (idx : Nat → Nat) (n : Nat) :
    ((Finset.range Table.length).filter fun i =>
        Table.getD i 0 < n ∧ idx (Table.getD i 0) = i).card = n
      ↔ ∀ k, k < n → idx k < Table.length ∧ Table[idx k]? = some k := by
  constructor
  · intro hc k hk
    have hsub : ((Finset.range Table.length).filter fun i =>
        Table.getD i 0 < n ∧ idx (Table.getD i 0) = i).image (fun i => Table.getD i 0)
          ⊆ Finset.range n := by
      intro x hx
      simp only [Finset.mem_image, Finset.mem_filter, Finset.mem_range] at hx
      obtain ⟨i, ⟨_, hi, _⟩, rfl⟩ := hx
      exact Finset.mem_range.mpr hi
    have hinj : Set.InjOn (fun i => Table.getD i 0)
        ↑((Finset.range Table.length).filter fun i =>
          Table.getD i 0 < n ∧ idx (Table.getD i 0) = i) := by
      intro a ha b hb hab
      simp only [Finset.coe_filter, Finset.mem_range, Set.mem_setOf_eq] at ha hb
      have h1 := ha.2.2
      have h2 := hb.2.2
      simp only at hab
      rw [← h1, ← h2, hab]
    have hcard := Finset.card_image_of_injOn hinj
    have heq := Finset.eq_of_subset_of_card_le hsub (by rw [hcard, hc, Finset.card_range])
    have hk' : k ∈ Finset.range n := Finset.mem_range.mpr hk
    rw [← heq] at hk'
    simp only [Finset.mem_image, Finset.mem_filter, Finset.mem_range] at hk'
    obtain ⟨i, ⟨hi, _, hidx⟩, hik⟩ := hk'
    rw [hik] at hidx
    rw [hidx]
    refine ⟨hi, ?_⟩
    rw [List.getElem?_eq_getElem hi]
    rw [List.getD_eq_getElem _ _ hi] at hik
    rw [hik]
  · intro h
    have himg : ((Finset.range Table.length).filter fun i =>
        Table.getD i 0 < n ∧ idx (Table.getD i 0) = i) = (Finset.range n).image idx := by
      ext i
      simp only [Finset.mem_image, Finset.mem_filter, Finset.mem_range]
      constructor
      · rintro ⟨_, h1, h2⟩
        exact ⟨_, h1, h2⟩
      · rintro ⟨k, hk, rfl⟩
        obtain ⟨h1, h2⟩ := h k hk
        have h3 : Table.getD (idx k) 0 = k := by
          rw [List.getD_eq_getElem?_getD, h2]
          rfl
        exact ⟨h1, by rw [h3]; exact hk, by rw [h3]⟩
    rw [himg, Finset.card_image_of_injOn, Finset.card_range]
    intro a ha b hb hab
    simp only [Finset.coe_range, Set.mem_Iio] at ha hb
    have h1 := (h a ha).2
    have h2 := (h b hb).2
    rw [hab, h2] at h1
    exact (Option.some.inj h1).symm

/-- C13: for `InputBits` 32 or 64, `Shift < InputBits` and
`Mul < 2 ^ InputBits`, and a table of fewer than `2 ^ 32` elements (`Length`
is an `unsigned`), `isCTTZTable` returns true exactly when the table has
between `InputBits` and `2 * InputBits` elements and every `k` below
`InputBits` is stored at the index `((Mul * 2 ^ k) mod 2 ^ InputBits) >> Shift`,
which lies inside the table. The documented 32-entry table is accepted with
`Mul = 0x077CB531` and `Shift = 27`. -/
theorem C13_isCTTZTable_iff (Table : List Nat) (Mul Shift InputBits : Nat)
    (hI : InputBits = 32 ∨ InputBits = 64) (hS : Shift < InputBits) (_hM : Mul < 2 ^ InputBits)
    (hlen : Table.length < 2 ^ 32) :
    (isCTTZTable Table Mul Shift InputBits = true ↔
      InputBits ≤ Table.length ∧ Table.length ≤ 2 * InputBits ∧
      ∀ k, k < InputBits →
        ((Mul * 2 ^ k) % 2 ^ InputBits) >>> Shift < Table.length ∧
        Table[((Mul * 2 ^ k) % 2 ^ InputBits) >>> Shift]? = some k) ∧
    isCTTZTable ctzTable32 0x077CB531 27 32 = true := by
  refine ⟨?_, by decide⟩
  have hI' : InputBits ≤ 64 := by omega
  rw [isCTTZTable_eq Table Mul Shift InputBits hlen hI' (by omega)]
  simp only [Bool.and_eq_true, decide_eq_true_eq]
  rw [card_matched_eq_iff Table (fun k => ((Mul * 2 ^ k) % 2 ^ InputBits) >>> Shift) InputBits]
  constructor
  · rintro ⟨⟨h1, h2⟩, h3⟩
    exact ⟨h1, by omega, h3⟩
  · rintro ⟨h1, h2, h3⟩
    exact ⟨⟨h1, by omega⟩, h3⟩

/-- C13 on the documented table. -/
theorem C13_isCTTZTable_iff_witness :
    ((32 : Nat) = 32 ∨ (32 : Nat) = 64) ∧ 27 < 32 ∧ 0x077CB531 < 2 ^ 32 ∧
    ctzTable32.length < 2 ^ 32 ∧
    ((isCTTZTable ctzTable32 0x077CB531 27 32 = true ↔
      32 ≤ ctzTable32.length ∧ ctzTable32.length ≤ 2 * 32 ∧
      ∀ k, k < 32 →
        ((0x077CB531 * 2 ^ k) % 2 ^ 32) >>> 27 < ctzTable32.length ∧
        ctzTable32[((0x077CB531 * 2 ^ k) % 2 ^ 32) >>> 27]? = some k) ∧
    isCTTZTable ctzTable32 0x077CB531 27 32 = true) :=
  ⟨Or.inl rfl, by decide, by decide, by decide,
    C13_isCTTZTable_iff ctzTable32 0x077CB531 27 32 (Or.inl rfl) (by decide) (by decide)
      (by decide)⟩

end AggressiveInstCombine

/-! ## Chains of `and` and `or` over the bits of one value -/

namespace AggressiveInstCombine

/-- What a successful `matchChainLeaf V MOps` leaves in `M`. -/
theorem matchChainLeaf_spec (V : Val) (MOps M : MaskOps)
    (h : matchChainLeaf V MOps = (true, M)) :
    M.BitWidth = MOps.BitWidth ∧ M.MatchAndChain = MOps.MatchAndChain ∧
    M.FoundAnd1 = MOps.FoundAnd1 ∧
    M.Root = some (leafSource V) ∧ (∀ R0, MOps.Root = some R0 → R0 = leafSource V) ∧
    (∀ p, leafShift V = some p → p.2 < MOps.BitWidth) ∧
    M.Mask = MOps.Mask ||| 2 ^ leafIndex V := by
  obtain ⟨r, m, w, a, f⟩ := MOps
  cases hs : leafShift V with
  | none =>
    cases r with
    | none =>
      simp [matchChainLeaf, leafSource, leafIndex, hs] at h ⊢
      subst h
      simp
    | some R0 =>
      simp [matchChainLeaf, leafSource, leafIndex, hs] at h ⊢
      obtain ⟨h1, h2⟩ := h
      subst h2
      simp [h1]
  | some p =>
    obtain ⟨c, k⟩ := p
    cases r with
    | none =>
      simp [matchChainLeaf, leafSource, leafIndex, hs] at h ⊢
      split at h
      · exact absurd (congrArg Prod.fst h) (by simp)
      · have h2 := congrArg Prod.snd h
        simp only at h2
        subst h2
        simp
        omega
    | some R0 =>
      simp [matchChainLeaf, leafSource, leafIndex, hs] at h ⊢
      split at h
      · exact absurd (congrArg Prod.fst h) (by simp)
      · have h1 := congrArg Prod.fst h
        have h2 := congrArg Prod.snd h
        simp only [decide_eq_true_eq] at h1
        simp only at h2
        subst h2
        simp [h1]
        omega

/-- A leaf with an out-of-range shift constant fails. -/
theorem matchChainLeaf_out_of_range (V : Val) (MOps : MaskOps) (c : Val) (k : Nat)
    (hs : leafShift V = some (c, k)) (hk : MOps.BitWidth ≤ k) :
    (matchChainLeaf V MOps).1 = false ∧
    (matchChainLeaf V MOps).2.BitWidth = MOps.BitWidth ∧
    (matchChainLeaf V MOps).2.MatchAndChain = MOps.MatchAndChain := by
  obtain ⟨r, m, w, a, f⟩ := MOps
  cases r <;> simp [matchChainLeaf, hs] <;> simp at hk <;> simp [hk]

/-- Whatever the outcome, `matchChainLeaf` keeps the width and the mode. -/
theorem matchChainLeaf_frame (V : Val) (MOps : MaskOps) :
    (matchChainLeaf V MOps).2.BitWidth = MOps.BitWidth ∧
    (matchChainLeaf V MOps).2.MatchAndChain = MOps.MatchAndChain := by
  obtain ⟨r, m, w, a, f⟩ := MOps
  unfold matchChainLeaf
  cases r <;> simp <;> split <;> simp

theorem matchAndOrChain_frame (V : Val) : ∀ MOps : MaskOps,
    (matchAndOrChain V MOps).2.BitWidth = MOps.BitWidth ∧
    (matchAndOrChain V MOps).2.MatchAndChain = MOps.MatchAndChain := by
  induction V with
  | bin id uses op a b iha ihb =>
    intro MOps
    unfold matchAndOrChain
    split
    · split
      · exact iha _
      · split
        · have h0 := iha MOps
          rcases hr : matchAndOrChain a MOps with ⟨ok, M1⟩
          rw [hr] at h0
          cases ok
          · exact h0
          · have h1 := ihb M1
            simp only at h0 ⊢
            rw [h1.1, h1.2, h0.1, h0.2]
            exact ⟨rfl, rfl⟩
        · exact matchChainLeaf_frame _ _
    · split
      · have h0 := iha MOps
        rcases hr : matchAndOrChain a MOps with ⟨ok, M1⟩
        rw [hr] at h0
        cases ok
        · exact h0
        · have h1 := ihb M1
          simp only at h0 ⊢
          rw [h1.1, h1.2, h0.1, h0.2]
          exact ⟨rfl, rfl⟩
      · exact matchChainLeaf_frame _ _
  | _ => intro MOps; exact matchChainLeaf_frame _ _

theorem testBit_or_two_pow (m k c : Nat) :
    (m ||| 2 ^ k).testBit c = (m.testBit c || (k == c)) := by
  rw [Nat.testBit_or, Nat.testBit_two_pow]
  by_cases h : k = c <;> simp [h]

/-- A successful `matchAndOrChain` meets `ChainSpec`. -/
theorem matchAndOrChain_spec (V : Val) : ∀ (MOps M : MaskOps),
    matchAndOrChain V MOps = (true, M) → ChainSpec V MOps M := by
  have leaf : ∀ (V : Val) (MOps M : MaskOps), matchChainLeaf V MOps = (true, M) →
      chainLeaves MOps.MatchAndChain V = [V] → (MOps.MatchAndChain && chainHasAnd1 V) = false →
      ChainSpec V MOps M := by
    intro V MOps M h hl ha
    obtain ⟨h1, h2, h3, h4, h5, h6, h7⟩ := matchChainLeaf_spec V MOps M h
    refine ⟨h1, h2, by rw [h3, ha, Bool.or_false], leafSource V, h4, h5, ?_, ?_⟩
    · intro l hmem
      rw [hl, List.mem_singleton] at hmem
      subst hmem
      exact ⟨rfl, h6⟩
    · intro c
      rw [h7, hl, testBit_or_two_pow]
      simp
  have pair : ∀ (a b : Val) (MOps M : MaskOps) (V : Val),
      (∀ (MOps M : MaskOps), matchAndOrChain a MOps = (true, M) → ChainSpec a MOps M) →
      (∀ (MOps M : MaskOps), matchAndOrChain b MOps = (true, M) → ChainSpec b MOps M) →
      (match matchAndOrChain a MOps with
        | (true, MOps1) => matchAndOrChain b MOps1
        | r => r) = (true, M) →
      chainLeaves MOps.MatchAndChain V
        = chainLeaves MOps.MatchAndChain a ++ chainLeaves MOps.MatchAndChain b →
      (MOps.MatchAndChain && chainHasAnd1 V)
        = (MOps.MatchAndChain && (chainHasAnd1 a || chainHasAnd1 b)) →
      ChainSpec V MOps M := by
    intro a b MOps M V iha ihb h hl hand
    rcases hr : matchAndOrChain a MOps with ⟨ok, M1⟩
    rw [hr] at h
    cases ok with
    | false => exact absurd (congrArg Prod.fst h) (by simp)
    | true =>
      simp only at h
      obtain ⟨a1, a2, a3, R1, a4, a5, a6, a7⟩ := iha MOps M1 hr
      obtain ⟨b1, b2, b3, R, b4, b5, b6, b7⟩ := ihb M1 M h
      have hR : R1 = R := b5 R1 a4
      subst hR
      refine ⟨by rw [b1, a1], by rw [b2, a2], ?_, R1, b4, a5, ?_, ?_⟩
      · rw [b3, a3, a2, hand]
        cases MOps.FoundAnd1 <;> cases MOps.MatchAndChain <;> cases chainHasAnd1 a <;>
          cases chainHasAnd1 b <;> rfl
      · intro l hmem
        rw [hl, List.mem_append] at hmem
        rcases hmem with hmem | hmem
        · exact a6 l hmem
        · rw [← a2] at hmem
          have := b6 l hmem
          rw [a1] at this
          exact this
      · intro c
        rw [b7, a7, a2, hl, List.any_append, Bool.or_assoc]
  induction V with
  | bin id uses op a b iha ihb =>
    intro MOps M h
    unfold matchAndOrChain at h
    by_cases hm : MOps.MatchAndChain = true
    · rw [if_pos hm] at h
      by_cases h1 : op = .and ∧ b.isInt 1 = true
      · rw [if_pos h1] at h
        obtain ⟨a1, a2, a3, R, a4, a5, a6, a7⟩ := iha _ M h
        simp only at a1 a2 a3 a5 a6 a7
        have hl : chainLeaves MOps.MatchAndChain (.bin id uses op a b)
            = chainLeaves MOps.MatchAndChain a := by
          rw [chainLeaves, if_pos hm, if_pos h1]
        have ha : chainHasAnd1 (.bin id uses op a b) = true := by
          rw [chainHasAnd1, if_pos h1]
        refine ⟨a1, a2, by rw [a3, ha, hm]; simp, R, a4, a5, ?_, ?_⟩
        · rw [hl]; exact a6
        · rw [hl]; exact a7
      · rw [if_neg h1] at h
        by_cases h2 : op = .and
        · rw [if_pos h2] at h
          refine pair a b MOps M _ iha ihb h ?_ ?_
          · rw [chainLeaves, if_pos hm, if_neg h1, if_pos h2]
          · rw [chainHasAnd1, if_neg h1, if_pos h2]
        · rw [if_neg h2] at h
          refine leaf _ MOps M h ?_ ?_
          · rw [chainLeaves, if_pos hm, if_neg h1, if_neg h2]
          · rw [chainHasAnd1, if_neg h1, if_neg h2, Bool.and_false]
    · rw [if_neg hm] at h
      have hm' : MOps.MatchAndChain = false := by simpa using hm
      by_cases h2 : op = .or
      · rw [if_pos h2] at h
        refine pair a b MOps M _ iha ihb h ?_ ?_
        · rw [chainLeaves, if_neg hm, if_pos h2]
        · rw [hm', Bool.false_and, Bool.false_and]
      · rw [if_neg h2] at h
        refine leaf _ MOps M h ?_ ?_
        · rw [chainLeaves, if_neg hm, if_neg h2]
        · rw [hm', Bool.false_and]
  | _ =>
    intro MOps M h
    exact leaf _ MOps M h rfl (by simp [chainHasAnd1])


/-- A leaf taken as a shift is a shift right by a constant. -/
theorem leafShift_eq_some {V c : Val} {k : Nat} (h : leafShift V = some (c, k)) :
    ∃ id uses bits, V = .bin id uses .lshr c (.const bits k) := by
  cases V with
  | bin id uses op a b =>
    unfold leafShift Val.asBin at h
    by_cases ho : op = .lshr
    · simp only [ho, if_true] at h
      cases b with
      | const bits v =>
        simp only [Val.asInt, Option.map_some', Option.some.injEq, Prod.mk.injEq] at h
        obtain ⟨h1, h2⟩ := h
        subst h1 h2 ho
        exact ⟨id, uses, bits, rfl⟩
      | _ => simp [Val.asInt] at h
    · simp [ho] at h
  | _ => simp [leafShift, Val.asBin] at h

theorem Val.isInt_eq_true {V : Val} {c : Nat} (h : V.isInt c = true) :
    ∃ bits, V = .const bits c := by
  cases V with
  | const bits v =>
    simp only [Val.isInt, Val.asInt, beq_iff_eq, Option.some.injEq] at h
    subst h
    exact ⟨bits, rfl⟩
  | _ => simp [Val.isInt, Val.asInt] at h

theorem Val.asBin_eq_some {V a b : Val} {op : Opcode} (h : V.asBin op = some (a, b)) :
    ∃ id uses, V = .bin id uses op a b := by
  cases V with
  | bin id uses o x y =>
    unfold Val.asBin at h
    by_cases ho : o = op
    · simp only [ho, if_true, Option.some.injEq, Prod.mk.injEq] at h
      obtain ⟨h1, h2⟩ := h
      subst h1 h2 ho
      exact ⟨id, uses, rfl⟩
    · simp [ho] at h
  | _ => simp [Val.asBin] at h

/-- Value of a leaf whose source has the value `x`. -/
theorem eval_leaf (w : Nat) (env : Nat → Nat) (R l : Val) (x : Nat)
    (hsrc : leafSource l = R) (hidx : ∀ p, leafShift l = some p → p.2 < w)
    (hx : eval w env R = some x) :
    eval w env l = some (x >>> leafIndex l) := by
  cases hs : leafShift l with
  | none =>
    have : l = R := by simpa [leafSource, hs] using hsrc
    subst this
    simp [leafIndex, hs, hx]
  | some p =>
    obtain ⟨c, k⟩ := p
    have hk : k < w := hidx _ hs
    have hc : c = R := by simpa [leafSource, hs] using hsrc
    subst hc
    obtain ⟨id, uses, bits, rfl⟩ := leafShift_eq_some hs
    have hk2 : k % 2 ^ w = k := Nat.mod_eq_of_lt (Nat.lt_trans hk (Nat.lt_two_pow w))
    simp [eval, hx, evalOp, hk2, hk, leafIndex, hs]

/-- Value of an `or` chain over the bits of `x`. -/
theorem eval_or_chain (w : Nat) (env : Nat → Nat) (R : Val) (x : Nat)
    (hx : eval w env R = some x) (V : Val) :
    (∀ l ∈ chainLeaves false V, leafSource l = R ∧ ∀ p, leafShift l = some p → p.2 < w) →
    ∃ y, eval w env V = some y ∧
      ∀ j, y.testBit j = (chainLeaves false V).any fun l => x.testBit (leafIndex l + j) := by
  have leaf : ∀ V : Val, chainLeaves false V = [V] →
      (∀ l ∈ chainLeaves false V, leafSource l = R ∧ ∀ p, leafShift l = some p → p.2 < w) →
      ∃ y, eval w env V = some y ∧
        ∀ j, y.testBit j = (chainLeaves false V).any fun l => x.testBit (leafIndex l + j) := by
    intro V hl h
    have hV := h V (by rw [hl]; exact List.mem_singleton.mpr rfl)
    refine ⟨_, eval_leaf w env R V x hV.1 hV.2 hx, ?_⟩
    intro j
    rw [hl, Nat.testBit_shiftRight]
    simp
  induction V with
  | bin id uses op a b iha ihb =>
    intro h
    by_cases ho : op = .or
    · have hl : chainLeaves false (.bin id uses op a b)
          = chainLeaves false a ++ chainLeaves false b := by
        rw [chainLeaves]; simp [ho]
      rw [hl] at h
      obtain ⟨ya, ha1, ha2⟩ := iha fun l hm => h l (List.mem_append.mpr (Or.inl hm))
      obtain ⟨yb, hb1, hb2⟩ := ihb fun l hm => h l (List.mem_append.mpr (Or.inr hm))
      refine ⟨ya ||| yb, by simp [eval, ha1, hb1, ho, evalOp], ?_⟩
      intro j
      rw [hl, Nat.testBit_or, ha2, hb2, List.any_append]
    · exact leaf _ (by rw [chainLeaves]; simp [ho]) h
  | _ => exact leaf _ rfl

/-- Value of an `and` chain over the bits of `x`. -/
theorem eval_and_chain (w : Nat) (hw : 0 < w) (env : Nat → Nat) (R : Val) (x : Nat)
    (hx : eval w env R = some x) (V : Val) :
    (∀ l ∈ chainLeaves true V, leafSource l = R ∧ ∀ p, leafShift l = some p → p.2 < w) →
    ∃ y, eval w env V = some y ∧
      ∀ j, y.testBit j = (((chainLeaves true V).all fun l => x.testBit (leafIndex l + j)) &&
        (!chainHasAnd1 V || j == 0)) := by
  have leaf : ∀ V : Val, chainLeaves true V = [V] → chainHasAnd1 V = false →
      (∀ l ∈ chainLeaves true V, leafSource l = R ∧ ∀ p, leafShift l = some p → p.2 < w) →
      ∃ y, eval w env V = some y ∧
        ∀ j, y.testBit j = (((chainLeaves true V).all fun l => x.testBit (leafIndex l + j)) &&
          (!chainHasAnd1 V || j == 0)) := by
    intro V hl hn h
    have hV := h V (by rw [hl]; exact List.mem_singleton.mpr rfl)
    refine ⟨_, eval_leaf w env R V x hV.1 hV.2 hx, ?_⟩
    intro j
    rw [hl, hn, Nat.testBit_shiftRight]
    simp
  have h1w : 1 % 2 ^ w = 1 := Nat.mod_eq_of_lt (Nat.one_lt_two_pow (by omega))
  induction V with
  | bin id uses op a b iha ihb =>
    intro h
    by_cases h1 : op = .and ∧ b.isInt 1 = true
    · have hl : chainLeaves true (.bin id uses op a b) = chainLeaves true a := by
        rw [chainLeaves]; simp [h1]
      have hn : chainHasAnd1 (.bin id uses op a b) = true := by
        rw [chainHasAnd1, if_pos h1]
      rw [hl] at h
      obtain ⟨ya, ha1, ha2⟩ := iha h
      obtain ⟨bits, rfl⟩ := Val.isInt_eq_true h1.2
      refine ⟨ya &&& 1, by simp [eval, ha1, h1.1, evalOp, h1w], ?_⟩
      intro j
      have e1 : (1 : Nat).testBit j = (j == 0) := by
        have := @Nat.testBit_two_pow 0 j
        simp only [Nat.pow_zero] at this
        rw [this]
        by_cases hj : j = 0
        · simp [hj]
        · have : ¬ 0 = j := fun h => hj h.symm
          simp [hj, this]
      rw [hl, hn, Nat.testBit_and, ha2, e1]
      cases ((chainLeaves true a).all fun l => x.testBit (leafIndex l + j)) <;>
        cases chainHasAnd1 a <;> cases (j == 0) <;> rfl
    · by_cases h2 : op = .and
      · have hl : chainLeaves true (.bin id uses op a b)
            = chainLeaves true a ++ chainLeaves true b := by
          rw [chainLeaves, if_pos rfl, if_neg h1, if_pos h2]
        have hn : chainHasAnd1 (.bin id uses op a b) = (chainHasAnd1 a || chainHasAnd1 b) := by
          rw [chainHasAnd1, if_neg h1, if_pos h2]
        rw [hl] at h
        obtain ⟨ya, ha1, ha2⟩ := iha fun l hm => h l (List.mem_append.mpr (Or.inl hm))
        obtain ⟨yb, hb1, hb2⟩ := ihb fun l hm => h l (List.mem_append.mpr (Or.inr hm))
        refine ⟨ya &&& yb, by simp [eval, ha1, hb1, h2, evalOp], ?_⟩
        intro j
        rw [hl, hn, Nat.testBit_and, ha2, hb2, List.all_append]
        cases ((chainLeaves true a).all fun l => x.testBit (leafIndex l + j)) <;>
          cases ((chainLeaves true b).all fun l => x.testBit (leafIndex l + j)) <;>
          cases chainHasAnd1 a <;> cases chainHasAnd1 b <;> cases (j == 0) <;> rfl
      · exact leaf _ (by rw [chainLeaves, if_pos rfl, if_neg h1, if_neg h2])
          (by rw [chainHasAnd1, if_neg h1, if_neg h2]) h
  | _ => exact leaf _ rfl rfl

theorem leafIndex_lt (w : Nat) (hw : 0 < w) (l : Val)
    (h : ∀ p, leafShift l = some p → p.2 < w) : leafIndex l < w := by
  unfold leafIndex
  cases hs : leafShift l with
  | none => simpa using hw
  | some p => simpa using h p hs

/-- A mask made of the bits of leaves below the width fits in the width. -/
theorem chain_mask_lt (w : Nat) (hw : 0 < w) (L : List Val) (K : Nat)
    (hL : ∀ l ∈ L, ∀ p, leafShift l = some p → p.2 < w)
    (hK : ∀ c, K.testBit c = L.any fun l => leafIndex l == c) : K < 2 ^ w := by
  apply Nat.lt_pow_two_of_testBit
  intro i hi
  rw [hK]
  apply Bool.eq_false_iff.mpr
  intro hany
  obtain ⟨l, hl, he⟩ := List.any_eq_true.mp hany
  have := leafIndex_lt w hw l (hL l hl)
  simp only [beq_iff_eq] at he
  omega

theorem any_bits_iff (x K : Nat) (L : List Val)
    (hK : ∀ c, K.testBit c = L.any fun l => leafIndex l == c) :
    x &&& K ≠ 0 ↔ (L.any fun l => x.testBit (leafIndex l + 0)) = true := by
  constructor
  · intro h
    obtain ⟨i, hi⟩ := Nat.ne_zero_implies_bit_true h
    rw [Nat.testBit_and, Bool.and_eq_true, hK] at hi
    obtain ⟨l, hl, he⟩ := List.any_eq_true.mp hi.2
    simp only [beq_iff_eq] at he
    exact List.any_eq_true.mpr ⟨l, hl, by rw [Nat.add_zero, he]; exact hi.1⟩
  · intro h hz
    obtain ⟨l, hl, he⟩ := List.any_eq_true.mp h
    rw [Nat.add_zero] at he
    have hk : K.testBit (leafIndex l) = true := by
      rw [hK]
      exact List.any_eq_true.mpr ⟨l, hl, by simp⟩
    have : (x &&& K).testBit (leafIndex l) = true := by
      rw [Nat.testBit_and, he, hk]; rfl
    rw [hz, Nat.zero_testBit] at this
    exact absurd this (by simp)

theorem all_bits_iff (x K : Nat) (L : List Val)
    (hK : ∀ c, K.testBit c = L.any fun l => leafIndex l == c) :
    x &&& K = K ↔ (L.all fun l => x.testBit (leafIndex l + 0)) = true := by
  constructor
  · intro h
    apply List.all_eq_true.mpr
    intro l hl
    have hk : K.testBit (leafIndex l) = true := by
      rw [hK]
      exact List.any_eq_true.mpr ⟨l, hl, by simp⟩
    rw [← h, Nat.testBit_and, Bool.and_eq_true] at hk
    rw [Nat.add_zero]
    exact hk.1
  · intro h
    apply Nat.eq_of_testBit_eq
    intro c
    rw [Nat.testBit_and]
    cases hk : K.testBit c with
    | false => simp
    | true =>
      rw [hK] at hk
      obtain ⟨l, hl, he⟩ := List.any_eq_true.mp hk
      simp only [beq_iff_eq] at he
      have := List.all_eq_true.mp h l hl
      rw [Nat.add_zero, he] at this
      rw [this]; rfl

theorem eq_bool_of_testBit (y : Nat) (b : Bool) (h : ∀ j, y.testBit j = (b && (j == 0))) :
    y = if b then 1 else 0 := by
  apply Nat.eq_of_testBit_eq
  intro j
  rw [h]
  cases b with
  | false => simp
  | true =>
    have := @Nat.testBit_two_pow 0 j
    simp only [Nat.pow_zero] at this
    simp only [if_true, Bool.true_and, this]
    by_cases hj : j = 0
    · simp [hj]
    · have : ¬ 0 = j := fun h => hj h.symm
      simp [hj, this]

theorem anyOrAllShape_false {I : Val} (h : anyOrAllShape I = some false) :
    ∃ id uses a bits, I = .bin id uses .and a (.const bits 1) := by
  unfold anyOrAllShape at h
  cases ha : I.asBin .and with
  | none => simp [ha] at h
  | some p =>
    obtain ⟨a, b⟩ := p
    obtain ⟨id, uses, rfl⟩ := Val.asBin_eq_some ha
    simp only [ha] at h
    split at h
    · simp at h
    · split at h
      · next h2 =>
        simp only [Bool.and_eq_true] at h2
        obtain ⟨bits, rfl⟩ := Val.isInt_eq_true h2.2
        exact ⟨id, uses, a, bits, rfl⟩
      · simp at h

/-- The two cases of `foldAnyOrAllBitsSet`, at a width `w` of at least one
bit. -/
theorem any_bits_case (w : Nat) (hw : 0 < w) (id uses bits : Nat) (a : Val) (M : MaskOps)
    (R : Val) (hr : matchAndOrChain a (MaskOps.init w false) = (true, M))
    (hR : M.Root = some R) (env : Nat → Nat) (x : Nat) (hx : eval w env R = some x) :
    eval w env (.bin id uses .and a (.const bits 1))
        = some (if x &&& M.Mask ≠ 0 then 1 else 0) ∧
    M.Mask % 2 ^ w = M.Mask := by
  obtain ⟨_, _, _, R', c4, _, c6, c7⟩ := matchAndOrChain_spec a _ M hr
  rw [hR] at c4
  cases c4
  simp only [MaskOps.init] at c6 c7
  simp only [Nat.zero_testBit, Bool.false_or] at c7
  obtain ⟨y, hy1, hy2⟩ := eval_or_chain w env R x hx a c6
  have hKlt := chain_mask_lt w hw _ M.Mask (fun l hl => (c6 l hl).2) c7
  have h1w : 1 % 2 ^ w = 1 := Nat.mod_eq_of_lt (Nat.one_lt_two_pow (by omega))
  have hany := any_bits_iff x M.Mask _ c7
  refine ⟨?_, Nat.mod_eq_of_lt hKlt⟩
  simp only [eval, hy1, evalOp, h1w, Nat.and_one_is_mod]
  have hy0 := hy2 0
  rw [Nat.testBit_zero] at hy0
  by_cases hne : x &&& M.Mask ≠ 0
  · have := hany.mp hne
    rw [← hy0, decide_eq_true_eq] at this
    rw [if_pos hne, this]
  · have hf : ¬ ((chainLeaves false a).any fun l => x.testBit (leafIndex l + 0)) = true :=
      fun hh => hne (hany.mpr hh)
    rw [← hy0, decide_eq_true_eq] at hf
    rw [if_neg hne]
    congr 1
    omega

theorem all_bits_case (w : Nat) (hw : 0 < w) (I : Val) (M : MaskOps)
    (R : Val) (hr : matchAndOrChain I (MaskOps.init w true) = (true, M))
    (hf : M.FoundAnd1 = true)
    (hR : M.Root = some R) (env : Nat → Nat) (x : Nat) (hx : eval w env R = some x) :
    eval w env I = some (if x &&& M.Mask = M.Mask then 1 else 0) ∧
    M.Mask % 2 ^ w = M.Mask := by
  obtain ⟨_, _, c3, R', c4, _, c6, c7⟩ := matchAndOrChain_spec I _ M hr
  rw [hR] at c4
  cases c4
  simp only [MaskOps.init] at c3 c6 c7
  simp only [Nat.zero_testBit, Bool.false_or] at c7
  rw [hf] at c3
  simp only [Bool.false_or, Bool.true_and] at c3
  obtain ⟨y, hy1, hy2⟩ := eval_and_chain w hw env R x hx I c6
  rw [← c3] at hy2
  simp only [Bool.not_true, Bool.false_or] at hy2
  have hKlt := chain_mask_lt w hw _ M.Mask (fun l hl => (c6 l hl).2) c7
  have hall := all_bits_iff x M.Mask _ c7
  refine ⟨?_, Nat.mod_eq_of_lt hKlt⟩
  rw [hy1]
  congr 1
  by_cases he : x &&& M.Mask = M.Mask
  · rw [if_pos he]
    have hb := hall.mp he
    have := eq_bool_of_testBit y true (fun j => by
      rw [hy2 j, Bool.true_and]
      by_cases hj : j = 0
      · subst hj; rw [hb]; rfl
      · have : (j == 0) = false := by simpa using hj
        rw [this, Bool.and_false])
    simpa using this
  · rw [if_neg he]
    have hb : ((chainLeaves true I).all fun l => x.testBit (leafIndex l + 0)) = false := by
      cases hc : ((chainLeaves true I).all fun l => x.testBit (leafIndex l + 0)) with
      | false => rfl
      | true => exact absurd (hall.mpr hc) he
    have := eq_bool_of_testBit y false (fun j => by
      rw [hy2 j, Bool.false_and]
      by_cases hj : j = 0
      · subst hj; rw [hb]; rfl
      · have : (j == 0) = false := by simpa using hj
        rw [this, Bool.and_false])
    simpa using this

/-- C16: whenever `foldAnyOrAllBitsSet` replaces `I` (of a type of at least
one bit) by `Z`, with captured root `X` and mask `K`, then for every
assignment under which `X` has a value `x` the original expression and the
replacement have the same value: 1 or 0 according to `(x & K) == K` for the
`and` chain (all bits set), according to `(x & K) != 0` for the `or` chain
under `and _, 1` (any bit set). -/
theorem C16_any_or_all_bits_set_equivalent (n : Nat) (I Z : Val) (hw : 0 < I.bits)
    (h : foldAnyOrAllBitsSet n I = some Z) :
    ∃ (MatchAllBitsSet : Bool) (X : Val) (K : Nat),
      matchAnyOrAllBitsSet I = some (MatchAllBitsSet, X, K) ∧
      ∀ (env : Nat → Nat) (x : Nat), eval I.bits env X = some x →
        eval I.bits env I = eval I.bits env Z ∧
        eval I.bits env Z = some (if MatchAllBitsSet
          then (if x &&& K = K then 1 else 0)
          else (if x &&& K ≠ 0 then 1 else 0)) := by
  unfold foldAnyOrAllBitsSet at h
  cases hm : matchAnyOrAllBitsSet I with
  | none => simp [hm] at h
  | some r =>
    obtain ⟨all, X, K⟩ := r
    rw [hm] at h
    simp only [Option.map_some', Option.some.injEq] at h
    refine ⟨all, X, K, rfl, ?_⟩
    intro env x hx
    have h0w : 0 % 2 ^ I.bits = 0 := Nat.zero_mod _
    unfold matchAnyOrAllBitsSet at hm
    cases hs : anyOrAllShape I with
    | none => simp [hs] at hm
    | some all' =>
      simp only [hs] at hm
      cases all' with
      | false =>
        obtain ⟨id, uses, a, bits, hI⟩ := anyOrAllShape_false hs
        have hasb : I.asBin .and = some (a, .const bits 1) := by rw [hI]; simp [Val.asBin]
        simp only [hasb, Bool.false_eq_true, if_false] at hm
        rcases hr : matchAndOrChain a (MaskOps.init I.bits false) with ⟨ok, M⟩
        rw [hr] at hm
        cases ok with
        | false => simp at hm
        | true =>
          simp only at hm
          cases hR : M.Root with
          | none => simp [hR] at hm
          | some R =>
            rw [hR] at hm
            simp only [Option.map_some', Option.some.injEq, Prod.mk.injEq] at hm
            obtain ⟨hall, hR', hK⟩ := hm
            subst hall hR' hK
            obtain ⟨hIv, hKmod⟩ := any_bits_case I.bits hw id uses bits a M R hr hR env x hx
            rw [← hI] at hIv
            have hZ : eval I.bits env Z = some (if x &&& M.Mask ≠ 0 then 1 else 0) := by
              rw [← h]
              simp only [Bool.false_eq_true, if_false, eval, hx, evalOp, hKmod, h0w, evalPredicate]
              by_cases hne : x &&& M.Mask = 0 <;> simp [hne]
            simp only [Bool.false_eq_true, if_false]
            exact ⟨by rw [hIv, hZ], hZ⟩
      | true =>
        simp only [if_true] at hm
        rcases hr : matchAndOrChain I (MaskOps.init I.bits true) with ⟨ok, M⟩
        rw [hr] at hm
        cases ok with
        | false => simp at hm
        | true =>
          simp only [Bool.true_and] at hm
          cases hf : M.FoundAnd1 with
          | false => simp [hf] at hm
          | true =>
            simp only [hf] at hm
            cases hR : M.Root with
            | none => simp [hR] at hm
            | some R =>
              rw [hR] at hm
              simp only [Option.map_some', Option.some.injEq, Prod.mk.injEq] at hm
              obtain ⟨hall, hR', hK⟩ := hm
              subst hall hR' hK
              obtain ⟨hIv, hKmod⟩ := all_bits_case I.bits hw I M R hr hf hR env x hx
              have hZ : eval I.bits env Z = some (if x &&& M.Mask = M.Mask then 1 else 0) := by
                rw [← h]
                simp only [if_true, eval, hx, evalOp, hKmod, evalPredicate]
                by_cases he : x &&& M.Mask = M.Mask <;> simp [he]
              simp only [if_true]
              exact ⟨by rw [hIv, hZ], hZ⟩


/-- C16 on the example `and (and (X >> 1), 1), (X >> 4)`. -/
theorem C16_any_or_all_bits_set_equivalent_witness :
    0 < andChainExample.bits ∧
    foldAnyOrAllBitsSet 10 andChainExample
      = some (.zext 11 1 32 (.icmp .eq (.bin 10 1 .and (.arg 0 32) (.const 32 0x12))
          (.const 32 0x12))) ∧
    ∃ (MatchAllBitsSet : Bool) (X : Val) (K : Nat),
      matchAnyOrAllBitsSet andChainExample = some (MatchAllBitsSet, X, K) ∧
      ∀ (env : Nat → Nat) (x : Nat), eval andChainExample.bits env X = some x →
        eval andChainExample.bits env andChainExample
          = eval andChainExample.bits env
              (.zext 11 1 32 (.icmp .eq (.bin 10 1 .and (.arg 0 32) (.const 32 0x12))
                (.const 32 0x12))) ∧
        eval andChainExample.bits env
              (.zext 11 1 32 (.icmp .eq (.bin 10 1 .and (.arg 0 32) (.const 32 0x12))
                (.const 32 0x12)))
          = some (if MatchAllBitsSet
            then (if x &&& K = K then 1 else 0)
            else (if x &&& K ≠ 0 then 1 else 0)) :=
  ⟨by decide, by decide,
    C16_any_or_all_bits_set_equivalent 10 andChainExample _ (by decide) (by decide)⟩

/-- A chain with a leaf whose shift constant is not below the width fails. -/
theorem matchAndOrChain_out_of_range (V : Val) (MOps : MaskOps) (l c : Val) (k : Nat)
    (hl : l ∈ chainLeaves MOps.MatchAndChain V) (hs : leafShift l = some (c, k))
    (hk : MOps.BitWidth ≤ k) : (matchAndOrChain V MOps).1 = false := by
  rcases hr : matchAndOrChain V MOps with ⟨ok, M⟩
  cases ok with
  | false => rfl
  | true =>
    obtain ⟨_, _, _, R, _, _, c6, _⟩ := matchAndOrChain_spec V MOps M hr
    have := (c6 l hl).2 _ hs
    simp only at this
    omega

/-- C18: when `matchAndOrChain` succeeds on `V` from a fresh `MaskOps` of
width `W`, the returned `Root` is the source of every leaf of the chain
(each leaf is `Root` itself or `Root >> c` with `c < W`) and the returned
`Mask` has exactly the bits `c` for which some leaf is `Root >> c`, bit 0
for a bare `Root`. On the two examples of the source comment the results are
`{X, 0x129}` and `{X, 0x12}`, and a chain with a leaf shifted by a constant
not below the width is not matched. -/
theorem C18_matchAndOrChain_root_and_mask (V : Val) (W : Nat) (MatchAnds : Bool) (M : MaskOps)
    (h : matchAndOrChain V (MaskOps.init W MatchAnds) = (true, M)) :
    (∃ Root, M.Root = some Root ∧
      (∀ l ∈ chainLeaves MatchAnds V,
        (l = Root ∧ leafShift l = none ∧ leafIndex l = 0) ∨
        (∃ id uses bits, l = .bin id uses .lshr Root (.const bits (leafIndex l)) ∧
          leafIndex l < W)) ∧
      (∀ c, M.Mask.testBit c = true ↔ ∃ l ∈ chainLeaves MatchAnds V, leafIndex l = c)) ∧
    ((matchAndOrChain orChainExample (MaskOps.init 32 false)).1 = true ∧
      (matchAndOrChain orChainExample (MaskOps.init 32 false)).2.Root = some (.arg 0 32) ∧
      (matchAndOrChain orChainExample (MaskOps.init 32 false)).2.Mask = 0x129) ∧
    ((matchAndOrChain andChainExample (MaskOps.init 32 true)).1 = true ∧
      (matchAndOrChain andChainExample (MaskOps.init 32 true)).2.Root = some (.arg 0 32) ∧
      (matchAndOrChain andChainExample (MaskOps.init 32 true)).2.Mask = 0x12) ∧
    (∀ (V' : Val) (MOps : MaskOps) (l c : Val) (k : Nat),
      l ∈ chainLeaves MOps.MatchAndChain V' → leafShift l = some (c, k) → MOps.BitWidth ≤ k →
      (matchAndOrChain V' MOps).1 = false) := by
  refine ⟨?_, by decide, by decide, matchAndOrChain_out_of_range⟩
  obtain ⟨_, _, _, R, c4, _, c6, c7⟩ := matchAndOrChain_spec V _ M h
  simp only [MaskOps.init] at c6 c7
  simp only [Nat.zero_testBit, Bool.false_or] at c7
  refine ⟨R, c4, ?_, ?_⟩
  · intro l hl
    obtain ⟨h1, h2⟩ := c6 l hl
    cases hs : leafShift l with
    | none =>
      left
      refine ⟨?_, rfl, by simp [leafIndex, hs]⟩
      simpa [leafSource, hs] using h1
    | some p =>
      right
      obtain ⟨c, k⟩ := p
      obtain ⟨id, uses, bits, hl'⟩ := leafShift_eq_some hs
      have hc : c = R := by simpa [leafSource, hs] using h1
      have hk : leafIndex l = k := by simp [leafIndex, hs]
      subst hc
      refine ⟨id, uses, bits, by rw [hk]; exact hl', ?_⟩
      rw [hk]
      exact h2 _ hs
  · intro c
    rw [c7, List.any_eq_true]
    constructor
    · rintro ⟨l, hl, he⟩
      exact ⟨l, hl, by simpa using he⟩
    · rintro ⟨l, hl, he⟩
      exact ⟨l, hl, by simpa using he⟩

/-- C18 on the example `or (or (or X, (X >> 3)), (X >> 5)), (X >> 8)`. -/
theorem C18_matchAndOrChain_root_and_mask_witness :
    matchAndOrChain orChainExample (MaskOps.init 32 false)
      = (true, { Root := some (.arg 0 32), Mask := 0x129, BitWidth := 32,
                 MatchAndChain := false, FoundAnd1 := false }) ∧
    ∃ Root, (some (Val.arg 0 32)) = some Root ∧
      (∀ l ∈ chainLeaves false orChainExample,
        (l = Root ∧ leafShift l = none ∧ leafIndex l = 0) ∨
        (∃ id uses bits, l = .bin id uses .lshr Root (.const bits (leafIndex l)) ∧
          leafIndex l < 32)) ∧
      (∀ c, (0x129 : Nat).testBit c = true ↔ ∃ l ∈ chainLeaves false orChainExample,
        leafIndex l = c) :=
  ⟨by decide, (C18_matchAndOrChain_root_and_mask orChainExample 32 false
    { Root := some (.arg 0 32), Mask := 0x129, BitWidth := 32, MatchAndChain := false,
      FoundAnd1 := false } (by decide)).1⟩

end AggressiveInstCombine

/-! ## Values of expressions -/

namespace AggressiveInstCombine

theorem ctpop_le (w : Nat) : ∀ x, ctpop w x ≤ w := by
  induction w with
  | zero => intro x; exact Nat.le_refl 0
  | succ w ih =>
    intro x
    have := ih (x / 2)
    have h2 : x % 2 < 2 := Nat.mod_lt _ (by decide)
    simp only [ctpop]
    omega

theorem cttz_le (w : Nat) : ∀ x, cttz w x ≤ w := by
  induction w with
  | zero => intro x; exact Nat.le_refl 0
  | succ w ih =>
    intro x
    have := ih (x / 2)
    simp only [cttz]
    split <;> omega

theorem evalOp_lt (w : Nat) (op : Opcode) (x y z : Nat) (hx : x < 2 ^ w) (hy : y < 2 ^ w)
    (h : evalOp w op x y = some z) : z < 2 ^ w := by
  have hp : 0 < 2 ^ w := Nat.two_pow_pos w
  cases op <;> simp only [evalOp] at h
  · cases h; exact Nat.mod_lt _ hp
  · cases h; exact Nat.mod_lt _ hp
  · cases h; exact Nat.mod_lt _ hp
  · cases h; exact Nat.lt_of_le_of_lt Nat.and_le_left hx
  · cases h; exact Nat.or_lt_two_pow hx hy
  · split at h
    · cases h; exact Nat.mod_lt _ hp
    · exact absurd h (by simp)
  · split at h
    · cases h
      rw [Nat.shiftRight_eq_div_pow]
      exact Nat.lt_of_le_of_lt (Nat.div_le_self _ _) hx
    · exact absurd h (by simp)

/-- Every value of an expression at width `w` is a `w`-bit value. -/
theorem eval_lt (w : Nat) (hw : 0 < w) (env : Nat → Nat) (V : Val) :
    ∀ x, eval w env V = some x → x < 2 ^ w := by
  have hp : 0 < 2 ^ w := Nat.two_pow_pos w
  have h1 : 1 < 2 ^ w := Nat.one_lt_two_pow (by omega)
  have hwl : w < 2 ^ w := Nat.lt_two_pow w
  induction V with
  | arg id bits => intro x h; simp only [eval] at h; cases h; exact Nat.mod_lt _ hp
  | const bits v => intro x h; simp only [eval] at h; cases h; exact Nat.mod_lt _ hp
  | bin id uses op a b iha ihb =>
    intro x h
    simp only [eval] at h
    cases ha : eval w env a with
    | none => simp [ha] at h
    | some xa =>
      cases hb : eval w env b with
      | none => simp [ha, hb] at h
      | some xb =>
        simp only [ha, hb] at h
        exact evalOp_lt w op xa xb x (iha _ ha) (ihb _ hb) h
  | zext id uses bits v ih => intro x h; simp only [eval] at h; exact ih x h
  | trunc bits v ih =>
    intro x h
    simp only [eval] at h
    cases hv : eval w env v with
    | none => simp [hv] at h
    | some xv =>
      simp only [hv, Option.map_some', Option.some.injEq] at h
      subst h
      exact Nat.lt_of_le_of_lt (Nat.mod_le _ _) (ih _ hv)
  | icmp p a b iha ihb =>
    intro x h
    simp only [eval] at h
    cases ha : eval w env a with
    | none => simp [ha] at h
    | some xa =>
      cases hb : eval w env b with
      | none => simp [ha, hb] at h
      | some xb =>
        simp only [ha, hb, Option.some.injEq] at h
        subst h
        split <;> omega
  | select c t f ihc iht ihf =>
    intro x h
    simp only [eval] at h
    cases hc : eval w env c with
    | none => simp [hc] at h
    | some xc =>
      simp only [hc] at h
      split at h
      · exact iht x h
      · exact ihf x h
  | freeze v ih => intro x h; simp only [eval] at h; exact ih x h
  | call1 iid a iha =>
    intro x h
    cases iid with
    | ctpop =>
      simp only [eval] at h
      cases ha : eval w env a with
      | none => simp [ha] at h
      | some xa =>
        simp only [ha, Option.map_some', Option.some.injEq] at h
        subst h
        exact Nat.lt_of_le_of_lt (ctpop_le w xa) hwl
    | _ => simp [eval] at h
  | call2 iid a b iha ihb =>
    intro x h
    cases iid with
    | cttz =>
      cases b with
      | const bits v =>
        simp only [eval] at h
        cases ha : eval w env a with
        | none => simp [ha] at h
        | some xa =>
          simp only [ha] at h
          split at h
          · exact absurd h (by simp)
          · cases h
            exact Nat.lt_of_le_of_lt (cttz_le w xa) hwl
      | _ => simp [eval] at h
    | _ => simp [eval] at h
  | call3 iid a b c iha ihb ihc =>
    intro x h
    have key : ∀ g : Nat → Nat → Nat → Nat, (∀ p q r, g p q r < 2 ^ w) →
        (match eval w env a, eval w env b, eval w env c with
          | some p, some q, some r => some (g p q r)
          | _, _, _ => none) = some x → x < 2 ^ w := by
      intro g hg h
      cases ha : eval w env a with
      | none => simp [ha] at h
      | some xa =>
        cases hb : eval w env b with
        | none => simp [ha, hb] at h
        | some xb =>
          cases hc : eval w env c with
          | none => simp [ha, hb, hc] at h
          | some xc =>
            simp only [ha, hb, hc, Option.some.injEq] at h
            subst h
            exact hg _ _ _
    cases iid with
    | fshl => exact key (fshl w) (fun _ _ _ => Nat.mod_lt _ hp) h
    | fshr => exact key (fshr w) (fun _ _ _ => Nat.mod_lt _ hp) h
    | _ => simp [eval] at h

/-! ## Guarded funnel shifts -/

theorem mul_add_mod_mul (k m a c : Nat) (hc : c < 2 ^ k) :
    (2 ^ k * a + c) % (2 ^ k * m) = 2 ^ k * (a % m) + c := by
  rcases Nat.eq_zero_or_pos m with hm | hm
  · subst hm; simp
  have e : 2 ^ k * a + c = 2 ^ k * (a % m) + c + 2 ^ k * m * (a / m) := by
    have := Nat.div_add_mod a m
    calc 2 ^ k * a + c = 2 ^ k * (m * (a / m) + a % m) + c := by rw [this]
      _ = 2 ^ k * (a % m) + c + 2 ^ k * m * (a / m) := by ring
  rw [e, Nat.add_mul_mod_self_left]
  apply Nat.mod_eq_of_lt
  have h1 : a % m + 1 ≤ m := Nat.mod_lt _ hm
  have h2 : 2 ^ k * (a % m + 1) ≤ 2 ^ k * m := Nat.mul_le_mul_left _ h1
  have h3 : 2 ^ k * (a % m + 1) = 2 ^ k * (a % m) + 2 ^ k := by ring
  omega

/-- A funnel shift left by `0 < s < w` is the `or` of the two shifts. -/
theorem fshl_eq (w a b s : Nat) (hb : b < 2 ^ w) (hs : s < w) :
    fshl w a b s = ((a <<< s) % 2 ^ w) ||| (b >>> (w - s)) := by
  have hw : 2 ^ w = 2 ^ s * 2 ^ (w - s) := by rw [← Nat.pow_add]; congr 1; omega
  have hc : b / 2 ^ (w - s) < 2 ^ s := by
    apply Nat.div_lt_of_lt_mul
    rw [Nat.mul_comm, ← hw]; exact hb
  unfold fshl
  rw [Nat.mod_eq_of_lt hs, Nat.shiftLeft_eq, Nat.shiftRight_eq_div_pow, Nat.shiftLeft_eq,
    Nat.shiftRight_eq_div_pow]
  have e1 : (a * 2 ^ w + b) * 2 ^ s / 2 ^ w = 2 ^ s * a + b / 2 ^ (w - s) := by
    have : (a * 2 ^ w + b) * 2 ^ s = b * 2 ^ s + 2 ^ w * (2 ^ s * a) := by ring
    rw [this, Nat.add_mul_div_left _ _ (Nat.two_pow_pos w)]
    have : b * 2 ^ s / 2 ^ w = b / 2 ^ (w - s) := by
      rw [hw, Nat.mul_comm b, Nat.mul_div_mul_left _ _ (Nat.two_pow_pos s)]
    omega
  rw [e1]
  nth_rewrite 1 [hw]
  rw [mul_add_mod_mul s _ a _ hc, Nat.mul_add_lt_is_or hc]
  congr 1
  rw [Nat.mul_comm a, hw, Nat.mul_mod_mul_left]

/-- A funnel shift right by `0 < s < w` is the `or` of the two shifts. -/
theorem fshr_eq (w a b s : Nat) (hb : b < 2 ^ w) (hs : s < w) :
    fshr w a b s = ((a <<< (w - s)) % 2 ^ w) ||| (b >>> s) := by
  have hw : 2 ^ w = 2 ^ (w - s) * 2 ^ s := by rw [← Nat.pow_add]; congr 1; omega
  have hc : b / 2 ^ s < 2 ^ (w - s) := by
    apply Nat.div_lt_of_lt_mul
    rw [Nat.mul_comm, ← hw]; exact hb
  unfold fshr
  rw [Nat.mod_eq_of_lt hs, Nat.shiftLeft_eq, Nat.shiftRight_eq_div_pow,
    Nat.shiftRight_eq_div_pow]
  have e1 : (a * 2 ^ w + b) / 2 ^ s = 2 ^ (w - s) * a + b / 2 ^ s := by
    have : a * 2 ^ w + b = b + 2 ^ s * (2 ^ (w - s) * a) := by rw [hw]; ring
    rw [this, Nat.add_mul_div_left _ _ (Nat.two_pow_pos s)]
    omega
  rw [e1]
  nth_rewrite 1 [hw]
  rw [mul_add_mod_mul (w - s) _ a _ hc, Nat.mul_add_lt_is_or hc]
  congr 1
  rw [Nat.mul_comm a, hw, Nat.mul_mod_mul_left]

theorem fshl_zero (w a b : Nat) (ha : a < 2 ^ w) (hb : b < 2 ^ w) :
    fshl w a b 0 = a := by
  unfold fshl
  rw [Nat.zero_mod, Nat.shiftLeft_zero, Nat.shiftRight_eq_div_pow,
    Nat.add_comm, Nat.add_mul_div_right _ _ (Nat.two_pow_pos w), Nat.div_eq_of_lt hb,
    Nat.zero_add, Nat.mod_eq_of_lt ha]

theorem fshr_zero (w a b : Nat) (hb : b < 2 ^ w) :
    fshr w a b 0 = b := by
  unfold fshr
  rw [Nat.zero_mod, Nat.shiftRight_zero, Nat.add_comm, Nat.add_mul_mod_self_right,
    Nat.mod_eq_of_lt hb]

theorem matchFshlOperands_eq {W : Nat} {L R e0 e1 es : Val}
    (h : matchFshlOperands W L R = some (e0, e1, es)) :
    ∃ i1 u1 i2 u2 i3 u3 bits,
      L = .bin i1 u1 .shl e0 es ∧
      R = .bin i2 u2 .lshr e1 (.bin i3 u3 .sub (.const bits W) es) := by
  unfold matchFshlOperands at h
  cases hL : L.asBin .shl with
  | none => simp [hL] at h
  | some p =>
    obtain ⟨a, s⟩ := p
    cases hR : R.asBin .lshr with
    | none => simp [hL, hR] at h
    | some q =>
      obtain ⟨b, S⟩ := q
      simp only [hL, hR] at h
      cases hS : S.asBin .sub with
      | none => simp [hS] at h
      | some r =>
        obtain ⟨Wc, A⟩ := r
        simp only [hS] at h
        split at h
        · next hc =>
          simp only [Option.some.injEq, Prod.mk.injEq] at h
          obtain ⟨h1, h2, h3⟩ := h
          subst h1 h2 h3
          obtain ⟨i1, u1, rfl⟩ := Val.asBin_eq_some hL
          obtain ⟨i2, u2, rfl⟩ := Val.asBin_eq_some hR
          obtain ⟨i3, u3, rfl⟩ := Val.asBin_eq_some hS
          obtain ⟨bits, rfl⟩ := Val.isInt_eq_true hc.1
          rw [hc.2]
          exact ⟨i1, u1, i2, u2, i3, u3, bits, rfl, rfl⟩
        · simp at h

theorem matchFshrOperands_eq {W : Nat} {L R e0 e1 es : Val}
    (h : matchFshrOperands W L R = some (e0, e1, es)) :
    ∃ i1 u1 i2 u2 i3 u3 bits,
      L = .bin i1 u1 .shl e0 (.bin i3 u3 .sub (.const bits W) es) ∧
      R = .bin i2 u2 .lshr e1 es := by
  unfold matchFshrOperands at h
  cases hL : L.asBin .shl with
  | none => simp [hL] at h
  | some p =>
    obtain ⟨a, S⟩ := p
    cases hR : R.asBin .lshr with
    | none => simp [hL, hR] at h
    | some q =>
      obtain ⟨b, A⟩ := q
      simp only [hL, hR] at h
      cases hS : S.asBin .sub with
      | none => simp [hS] at h
      | some r =>
        obtain ⟨Wc, s⟩ := r
        simp only [hS] at h
        split at h
        · next hc =>
          simp only [Option.some.injEq, Prod.mk.injEq] at h
          obtain ⟨h1, h2, h3⟩ := h
          subst h1 h2 h3
          obtain ⟨i1, u1, rfl⟩ := Val.asBin_eq_some hL
          obtain ⟨i2, u2, rfl⟩ := Val.asBin_eq_some hR
          obtain ⟨i3, u3, rfl⟩ := Val.asBin_eq_some hS
          obtain ⟨bits, rfl⟩ := Val.isInt_eq_true hc.1
          rw [hc.2]
          exact ⟨i1, u1, i2, u2, i3, u3, bits, rfl, rfl⟩
        · simp at h

/-- The width minus a shift amount `0 < s < w`, as the `sub` computes it. -/
theorem width_sub (w s : Nat) (hs0 : 0 < s) (hs : s < w) :
    (w % 2 ^ w + 2 ^ w - s % 2 ^ w) % 2 ^ w = w - s := by
  have hwl : w < 2 ^ w := Nat.lt_two_pow w
  rw [Nat.mod_eq_of_lt hwl, Nat.mod_eq_of_lt (Nat.lt_trans hs hwl)]
  have : w + 2 ^ w - s = (w - s) + 2 ^ w := by omega
  rw [this, Nat.add_mod_right]
  exact Nat.mod_eq_of_lt (by omega)

/-- Value of what `matchFunnelShift` accepts, for a shift amount `0 < s < w`. -/
theorem matchFunnelShift_eval (w : Nat) (env : Nat → Nat) (V : Val) (hV : V.bits = w)
    (IID : IntrinsicID) (e0 e1 es : Val) (h : matchFunnelShift V = some (IID, e0, e1, es))
    (a b s : Nat) (ha : eval w env e0 = some a) (hb : eval w env e1 = some b)
    (hs : eval w env es = some s) (hs0 : 0 < s) (hsw : s < w) :
    (IID = .fshl ∨ IID = .fshr) ∧
    eval w env V = some (if IID = .fshl then ((a <<< s) % 2 ^ w) ||| (b >>> (w - s))
      else ((a <<< (w - s)) % 2 ^ w) ||| (b >>> s)) := by
  unfold matchFunnelShift at h
  simp only [hV] at h
  have hsub := width_sub w s hs0 hsw
  have hws : w - s < w := by omega
  cases hor : (if V.hasOneUse then V.asBin .or else none) with
  | none => simp [hor] at h
  | some p =>
    obtain ⟨L, R⟩ := p
    have hVeq : ∃ id uses, V = .bin id uses .or L R := by
      split at hor
      · exact Val.asBin_eq_some hor
      · simp at hor
    obtain ⟨id, uses, rfl⟩ := hVeq
    simp only [hor] at h
    have left : ∀ {X Y : Val}, matchFshlOperands w X Y = some (e0, e1, es) →
        eval w env X = some ((a <<< s) % 2 ^ w) ∧ eval w env Y = some (b >>> (w - s)) := by
      intro X Y hm
      obtain ⟨i1, u1, i2, u2, i3, u3, bits, rfl, rfl⟩ := matchFshlOperands_eq hm
      simp [eval, ha, hb, hs, evalOp, hsw, hsub, hws]
    have right : ∀ {X Y : Val}, matchFshrOperands w X Y = some (e0, e1, es) →
        eval w env X = some ((a <<< (w - s)) % 2 ^ w) ∧ eval w env Y = some (b >>> s) := by
      intro X Y hm
      obtain ⟨i1, u1, i2, u2, i3, u3, bits, rfl, rfl⟩ := matchFshrOperands_eq hm
      simp [eval, ha, hb, hs, evalOp, hsw, hsub, hws]
    cases h1 : (matchFshlOperands w L R).orElse fun _ => matchFshlOperands w R L with
    | some c =>
      simp only [h1, Option.some.injEq, Prod.mk.injEq] at h
      obtain ⟨hI, hc⟩ := h
      subst hI hc
      refine ⟨Or.inl rfl, ?_⟩
      simp only [if_true]
      cases h2 : matchFshlOperands w L R with
      | some c' =>
        rw [h2] at h1
        simp only [Option.orElse, Option.some.injEq] at h1
        subst h1
        obtain ⟨hx, hy⟩ := left h2
        simp [eval, hx, hy, evalOp]
      | none =>
        rw [h2] at h1
        simp only [Option.orElse] at h1
        obtain ⟨hx, hy⟩ := left h1
        simp [eval, hx, hy, evalOp, Nat.or_comm]
    | none =>
      simp only [h1] at h
      cases h3 : (matchFshrOperands w L R).orElse fun _ => matchFshrOperands w R L with
      | none => simp [h3] at h
      | some c =>
        simp only [h3, Option.some.injEq, Prod.mk.injEq] at h
        obtain ⟨hI, hc⟩ := h
        subst hI hc
        refine ⟨Or.inr rfl, ?_⟩
        have : ¬ (IntrinsicID.fshr = IntrinsicID.fshl) := by decide
        simp only [this, if_false]
        cases h2 : matchFshrOperands w L R with
        | some c' =>
          rw [h2] at h3
          simp only [Option.orElse, Option.some.injEq] at h3
          subst h3
          obtain ⟨hx, hy⟩ := right h2
          simp [eval, hx, hy, evalOp]
        | none =>
          rw [h2] at h3
          simp only [Option.orElse] at h3
          obtain ⟨hx, hy⟩ := right h3
          simp [eval, hx, hy, evalOp, Nat.or_comm]


theorem funnelShiftOf_eq {P Other : Val} {IID : IntrinsicID} {e0 e1 es : Val}
    (h : funnelShiftOf P Other = some (IID, e0, e1, es)) :
    matchFunnelShift P = some (IID, e0, e1, es) ∧
    (IID = .fshl → e0 = Other) ∧ (IID = .fshr → e1 = Other) := by
  unfold funnelShiftOf at h
  split at h
  · next S0 S1 A hm =>
    split at h
    · simp at h
    · next hne =>
      simp only [Option.some.injEq, Prod.mk.injEq] at h
      obtain ⟨h1, h2, h3, h4⟩ := h
      subst h1 h2 h3 h4
      exact ⟨hm, fun _ => by simpa using hne, fun hc => absurd hc (by decide)⟩
  · next S0 S1 A hm =>
    split at h
    · simp at h
    · next hne =>
      simp only [Option.some.injEq, Prod.mk.injEq] at h
      obtain ⟨h1, h2, h3, h4⟩ := h
      subst h1 h2 h3 h4
      exact ⟨hm, fun hc => absurd hc (by decide), fun _ => by simpa using hne⟩
  · simp at h

theorem matchFunnelShift_iid {V : Val} {IID : IntrinsicID} {c : Val × Val × Val}
    (h : matchFunnelShift V = some (IID, c)) : IID = .fshl ∨ IID = .fshr := by
  unfold matchFunnelShift at h
  dsimp only at h
  split at h
  · simp at h
  · split at h
    · simp only [Option.some.injEq, Prod.mk.injEq] at h
      exact Or.inl h.1.symm
    · split at h
      · simp only [Option.some.injEq, Prod.mk.injEq] at h
        exact Or.inr h.1.symm
      · simp at h

/-- What `matchGuardedFunnelShift` has checked when it succeeds. -/
theorem matchGuardedFunnelShift_eq {I : PhiNode} {terminator : Nat → Terminator}
    {dominates : Val → Nat → Bool} {G : GuardedFunnelShift}
    (h : matchGuardedFunnelShift I terminator dominates = some G) :
    isPowerOf2_32 I.bits = true ∧
    (I.incoming = [(G.FunnelVal, G.FunnelBB), (G.GuardVal, G.GuardBB)] ∨
      I.incoming = [(G.GuardVal, G.GuardBB), (G.FunnelVal, G.FunnelBB)]) ∧
    funnelShiftOf G.FunnelVal G.GuardVal = some (G.IID, G.ShVal0, G.ShVal1, G.ShAmt) ∧
    dominates G.ShVal0 G.GuardBB = true ∧ dominates G.ShVal1 G.GuardBB = true ∧
    ∃ Zero, Zero.isInt 0 = true ∧
      terminator G.GuardBB = .condBr (.icmp .eq G.ShAmt Zero) I.parent G.FunnelBB := by
  unfold matchGuardedFunnelShift at h
  split at h
  swap
  · simp at h
  next P0 B0 P1 B1 hinc =>
  split at h
  · simp at h
  next hpow =>
  simp only [Bool.not_eq_true, Bool.not_eq_false_eq_eq_true, Bool.not_eq_true'] at hpow
  have hpow' : isPowerOf2_32 I.bits = true := by
    cases hp : isPowerOf2_32 I.bits with
    | true => rfl
    | false => simp [hp] at hpow
  simp only at h
  split at h
  · simp at h
  next G' hfound =>
  split at h
  · simp at h
  next hdom =>
  simp only [Bool.or_eq_true, Bool.not_eq_true', not_or, Bool.not_eq_false] at hdom
  split at h
  swap
  · simp at h
  next Pred A Z T F hterm =>
  split at h
  swap
  · simp at h
  next hc =>
  split at h
  · simp at h
  next hpred =>
  simp only [Option.some.injEq] at h
  subst h
  have hpred' : Pred = .eq := by simpa using hpred
  obtain ⟨hA, hZ, hT, hF⟩ := hc
  subst hpred' hA hT hF
  refine ⟨hpow', ?_, ?_, hdom.1, hdom.2, Z, hZ, hterm⟩
  · split at hfound
    · next IID S0 S1 Amt hf =>
      cases hfound
      exact Or.inl hinc
    · split at hfound
      · next IID S0 S1 Amt hf =>
        cases hfound
        exact Or.inr hinc
      · simp at hfound
  · split at hfound
    · next IID S0 S1 Amt hf =>
      cases hfound
      exact hf
    · split at hfound
      · next IID S0 S1 Amt hf =>
        cases hfound
        exact hf
      · simp at hfound

theorem isPowerOf2_32_pos {x : Nat} (h : isPowerOf2_32 x = true) : 0 < x := by
  unfold isPowerOf2_32 at h
  simp only [Bool.and_eq_true, bne_iff_ne, ne_eq] at h
  omega

/-- C17: whenever `foldGuardedFunnelShift` replaces a phi (whose incoming
values have its type, of width `w`) by a call `Z`, the phi is guarded by
`br (icmp eq ShAmt, 0), PhiBB, FunnelBB`, and for all values `a`, `b` of the
captured operands and every shift amount `s < w` the guarded value, which is
`s = 0 ? a : (a << s) | (b >> (w - s))` for `fshl` and
`s = 0 ? b : (a << (w - s)) | (b >> s)` for `fshr`, equals the value of the
call, `fshl(a, b, s)` or `fshr(a, b, s)`. -/
theorem C17_guarded_funnel_shift_equivalent (I : PhiNode) (terminator : Nat → Terminator)
    (dominates : Val → Nat → Bool) (notPoison : Val → Bool) (Z : Val)
    (hty : ∀ p ∈ I.incoming, p.1.bits = I.bits)
    (h : foldGuardedFunnelShift I terminator dominates notPoison = some Z) :
    ∃ G, matchGuardedFunnelShift I terminator dominates = some G ∧
      isPowerOf2_32 I.bits = true ∧
      (G.IID = .fshl ∨ G.IID = .fshr) ∧
      (∃ Zero, Zero.isInt 0 = true ∧
        terminator G.GuardBB = .condBr (.icmp .eq G.ShAmt Zero) I.parent G.FunnelBB) ∧
      (I.incoming = [(G.FunnelVal, G.FunnelBB), (G.GuardVal, G.GuardBB)] ∨
        I.incoming = [(G.GuardVal, G.GuardBB), (G.FunnelVal, G.FunnelBB)]) ∧
      ∀ (env : Nat → Nat) (a b s : Nat),
        eval I.bits env G.ShVal0 = some a → eval I.bits env G.ShVal1 = some b →
        eval I.bits env G.ShAmt = some s → s < I.bits →
        guardedValue I.bits env G
          = some (if G.IID = .fshl
              then (if s = 0 then a else ((a <<< s) % 2 ^ I.bits) ||| (b >>> (I.bits - s)))
              else (if s = 0 then b else ((a <<< (I.bits - s)) % 2 ^ I.bits) ||| (b >>> s))) ∧
        eval I.bits env Z
          = some (if G.IID = .fshl then fshl I.bits a b s else fshr I.bits a b s) ∧
        guardedValue I.bits env G = eval I.bits env Z := by
  unfold foldGuardedFunnelShift at h
  cases hm : matchGuardedFunnelShift I terminator dominates with
  | none => simp [hm] at h
  | some G =>
    rw [hm] at h
    simp only [Option.map_some', Option.some.injEq] at h
    obtain ⟨hpow, hinc, hfs, _, _, hterm⟩ := matchGuardedFunnelShift_eq hm
    obtain ⟨hmf, hl, hr⟩ := funnelShiftOf_eq hfs
    have hw : 0 < I.bits := isPowerOf2_32_pos hpow
    have hFbits : G.FunnelVal.bits = I.bits := by
      rcases hinc with hi | hi
      · exact hty (G.FunnelVal, G.FunnelBB) (by rw [hi]; simp)
      · exact hty (G.FunnelVal, G.FunnelBB) (by rw [hi]; simp)
    have hIID : G.IID = .fshl ∨ G.IID = .fshr := matchFunnelShift_iid hmf
    refine ⟨G, rfl, hpow, hIID, hterm, hinc, ?_⟩
    intro env a b s ha hb hs hsw
    have halt := eval_lt I.bits hw env _ a ha
    have hblt := eval_lt I.bits hw env _ b hb
    have hZ : eval I.bits env Z
        = some (if G.IID = .fshl then fshl I.bits a b s else fshr I.bits a b s) := by
      rw [← h]
      have e0 : ∀ c : Prop, [Decidable c] →
          eval I.bits env (if c then Val.freeze G.ShVal0 else G.ShVal0) = some a := by
        intro c _; split <;> simp [eval, ha]
      have e1 : ∀ c : Prop, [Decidable c] →
          eval I.bits env (if c then Val.freeze G.ShVal1 else G.ShVal1) = some b := by
        intro c _; split <;> simp [eval, hb]
      rcases hIID with hi | hi
      · simp only [hi, eval, e0, e1, hs, if_true]
      · simp only [hi, eval, e0, e1, hs]
        rfl
    have hG : guardedValue I.bits env G
        = some (if G.IID = .fshl
            then (if s = 0 then a else ((a <<< s) % 2 ^ I.bits) ||| (b >>> (I.bits - s)))
            else (if s = 0 then b else ((a <<< (I.bits - s)) % 2 ^ I.bits) ||| (b >>> s))) := by
      unfold guardedValue
      rw [hs]
      by_cases hs0 : s = 0
      · simp only [hs0, if_true]
        rcases hIID with hi | hi
        · rw [← hl hi, ha]; simp [hi]
        · rw [← hr hi, hb]; simp [hi]
      · simp only [hs0, if_false]
        exact (matchFunnelShift_eval I.bits env G.FunnelVal hFbits G.IID _ _ _ hmf a b s
          ha hb hs (by omega) hsw).2
    refine ⟨hG, hZ, ?_⟩
    rw [hG, hZ]
    congr 1
    by_cases hs0 : s = 0
    · subst hs0
      rcases hIID with hi | hi
      · simp [hi, fshl_zero I.bits a b halt hblt]
      · simp [hi, fshr_zero I.bits a b hblt]
    · rcases hIID with hi | hi
      · simp [hi, hs0, fshl_eq I.bits a b s hblt hsw]
      · simp [hi, hs0, fshr_eq I.bits a b s hblt hsw]

set_option maxRecDepth 4096 in
/-- C17 on the `fshl` shape of the source comment. -/
theorem C17_guarded_funnel_shift_equivalent_witness :
    (∀ p ∈ guardedFshlExample.incoming, p.1.bits = guardedFshlExample.bits) ∧
    foldGuardedFunnelShift guardedFshlExample guardedFshlTerminator (fun _ _ => true)
        (fun _ => true)
      = some (.call3 .fshl (.arg 0 32) (.arg 1 32) (.arg 2 32)) ∧
    ∃ G, matchGuardedFunnelShift guardedFshlExample guardedFshlTerminator (fun _ _ => true)
        = some G ∧
      isPowerOf2_32 guardedFshlExample.bits = true ∧
      (G.IID = .fshl ∨ G.IID = .fshr) ∧
      (∃ Zero, Zero.isInt 0 = true ∧
        guardedFshlTerminator G.GuardBB
          = .condBr (.icmp .eq G.ShAmt Zero) guardedFshlExample.parent G.FunnelBB) ∧
      (guardedFshlExample.incoming = [(G.FunnelVal, G.FunnelBB), (G.GuardVal, G.GuardBB)] ∨
        guardedFshlExample.incoming = [(G.GuardVal, G.GuardBB), (G.FunnelVal, G.FunnelBB)]) ∧
      ∀ (env : Nat → Nat) (a b s : Nat),
        eval guardedFshlExample.bits env G.ShVal0 = some a →
        eval guardedFshlExample.bits env G.ShVal1 = some b →
        eval guardedFshlExample.bits env G.ShAmt = some s → s < guardedFshlExample.bits →
        guardedValue guardedFshlExample.bits env G
          = some (if G.IID = .fshl
              then (if s = 0 then a
                else ((a <<< s) % 2 ^ guardedFshlExample.bits)
                  ||| (b >>> (guardedFshlExample.bits - s)))
              else (if s = 0 then b
                else ((a <<< (guardedFshlExample.bits - s)) % 2 ^ guardedFshlExample.bits)
                  ||| (b >>> s))) ∧
        eval guardedFshlExample.bits env (.call3 .fshl (.arg 0 32) (.arg 1 32) (.arg 2 32))
          = some (if G.IID = .fshl then fshl guardedFshlExample.bits a b s
              else fshr guardedFshlExample.bits a b s) ∧
        guardedValue guardedFshlExample.bits env G
          = eval guardedFshlExample.bits env
              (.call3 .fshl (.arg 0 32) (.arg 1 32) (.arg 2 32)) :=
  ⟨by decide, by decide,
    C17_guarded_funnel_shift_equivalent guardedFshlExample guardedFshlTerminator
      (fun _ _ => true) (fun _ => true) _ (by decide) (by decide)⟩

end AggressiveInstCombine

/-! ## Population count -/

namespace AggressiveInstCombine

/-- Bitwise `and` works byte by byte. -/
theorem and_bytes (a b c d : Nat) (ha : a < 256) (hc : c < 256) :
    (a + 256 * b) &&& (c + 256 * d) = (a &&& c) + 256 * (b &&& d) := by
  have h256 : (256 : Nat) = 2 ^ 8 := by norm_num
  have hac : a &&& c < 2 ^ 8 := Nat.lt_of_le_of_lt Nat.and_le_left (by omega)
  rw [h256] at ha hc
  rw [h256, Nat.add_comm a, Nat.add_comm c, Nat.add_comm (a &&& c)]
  apply Nat.eq_of_testBit_eq
  intro j
  rw [Nat.testBit_and, Nat.testBit_mul_pow_two_add _ ha, Nat.testBit_mul_pow_two_add _ hc,
    Nat.testBit_mul_pow_two_add _ hac]
  by_cases hj : j < 8 <;> simp [hj]

/-- A shift right followed by a mask whose bytes have their top `s` bits
clear works byte by byte. -/
theorem shift_and_bytes (s lo hi c M : Nat) (hs : s ≤ 8) (hlo : lo < 256) (hc : c < 2 ^ (8 - s)) :
    ((lo + 256 * hi) >>> s) &&& (c + 256 * M) = ((lo >>> s) &&& c) + 256 * ((hi >>> s) &&& M) := by
  have h256 : (256 : Nat) = 2 ^ 8 := by norm_num
  have hc8 : c < 2 ^ 8 := Nat.lt_of_lt_of_le hc (Nat.pow_le_pow_right (by decide) (by omega))
  have hac : (lo >>> s) &&& c < 2 ^ 8 := Nat.lt_of_le_of_lt Nat.and_le_right hc8
  rw [h256] at hlo
  rw [h256, Nat.add_comm lo, Nat.add_comm c, Nat.add_comm ((lo >>> s) &&& c)]
  apply Nat.eq_of_testBit_eq
  intro j
  rw [Nat.testBit_and, Nat.testBit_shiftRight, Nat.testBit_mul_pow_two_add _ hlo,
    Nat.testBit_mul_pow_two_add _ hc8, Nat.testBit_mul_pow_two_add _ hac,
    Nat.testBit_and, Nat.testBit_and, Nat.testBit_shiftRight, Nat.testBit_shiftRight]
  by_cases hj : j < 8
  · simp only [hj, if_true]
    by_cases hj2 : s + j < 8
    · simp [hj2]
    · have hcj : c.testBit j = false :=
        Nat.testBit_lt_two_pow (Nat.lt_of_lt_of_le hc (Nat.pow_le_pow_right (by decide) (by omega)))
      simp [hcj]
  · have hj2 : ¬ s + j < 8 := by omega
    have e : s + j - 8 = s + (j - 8) := by omega
    simp [hj, hj2, e]

theorem pairSums_bytes (lo hi M : Nat) (hlo : lo < 256) :
    pairSums (0x55 + 256 * M) (lo + 256 * hi) = pairSums 0x55 lo + 256 * pairSums M hi := by
  unfold pairSums
  rw [shift_and_bytes 1 lo hi 0x55 M (by decide) hlo (by decide)]
  have h1 : (lo >>> 1) &&& 0x55 ≤ lo :=
    Nat.le_trans Nat.and_le_left (by rw [Nat.shiftRight_eq_div_pow]; exact Nat.div_le_self _ _)
  have h2 : (hi >>> 1) &&& M ≤ hi :=
    Nat.le_trans Nat.and_le_left (by rw [Nat.shiftRight_eq_div_pow]; exact Nat.div_le_self _ _)
  omega

theorem nibbleSums_bytes (lo hi M : Nat) (hlo : lo < 256) :
    nibbleSums (0x33 + 256 * M) (lo + 256 * hi) = nibbleSums 0x33 lo + 256 * nibbleSums M hi := by
  unfold nibbleSums
  rw [shift_and_bytes 2 lo hi 0x33 M (by decide) hlo (by decide),
    and_bytes lo hi 0x33 M hlo (by decide)]
  omega

theorem byteSums_bytes (lo hi M : Nat) (hlo : lo ≤ 0x66) (hhi : hi % 16 ≤ 6) :
    byteSums (0x0F + 256 * M) (lo + 256 * hi) = byteSums 0x0F lo + 256 * byteSums M hi := by
  unfold byteSums
  have e1 : (lo + 256 * hi) >>> 4 = lo / 16 + 16 * hi := by
    rw [Nat.shiftRight_eq_div_pow]; omega
  have e2 : lo >>> 4 = lo / 16 := by rw [Nat.shiftRight_eq_div_pow]
  have e3 : hi >>> 4 = hi / 16 := by rw [Nat.shiftRight_eq_div_pow]
  rw [e1, e2, e3]
  have e4 : lo + 256 * hi + (lo / 16 + 16 * hi)
      = (lo + lo / 16 + 16 * (hi % 16)) + 256 * (hi + hi / 16) := by omega
  rw [e4, and_bytes _ _ 0x0F M (by omega) (by decide)]
  congr 1
  have h15 : (0x0F : Nat) = 2 ^ 4 - 1 := by norm_num
  rw [h15, Nat.and_pow_two_sub_one_eq_mod, Nat.and_pow_two_sub_one_eq_mod]
  omega

theorem and_mod_16_le (a m : Nat) : (a &&& m) % 16 ≤ m % 16 := by
  have h16 : (16 : Nat) = 2 ^ 4 := by norm_num
  rw [h16, ← Nat.and_pow_two_sub_one_eq_mod, ← Nat.and_pow_two_sub_one_eq_mod m,
    Nat.and_assoc]
  exact Nat.and_le_right

theorem splat33_mod (n : Nat) : splatBytes n 0x33 % 16 ≤ 3 := by
  cases n with
  | zero => simp [splatBytes]
  | succ n => simp only [splatBytes]; omega

theorem nibbleSums_mod (n y : Nat) : nibbleSums (splatBytes n 0x33) y % 16 ≤ 6 := by
  unfold nibbleSums
  have h1 := and_mod_16_le y (splatBytes n 0x33)
  have h2 := and_mod_16_le (y >>> 2) (splatBytes n 0x33)
  have h3 := splat33_mod n
  omega

set_option maxRecDepth 8192 in
/-- One byte: the three steps leave the number of its set bits. -/
theorem byte_steps : ∀ b, b < 256 →
    pairSums 0x55 b < 256 ∧ nibbleSums 0x33 (pairSums 0x55 b) ≤ 0x66 ∧
    byteSums 0x0F (nibbleSums 0x33 (pairSums 0x55 b)) = ctpop 8 b := by
  decide

/-- The byte counts of `x`, one per byte. -/
theorem steps_bytes (n : Nat) : ∀ x,
    byteSums (splatBytes (n + 1) 0x0F) (nibbleSums (splatBytes (n + 1) 0x33)
        (pairSums (splatBytes (n + 1) 0x55) x))
      = ctpop 8 (x % 256) + 256 * byteSums (splatBytes n 0x0F) (nibbleSums (splatBytes n 0x33)
        (pairSums (splatBytes n 0x55) (x / 256))) := by
  intro x
  have hx : x = x % 256 + 256 * (x / 256) := by omega
  have hlo : x % 256 < 256 := Nat.mod_lt _ (by decide)
  obtain ⟨b1, b2, b3⟩ := byte_steps (x % 256) hlo
  conv => lhs; rw [hx]
  simp only [splatBytes]
  rw [pairSums_bytes _ _ _ hlo, nibbleSums_bytes _ _ _ b1,
    byteSums_bytes _ _ _ b2 (nibbleSums_mod n _), b3]

/-- The sum of the low `n` bytes of `y`. -/
theorem ctpop_bytes (m : Nat) (x : Nat) :
    ctpop (8 + m) x = ctpop 8 (x % 256) + ctpop m (x / 256) := by
  have e : 8 + m = m + 1 + 1 + 1 + 1 + 1 + 1 + 1 + 1 := by omega
  rw [e]
  simp only [ctpop]
  have d8 : x / 2 / 2 / 2 / 2 / 2 / 2 / 2 / 2 = x / 256 := by omega
  have m1 : x % 256 % 2 = x % 2 := by omega
  have m2 : x % 256 / 2 % 2 = x / 2 % 2 := by omega
  have m3 : x % 256 / 2 / 2 % 2 = x / 2 / 2 % 2 := by omega
  have m4 : x % 256 / 2 / 2 / 2 % 2 = x / 2 / 2 / 2 % 2 := by omega
  have m5 : x % 256 / 2 / 2 / 2 / 2 % 2 = x / 2 / 2 / 2 / 2 % 2 := by omega
  have m6 : x % 256 / 2 / 2 / 2 / 2 / 2 % 2 = x / 2 / 2 / 2 / 2 / 2 % 2 := by omega
  have m7 : x % 256 / 2 / 2 / 2 / 2 / 2 / 2 % 2 = x / 2 / 2 / 2 / 2 / 2 / 2 % 2 := by omega
  have m8 : x % 256 / 2 / 2 / 2 / 2 / 2 / 2 / 2 % 2 = x / 2 / 2 / 2 / 2 / 2 / 2 / 2 % 2 := by
    omega
  rw [d8, m1, m2, m3, m4, m5, m6, m7, m8]
  omega

theorem splatBytes_succ (n b : Nat) : splatBytes (n + 1) b = splatBytes n b + b * 256 ^ n := by
  induction n with
  | zero => simp [splatBytes]
  | succ n ih =>
    calc splatBytes (n + 1 + 1) b = b + 256 * splatBytes (n + 1) b := rfl
      _ = b + 256 * (splatBytes n b + b * 256 ^ n) := by rw [ih]
      _ = (b + 256 * splatBytes n b) + b * 256 ^ (n + 1) := by rw [Nat.pow_succ]; ring
      _ = splatBytes (n + 1) b + b * 256 ^ (n + 1) := rfl

theorem splatBytes_lt (n b : Nat) (hb : b < 256) : splatBytes n b < 256 ^ n := by
  induction n with
  | zero => simp [splatBytes]
  | succ n ih =>
    simp only [splatBytes, Nat.pow_succ]
    omega

theorem splat33_bound (n : Nat) : 5 * splatBytes n 0x33 < 256 ^ n := by
  induction n with
  | zero => simp [splatBytes]
  | succ n ih =>
    simp only [splatBytes, Nat.pow_succ]
    omega

/-- The top byte of the product with `0x0101..01` is the sum of the bytes,
as long as that sum fits in a byte. -/
theorem mul_top_byte (n : Nat) : ∀ y, y < 256 ^ (n + 1) → byteSum (n + 1) y < 256 →
    (y * splatBytes (n + 1) 1) % 256 ^ (n + 1) / 256 ^ n = byteSum (n + 1) y := by
  induction n with
  | zero =>
    intro y hy _
    simp only [splatBytes, byteSum]
    simp only [Nat.zero_add, Nat.pow_one] at hy
    simp
  | succ n ih =>
    intro y hy hs
    have hsum : byteSum (n + 1 + 1) y = y % 256 + byteSum (n + 1) (y / 256) := rfl
    have hsum1 : byteSum (n + 1) (y / 256) = y / 256 % 256 + byteSum n (y / 256 / 256) := rfl
    have hy1 : y / 256 < 256 ^ (n + 1) := by
      rw [Nat.pow_succ] at hy
      omega
    have hy2 : y / 256 / 256 < 256 ^ n := by
      rw [Nat.pow_succ] at hy1
      omega
    have hlow : y / 256 % 256 + y % 256 < 256 := by omega
    have hlt : y / 256 + y % 256 < 256 ^ (n + 1) := by
      rw [Nat.pow_succ]
      omega
    have hbs : byteSum (n + 1) (y / 256 + y % 256) = byteSum (n + 1 + 1) y := by
      have e1 : byteSum (n + 1) (y / 256 + y % 256)
          = (y / 256 + y % 256) % 256 + byteSum n ((y / 256 + y % 256) / 256) := rfl
      have e2 : (y / 256 + y % 256) % 256 = y / 256 % 256 + y % 256 := by omega
      have e3 : (y / 256 + y % 256) / 256 = y / 256 / 256 := by omega
      rw [e1, e2, e3, hsum, hsum1]
      omega
    have hih := ih (y / 256 + y % 256) hlt (by rw [hbs]; exact hs)
    rw [hbs] at hih
    rw [← hih]
    have hM : splatBytes (n + 1 + 1) 1 = 1 + 256 * splatBytes (n + 1) 1 := rfl
    have hM2 : splatBytes (n + 1 + 1) 1 = splatBytes (n + 1) 1 + 1 * 256 ^ (n + 1) :=
      splatBytes_succ (n + 1) 1
    have hprod : y * splatBytes (n + 1 + 1) 1
        = 2 ^ 8 * ((y / 256 + y % 256) * splatBytes (n + 1) 1 + 256 ^ (n + 1) * (y / 256))
          + y % 256 := by
      have hy' : y = y % 256 + 256 * (y / 256) := by omega
      have h256 : (2 : Nat) ^ 8 = 256 := by norm_num
      rw [h256]
      calc y * splatBytes (n + 1 + 1) 1
          = (y % 256 + 256 * (y / 256)) * splatBytes (n + 1 + 1) 1 := by rw [← hy']
        _ = y % 256 * (1 + 256 * splatBytes (n + 1) 1)
            + 256 * (y / 256) * (splatBytes (n + 1) 1 + 1 * 256 ^ (n + 1)) := by
              rw [Nat.add_mul, ← hM2, ← hM]
        _ = _ := by ring
    have hmod : (256 : Nat) ^ (n + 1 + 1) = 2 ^ 8 * 256 ^ (n + 1) := by
      rw [Nat.pow_succ]; norm_num; ring
    rw [hprod, hmod, mul_add_mod_mul 8 _ _ _ (by norm_num; exact Nat.mod_lt _ (by decide)),
      Nat.add_mul_mod_self_left]
    have hdiv : (256 : Nat) ^ (n + 1) = 2 ^ 8 * 256 ^ n := by
      rw [Nat.pow_succ]; norm_num; ring
    nth_rewrite 2 [hdiv]
    rw [← Nat.div_div_eq_div_mul]
    congr 1
    have : y % 256 < 2 ^ 8 := by norm_num; exact Nat.mod_lt _ (by decide)
    rw [Nat.add_comm, Nat.add_mul_div_left _ _ (by norm_num), Nat.div_eq_of_lt this, Nat.zero_add]

/-- The three steps applied to an `n`-byte value. -/
theorem byteCounts_spec (n : Nat) : ∀ x,
    byteSums (splatBytes n 0x0F) (nibbleSums (splatBytes n 0x33) (pairSums (splatBytes n 0x55) x))
      < 256 ^ n ∧
    byteSum n (byteSums (splatBytes n 0x0F) (nibbleSums (splatBytes n 0x33)
      (pairSums (splatBytes n 0x55) x))) = ctpop (8 * n) x := by
  induction n with
  | zero =>
    intro x
    simp [splatBytes, byteSums, byteSum, ctpop]
  | succ n ih =>
    intro x
    obtain ⟨h1, h2⟩ := ih (x / 256)
    have hc : ctpop 8 (x % 256) ≤ 8 := ctpop_le 8 _
    rw [steps_bytes n x]
    refine ⟨by rw [Nat.pow_succ]; omega, ?_⟩
    have e : 8 * (n + 1) = 8 + 8 * n := by ring
    rw [e, ctpop_bytes, ← h2]
    simp only [byteSum]
    congr 1
    · omega
    · congr 1
      omega


theorem getSplat_eq (n b : Nat) (hb : b < 256) : getSplat (8 * n) b = splatBytes n b := by
  unfold getSplat
  have e1 : (8 * n + 7) / 8 = n := by omega
  have e2 : 2 ^ (8 * n) = 256 ^ n := by rw [Nat.pow_mul]
  rw [e1, e2, Nat.mod_eq_of_lt (splatBytes_lt n b hb)]

/-- The expression of the source comment is the number of set bits, at
every width of 1 to 31 bytes. -/
theorem popcountFormula_eq (w x : Nat) (h8 : 8 ≤ w) (hw : w < 256) (hm : w % 8 = 0) :
    popcountFormula w x = ctpop w x := by
  obtain ⟨m, rfl⟩ : ∃ m, w = 8 * (m + 1) := ⟨w / 8 - 1, by omega⟩
  unfold popcountFormula
  simp only [getSplat_eq _ _ (by decide : 0x55 < 256), getSplat_eq _ _ (by decide : 0x33 < 256),
    getSplat_eq _ _ (by decide : 0x0F < 256), getSplat_eq _ _ (by decide : 0x01 < 256)]
  obtain ⟨h1, h2⟩ := byteCounts_spec (m + 1) x
  have h3 := ctpop_le (8 * (m + 1)) x
  have e2 : 2 ^ (8 * (m + 1)) = 256 ^ (m + 1) := by rw [Nat.pow_mul]
  have e3 : 8 * (m + 1) - 8 = 8 * m := by omega
  have e4 : 2 ^ (8 * m) = 256 ^ m := by rw [Nat.pow_mul]
  rw [e2, e3, Nat.shiftRight_eq_div_pow, e4, mul_top_byte m _ h1 (by rw [h2]; omega), h2]

theorem matchShift4Operands_eq {L R S : Val} (h : matchShift4Operands L R = some S) :
    ∃ id uses bits, L = .bin id uses .lshr S (.const bits 4) ∧ R = S := by
  unfold matchShift4Operands at h
  cases hL : L.asBin .lshr with
  | none => simp [hL] at h
  | some p =>
    obtain ⟨a, c⟩ := p
    simp only [hL] at h
    split at h
    · next hc =>
      cases h
      obtain ⟨id, uses, rfl⟩ := Val.asBin_eq_some hL
      obtain ⟨bits, rfl⟩ := Val.isInt_eq_true hc.1
      exact ⟨id, uses, bits, rfl, hc.2⟩
    · simp at h

theorem matchPairsOperands_eq {M : Nat} {L R A : Val} (h : matchPairsOperands M L R = some A) :
    ∃ i1 u1 b1 i2 u2 b2 i3 u3 b3,
      L = .bin i1 u1 .and A (.const b1 M) ∧
      R = .bin i2 u2 .and (.bin i3 u3 .lshr A (.const b3 2)) (.const b2 M) := by
  unfold matchPairsOperands at h
  cases hL : L.asBin .and with
  | none => simp [hL] at h
  | some p =>
    obtain ⟨a, c1⟩ := p
    cases hR : R.asBin .and with
    | none => simp [hL, hR] at h
    | some q =>
      obtain ⟨S, c2⟩ := q
      simp only [hL, hR] at h
      cases hS : S.asBin .lshr with
      | none => simp [hS] at h
      | some r =>
        obtain ⟨a', c⟩ := r
        simp only [hS] at h
        split at h
        · next hc =>
          cases h
          obtain ⟨i1, u1, rfl⟩ := Val.asBin_eq_some hL
          obtain ⟨i2, u2, rfl⟩ := Val.asBin_eq_some hR
          obtain ⟨i3, u3, rfl⟩ := Val.asBin_eq_some hS
          obtain ⟨b1, rfl⟩ := Val.isInt_eq_true hc.1
          obtain ⟨b3, rfl⟩ := Val.isInt_eq_true hc.2.2.1
          obtain ⟨b2, rfl⟩ := Val.isInt_eq_true hc.2.2.2
          rw [hc.2.1]
          exact ⟨i1, u1, b1, i2, u2, b2, i3, u3, b3, rfl, rfl⟩
        · simp at h

theorem getSplat_lt (w b : Nat) : getSplat w b < 2 ^ w := Nat.mod_lt _ (Nat.two_pow_pos w)

/-- Value of what `matchPopCount` accepts. -/
theorem matchPopCount_eval (I Root : Val) (h : matchPopCount I = some Root) :
    8 < I.bits ∧ I.bits ≤ 128 ∧ I.bits % 8 = 0 ∧
    ∀ (env : Nat → Nat) (x : Nat), eval I.bits env Root = some x →
      eval I.bits env I = some (popcountFormula I.bits x) := by
  unfold matchPopCount at h
  cases h0 : I.asBin .lshr with
  | none => simp [h0] at h
  | some p0 =>
    obtain ⟨Op0, Op1⟩ := p0
    simp only [h0] at h
    split at h
    · simp at h
    next hlen =>
    simp only [Bool.not_eq_true, Bool.not_eq_false_eq_eq_true, Bool.and_eq_true, decide_eq_true_eq,
      beq_iff_eq, Bool.not_eq_true'] at hlen
    have hlen' : I.bits ≤ 128 ∧ I.bits > 8 ∧ I.bits % 8 = 0 := by
      by_contra hc
      apply hlen
      simp only [Bool.and_eq_false_iff, decide_eq_false_iff_not, beq_eq_false_iff_ne, ne_eq]
      omega
    obtain ⟨hl1, hl2, hl3⟩ := hlen'
    refine ⟨hl2, hl1, hl3, ?_⟩
    generalize hw : I.bits = w at *
    cases h1 : Op0.asBin .mul with
    | none => simp [h1] at h
    | some p1 =>
    obtain ⟨MulOp0, c01⟩ := p1
    simp only [h1] at h
    split at h
    · simp at h
    next hc1 =>
    simp only [Bool.not_eq_true, Bool.not_eq_false_eq_eq_true, Bool.and_eq_true, Bool.not_eq_true'] at hc1
    have hc1' : c01.isInt (getSplat w 0x01) = true ∧ Op1.isInt (w - 8) = true := by
      cases ha : c01.isInt (getSplat w 0x01) <;> cases hb : Op1.isInt (w - 8) <;>
        simp [ha, hb] at hc1 ⊢
    cases h2 : MulOp0.asBin .and with
    | none => simp [h2] at h
    | some p2 =>
    obtain ⟨Sum4, c0F⟩ := p2
    simp only [h2] at h
    split at h
    · simp at h
    next hc2 =>
    have hc2' : c0F.isInt (getSplat w 0x0F) = true := by
      cases ha : c0F.isInt (getSplat w 0x0F) <;> simp [ha] at hc2 ⊢
    cases h3 : Sum4.asBin .add with
    | none => simp [h3] at h
    | some p3 =>
    obtain ⟨L4, R4⟩ := p3
    simp only [h3] at h
    cases h4 : (matchShift4Operands L4 R4).orElse fun _ => matchShift4Operands R4 L4 with
    | none => simp [h4] at h
    | some ShiftOp0 =>
    simp only [h4] at h
    cases h5 : ShiftOp0.asBin .add with
    | none => simp [h5] at h
    | some p5 =>
    obtain ⟨L2, R2⟩ := p5
    simp only [h5] at h
    cases h6 : (matchPairsOperands (getSplat w 0x33) L2 R2).orElse
        fun _ => matchPairsOperands (getSplat w 0x33) R2 L2 with
    | none => simp [h6] at h
    | some AndOp0 =>
    simp only [h6] at h
    cases h7 : AndOp0.asBin .sub with
    | none => simp [h7] at h
    | some p7 =>
    obtain ⟨Root', SubOp1⟩ := p7
    simp only [h7] at h
    cases h8 : SubOp1.asBin .and with
    | none => simp [h8] at h
    | some p8 =>
    obtain ⟨S1, c55⟩ := p8
    simp only [h8] at h
    cases h9 : S1.asBin .lshr with
    | none => simp [h9] at h
    | some p9 =>
    obtain ⟨R1, c1⟩ := p9
    simp only [h9] at h
    split at h
    swap
    · simp at h
    next hc9 =>
    cases h
    obtain ⟨hR1, hc1i, hc55⟩ := hc9
    subst hR1
    intro env x hx
    have hwpos : 0 < w := by omega
    have hxlt : x < 2 ^ w := eval_lt w hwpos env _ x hx
    have hwl : w < 2 ^ w := Nat.lt_two_pow w
    have c1w : 1 % 2 ^ w = 1 := Nat.mod_eq_of_lt (by omega)
    have c2w : 2 % 2 ^ w = 2 := Nat.mod_eq_of_lt (by omega)
    have c4w : 4 % 2 ^ w = 4 := Nat.mod_eq_of_lt (by omega)
    have c8w : (w - 8) % 2 ^ w = w - 8 := Nat.mod_eq_of_lt (by omega)
    have m55 : getSplat w 0x55 % 2 ^ w = getSplat w 0x55 := Nat.mod_eq_of_lt (getSplat_lt _ _)
    have m33 : getSplat w 0x33 % 2 ^ w = getSplat w 0x33 := Nat.mod_eq_of_lt (getSplat_lt _ _)
    have m0F : getSplat w 0x0F % 2 ^ w = getSplat w 0x0F := Nat.mod_eq_of_lt (getSplat_lt _ _)
    have m01 : getSplat w 0x01 % 2 ^ w = getSplat w 0x01 := Nat.mod_eq_of_lt (getSplat_lt _ _)
    -- i - ((i >> 1) & 0x55..)
    have e1 : eval w env AndOp0 = some (pairSums (getSplat w 0x55) x) := by
      obtain ⟨i7, u7, rfl⟩ := Val.asBin_eq_some h7
      obtain ⟨i8, u8, rfl⟩ := Val.asBin_eq_some h8
      obtain ⟨i9, u9, rfl⟩ := Val.asBin_eq_some h9
      obtain ⟨b1, rfl⟩ := Val.isInt_eq_true hc1i
      obtain ⟨b55, rfl⟩ := Val.isInt_eq_true hc55
      have hle : (x >>> 1) &&& getSplat w 0x55 ≤ x :=
        Nat.le_trans Nat.and_le_left
          (by rw [Nat.shiftRight_eq_div_pow]; exact Nat.div_le_self _ _)
      have hlt2 : (x >>> 1) &&& getSplat w 0x55 < 2 ^ w := by omega
      simp only [eval, hx, evalOp, c1w, m55, show 1 < w by omega, if_true, pairSums,
        Nat.mod_eq_of_lt hlt2]
      congr 1
      have : x + 2 ^ w - (x >>> 1 &&& getSplat w 0x55)
          = (x - (x >>> 1 &&& getSplat w 0x55)) + 2 ^ w := by omega
      rw [this, Nat.add_mod_right]
      exact Nat.mod_eq_of_lt (by omega)
    have h533 : 5 * getSplat w 0x33 < 2 ^ w := by
      obtain ⟨n, rfl⟩ : ∃ n, w = 8 * n := ⟨w / 8, by omega⟩
      rw [getSplat_eq _ _ (by decide : 0x33 < 256), Nat.pow_mul]
      exact splat33_bound n
    have hi2le : nibbleSums (getSplat w 0x33) (pairSums (getSplat w 0x55) x)
        ≤ 2 * getSplat w 0x33 := by
      unfold nibbleSums
      have a1 : pairSums (getSplat w 0x55) x &&& getSplat w 0x33 ≤ getSplat w 0x33 :=
        Nat.and_le_right
      have a2 : (pairSums (getSplat w 0x55) x >>> 2) &&& getSplat w 0x33 ≤ getSplat w 0x33 :=
        Nat.and_le_right
      omega
    -- (i & 0x33..) + ((i >> 2) & 0x33..)
    have e2 : eval w env ShiftOp0
        = some (nibbleSums (getSplat w 0x33) (pairSums (getSplat w 0x55) x)) := by
      obtain ⟨i5, u5, rfl⟩ := Val.asBin_eq_some h5
      have key : ∀ {X Y : Val}, matchPairsOperands (getSplat w 0x33) X Y = some AndOp0 →
          eval w env X = some (pairSums (getSplat w 0x55) x &&& getSplat w 0x33) ∧
          eval w env Y = some ((pairSums (getSplat w 0x55) x >>> 2) &&& getSplat w 0x33) := by
        intro X Y hm
        obtain ⟨_, _, _, _, _, _, _, _, _, rfl, rfl⟩ := matchPairsOperands_eq hm
        simp only [eval, e1, evalOp, m33, c2w, show 2 < w by omega, if_true, and_self]
      have hmod : (nibbleSums (getSplat w 0x33) (pairSums (getSplat w 0x55) x)) % 2 ^ w
          = nibbleSums (getSplat w 0x33) (pairSums (getSplat w 0x55) x) :=
        Nat.mod_eq_of_lt (by omega)
      cases h6a : matchPairsOperands (getSplat w 0x33) L2 R2 with
      | some c =>
        rw [h6a] at h6
        simp only [Option.orElse, Option.some.injEq] at h6
        subst h6
        obtain ⟨hx1, hx2⟩ := key h6a
        simp only [eval, hx1, hx2, evalOp]
        exact congrArg some hmod
      | none =>
        rw [h6a] at h6
        simp only [Option.orElse] at h6
        obtain ⟨hx1, hx2⟩ := key h6
        simp only [eval, hx1, hx2, evalOp]
        rw [Nat.add_comm]
        exact congrArg some hmod
    -- (i + (i >> 4)) & 0x0F..
    have e3 : eval w env MulOp0
        = some (byteSums (getSplat w 0x0F) (nibbleSums (getSplat w 0x33)
            (pairSums (getSplat w 0x55) x))) := by
      obtain ⟨i2, u2, rfl⟩ := Val.asBin_eq_some h2
      obtain ⟨i3, u3, rfl⟩ := Val.asBin_eq_some h3
      obtain ⟨b0F, rfl⟩ := Val.isInt_eq_true hc2'
      have key : ∀ {X Y : Val}, matchShift4Operands X Y = some ShiftOp0 →
          eval w env X = some (nibbleSums (getSplat w 0x33) (pairSums (getSplat w 0x55) x) >>> 4) ∧
          eval w env Y = some (nibbleSums (getSplat w 0x33) (pairSums (getSplat w 0x55) x)) := by
        intro X Y hm
        obtain ⟨_, _, _, rfl, rfl⟩ := matchShift4Operands_eq hm
        simp only [eval, e2, evalOp, c4w, show 4 < w by omega, if_true, and_self]
      have hsh : nibbleSums (getSplat w 0x33) (pairSums (getSplat w 0x55) x) >>> 4
          = nibbleSums (getSplat w 0x33) (pairSums (getSplat w 0x55) x) / 16 := by
        rw [Nat.shiftRight_eq_div_pow]
      have hmod : (nibbleSums (getSplat w 0x33) (pairSums (getSplat w 0x55) x)
            + nibbleSums (getSplat w 0x33) (pairSums (getSplat w 0x55) x) >>> 4) % 2 ^ w
          = nibbleSums (getSplat w 0x33) (pairSums (getSplat w 0x55) x)
            + nibbleSums (getSplat w 0x33) (pairSums (getSplat w 0x55) x) >>> 4 :=
        Nat.mod_eq_of_lt (by rw [hsh]; omega)
      cases h4a : matchShift4Operands L4 R4 with
      | some c =>
        rw [h4a] at h4
        simp only [Option.orElse, Option.some.injEq] at h4
        subst h4
        obtain ⟨hx1, hx2⟩ := key h4a
        simp only [eval, hx1, hx2, evalOp, m0F, byteSums]
        rw [Nat.add_comm, hmod]
      | none =>
        rw [h4a] at h4
        simp only [Option.orElse] at h4
        obtain ⟨hx1, hx2⟩ := key h4
        simp only [eval, hx1, hx2, evalOp, m0F, byteSums]
        rw [hmod]
    obtain ⟨i0, u0, hI⟩ := Val.asBin_eq_some h0
    obtain ⟨i1, u1, rfl⟩ := Val.asBin_eq_some h1
    obtain ⟨b01, rfl⟩ := Val.isInt_eq_true hc1'.1
    obtain ⟨b8, rfl⟩ := Val.isInt_eq_true hc1'.2
    rw [hI]
    simp only [eval, e3, evalOp, m01, c8w, show w - 8 < w by omega, if_true, popcountFormula]

/-- C15: whenever `tryToRecognizePopCount` replaces `I` by a call `Z`, the
width `w` of `I` is a multiple of 8 with `8 < w <= 128`, `Z` is
`llvm.ctpop(Root)`, and for every assignment under which `Root` has a value
`x` the matched expression has the value
`((i3 * M01) mod 2^w) >> (w - 8)` with `i1 = x - ((x >> 1) & M55)`,
`i2 = (i1 & M33) + ((i1 >> 2) & M33)`, `i3 = (i2 + (i2 >> 4)) & M0F`, which is
the number of set bits of `x`, the value of the call. -/
theorem C15_popcount_equivalent (I Z : Val) (h : tryToRecognizePopCount I = some Z) :
    ∃ Root, matchPopCount I = some Root ∧ Z = .call1 .ctpop Root ∧
      8 < I.bits ∧ I.bits ≤ 128 ∧ I.bits % 8 = 0 ∧
      ∀ (env : Nat → Nat) (x : Nat), eval I.bits env Root = some x →
        x < 2 ^ I.bits ∧
        eval I.bits env I
          = some (((byteSums (getSplat I.bits 0x0F) (nibbleSums (getSplat I.bits 0x33)
              (pairSums (getSplat I.bits 0x55) x)) * getSplat I.bits 0x01) % 2 ^ I.bits)
                >>> (I.bits - 8)) ∧
        eval I.bits env I = some (ctpop I.bits x) ∧
        eval I.bits env Z = some (ctpop I.bits x) := by
  unfold tryToRecognizePopCount at h
  cases hm : matchPopCount I with
  | none => simp [hm] at h
  | some Root =>
    rw [hm] at h
    simp only [Option.map_some', Option.some.injEq] at h
    obtain ⟨h1, h2, h3, h4⟩ := matchPopCount_eval I Root hm
    refine ⟨Root, rfl, h.symm, h1, h2, h3, ?_⟩
    intro env x hx
    have hf := h4 env x hx
    have he := popcountFormula_eq I.bits x (by omega) (by omega) h3
    refine ⟨eval_lt I.bits (by omega) env _ x hx, hf, by rw [hf, he], ?_⟩
    rw [← h]
    simp [eval, hx]

/-- C15 on the 32-bit `popcount` of the source comment. -/
theorem C15_popcount_equivalent_witness :
    tryToRecognizePopCount popcountExample32 = some (.call1 .ctpop (.arg 0 32)) ∧
    ∃ Root, matchPopCount popcountExample32 = some Root ∧
      Val.call1 .ctpop (.arg 0 32) = .call1 .ctpop Root ∧
      8 < popcountExample32.bits ∧ popcountExample32.bits ≤ 128 ∧
      popcountExample32.bits % 8 = 0 ∧
      ∀ (env : Nat → Nat) (x : Nat), eval popcountExample32.bits env Root = some x →
        x < 2 ^ popcountExample32.bits ∧
        eval popcountExample32.bits env popcountExample32
          = some (((byteSums (getSplat popcountExample32.bits 0x0F)
              (nibbleSums (getSplat popcountExample32.bits 0x33)
                (pairSums (getSplat popcountExample32.bits 0x55) x))
              * getSplat popcountExample32.bits 0x01) % 2 ^ popcountExample32.bits)
                >>> (popcountExample32.bits - 8)) ∧
        eval popcountExample32.bits env popcountExample32
          = some (ctpop popcountExample32.bits x) ∧
        eval popcountExample32.bits env (.call1 .ctpop (.arg 0 32))
          = some (ctpop popcountExample32.bits x) :=
  ⟨by decide, C15_popcount_equivalent popcountExample32 _ (by decide)⟩

end AggressiveInstCombine

/-! ## Table-based count of trailing zeros -/

namespace AggressiveInstCombine

/-- Bitwise `and` on the lowest bit and the rest. -/
theorem and_bit (a b c d : Nat) (ha : a < 2) (hc : c < 2) :
    (a + 2 * b) &&& (c + 2 * d) = (a &&& c) + 2 * (b &&& d) := by
  have h2 : (2 : Nat) = 2 ^ 1 := by norm_num
  have hac : a &&& c < 2 ^ 1 := Nat.lt_of_le_of_lt Nat.and_le_left (by omega)
  have ha' : a < 2 ^ 1 := by omega
  have hc' : c < 2 ^ 1 := by omega
  rw [Nat.add_comm a, Nat.add_comm c, Nat.add_comm (a &&& c)]
  nth_rewrite 1 [h2]
  nth_rewrite 2 [h2]
  nth_rewrite 3 [h2]
  apply Nat.eq_of_testBit_eq
  intro j
  rw [Nat.testBit_and, Nat.testBit_mul_pow_two_add _ ha', Nat.testBit_mul_pow_two_add _ hc',
    Nat.testBit_mul_pow_two_add _ hac]
  by_cases hj : j < 1 <;> simp [hj]

theorem compl_and_self (w q : Nat) (hq : q < 2 ^ w) : (2 ^ w - (q + 1)) &&& q = 0 := by
  apply Nat.eq_of_testBit_eq
  intro i
  rw [Nat.testBit_and, Nat.testBit_two_pow_sub_succ hq, Nat.zero_testBit]
  cases q.testBit i <;> simp

/-- The lowest set bit: `(-x) & x` is `2 ^ cttz(x)` for a nonzero `w`-bit `x`. -/
theorem neg_and_self (w : Nat) : ∀ x, 0 < x → x < 2 ^ w →
    (2 ^ w - x) &&& x = 2 ^ cttz w x ∧ cttz w x < w := by
  induction w with
  | zero => intro x h0 h1; simp at h1; omega
  | succ w ih =>
    intro x h0 h1
    rw [Nat.pow_succ] at h1
    by_cases hodd : x % 2 = 1
    · have hc : cttz (w + 1) x = 0 := by simp [cttz, hodd]
      rw [hc]
      refine ⟨?_, by omega⟩
      have e1 : 2 ^ (w + 1) - x = 1 + 2 * (2 ^ w - (x / 2 + 1)) := by
        rw [Nat.pow_succ]; omega
      have e2 : x = 1 + 2 * (x / 2) := by omega
      rw [e1]
      nth_rewrite 2 [e2]
      rw [and_bit _ _ _ _ (by decide) (by decide), compl_and_self w (x / 2) (by omega)]
      rfl
    · have hc : cttz (w + 1) x = 1 + cttz w (x / 2) := by simp [cttz, hodd]
      obtain ⟨i1, i2⟩ := ih (x / 2) (by omega) (by omega)
      rw [hc]
      refine ⟨?_, by omega⟩
      have e1 : 2 ^ (w + 1) - x = 0 + 2 * (2 ^ w - x / 2) := by
        rw [Nat.pow_succ]; omega
      have e2 : x = 0 + 2 * (x / 2) := by omega
      rw [e1]
      nth_rewrite 2 [e2]
      rw [and_bit _ _ _ _ (by decide) (by decide), i1, Nat.pow_add]
      simp

theorem cttz_zero (w : Nat) : cttz w 0 = w := by
  induction w with
  | zero => rfl
  | succ w ih => simp [cttz, ih]; omega

theorem matchNegAndOperands_eq {L R X1 : Val} (h : matchNegAndOperands L R = some X1) :
    ∃ id uses bits, L = .bin id uses .sub (.const bits 0) X1 ∧ R = X1 := by
  unfold matchNegAndOperands at h
  cases hL : L.asBin .sub with
  | none => simp [hL] at h
  | some p =>
    obtain ⟨Z, X⟩ := p
    simp only [hL] at h
    split at h
    · next hc =>
      cases h
      obtain ⟨id, uses, rfl⟩ := Val.asBin_eq_some hL
      obtain ⟨bits, rfl⟩ := Val.isInt_eq_true hc.1
      exact ⟨id, uses, bits, rfl, hc.2⟩
    · simp at h

theorem Val.asInt_eq_some {V : Val} {c : Nat} (h : V.asInt = some c) :
    ∃ bits, V = .const bits c := by
  cases V with
  | const bits v =>
    simp only [Val.asInt, Option.some.injEq] at h
    subst h
    exact ⟨bits, rfl⟩
  | _ => simp [Val.asInt] at h

/-- Value of the index expression that `matchCttzIndexCore` accepts. -/
theorem matchCttzIndexCore_eval (w : Nat) (env : Nat → Nat) (V X1 : Val) (Mul Shift x : Nat)
    (h : matchCttzIndexCore V = some (X1, Mul, Shift)) (hS : Shift < w)
    (hx : eval w env X1 = some x) :
    eval w env V = some (cttzIndex w Mul Shift x) := by
  unfold matchCttzIndexCore at h
  cases h0 : V.asBin .lshr with
  | none => simp [h0] at h
  | some p0 =>
    obtain ⟨MulV, Sh⟩ := p0
    simp only [h0] at h
    cases h1 : MulV.asBin .mul with
    | none => simp [h1] at h
    | some p1 =>
      obtain ⟨And, Mc⟩ := p1
      cases h2 : Sh.asInt with
      | none => simp [h1, h2] at h
      | some S =>
        simp only [h1, h2] at h
        cases h3 : And.asBin .and with
        | none => simp [h3] at h
        | some p3 =>
          obtain ⟨L, R⟩ := p3
          cases h4 : Mc.asInt with
          | none => simp [h3, h4] at h
          | some M =>
            simp only [h3, h4] at h
            split at h
            swap
            · simp at h
            cases h5 : (matchNegAndOperands L R).orElse fun _ => matchNegAndOperands R L with
            | none => simp [h5] at h
            | some X =>
              simp only [h5, Option.map_some', Option.some.injEq, Prod.mk.injEq] at h
              obtain ⟨hX, hM, hSS⟩ := h
              subst hX hM hSS
              obtain ⟨i0, u0, rfl⟩ := Val.asBin_eq_some h0
              obtain ⟨i1, u1, rfl⟩ := Val.asBin_eq_some h1
              obtain ⟨i3, u3, rfl⟩ := Val.asBin_eq_some h3
              obtain ⟨bS, rfl⟩ := Val.asInt_eq_some h2
              obtain ⟨bM, rfl⟩ := Val.asInt_eq_some h4
              have hSm : S % 2 ^ w = S := Nat.mod_eq_of_lt (Nat.lt_trans hS (Nat.lt_two_pow w))
              have key : ∀ {A B : Val}, matchNegAndOperands A B = some X →
                  eval w env A = some ((2 ^ w - x % 2 ^ w) % 2 ^ w) ∧ eval w env B = some x := by
                intro A B hm
                obtain ⟨_, _, _, rfl, rfl⟩ := matchNegAndOperands_eq hm
                simp [eval, hx, evalOp]
              have hxm : x % 2 ^ w = x := by
                rcases Nat.eq_zero_or_pos w with h0 | h0
                · omega
                · exact Nat.mod_eq_of_lt (eval_lt w h0 env _ x hx)
              have fin : ∀ y, (y * (M % 2 ^ w)) % 2 ^ w = y * M % 2 ^ w := by
                intro y
                rw [Nat.mul_mod, Nat.mod_mod, ← Nat.mul_mod]
              cases h5a : matchNegAndOperands L R with
              | some c =>
                rw [h5a] at h5
                simp only [Option.orElse, Option.some.injEq] at h5
                subst h5
                obtain ⟨e1, e2⟩ := key h5a
                simp only [eval, e1, e2, evalOp, hSm, hS, if_true, cttzIndex, fin, hxm]
              | none =>
                rw [h5a] at h5
                simp only [Option.orElse] at h5
                obtain ⟨e1, e2⟩ := key h5
                simp only [eval, e1, e2, evalOp, hSm, hS, if_true, cttzIndex, fin, hxm]
                rw [Nat.and_comm]

theorem matchCttzIndex_eval (w : Nat) (env : Nat → Nat) (Idx2 X1 : Val) (Mul Shift x : Nat)
    (h : matchCttzIndex Idx2 = some (X1, Mul, Shift)) (hS : Shift < w)
    (hx : eval w env X1 = some x) :
    eval w env Idx2 = some (cttzIndex w Mul Shift x) := by
  cases Idx2 with
  | zext id uses bits V =>
    simp only [matchCttzIndex] at h
    have hn : matchCttzIndexCore (.zext id uses bits V) = none := by
      simp [matchCttzIndexCore, Val.asBin]
    rw [hn] at h
    cases hc : matchCttzIndexCore V with
    | none => simp [hc] at h
    | some r =>
      rw [hc] at h
      simp only [Option.orElse, Option.some.injEq] at h
      subst h
      simp only [eval]
      exact matchCttzIndexCore_eval w env V X1 Mul Shift x hc hS hx
  | _ => exact matchCttzIndexCore_eval w env _ X1 Mul Shift x h hS hx

/-- An accepted table holds every answer at its index. -/
theorem isCTTZTable_entries (Table : List Nat) (Mul Shift InputBits : Nat)
    (h : isCTTZTable Table Mul Shift InputBits = true) (hlen : Table.length < 2 ^ 32)
    (hI : InputBits ≤ 64) (hS : Shift ≤ InputBits) :
    InputBits ≤ Table.length ∧
    ∀ k, k < InputBits → Table[((Mul * 2 ^ k) % 2 ^ InputBits) >>> Shift]? = some k := by
  rw [isCTTZTable_eq Table Mul Shift InputBits hlen hI hS] at h
  simp only [Bool.and_eq_true, decide_eq_true_eq] at h
  obtain ⟨⟨h1, _⟩, h3⟩ := h
  have := (card_matched_eq_iff Table
    (fun k => ((Mul * 2 ^ k) % 2 ^ InputBits) >>> Shift) InputBits).mp h3
  exact ⟨h1, fun k hk => (this k hk).2⟩

theorem eval_createZExtOrTrunc (w : Nat) (env : Nat → Nat) (n A : Nat) (V : Val) (v : Nat)
    (hv : eval w env V = some v) (hA : v < 2 ^ A) :
    eval w env (createZExtOrTrunc n w A V) = some v := by
  unfold createZExtOrTrunc
  split
  · simp [eval, hv]
  · split
    · simp [eval, hv, Nat.mod_eq_of_lt hA]
    · exact hv

theorem eval_zext (w : Nat) (env : Nat → Nat) (id uses bits : Nat) (V : Val) :
    eval w env (.zext id uses bits V) = eval w env V := rfl

theorem eval_trunc (w : Nat) (env : Nat → Nat) (bits : Nat) (V : Val) :
    eval w env (.trunc bits V) = (eval w env V).map (· % 2 ^ bits) := rfl

/-- What `matchTableBasedCttz` has checked when it succeeds. -/
theorem matchTableBasedCttz_eq {LI : LoadInst} {T : TableBasedCttz}
    (h : matchTableBasedCttz LI = some T) :
    LI.AccessType = some T.AccessType ∧
    matchCttzIndex T.Idx2 = some (T.X1, T.MulConst, T.ShiftConst) ∧
    T.InputBits = T.X1.bits ∧ (T.InputBits = 32 ∨ T.InputBits = 64) ∧
    T.ShiftConst < T.InputBits ∧
    isCTTZTable T.Table T.MulConst T.ShiftConst T.InputBits = true := by
  unfold matchTableBasedCttz at h
  split at h
  swap
  · simp at h
  next AccessType GEP hA hG =>
  split at h
  · simp at h
  split at h
  swap
  · simp at h
  next ArraySize GVTable Idx1 Idx2 _ _ _ =>
  split at h
  · simp at h
  split at h
  · simp at h
  split at h
  · simp at h
  next ConstData _ =>
  split at h
  · simp at h
  split at h
  · simp at h
  next X1 MulConst ShiftConst hidx =>
  dsimp only at h
  split at h
  · simp at h
  next hbits =>
  split at h
  · simp at h
  next hshift =>
  split at h
  · simp at h
  next htab =>
  simp only [Option.some.injEq] at h
  subst h
  simp only [Bool.and_eq_true, bne_iff_ne, ne_eq, not_and, Decidable.not_not,
    Bool.not_eq_true, Bool.not_eq_false_eq_eq_true, Bool.not_eq_true'] at hbits hshift htab
  have hb : X1.bits = 32 ∨ X1.bits = 64 := by
    by_cases h32 : X1.bits = 32
    · exact Or.inl h32
    · exact Or.inr (hbits h32)
  have l32 : Log2_32 32 = 5 := by decide
  have l64 : Log2_32 64 = 6 := by decide
  refine ⟨hA, hidx, rfl, hb, ?_, by simpa using htab⟩
  rcases hb with hb | hb
  · rw [hb, l32] at hshift
    simp only [hb]
    by_cases h27 : 32 - 5 = ShiftConst
    · omega
    · have := hshift h27
      omega
  · rw [hb, l64] at hshift
    simp only [hb]
    by_cases h58 : 64 - 6 = ShiftConst
    · omega
    · have := hshift h58
      omega

/-- The replacement computes the table element, for a table of elements of
the loaded type with fewer than `2^32` entries, as long as the entry at
index 0 fits the width of the input or the loaded type is not wider than
the input. -/
theorem tableBasedCttz_equivalent (n : Nat) (LI : LoadInst) (Z : Val)
    (h : tryToRecognizeTableBasedCttz n LI = some Z) :
    ∃ T, matchTableBasedCttz LI = some T ∧ (T.InputBits = 32 ∨ T.InputBits = 64) ∧
      ∀ (env : Nat → Nat) (x : Nat),
        T.Table.length < 2 ^ 32 → (∀ e ∈ T.Table, e < 2 ^ T.AccessType) →
        (T.AccessType ≤ T.InputBits ∨ T.Table.getD 0 0 < 2 ^ T.InputBits) →
        eval T.InputBits env T.X1 = some x →
        eval T.InputBits env T.Idx2
          = some (cttzIndex T.InputBits T.MulConst T.ShiftConst x) ∧
        ∃ e, loadedElement T.InputBits env T = some e ∧ eval T.InputBits env Z = some e := by
  unfold tryToRecognizeTableBasedCttz at h
  cases hm : matchTableBasedCttz LI with
  | none => simp [hm] at h
  | some T =>
    rw [hm] at h
    simp only [Option.map_some', Option.some.injEq] at h
    obtain ⟨_, hidx, _, hb, hS, htab⟩ := matchTableBasedCttz_eq hm
    refine ⟨T, rfl, hb, ?_⟩
    intro env x hlen hwf hside hx
    have hw64 : T.InputBits ≤ 64 := by omega
    have hwpos : 0 < T.InputBits := by omega
    obtain ⟨hge, hent⟩ := isCTTZTable_entries T.Table T.MulConst T.ShiftConst T.InputBits htab
      hlen hw64 (by omega)
    have hI := matchCttzIndex_eval T.InputBits env T.Idx2 T.X1 T.MulConst T.ShiftConst x
      hidx hS hx
    have hxlt := eval_lt T.InputBits hwpos env _ x hx
    refine ⟨hI, ?_⟩
    have h0w : 0 % 2 ^ T.InputBits = 0 := Nat.zero_mod _
    have h0len : 0 < T.Table.length := by omega
    have hT0 : T.Table[0]? = some (T.Table.getD 0 0) := by
      rw [List.getD_eq_getElem?_getD, List.getElem?_eq_getElem h0len]
      rfl
    have hT0lt : T.Table.getD 0 0 < 2 ^ T.AccessType := by
      apply hwf
      rw [List.getD_eq_getElem _ _ h0len]
      exact List.getElem_mem _
    generalize T.Table.getD 0 0 = t0 at h hside hT0 hT0lt
    by_cases hx0 : x = 0
    · -- the input is zero: the load reads entry 0
      subst hx0
      have hi0 : cttzIndex T.InputBits T.MulConst T.ShiftConst 0 = 0 := by
        simp [cttzIndex]
      refine ⟨t0, by simp only [loadedElement, hI, hi0, hT0], ?_⟩
      rw [← h]
      by_cases hdz : (t0 == T.InputBits) = true
      · -- cttz with zero defined
        have heq : t0 = T.InputBits := by simpa using hdz
        simp only [hdz, if_true]
        apply eval_createZExtOrTrunc _ _ _ _ _ _ _ hT0lt
        simp [eval, hx, cttz_zero, heq]
      · simp only [hdz, Bool.false_eq_true, if_false]
        have hsel : eval T.InputBits env
            (.select (.icmp .eq T.X1 (.const T.InputBits 0))
              (.const T.InputBits (t0 % 2 ^ T.InputBits))
              (.call2 .cttz T.X1 (.const 1 (if (!false) = true then 1 else 0))))
            = some (t0 % 2 ^ T.InputBits) := by
          simp [eval, hx, evalPredicate]
        unfold createZExtOrTrunc
        split
        · next hlt =>
          have hfit : t0 < 2 ^ T.InputBits := by
            rcases hside with hs | hs
            · omega
            · exact hs
          rw [eval_zext, hsel, Nat.mod_eq_of_lt hfit]
        · split
          · next hlt =>
            rw [eval_trunc, hsel]
            simp only [Option.map_some']
            congr 1
            rw [Nat.mod_mod_of_dvd _ (Nat.pow_dvd_pow 2 (Nat.le_of_lt hlt))]
            exact Nat.mod_eq_of_lt hT0lt
          · next h1 h2 =>
            have : T.AccessType = T.InputBits := by omega
            rw [hsel, Nat.mod_eq_of_lt (by rw [← this]; exact hT0lt)]
    · -- the input is not zero: the load reads the entry of its lowest set bit
      have hxpos : 0 < x := Nat.pos_of_ne_zero hx0
      obtain ⟨hlow, hk⟩ := neg_and_self T.InputBits x hxpos hxlt
      have hi : cttzIndex T.InputBits T.MulConst T.ShiftConst x
          = ((T.MulConst * 2 ^ cttz T.InputBits x) % 2 ^ T.InputBits) >>> T.ShiftConst := by
        unfold cttzIndex
        rw [Nat.mod_eq_of_lt (by omega : 2 ^ T.InputBits - x < 2 ^ T.InputBits), hlow,
          Nat.mul_comm]
      have hTk := hent _ hk
      rw [← hi] at hTk
      have hklt : cttz T.InputBits x < 2 ^ T.AccessType := by
        apply hwf
        exact List.getElem?_mem hTk
      refine ⟨cttz T.InputBits x, by simp only [loadedElement, hI, hTk], ?_⟩
      rw [← h]
      have hcz : ∀ z, eval T.InputBits env (.call2 .cttz T.X1 (.const 1 z))
          = some (cttz T.InputBits x) := by
        intro z
        simp [eval, hx, hx0]
      by_cases hdz : (t0 == T.InputBits) = true
      · simp only [hdz, if_true]
        exact eval_createZExtOrTrunc _ _ _ _ _ _ (hcz _) hklt
      · simp only [hdz, Bool.false_eq_true, if_false]
        apply eval_createZExtOrTrunc _ _ _ _ _ _ _ hklt
        simp only [eval, hx, h0w, evalPredicate]
        have : (x == 0) = false := by simpa using hx0
        simp only [this, Bool.false_eq_true, if_false, ne_eq, not_true_eq_false]
        simp [hx0]

/-- C14 (code at the failing input): the 64-entry table `ctzTable64Wide` of
`i64` elements is accepted for a 32-bit input with `Mul = 72416175` and
`Shift = 26`; its entry 0, which no answer indexes, is `-1` (`2^64 - 1`). The
value that replaces the load is `zext (x == 0 ? 4294967295 : cttz(x))`: the
constant made by `ConstantInt::get(XType, ZeroTableElem)` keeps only the low
32 bits of the entry. For `x = 0` the original load reads `2^64 - 1` and the
replacement is `2^32 - 1`. Whenever the entry at index 0 fits the input
width, or the loaded type is not wider than the input, the replacement
equals the loaded element for every input (tables of fewer than `2^32`
elements of the loaded type). -/
theorem C14_zero_entry_truncated :
    isCTTZTable ctzTable64Wide 72416175 26 32 = true ∧
    tryToRecognizeTableBasedCttz 10 ctzWideLoad
      = some (.zext 10 1 64 (.select (.icmp .eq (.arg 0 32) (.const 32 0))
          (.const 32 4294967295) (.call2 .cttz (.arg 0 32) (.const 1 1)))) ∧
    (∃ T, matchTableBasedCttz ctzWideLoad = some T ∧
      T.InputBits = 32 ∧ T.AccessType = 64 ∧ T.MulConst = 72416175 ∧ T.ShiftConst = 26 ∧
      T.Table = ctzTable64Wide ∧ T.Table[0]? = some (2 ^ 64 - 1) ∧
      (∀ e ∈ T.Table, e < 2 ^ 64) ∧
      cttzIndex 32 72416175 26 0 = 0 ∧
      loadedElement 32 (fun _ => 0) T = some (2 ^ 64 - 1)) ∧
    eval 32 (fun _ => 0)
        (.zext 10 1 64 (.select (.icmp .eq (.arg 0 32) (.const 32 0)) (.const 32 4294967295)
          (.call2 .cttz (.arg 0 32) (.const 1 1)))) = some (2 ^ 32 - 1) ∧
    (∀ (n : Nat) (LI : LoadInst) (Z : Val), tryToRecognizeTableBasedCttz n LI = some Z →
      ∃ T, matchTableBasedCttz LI = some T ∧ (T.InputBits = 32 ∨ T.InputBits = 64) ∧
        ∀ (env : Nat → Nat) (x : Nat),
          T.Table.length < 2 ^ 32 → (∀ e ∈ T.Table, e < 2 ^ T.AccessType) →
          (T.AccessType ≤ T.InputBits ∨ T.Table.getD 0 0 < 2 ^ T.InputBits) →
          eval T.InputBits env T.X1 = some x →
          eval T.InputBits env T.Idx2
            = some (cttzIndex T.InputBits T.MulConst T.ShiftConst x) ∧
          ∃ e, loadedElement T.InputBits env T = some e ∧ eval T.InputBits env Z = some e) := by
  refine ⟨by decide, by decide, ?_, by decide, tableBasedCttz_equivalent⟩
  refine ⟨_, rfl, rfl, rfl, rfl, rfl, rfl, rfl, by decide, by decide, by decide⟩

end AggressiveInstCombine

namespace AggressiveInstCombine

namespace ConsecutiveLoads

/-- The scan returns `false` when the range holds an instruction that may
write and that alias analysis reports as modifying the location. -/
theorem scanRange_offender (A : Analyses) (Max : Nat) (Loc : MemoryLocation)
    (Inst : Instruction) (hw : Inst.mayWriteToMemory = true)
    (hm : isModSet (A.getModRefInfo Inst Loc) = true) :
    ∀ (l : List Instruction) (n : Nat), Inst ∈ l → scanRange A Max Loc l n = false := by
  intro l
  induction l with
  | nil => intro n h; simp at h
  | cons J rest ih =>
    intro n h
    rw [scanRange]
    by_cases hJ : (J.mayWriteToMemory && isModSet (A.getModRefInfo J Loc)) = true
    · rw [if_pos hJ]
    · rw [if_neg hJ]
      split
      · rfl
      · apply ih
        rcases List.mem_cons.1 h with h | h
        · subst h
          simp [hw, hm] at hJ
        · exact h

/-- Position of an instruction that no earlier one shares its id with. -/
theorem position_append (id : Nat) (pre rest : List Instruction)
    (hpre : ∀ i ∈ pre, i.id ≠ id) :
    position id (pre ++ rest) = pre.length + position id rest := by
  induction pre with
  | nil => simp
  | cons J pre ih =>
    have hJ : J.id ≠ id := hpre J (List.mem_cons_self _ _)
    have h := ih (fun i hi => hpre i (List.mem_cons_of_mem _ hi))
    show position id (J :: (pre ++ rest)) = (J :: pre).length + position id rest
    rw [position, if_neg hJ, h, List.length_cons]
    omega

/-- Positions of two loads in a block and the range between them. -/
theorem instructionRange_between (pre mid post : List Instruction) (a b : Instruction)
    (Start End : LoadInst) (ha : a.id = Start.id) (hb : b.id = End.id)
    (hne : Start.id ≠ End.id)
    (hpre : ∀ i ∈ pre, i.id ≠ Start.id ∧ i.id ≠ End.id)
    (hmid : ∀ i ∈ mid, i.id ≠ End.id) :
    position Start.id (pre ++ a :: (mid ++ b :: post)) = pre.length ∧
    position End.id (pre ++ a :: (mid ++ b :: post)) = pre.length + 1 + mid.length ∧
    instructionRange (pre ++ a :: (mid ++ b :: post)) Start End = a :: mid := by
  have h1 : position Start.id (pre ++ a :: (mid ++ b :: post)) = pre.length := by
    rw [position_append _ _ _ (fun i hi => (hpre i hi).1)]
    simp [position, ha]
  have h2 : position End.id (pre ++ a :: (mid ++ b :: post)) = pre.length + 1 + mid.length := by
    rw [position_append _ _ _ (fun i hi => (hpre i hi).2)]
    have hae : a.id ≠ End.id := by rw [ha]; exact hne
    rw [position, if_neg hae, position_append _ _ _ hmid]
    simp [position, hb]
    omega
  refine ⟨h1, h2, ?_⟩
  rw [instructionRange, h1, h2, List.drop_left]
  have : pre.length + 1 + mid.length - pre.length = (a :: mid).length := by
    simp only [List.length_cons]; omega
  rw [this, ← List.cons_append, List.take_left]

/-- The scan of the two loads of a first pair returns `false` when an
instruction between them, or the earlier load itself, may write and is
reported as modifying the location of the later load. -/
theorem scan_between (A : Analyses) (Max : Nat) (LOps : LoadOps) (hroot : LOps.FoundRoot = false)
    (pre mid post : List Instruction) (first second Inst : Instruction)
    (LI1 LI2 later : LoadInst) (hne : LI1.id ≠ LI2.id)
    (horder : (first.id = LI1.id ∧ second.id = LI2.id ∧ later = LI2) ∨
      (first.id = LI2.id ∧ second.id = LI1.id ∧ later = LI1))
    (hpre : ∀ i ∈ pre, i.id ≠ LI1.id ∧ i.id ≠ LI2.id)
    (hmid : ∀ i ∈ mid, i.id ≠ second.id)
    (hin : Inst ∈ first :: mid) (hw : Inst.mayWriteToMemory = true)
    (hm : isModSet (A.getModRefInfo Inst (MemoryLocation.get later)) = true) :
    scanRange A Max (scanBounds (pre ++ first :: (mid ++ second :: post)) LOps LI1 LI2).2.2
      (instructionRange (pre ++ first :: (mid ++ second :: post))
        (scanBounds (pre ++ first :: (mid ++ second :: post)) LOps LI1 LI2).1
        (scanBounds (pre ++ first :: (mid ++ second :: post)) LOps LI1 LI2).2.1) 0 = false := by
  rcases horder with ⟨h1, h2, rfl⟩ | ⟨h1, h2, rfl⟩
  · obtain ⟨p1, p2, hr⟩ := instructionRange_between pre mid post first second LI1 later h1 h2
      hne hpre (fun i hi => by rw [← h2]; exact hmid i hi)
    have hcb : comesBefore (pre ++ first :: (mid ++ second :: post)) LI1 later = true := by
      simp only [comesBefore, p1, p2, decide_eq_true_eq]; omega
    simp only [scanBounds, hroot, hcb, Bool.not_true, Bool.false_eq_true, if_false]
    rw [hr]
    exact scanRange_offender A Max _ Inst hw hm _ _ hin
  · obtain ⟨p1, p2, hr⟩ := instructionRange_between pre mid post first second LI2 later h1 h2
      (Ne.symm hne) (fun i hi => ⟨(hpre i hi).2, (hpre i hi).1⟩)
      (fun i hi => by rw [← h2]; exact hmid i hi)
    have hcb : comesBefore (pre ++ first :: (mid ++ second :: post)) later LI2 = false := by
      simp only [comesBefore, p1, p2, decide_eq_false_iff_not]; omega
    simp only [scanBounds, hroot, hcb, Bool.not_false, if_true, Bool.false_eq_true, if_false]
    rw [hr]
    exact scanRange_offender A Max _ Inst hw hm _ _ hin

/-- The body of `foldLoadsRecursive` returns `false` when the scan of its two
loads does. -/
theorem foldLoadsStep_scan (A : Analyses) (Max : Nat) (X L2 : Value) (ShAmt2 : Option Nat)
    (LOps : LoadOps) (LI1 LI2 : LoadInst)
    (h1 : (rootLoad X LOps).1 = some LI1) (h2 : L2.asLoad = some LI2)
    (hs : LI1.id ≠ LI2.id →
      scanRange A Max (scanBounds (A.block LI1.parent) LOps LI1 LI2).2.2
        (instructionRange (A.block LI1.parent)
          (scanBounds (A.block LI1.parent) LOps LI1 LI2).1
          (scanBounds (A.block LI1.parent) LOps LI1 LI2).2.1) 0 = false) :
    (foldLoadsStep A Max X L2 ShAmt2 LOps).1 = false := by
  unfold foldLoadsStep
  rw [h1, h2]
  show (foldLoadsPair A Max X (rootLoad X LOps).2 ShAmt2 LOps LI1 LI2).1 = false
  unfold foldLoadsPair
  split
  · rfl
  · rename_i hc
    split
    · rfl
    · split
      · rfl
      · split
        · rfl
        · have hne : LI1.id ≠ LI2.id := by
            intro he
            apply hc
            simp [he]
          rw [hs hne]
          rfl

/-- Without a root, the body of `foldLoadsRecursive` returns `false` when `X`
gives no load or `L2` is none. -/
theorem foldLoadsStep_no_load (A : Analyses) (Max : Nat) (X L2 : Value) (ShAmt2 : Option Nat)
    (LOps : LoadOps) (h : (rootLoad X LOps).1 = none ∨ L2.asLoad = none) :
    (foldLoadsStep A Max X L2 ShAmt2 LOps).1 = false := by
  unfold foldLoadsStep
  rcases h with h | h
  · rw [h]
  · rw [h]
    cases (rootLoad X LOps).1 <;> rfl

/-- The load of a zero-extended load, when `matchZExtOneUseInst` accepts it. -/
theorem matchZExtOneUseInst_load (i u b : Nat) (L : LoadInst) (V : Value)
    (h : matchZExtOneUseInst (.zext i u b (.load L)) = some V) : V = .load L := by
  simp only [matchZExtOneUseInst] at h
  split at h
  · exact (Option.some.inj h).symm
  · exact absurd h (by simp)

/-- The load of a zero-extended load, when `matchZExtInst` accepts it. -/
theorem matchZExtInst_load (i u b : Nat) (L : LoadInst) (V : Value)
    (h : matchZExtInst (.zext i u b (.load L)) = some V) : V = .load L := by
  simp only [matchZExtInst] at h
  split at h
  · exact (Option.some.inj h).symm
  · exact absurd h (by simp)

/-- The load of a shifted zero-extended load, when `matchShlZExtInst`
accepts it. -/
theorem matchShlZExtInst_load (i u b j v c w s : Nat) (L : LoadInst) (V : Value) (Sh : Nat)
    (h : matchShlZExtInst (.shl i u b (.zext j v c (.load L)) (.constInt w s)) = some (V, Sh)) :
    V = .load L := by
  simp only [matchShlZExtInst] at h
  split at h
  · split at h
    · rename_i hz _
      have := matchZExtOneUseInst_load _ _ _ _ _ hz
      simp only [Option.some.injEq, Prod.mk.injEq] at h
      rw [← h.1, this]
    · exact absurd h (by simp)
  · exact absurd h (by simp)

/-- An extended load is no `or`: the recursive call on it returns `false`
and leaves the state. -/
theorem foldLoadsRecursive_extended (A : Analyses) (Max : Nat) (L : LoadInst) (Y : Value)
    (LOps : LoadOps) (h : IsExtendedLoad L Y) :
    foldLoadsRecursive A Max Y LOps = (false, LOps) := by
  rcases h with ⟨i, u, b, rfl⟩ | ⟨i, u, b, j, v, c, w, s, rfl⟩ <;> rfl

/-- What `matchShlZExtInst` binds on an extended load is that load. -/
theorem matchShlZExtInst_extended (L : LoadInst) (Y V : Value) (Sh : Nat)
    (h : IsExtendedLoad L Y) (hm : matchShlZExtInst Y = some (V, Sh)) : V = .load L := by
  rcases h with ⟨i, u, b, rfl⟩ | ⟨i, u, b, j, v, c, w, s, rfl⟩
  · simp [matchShlZExtInst] at hm
  · exact matchShlZExtInst_load _ _ _ _ _ _ _ _ _ _ _ hm

/-- What `matchZExtOneUseInst` binds on an extended load is that load. -/
theorem matchZExtOneUseInst_extended (L : LoadInst) (Y V : Value)
    (h : IsExtendedLoad L Y) (hm : matchZExtOneUseInst Y = some V) : V = .load L := by
  rcases h with ⟨i, u, b, rfl⟩ | ⟨i, u, b, j, v, c, w, s, rfl⟩
  · exact matchZExtOneUseInst_load _ _ _ _ _ hm
  · simp [matchZExtOneUseInst] at hm

/-- Without a root, the load taken from an extended load is that load or
none. -/
theorem rootLoad_extended (L : LoadInst) (Y : Value) (LOps : LoadOps)
    (h : IsExtendedLoad L Y) (hroot : LOps.FoundRoot = false) (hR : LOps.Root = none) :
    (rootLoad Y LOps).1 = some L ∨ (rootLoad Y LOps).1 = none := by
  unfold rootLoad
  rw [hroot]
  simp only [beq_self_eq_true, if_true]
  cases hz : matchZExtInst Y with
  | some V =>
    rcases h with ⟨i, u, b, rfl⟩ | ⟨i, u, b, j, v, c, w, s, rfl⟩
    · rw [matchZExtInst_load _ _ _ _ _ hz]
      exact Or.inl rfl
    · simp [matchZExtInst] at hz
  | none =>
    cases hs : matchShlZExtInst Y with
    | some p =>
      obtain ⟨V, Sh⟩ := p
      rw [matchShlZExtInst_extended L Y V Sh h hs]
      exact Or.inl rfl
    | none => exact Or.inr hR

/-- `foldConsecutiveLoads` refuses when `foldLoadsRecursive` returns
`false`. -/
theorem foldConsecutiveLoads_of_false (A : Analyses) (Max : Nat) (I : Value)
    (h : (foldLoadsRecursive A Max I LoadOps.init).1 = false) :
    foldConsecutiveLoads A Max I = MergeResult.refused := by
  unfold foldConsecutiveLoads
  dsimp only
  rw [h]
  rfl

/-- The body of `foldLoadsRecursive` on a first pair of extended loads with
an offending instruction between them. -/
theorem foldLoadsAfter_offender (A : Analyses) (Max : Nat) (La Lb : LoadInst) (X V : Value)
    (ShAmt2 : Option Nat) (pre mid post : List Instruction) (first second Inst : Instruction)
    (later : LoadInst) (hX : IsExtendedLoad La X) (hV : V = .load Lb)
    (hblock : A.block La.parent = pre ++ first :: (mid ++ second :: post))
    (horder : (first.id = La.id ∧ second.id = Lb.id ∧ later = Lb) ∨
      (first.id = Lb.id ∧ second.id = La.id ∧ later = La))
    (hpre : ∀ i ∈ pre, i.id ≠ La.id ∧ i.id ≠ Lb.id)
    (hmid : ∀ i ∈ mid, i.id ≠ second.id)
    (hin : Inst ∈ mid) (hw : Inst.mayWriteToMemory = true)
    (hm : isModSet (A.getModRefInfo Inst (MemoryLocation.get later)) = true) :
    (foldLoadsAfter A Max X V ShAmt2 (foldLoadsRecursive A Max X LoadOps.init)).1 = false := by
  rw [foldLoadsRecursive_extended A Max La X _ hX]
  unfold foldLoadsAfter
  simp only [LoadOps.init, Bool.not_false, Bool.true_and, Bool.false_eq_true, if_false]
  rcases rootLoad_extended La X LoadOps.init hX rfl rfl with h1 | h1
  · apply foldLoadsStep_scan A Max X V ShAmt2 _ La Lb h1 (by rw [hV]; rfl)
    intro hne
    rw [hblock]
    exact scan_between A Max _ rfl pre mid post first second Inst La Lb later hne horder hpre
      hmid (List.mem_cons_of_mem _ hin) hw hm
  · exact foldLoadsStep_no_load A Max X V ShAmt2 _ (Or.inl h1)

/-- The merge of two extended loads is refused when an instruction between
the two loads may write and is reported as modifying the location of the
later one. -/
theorem foldLoadsRecursive_offender (A : Analyses) (Max : Nat) (L1 L2 : LoadInst)
    (X Y : Value) (id uses bits : Nat) (pre mid post : List Instruction)
    (first second Inst : Instruction) (later : LoadInst)
    (hX : IsExtendedLoad L1 X) (hY : IsExtendedLoad L2 Y) (hparent : L1.parent = L2.parent)
    (hblock : A.block L1.parent = pre ++ first :: (mid ++ second :: post))
    (horder : (first.id = L1.id ∧ second.id = L2.id ∧ later = L2) ∨
      (first.id = L2.id ∧ second.id = L1.id ∧ later = L1))
    (hpre : ∀ i ∈ pre, i.id ≠ L1.id ∧ i.id ≠ L2.id)
    (hmid : ∀ i ∈ mid, i.id ≠ second.id)
    (hin : Inst ∈ mid) (hw : Inst.mayWriteToMemory = true)
    (hm : isModSet (A.getModRefInfo Inst (MemoryLocation.get later)) = true) :
    (foldLoadsRecursive A Max (.or id uses bits X Y) LoadOps.init).1 = false := by
  have hsym : (first.id = L2.id ∧ second.id = L1.id ∧ later = L1) ∨
      (first.id = L1.id ∧ second.id = L2.id ∧ later = L2) := horder.symm
  rw [foldLoadsRecursive]
  split
  · cases hb : matchShlZExtInst Y with
    | some p =>
      obtain ⟨V, Sh⟩ := p
      exact foldLoadsAfter_offender A Max L1 L2 X V _ pre mid post first second Inst later hX
        (matchShlZExtInst_extended L2 Y V Sh hY hb) hblock horder hpre hmid hin hw hm
    | none =>
      cases ha : matchShlZExtInst X with
      | some p =>
        obtain ⟨V, Sh⟩ := p
        exact foldLoadsAfter_offender A Max L2 L1 Y V _ pre mid post first second Inst later hY
          (matchShlZExtInst_extended L1 X V Sh hX ha) (by rw [← hparent]; exact hblock) hsym
          (fun i hi => ⟨(hpre i hi).2, (hpre i hi).1⟩) hmid hin hw hm
      | none =>
        cases hz : matchZExtOneUseInst Y with
        | some V =>
          exact foldLoadsAfter_offender A Max L1 L2 X V _ pre mid post first second Inst later hX
            (matchZExtOneUseInst_extended L2 Y V hY hz) hblock horder hpre hmid hin hw hm
        | none => rfl
  · rfl

/-- `foldConsecutiveLoads` refuses when the cost model reports the wider
type illegal. -/
theorem foldConsecutiveLoads_illegal (A : Analyses) (Max : Nat) (I : Value)
    (h : A.isTypeLegal (foldLoadsRecursive A Max I LoadOps.init).2.LoadSize = false) :
    foldConsecutiveLoads A Max I = MergeResult.refused := by
  unfold foldConsecutiveLoads
  dsimp only
  split
  · rfl
  · split
    · rw [h]
      rfl
    · rfl

/-- `foldConsecutiveLoads` refuses when the cost model reports the wider
access not allowed, or not fast. -/
theorem foldConsecutiveLoads_slow (A : Analyses) (Max : Nat) (I : Value) (LI1 : LoadInst)
    (hroot : (foldLoadsRecursive A Max I LoadOps.init).2.Root = some LI1)
    (h : (A.allowsMisalignedMemoryAccesses (foldLoadsRecursive A Max I LoadOps.init).2.LoadSize
          LI1.addressSpace LI1.align).1 = false ∨
      (A.allowsMisalignedMemoryAccesses (foldLoadsRecursive A Max I LoadOps.init).2.LoadSize
          LI1.addressSpace LI1.align).2 = 0) :
    foldConsecutiveLoads A Max I = MergeResult.refused := by
  unfold foldConsecutiveLoads
  dsimp only
  split
  · rfl
  · split
    · rename_i L R h1 h2
      rw [hroot] at h1
      cases h1
      split
      · rfl
      · split
        · rfl
        · rename_i hc
          exfalso
          apply hc
          rcases h with h | h <;> simp [h]
    · rfl

/-- C19: the consecutive-load merge is refused although the `or`/`zext`/`shl`
shape matches. (a) For an `or` of two zero-extended loads, each shifted by a
constant or not, whose loads stand in one block: when an instruction between
the two loads may write memory and alias analysis reports that it modifies
the location of the later load, `foldLoadsRecursive` returns `false` and
`foldConsecutiveLoads` returns `false` with no instruction created and no
use replaced. (b) For every value, `foldConsecutiveLoads` returns `false`
with no instruction created and no use replaced when the cost model reports
the wider integer type illegal, or the misaligned wider access not allowed,
or not fast. On the two byte loads of `twoByteOr` the merge is made when
nothing stands in the way, and refused with a store between the loads, with
an illegal 16-bit type, with an access that is not allowed and with one that
is not fast, `foldLoadsRecursive` accepting the shape in the last three. -/
theorem C19_consecutive_load_merge_refused :
    (∀ (A : Analyses) (Max : Nat) (L1 L2 : LoadInst) (X Y : Value) (id uses bits : Nat)
        (pre mid post : List Instruction) (first second Inst : Instruction) (later : LoadInst),
      IsExtendedLoad L1 X → IsExtendedLoad L2 Y → L1.parent = L2.parent →
      A.block L1.parent = pre ++ first :: (mid ++ second :: post) →
      ((first.id = L1.id ∧ second.id = L2.id ∧ later = L2) ∨
        (first.id = L2.id ∧ second.id = L1.id ∧ later = L1)) →
      (∀ i ∈ pre, i.id ≠ L1.id ∧ i.id ≠ L2.id) → (∀ i ∈ mid, i.id ≠ second.id) →
      Inst ∈ mid → Inst.mayWriteToMemory = true →
      isModSet (A.getModRefInfo Inst (MemoryLocation.get later)) = true →
      (foldLoadsRecursive A Max (.or id uses bits X Y) LoadOps.init).1 = false ∧
      foldConsecutiveLoads A Max (.or id uses bits X Y) = MergeResult.refused) ∧
    (∀ (A : Analyses) (Max : Nat) (I : Value),
      A.isTypeLegal (foldLoadsRecursive A Max I LoadOps.init).2.LoadSize = false →
      foldConsecutiveLoads A Max I = MergeResult.refused) ∧
    (∀ (A : Analyses) (Max : Nat) (I : Value) (LI1 : LoadInst),
      (foldLoadsRecursive A Max I LoadOps.init).2.Root = some LI1 →
      (A.allowsMisalignedMemoryAccesses (foldLoadsRecursive A Max I LoadOps.init).2.LoadSize
          LI1.addressSpace LI1.align).1 = false ∨
        (A.allowsMisalignedMemoryAccesses (foldLoadsRecursive A Max I LoadOps.init).2.LoadSize
          LI1.addressSpace LI1.align).2 = 0 →
      foldConsecutiveLoads A Max I = MergeResult.refused) ∧
    foldConsecutiveLoads (permissive plainBlock) MaxInstrsToScan twoByteOr
      = { changed := true,
          created := [.CreateBitCast 16 0, .CreateAlignedLoad 16 1 false, .CreateZExt 16],
          replaced := true } ∧
    (foldLoadsRecursive (permissive storeBlock) MaxInstrsToScan twoByteOr LoadOps.init).1
      = false ∧
    foldConsecutiveLoads (permissive storeBlock) MaxInstrsToScan twoByteOr
      = MergeResult.refused ∧
    (foldLoadsRecursive (permissive plainBlock) MaxInstrsToScan twoByteOr LoadOps.init)
      = (true, { Root := some (byteLoad 1 0), RootInsert := some (byteLoad 1 0),
                 FoundRoot := true, LoadSize := 16, Shift := none, ZextType := some 16 }) ∧
    foldConsecutiveLoads { permissive plainBlock with isTypeLegal := fun _ => false }
      MaxInstrsToScan twoByteOr = MergeResult.refused ∧
    foldConsecutiveLoads
      { permissive plainBlock with allowsMisalignedMemoryAccesses := fun _ _ _ => (false, 1) }
      MaxInstrsToScan twoByteOr = MergeResult.refused ∧
    foldConsecutiveLoads
      { permissive plainBlock with allowsMisalignedMemoryAccesses := fun _ _ _ => (true, 0) }
      MaxInstrsToScan twoByteOr = MergeResult.refused := by
  refine ⟨?_, foldConsecutiveLoads_illegal, foldConsecutiveLoads_slow, by decide, by decide,
    by decide, by decide, by decide, by decide, by decide⟩
  intro A Max L1 L2 X Y id uses bits pre mid post first second Inst later hX hY hp hb ho hpre
    hmid hin hw hm
  have h := foldLoadsRecursive_offender A Max L1 L2 X Y id uses bits pre mid post first second
    Inst later hX hY hp hb ho hpre hmid hin hw hm
  exact ⟨h, foldConsecutiveLoads_of_false A Max _ h⟩

end ConsecutiveLoads

end AggressiveInstCombine

namespace AggressiveInstCombine

namespace PatternedLoads

/-- The loop ends only past `E`: when it ends, `E` is below `2^BW`. -/
theorem checkOffsets_true_bound (fold : Nat → Option Nat) (BW Stride E Ca : Nat) :
    ∀ (fuel off : Nat), off < 2 ^ BW →
      checkOffsets fold BW Stride E Ca fuel off = some true → E < 2 ^ BW := by
  intro fuel
  induction fuel with
  | zero =>
    intro off hoff h
    rw [checkOffsets] at h
    split at h
    · exact absurd h (by simp)
    · omega
  | succ fuel ih =>
    intro off hoff h
    rw [checkOffsets] at h
    split at h
    · split at h
      · exact absurd h (by simp)
      · exact ih _ (Nat.mod_lt _ (Nat.two_pow_pos BW)) h
    · omega

/-- When the loop ends, every offset `off + k * Stride` up to `E` folded to
`Ca`. -/
theorem checkOffsets_true (fold : Nat → Option Nat) (BW Stride E Ca : Nat) (hE : E < 2 ^ BW) :
    ∀ (fuel off : Nat), checkOffsets fold BW Stride E Ca fuel off = some true →
      ∀ k, off + k * Stride ≤ E → fold (off + k * Stride) = some Ca := by
  intro fuel
  induction fuel with
  | zero =>
    intro off h k hk
    rw [checkOffsets] at h
    have : off ≤ E := le_trans (Nat.le_add_right _ _) hk
    rw [if_pos this] at h
    exact absurd h (by simp)
  | succ fuel ih =>
    intro off h k hk
    rw [checkOffsets] at h
    have hoff : off ≤ E := le_trans (Nat.le_add_right _ _) hk
    rw [if_pos hoff] at h
    split at h
    · exact absurd h (by simp)
    · rename_i hf
      have hf0 : fold off = some Ca := not_not.1 hf
      cases k with
      | zero => simpa using hf0
      | succ k =>
        have hstep : off + (k + 1) * Stride = off + Stride + k * Stride := by
          rw [Nat.succ_mul]; omega
        have hle : off + Stride ≤ E := by
          rw [hstep] at hk
          exact le_trans (Nat.le_add_right _ _) hk
        rw [Nat.mod_eq_of_lt (lt_of_le_of_lt hle hE)] at h
        rw [hstep]
        exact ih _ h k (by rw [← hstep]; exact hk)

/-- The loop returns `false` when some offset `off + k * Stride` up to `E`
folds to something else than `Ca`, given more than `k` iterations. -/
theorem checkOffsets_differs (fold : Nat → Option Nat) (BW Stride E Ca : Nat)
    (hE : E < 2 ^ BW) :
    ∀ (k fuel off : Nat), k < fuel → off + k * Stride ≤ E →
      fold (off + k * Stride) ≠ some Ca →
      checkOffsets fold BW Stride E Ca fuel off = some false := by
  intro k
  induction k with
  | zero =>
    intro fuel off hf hk hd
    obtain ⟨f, rfl⟩ : ∃ f, fuel = f + 1 := ⟨fuel - 1, by omega⟩
    simp only [Nat.zero_mul, Nat.add_zero] at hk hd
    rw [checkOffsets, if_pos hk, if_pos hd]
  | succ k ih =>
    intro fuel off hf hk hd
    obtain ⟨f, rfl⟩ : ∃ f, fuel = f + 1 := ⟨fuel - 1, by omega⟩
    have hstep : off + (k + 1) * Stride = off + Stride + k * Stride := by
      rw [Nat.succ_mul]; omega
    rw [hstep] at hk hd
    have hle : off + Stride ≤ E := le_trans (Nat.le_add_right _ _) hk
    have hoff : off ≤ E := le_trans (Nat.le_add_right _ _) hle
    rw [checkOffsets, if_pos hoff]
    split
    · rfl
    · rw [Nat.mod_eq_of_lt (lt_of_le_of_lt hle hE)]
      exact ih f _ (by omega) hk hd

/-- The loop returns within `fuel` iterations when no offset up to `E` wraps
and `fuel` strides lead past `E`. -/
theorem checkOffsets_returns (fold : Nat → Option Nat) (BW Stride E Ca : Nat)
    (hE : E + Stride < 2 ^ BW) :
    ∀ (fuel off : Nat), E < off + fuel * Stride →
      (checkOffsets fold BW Stride E Ca fuel off).isSome = true := by
  intro fuel
  induction fuel with
  | zero =>
    intro off h
    rw [checkOffsets, if_neg (by omega)]
    rfl
  | succ fuel ih =>
    intro off h
    rw [checkOffsets]
    split
    · rename_i hoff
      split
      · rfl
      · rw [Nat.mod_eq_of_lt (by omega)]
        apply ih
        rw [Nat.succ_mul] at h
        omega
    · rfl

/-- The remainder of `srem` is a value of `w` bits. -/
theorem srem_lt (w a b : Nat) : srem w a b < 2 ^ w := by
  unfold srem
  have hpos : (0 : Int) < ((2 ^ w : Nat) : Int) := by
    exact_mod_cast Nat.two_pow_pos w
  have h1 := Int.emod_lt_of_pos (Int.tmod (getSExtValue w a) (getSExtValue w b)) hpos
  have h0 := Int.emod_nonneg (Int.tmod (getSExtValue w a) (getSExtValue w b)) (ne_of_gt hpos)
  omega

/-- The offset that `getStrideAndModOffsetOfGEP` returns is a value of `BW`
bits. -/
theorem getStrideAndModOffsetOfGEP_lt (BW : Nat) (P : PtrOp) :
    (getStrideAndModOffsetOfGEP BW P).2 < 2 ^ BW := by
  unfold getStrideAndModOffsetOfGEP
  split
  · dsimp only
    split
    · exact Nat.mod_lt _ (Nat.two_pow_pos BW)
    · exact srem_lt _ _ _
  · exact Nat.two_pow_pos BW

/-- The offset that `foldPatternedLoads` starts from is a value of the index
width. -/
theorem strideAndOffset_lt (DL : DataLayout) (LI : LoadInst) (GV : GlobalVariable) :
    (strideAndOffset DL LI GV).2 < 2 ^ DL.indexBits := by
  unfold strideAndOffset
  split
  · exact Nat.two_pow_pos _
  · exact getStrideAndModOffsetOfGEP_lt _ _

/-- The last offset checked is `GVSize - storeSize` when the loaded type is
no larger than the global. -/
theorem lastOffset_eq (DL : DataLayout) (LI : LoadInst) (GV : GlobalVariable)
    (hle : DL.getTypeStoreSize LI.LoadTy ≤ GVSize DL GV) (hG : GVSize DL GV ≤ 4096) :
    lastOffset DL LI GV = GVSize DL GV - DL.getTypeStoreSize LI.LoadTy := by
  unfold lastOffset
  omega

/-- A load is replaced by `Ca` only if it is not volatile, its pointer
leads to a constant global with a definitive initializer of 1 to 4096 bytes,
and the load folds to `Ca` at every offset `Offset + k * Stride` at which it
fits the initializer. -/
theorem foldPatternedLoads_replaced (fuel : Nat) (DL : DataLayout)
    (fold : Nat → Nat → Nat → Option Nat) (LI : LoadInst) (Ca : Nat)
    (h : foldPatternedLoads fuel DL fold LI = some (.replaced Ca)) :
    LI.isVolatile = false ∧
    ∃ GV, getUnderlyingObject 6 LI.pointerOperand = .global GV ∧
      GV.isConstant = true ∧ GV.hasDefinitiveInitializer = true ∧
      1 ≤ GVSize DL GV ∧ GVSize DL GV ≤ 4096 ∧
      ∀ k, (strideAndOffset DL LI GV).2 + k * (strideAndOffset DL LI GV).1
            + DL.getTypeStoreSize LI.LoadTy ≤ GVSize DL GV →
        fold GV.initializer LI.LoadTy
          ((strideAndOffset DL LI GV).2 + k * (strideAndOffset DL LI GV).1) = some Ca := by
  unfold foldPatternedLoads at h
  split at h
  · exact absurd h (by simp)
  rename_i hvol
  refine ⟨by simpa using hvol, ?_⟩
  split at h
  · rename_i GV hGV
    split at h
    · exact absurd h (by simp)
    rename_i hc
    split at h
    · exact absurd h (by simp)
    rename_i hsize
    split at h
    · exact absurd h (by simp)
    rename_i Ca1 hCa
    split at h
    · exact absurd h (by simp)
    · rename_i hloop
      have hCaeq : Ca1 = Ca := by
        simpa using h
      subst hCaeq
      have hc1 : GV.isConstant = true ∧ GV.hasDefinitiveInitializer = true := by
        simpa using hc
      refine ⟨GV, hGV, hc1.1, hc1.2, by omega, by omega, ?_⟩
      intro k hk
      have hE := checkOffsets_true_bound _ _ _ _ _ _ _ (strideAndOffset_lt DL LI GV) hloop
      apply checkOffsets_true _ _ _ _ _ hE _ _ hloop k
      rw [lastOffset_eq DL LI GV (by omega) (by omega)]
      omega
    · exact absurd h (by simp)
  · exact absurd h (by simp)

/-- The load is left in place when, at some offset `Offset + k * Stride` at
which it fits the initializer, it folds to something else than at `Offset`;
the global fits the index width, and 4097 iterations are allowed. -/
theorem foldPatternedLoads_differs (fuel : Nat) (DL : DataLayout)
    (fold : Nat → Nat → Nat → Option Nat) (LI : LoadInst) (GV : GlobalVariable) (k : Nat)
    (hGV : getUnderlyingObject 6 LI.pointerOperand = .global GV)
    (hfit : GVSize DL GV < 2 ^ DL.indexBits)
    (hk : (strideAndOffset DL LI GV).2 + k * (strideAndOffset DL LI GV).1
            + DL.getTypeStoreSize LI.LoadTy ≤ GVSize DL GV)
    (hd : fold GV.initializer LI.LoadTy
            ((strideAndOffset DL LI GV).2 + k * (strideAndOffset DL LI GV).1)
          ≠ fold GV.initializer LI.LoadTy (strideAndOffset DL LI GV).2)
    (hfuel : 4096 < fuel) :
    foldPatternedLoads fuel DL fold LI = some .unchanged := by
  unfold foldPatternedLoads
  split
  · rfl
  rw [hGV]
  dsimp only
  split
  · rfl
  split
  · rfl
  rename_i hsize
  split
  · rfl
  rename_i Ca hCa
  have hS : (strideAndOffset DL LI GV).1 ≠ 0 := by
    intro h0
    apply hd
    rw [h0, Nat.mul_zero, Nat.add_zero]
  have hkle : k ≤ k * (strideAndOffset DL LI GV).1 :=
    Nat.le_mul_of_pos_right _ (Nat.pos_of_ne_zero hS)
  have hlast := lastOffset_eq DL LI GV (by omega) (by omega)
  rw [checkOffsets_differs _ _ _ _ _ (by rw [hlast]; omega) k fuel _ (by omega)
    (by rw [hlast]; omega) (by rw [← hCa]; exact hd)]

/-- The fold returns within 4097 iterations when the loaded type is no larger
than the global, the stride is not 0, and the size of the global plus the
stride is below `2^BW`. -/
theorem foldPatternedLoads_returns (fuel : Nat) (DL : DataLayout)
    (fold : Nat → Nat → Nat → Option Nat) (LI : LoadInst) (GV : GlobalVariable)
    (hGV : getUnderlyingObject 6 LI.pointerOperand = .global GV)
    (hS : 0 < (strideAndOffset DL LI GV).1)
    (hfit : GVSize DL GV + (strideAndOffset DL LI GV).1 < 2 ^ DL.indexBits)
    (hle : DL.getTypeStoreSize LI.LoadTy ≤ GVSize DL GV)
    (hfuel : 4096 < fuel) :
    (foldPatternedLoads fuel DL fold LI).isSome = true := by
  unfold foldPatternedLoads
  split
  · rfl
  rw [hGV]
  dsimp only
  split
  · rfl
  split
  · rfl
  rename_i hsize
  split
  · rfl
  rename_i Ca hCa
  have hlast := lastOffset_eq DL LI GV hle (by omega)
  have hfl : fuel ≤ fuel * (strideAndOffset DL LI GV).1 := Nat.le_mul_of_pos_right _ hS
  have := checkOffsets_returns (fold GV.initializer LI.LoadTy) DL.indexBits
    (strideAndOffset DL LI GV).1 (lastOffset DL LI GV) Ca (by rw [hlast]; omega) fuel
    (strideAndOffset DL LI GV).2 (by rw [hlast]; omega)
  cases hres : checkOffsets (fold GV.initializer LI.LoadTy) DL.indexBits
      (strideAndOffset DL LI GV).1 (lastOffset DL LI GV) Ca fuel (strideAndOffset DL LI GV).2 with
  | none => rw [hres] at this; exact absurd this (by simp)
  | some b => cases b <;> rfl

/-- C20: `foldPatternedLoads` replaces a load by the constant `Ca` only if
the initializer of the global takes 1 to 4096 bytes and, with `(Stride,
Offset)` the stride and offset it computed, the load folds to `Ca` at every
offset `Offset + k * Stride` at which the loaded type still fits the
initializer; and if the load folds to something else at such an offset, the
function returns `false` and leaves the load, within 4097 iterations of its
loop (the global fitting the index width). It returns, within 4097
iterations, whenever the loaded type is no larger than the global, the
stride is not 0 and size plus stride stays below `2^BW`. On the bytes
`7,1,7,2,7,3,7,4` a byte load with stride 2 is replaced by 7 and one with
stride 1 is left. -/
theorem C20_patterned_load_checks_every_offset :
    (∀ (fuel : Nat) (DL : DataLayout) (fold : Nat → Nat → Nat → Option Nat) (LI : LoadInst)
        (Ca : Nat),
      foldPatternedLoads fuel DL fold LI = some (.replaced Ca) →
      LI.isVolatile = false ∧
      ∃ GV, getUnderlyingObject 6 LI.pointerOperand = .global GV ∧
        GV.isConstant = true ∧ GV.hasDefinitiveInitializer = true ∧
        1 ≤ GVSize DL GV ∧ GVSize DL GV ≤ 4096 ∧
        ∀ k, (strideAndOffset DL LI GV).2 + k * (strideAndOffset DL LI GV).1
              + DL.getTypeStoreSize LI.LoadTy ≤ GVSize DL GV →
          fold GV.initializer LI.LoadTy
            ((strideAndOffset DL LI GV).2 + k * (strideAndOffset DL LI GV).1) = some Ca) ∧
    (∀ (fuel : Nat) (DL : DataLayout) (fold : Nat → Nat → Nat → Option Nat) (LI : LoadInst)
        (GV : GlobalVariable) (k : Nat),
      getUnderlyingObject 6 LI.pointerOperand = .global GV →
      GVSize DL GV < 2 ^ DL.indexBits →
      (strideAndOffset DL LI GV).2 + k * (strideAndOffset DL LI GV).1
        + DL.getTypeStoreSize LI.LoadTy ≤ GVSize DL GV →
      fold GV.initializer LI.LoadTy
          ((strideAndOffset DL LI GV).2 + k * (strideAndOffset DL LI GV).1)
        ≠ fold GV.initializer LI.LoadTy (strideAndOffset DL LI GV).2 →
      4096 < fuel →
      foldPatternedLoads fuel DL fold LI = some .unchanged) ∧
    (∀ (fuel : Nat) (DL : DataLayout) (fold : Nat → Nat → Nat → Option Nat) (LI : LoadInst)
        (GV : GlobalVariable),
      getUnderlyingObject 6 LI.pointerOperand = .global GV →
      0 < (strideAndOffset DL LI GV).1 →
      GVSize DL GV + (strideAndOffset DL LI GV).1 < 2 ^ DL.indexBits →
      DL.getTypeStoreSize LI.LoadTy ≤ GVSize DL GV →
      4096 < fuel →
      (foldPatternedLoads fuel DL fold LI).isSome = true) ∧
    strideAndOffset byteLayout (patternLoad 2) patternGlobal = (2, 0) ∧
    foldPatternedLoads 4097 byteLayout foldByte (patternLoad 2) = some (.replaced 7) ∧
    strideAndOffset byteLayout (patternLoad 1) patternGlobal = (1, 0) ∧
    foldPatternedLoads 4097 byteLayout foldByte (patternLoad 1) = some .unchanged := by
  exact ⟨foldPatternedLoads_replaced, foldPatternedLoads_differs, foldPatternedLoads_returns,
    by decide, by decide, by decide, by decide⟩

end PatternedLoads

end AggressiveInstCombine

/-! ## Linearity of the reference routine over xor -/

/-- One round driven by the low bit of the accumulator is linear over xor. -/
theorem crcRound_self_xor (x y : Nat) :
    crcRound (x ^^^ y) (decide ((x ^^^ y) % 2 = 1))
      = crcRound x (decide (x % 2 = 1)) ^^^ crcRound y (decide (y % 2 = 1)) := by
  unfold crcRound
  simp only [Nat.shiftRight_eq_div_pow, pow_one, Nat.xor_div_two]
  have hx : x % 2 = 0 ∨ x % 2 = 1 := by omega
  have hy : y % 2 = 0 ∨ y % 2 = 1 := by omega
  have hxy : (x ^^^ y) % 2 = (x % 2 + y % 2) % 2 := by
    rcases hx with hx | hx <;> rcases hy with hy | hy
    · have : ¬ (x ^^^ y) % 2 = 1 := by rw [Nat.xor_mod_two_eq_one]; omega
      omega
    · have : (x ^^^ y) % 2 = 1 := by rw [Nat.xor_mod_two_eq_one]; omega
      omega
    · have : (x ^^^ y) % 2 = 1 := by rw [Nat.xor_mod_two_eq_one]; omega
      omega
    · have : ¬ (x ^^^ y) % 2 = 1 := by rw [Nat.xor_mod_two_eq_one]; omega
      omega
  rcases hx with hx | hx <;> rcases hy with hy | hy <;>
    simp only [hxy, hx, hy, Nat.zero_mod, Nat.add_zero, Nat.zero_add, Nat.one_mod,
      decide_True, decide_False, if_true, if_false, Nat.xor_zero,
      zero_ne_one, Bool.false_eq_true, show (1 + 1) % 2 = 0 from rfl] <;>
    apply Nat.eq_of_testBit_eq <;> intro i <;> simp only [Nat.testBit_xor] <;>
    generalize (x / 2).testBit i = a <;> generalize (y / 2).testBit i = b <;>
    generalize Nat.testBit 40961 i = c <;>
    cases a <;> cases b <;> cases c <;> rfl

/-- The optimized recurrence is linear over xor. -/
theorem optRounds_linear (k : Nat) : ∀ x y : Nat,
    optRounds k (x ^^^ y) = optRounds k x ^^^ optRounds k y := by
  induction k with
  | zero => intro x y; rfl
  | succ k ih =>
    intro x y
    simp only [optRounds]
    rw [crcRound_self_xor, ih]

/-- The optimized recurrence maps 0 to 0. -/
theorem optRounds_zero (k : Nat) : optRounds k 0 = 0 := by
  induction k with
  | zero => rfl
  | succ k ih =>
    simp only [optRounds]
    exact ih

/-- Function `crcu8` as the optimized recurrence on `crc xor data`. -/
theorem syrmia_crcu8_opt {data crc : Nat} (hd : data < 256) (hc : crc < 65536) :
    syrmia_crc_unoptimized.crcu8 data crc = some (optRounds 8 (crc ^^^ data)) := by
  rw [syrmia_crcu8_eq hd hc, optRounds_eq_refRounds hd]

/-- C30: the reference `crcu8` of `crc_algorithms/syrmia_crc_unoptimized.c` is
linear over bitwise xor: for `d1`, `d2` in 0..255 and `c1`, `c2` in 0..65535
the calls on `(d1, c1)` and `(d2, c2)` return values `r1`, `r2`, and the call
on `(d1 xor d2, c1 xor c2)` returns `r1 xor r2`; `crcu8(0, 0)` is 0, and
`crcu8(d1, c1)` is `crcu8(0, c1 xor d1)`. -/
theorem C30_crcu8_xor_linear (d1 d2 c1 c2 : Nat) (hd1 : d1 < 256) (hd2 : d2 < 256)
    (hc1 : c1 < 65536) (hc2 : c2 < 65536) :
    (∃ r1 r2, syrmia_crc_unoptimized.crcu8 d1 c1 = some r1 ∧
      syrmia_crc_unoptimized.crcu8 d2 c2 = some r2 ∧
      syrmia_crc_unoptimized.crcu8 (d1 ^^^ d2) (c1 ^^^ c2) = some (r1 ^^^ r2)) ∧
    syrmia_crc_unoptimized.crcu8 0 0 = some 0 ∧
    syrmia_crc_unoptimized.crcu8 d1 c1 = syrmia_crc_unoptimized.crcu8 0 (c1 ^^^ d1) := by
  have hd : d1 ^^^ d2 < 256 := by
    have := @Nat.xor_lt_two_pow d1 d2 8 (by omega) (by omega)
    simpa using this
  have hc : c1 ^^^ c2 < 65536 := by
    have := @Nat.xor_lt_two_pow c1 c2 16 (by omega) (by omega)
    simpa using this
  have hcd : c1 ^^^ d1 < 65536 := by
    have := @Nat.xor_lt_two_pow c1 d1 16 (by omega) (by omega)
    simpa using this
  refine ⟨⟨_, _, syrmia_crcu8_opt hd1 hc1, syrmia_crcu8_opt hd2 hc2, ?_⟩, ?_, ?_⟩
  · rw [syrmia_crcu8_opt hd hc, ← optRounds_linear]
    congr 2
    apply Nat.eq_of_testBit_eq
    intro i
    simp only [Nat.testBit_xor]
    cases c1.testBit i <;> cases c2.testBit i <;> cases d1.testBit i <;> cases d2.testBit i <;> rfl
  · rw [syrmia_crcu8_opt (by omega) (by omega)]
    simp only [Nat.xor_zero]
    rw [optRounds_zero]
  · rw [syrmia_crcu8_opt hd1 hc1, syrmia_crcu8_opt (by omega) hcd, Nat.xor_zero]

/-- C30 at `d1 = 241`, `c1 = 40261`, `d2 = 7`, `c2 = 513`. -/
theorem C30_crcu8_xor_linear_witness :
    (241 < 256 ∧ 7 < 256 ∧ 40261 < 65536 ∧ 513 < 65536) ∧
    ((∃ r1 r2, syrmia_crc_unoptimized.crcu8 241 40261 = some r1 ∧
      syrmia_crc_unoptimized.crcu8 7 513 = some r2 ∧
      syrmia_crc_unoptimized.crcu8 (241 ^^^ 7) (40261 ^^^ 513) = some (r1 ^^^ r2)) ∧
    syrmia_crc_unoptimized.crcu8 0 0 = some 0 ∧
    syrmia_crc_unoptimized.crcu8 241 40261
      = syrmia_crc_unoptimized.crcu8 0 (40261 ^^^ 241)) :=
  ⟨by decide, C30_crcu8_xor_linear 241 7 40261 513 (by decide) (by decide) (by decide)
    (by decide)⟩

/-! ## The option flags of the pass entry points -/

set_option maxRecDepth 8192 in
/-- C28: `RecognizingCRCPass::run`, in `src/RecognizingCRC.cpp` and in the
crc-recognition pass, returns with the function as it was when both option
flags are set and when neither is, for every function; the function it
leaves differs from the one it got only when exactly one flag is set. No
recognizer runs in the first two cases: on `load_ret_ir`, where every
recognizer dereferences a null pointer, `run` returns with both flags and
with none, and does not with exactly one. With exactly one flag the
documented `crcu8` is rewritten. -/
theorem C28_run_needs_exactly_one_flag :
    (∀ F : Function, RecognizingCRC.run true true F = some (PreservedAnalyses.all, F)) ∧
    (∀ F : Function, RecognizingCRC.run false false F = some (PreservedAnalyses.all, F)) ∧
    (∀ F : Function, CrcRecognition.run true true F = some (PreservedAnalyses.all, F)) ∧
    (∀ F : Function, CrcRecognition.run false false F = some (PreservedAnalyses.all, F)) ∧
    (∀ (a b : Bool) (F : Function) (r : PreservedAnalyses × Function),
      RecognizingCRC.run a b F = some r → r.2 ≠ F → a ≠ b) ∧
    (∀ (a b : Bool) (F : Function) (r : PreservedAnalyses × Function),
      CrcRecognition.run a b F = some r → r.2 ≠ F → a ≠ b) ∧
    RecognizingCRC.run true false load_ret_ir = none ∧
    RecognizingCRC.run false true load_ret_ir = none ∧
    CrcRecognition.run true false load_ret_ir = none ∧
    CrcRecognition.run false true load_ret_ir = none ∧
    RecognizingCRC.run true false (crcu8_ir 16386 false)
      = some (PreservedAnalyses.all, crcu8_intrinsic_ir) ∧
    RecognizingCRC.run false true (crcu8_ir 16386 false)
      = some (PreservedAnalyses.all, crcu8_loop_ir (.inst 136)) ∧
    CrcRecognition.run true false (crcu8_ir 16386 false)
      = some (PreservedAnalyses.all, crcu8_loop_ir (.inst 133)) ∧
    CrcRecognition.run false true (crcu8_ir 16386 false)
      = some (PreservedAnalyses.all, crcu8_intrinsic_ir) := by
  refine ⟨fun _ => rfl, fun _ => rfl, fun _ => rfl, fun _ => rfl, ?_, ?_, rfl, rfl, rfl, rfl,
    rfl, rfl, rfl, rfl⟩
  · intro a b F r h hne hab
    subst hab
    cases a <;> simp [RecognizingCRC.run] at h <;> exact hne (by rw [← h])
  · intro a b F r h hne hab
    subst hab
    cases a <;> simp [CrcRecognition.run] at h <;> exact hne (by rw [← h])

/-! ## The blocks before the return block -/

/-- A successful cast stays at the instruction it casts. -/
theorem castAt_at {F : Function} {k : Kind} {n : OnNull} {q p : InstPtr}
    (h : castAt F k n q = .at p) : p = q ∧ (F.inst? q).isSome = true := by
  unfold castAt at h
  cases hi : F.inst? q with
  | none => rw [hi] at h; exact absurd h (by simp)
  | some i =>
    rw [hi] at h
    dsimp only at h
    split at h
    · exact ⟨(Walk.at.inj h).symm, rfl⟩
    · cases n <;> exact absurd h (by simp [OnNull.walk])

/-- A statement group that goes on moves back by its number of block hops,
and goes on at an instruction of the function. -/
theorem Check.run_hops {F : Function} {c : Check} {p q : InstPtr}
    (h : c.run F p = .at q) : q.bb + c.hops = p.bb ∧ (F.inst? q).isSome = true := by
  cases c with
  | isa k n =>
    obtain ⟨rfl, hs⟩ := castAt_at h
    exact ⟨rfl, hs⟩
  | prev k n =>
    simp only [Check.run] at h
    split at h
    · split at h
      · cases n <;> exact absurd h (by simp [OnNull.walk])
      · exact absurd h (by simp)
    · obtain ⟨rfl, hs⟩ := castAt_at h
      exact ⟨rfl, hs⟩
  | prevBlockBack nBB k n =>
    simp only [Check.run] at h
    split at h
    · cases nBB <;> exact absurd h (by simp [OnNull.walk])
    · rename_i hp
      split at h
      · exact absurd h (by simp)
      · split at h
        · exact absurd h (by simp)
        · obtain ⟨rfl, hs⟩ := castAt_at h
          refine ⟨?_, hs⟩
          simp only [Check.hops]
          omega
  | test pat =>
    simp only [Check.run] at h
    split at h
    · exact absurd h (by simp)
    · rename_i i hi
      split at h
      · cases Walk.at.inj h
        exact ⟨rfl, by rw [hi]; rfl⟩
      · exact absurd h (by simp)
  | isUnconditional =>
    simp only [Check.run] at h
    split at h
    · rename_i hi
      cases Walk.at.inj h
      exact ⟨rfl, by rw [hi]; rfl⟩
    · exact absurd h (by simp)
    · exact absurd h (by simp)
  | isConditional =>
    simp only [Check.run] at h
    split at h
    · rename_i hi
      cases Walk.at.inj h
      exact ⟨rfl, by rw [hi]; rfl⟩
    · exact absurd h (by simp)
    · exact absurd h (by simp)

/-- A sequence of statement groups that goes on moves back by the number of
its block hops. -/
theorem runChecks_hops {F : Function} : ∀ (cs : List Check) (p q : InstPtr),
    runChecks F cs p = .at q → q.bb + (cs.map Check.hops).sum = p.bb
  | [], p, q, h => by
    cases Walk.at.inj h
    simp
  | c :: cs, p, q, h => by
    rw [runChecks] at h
    cases hc : c.run F p with
    | fault => rw [hc] at h; exact absurd h (by simp)
    | reject => rw [hc] at h; exact absurd h (by simp)
    | «at» m =>
      rw [hc] at h
      have h1 := (Check.run_hops hc).1
      have h2 := runChecks_hops cs m q h
      simp only [List.map_cons, List.sum_cons]
      omega

/-- The first statement group of a non-empty sequence that goes on finds an
instruction at the start. -/
theorem runChecks_isa_start {F : Function} {k : Kind} {n : OnNull} {cs : List Check}
    {p q : InstPtr} (h : runChecks F (.isa k n :: cs) p = .at q) :
    (F.inst? p).isSome = true := by
  rw [runChecks] at h
  cases hc : (Check.isa k n).run F p with
  | fault => rw [hc] at h; exact absurd h (by simp)
  | reject => rw [hc] at h; exact absurd h (by simp)
  | «at» m =>
    obtain ⟨hm, hs⟩ := castAt_at hc
    exact hs

/-- An instruction pointer that designates an instruction points into the
block list. -/
theorem inst?_bb_lt {F : Function} {p : InstPtr} (h : (F.inst? p).isSome = true) :
    p.bb < F.blocks.length := by
  unfold Function.inst? at h
  cases hb : F.blocks[p.bb]? with
  | none => rw [hb] at h; exact absurd h (by simp)
  | some B =>
    by_contra hlt
    rw [List.getElem?_eq_none (by omega)] at hb
    exact absurd hb (by simp)

/-- C29: whenever `recognizingUnoptimizedCRCInstructions` returns `true` on
the instruction `I`, the block of `I` is a block of the function preceded by
at least ten blocks: each of the ten previous-block hops that compute
`bb_help1 .. bb_help10` yields an existing block, and `tenPrevBlocks` finds
`bb_help10` ten positions before the block of `I`. -/
theorem C29_ten_blocks_precede_return_block (F : Function) (I : InstPtr)
    (h : CrcRecognition.recognizingUnoptimizedCRCInstructions F I = some true) :
    10 ≤ I.bb ∧ I.bb < F.blocks.length ∧
    tenPrevBlocks I.bb = some (I.bb - 10) ∧
    ∀ k, 1 ≤ k → k ≤ 10 → ∃ B, F.blocks[I.bb - k]? = some B := by
  unfold CrcRecognition.recognizingUnoptimizedCRCInstructions at h
  split at h
  · exact absurd h (by simp)
  cases h1 : runChecks F CrcRecognition.checksToIfThen I with
  | fault => rw [h1] at h; exact absurd h (by simp [Walk.toResult])
  | reject => rw [h1] at h; exact absurd h (by simp [Walk.toResult])
  | «at» BI =>
    rw [h1] at h
    dsimp only at h
    have hb1 := runChecks_hops _ _ _ h1
    have hI := inst?_bb_lt (runChecks_isa_start h1)
    cases h2 : CrcRecognition.walkIfThen F BI with
    | fault => rw [h2] at h; exact absurd h (by simp [Walk.toResult])
    | reject => rw [h2] at h; exact absurd h (by simp [Walk.toResult])
    | «at» LI =>
      rw [h2] at h
      dsimp only at h
      have hb2 : LI.bb = BI.bb := by
        unfold CrcRecognition.walkIfThen at h2
        cases h3 : runChecks F CrcRecognition.checksIfThenLoop BI with
        | fault => rw [h3] at h2; exact absurd h2 (by simp)
        | reject =>
          rw [h3] at h2
          have := runChecks_hops _ _ _ h2
          simpa [CrcRecognition.checksIfThenOther, Check.hops] using this
        | «at» m =>
          rw [h3] at h2
          cases Walk.at.inj h2
          have := runChecks_hops _ _ _ h3
          simpa [CrcRecognition.checksIfThenLoop, Check.hops] using this
      cases h4 : runChecks F CrcRecognition.checksFromForBody LI with
      | fault => rw [h4] at h; exact absurd h (by simp [Walk.toResult])
      | reject => rw [h4] at h; exact absurd h (by simp [Walk.toResult])
      | «at» q =>
        have hb3 := runChecks_hops _ _ _ h4
        have e1 : (CrcRecognition.checksToIfThen.map Check.hops).sum = 7 := by decide
        have e3 : (CrcRecognition.checksFromForBody.map Check.hops).sum = 3 := by decide
        rw [e1] at hb1
        rw [e3] at hb3
        have h10 : 10 ≤ I.bb := by omega
        refine ⟨h10, hI, by simp [tenPrevBlocks, h10], ?_⟩
        intro k _ _
        have hlt : I.bb - k < F.blocks.length := by omega
        exact ⟨F.blocks[I.bb - k], List.getElem?_eq_getElem hlt⟩

set_option maxRecDepth 8192 in
/-- C29 on the documented `crcu8`, at its `ret`. -/
theorem C29_ten_blocks_precede_return_block_witness :
    CrcRecognition.recognizingUnoptimizedCRCInstructions (crcu8_ir 16386 false) ⟨10, 1⟩
      = some true ∧
    (10 ≤ (⟨10, 1⟩ : InstPtr).bb ∧
      (⟨10, 1⟩ : InstPtr).bb < (crcu8_ir 16386 false).blocks.length ∧
      tenPrevBlocks (⟨10, 1⟩ : InstPtr).bb = some ((⟨10, 1⟩ : InstPtr).bb - 10) ∧
      ∀ k, 1 ≤ k → k ≤ 10 →
        ∃ B, (crcu8_ir 16386 false).blocks[(⟨10, 1⟩ : InstPtr).bb - k]? = some B) :=
  ⟨rfl, C29_ten_blocks_precede_return_block (crcu8_ir 16386 false) ⟨10, 1⟩ rfl⟩

/-! ## Invariance of the recognizers under the operands of an `or` -/

theorem Op.sameUpToOr_refl (op : Op) : Op.sameUpToOr op op := Or.inl rfl

theorem Instr.sameUpToOr_same (i : Instr) : Instr.sameUpToOr i i := ⟨rfl, Op.sameUpToOr_refl _⟩

theorem BasicBlock.sameUpToOr_all_same (B : BasicBlock) : BasicBlock.sameUpToOr B B := by
  unfold BasicBlock.sameUpToOr
  exact List.forall₂_same.2 (fun i _ => Instr.sameUpToOr_same i)

/-- Replacing the operands of an `or` gives an operation that is the same up
to them. -/
theorem Op.sameUpToOr_setOrOperands (a b : Value) (op : Op) :
    Op.sameUpToOr op (op.setOrOperands a b) := by
  cases op with
  | binop o ty x y =>
    cases o
    case or => exact Or.inr ⟨ty, x, y, a, b, rfl, rfl⟩
    all_goals exact Or.inl rfl
  | _ => exact Or.inl rfl

/-- Changing one element to a related one gives a pairwise related list. -/
theorem forall₂_modifyAt {α : Type} {R : α → α → Prop} (f : α → α) (hrefl : ∀ x, R x x)
    (hf : ∀ x, R x (f x)) : ∀ (n : Nat) (l : List α), List.Forall₂ R l (modifyAt f n l)
  | _, [] => by cases ‹Nat› <;> exact List.Forall₂.nil
  | 0, x :: xs => List.Forall₂.cons (hf x) (List.forall₂_same.2 (fun y _ => hrefl y))
  | n + 1, x :: xs => List.Forall₂.cons (hrefl x) (forall₂_modifyAt f hrefl hf n xs)

/-- Elements at one position of pairwise related lists are related. -/
theorem forall₂_getElem? {α : Type} {R : α → α → Prop} {l l2 : List α}
    (h : List.Forall₂ R l l2) : ∀ k : Nat, Option.Rel R l[k]? l2[k]? := by
  induction h with
  | nil => intro k; simp only [List.getElem?_nil]; exact Option.Rel.none
  | cons hab _ ih =>
    intro k
    cases k with
    | zero => simp only [List.getElem?_cons_zero]; exact Option.Rel.some hab
    | succ k => simp only [List.getElem?_cons_succ]; exact ih k

/-- The function with the operands of the `or` at `p` replaced is the same
up to the operands of an `or`. -/
theorem Function.sameUpToOr_modifyOp (F : Function) (p : InstPtr) (a b : Value) :
    F.sameUpToOr (F.modifyOp p (Op.setOrOperands a b)) := by
  refine ⟨rfl, ?_⟩
  apply forall₂_modifyAt
  · exact BasicBlock.sameUpToOr_all_same
  · intro B
    apply forall₂_modifyAt
    · exact Instr.sameUpToOr_same
    · intro i
      exact ⟨rfl, Op.sameUpToOr_setOrOperands a b i.op⟩

/-- The two cases of a relation between optional values. -/
theorem optionRel_cases {α : Type} {R : α → α → Prop} {o o2 : Option α}
    (h : Option.Rel R o o2) :
    (o = none ∧ o2 = none) ∨ ∃ a b, o = some a ∧ o2 = some b ∧ R a b := by
  cases h with
  | none => exact Or.inl ⟨rfl, rfl⟩
  | some hab => exact Or.inr ⟨_, _, rfl, rfl, hab⟩

/-- Instructions at one pointer of two functions that are the same up to the
operands of an `or`. -/
theorem Function.sameUpToOr.inst_rel {F F2 : Function} (h : F.sameUpToOr F2) (q : InstPtr) :
    Option.Rel Instr.sameUpToOr (F.inst? q) (F2.inst? q) := by
  unfold Function.inst?
  rcases optionRel_cases (forall₂_getElem? h.2 q.bb) with ⟨h1, h2⟩ | ⟨B, B2, h1, h2, hB⟩
  · rw [h1, h2]
    exact Option.Rel.none
  · rw [h1, h2]
    exact forall₂_getElem? hB q.idx

/-- Blocks at one position have as many instructions. -/
theorem Function.sameUpToOr.block_length {F F2 : Function} (h : F.sameUpToOr F2) (k : Nat) :
    Option.Rel (fun B B2 : BasicBlock => B2.insts.length = B.insts.length)
      F.blocks[k]? F2.blocks[k]? := by
  rcases optionRel_cases (forall₂_getElem? h.2 k) with ⟨h1, h2⟩ | ⟨B, B2, h1, h2, hB⟩
  · rw [h1, h2]
    exact Option.Rel.none
  · rw [h1, h2]
    exact Option.Rel.some (List.Forall₂.length_eq hB).symm

/-- All instructions of the two functions, in order, are pairwise the same
up to the operands of an `or`. -/
theorem forall₂_flatMap_insts {l l2 : List BasicBlock}
    (h : List.Forall₂ BasicBlock.sameUpToOr l l2) :
    List.Forall₂ Instr.sameUpToOr (l.flatMap (·.insts)) (l2.flatMap (·.insts)) := by
  induction h with
  | nil => exact List.Forall₂.nil
  | cons hB _ ih =>
    simp only [List.flatMap_cons]
    exact List.rel_append hB ih

/-- The first instruction of a given identity in pairwise related lists. -/
theorem forall₂_find? {l l2 : List Instr} (h : List.Forall₂ Instr.sameUpToOr l l2) (id : Nat) :
    Option.Rel Instr.sameUpToOr (l.find? (fun i => i.id == id)) (l2.find? (fun i => i.id == id)) := by
  induction h with
  | nil => exact Option.Rel.none
  | cons hab _ ih =>
    simp only [List.find?_cons, hab.1]
    split
    · exact Option.Rel.some hab
    · exact ih

/-- The operations that define one operand in the two functions. -/
theorem Function.sameUpToOr.resolve {F F2 : Function} (h : F.sameUpToOr F2) (v : Value) :
    Option.Rel Op.sameUpToOr (F.resolve v) (F2.resolve v) := by
  cases v with
  | inst id =>
    simp only [Function.resolve, Function.def?]
    rcases optionRel_cases (forall₂_find? (forall₂_flatMap_insts h.2) id) with
      ⟨h1, h2⟩ | ⟨i, i2, h1, h2, hi⟩
    · rw [h1, h2]
      exact Option.Rel.none
    · rw [h1, h2]
      exact Option.Rel.some hi.2
  | _ => exact Option.Rel.none

/-- The operand patterns of an `or` pattern that looks at the operands only
through `m_Value`. -/
theorem Pat.orOperandsFree_or {l r : Pat} (h : (Pat.binop .or l r).orOperandsFree = true) :
    l = .value ∧ r = .value := by
  cases l <;> cases r <;> first
    | exact ⟨rfl, rfl⟩
    | exact absurd h (by simp [Pat.orOperandsFree])

/-- The operand patterns of a binary pattern that looks at the operands of
an `or` only through `m_Value` do so too. -/
theorem Pat.orOperandsFree_binop {o : BinOp} {l r : Pat}
    (h : (Pat.binop o l r).orOperandsFree = true) :
    l.orOperandsFree = true ∧ r.orOperandsFree = true := by
  cases o
  case or =>
    obtain ⟨rfl, rfl⟩ := Pat.orOperandsFree_or h
    exact ⟨rfl, rfl⟩
  all_goals
    simp only [Pat.orOperandsFree, Bool.and_eq_true] at h
    exact h

/-- A pattern that looks at the operands of an `or` only through `m_Value`
matches in both functions or in neither. -/
theorem Pat.matchSubj_sameUpToOr {F F2 : Function} (h : F.sameUpToOr F2) :
    ∀ (p : Pat), p.orOperandsFree = true → ∀ (v : Value) (op op2 : Option Op),
      Option.Rel Op.sameUpToOr op op2 →
      Pat.matchSubj F2 p v op2 = Pat.matchSubj F p v op := by
  intro p
  induction p with
  | value => intro _ v op op2 _; rfl
  | specificInt n =>
    intro _ v op op2 _
    cases v <;> rfl
  | load p ih =>
    intro hp v op op2 hr
    rcases optionRel_cases hr with ⟨rfl, rfl⟩ | ⟨o, o2, rfl, rfl, hop⟩
    · rfl
    · rcases hop with rfl | ⟨ty, x, y, a, b, rfl, rfl⟩
      · cases o2 with
        | load ty ptr =>
          simp only [Pat.matchSubj]
          exact ih hp ptr _ _ (h.resolve ptr)
        | _ => rfl
      · rfl
  | store pv pp ihv ihp =>
    intro hp v op op2 hr
    simp only [Pat.orOperandsFree, Bool.and_eq_true] at hp
    rcases optionRel_cases hr with ⟨rfl, rfl⟩ | ⟨o, o2, rfl, rfl, hop⟩
    · rfl
    · rcases hop with rfl | ⟨ty, x, y, a, b, rfl, rfl⟩
      · cases o2 with
        | store ty val ptr =>
          simp only [Pat.matchSubj]
          rw [ihv hp.1 val _ _ (h.resolve val), ihp hp.2 ptr _ _ (h.resolve ptr)]
        | _ => rfl
      · rfl
  | binop o l r ihl ihr =>
    intro hp v op op2 hr
    rcases optionRel_cases hr with ⟨rfl, rfl⟩ | ⟨q, q2, rfl, rfl, hop⟩
    · rfl
    · rcases hop with rfl | ⟨ty, x, y, a, b, rfl, rfl⟩
      · cases q2 with
        | binop o3 ty x y =>
          obtain ⟨hl, hr2⟩ := Pat.orOperandsFree_binop hp
          simp only [Pat.matchSubj]
          rw [ihl hl x _ _ (h.resolve x), ihr hr2 y _ _ (h.resolve y)]
        | _ => rfl
      · cases o
        case or =>
          obtain ⟨rfl, rfl⟩ := Pat.orOperandsFree_or hp
          rfl
        all_goals rfl
  | cast o p ih =>
    intro hp v op op2 hr
    rcases optionRel_cases hr with ⟨rfl, rfl⟩ | ⟨q, q2, rfl, rfl, hop⟩
    · rfl
    · rcases hop with rfl | ⟨ty, x, y, a, b, rfl, rfl⟩
      · cases q2 with
        | cast o3 t1 t2 w =>
          simp only [Pat.matchSubj]
          rw [ih hp w _ _ (h.resolve w)]
        | _ => rfl
      · rfl

/-- The class of an operation does not depend on the operands of an `or`. -/
theorem Op.isKind_sameUpToOr {op op2 : Op} (h : Op.sameUpToOr op op2) (k : Kind) :
    op2.isKind k = op.isKind k := by
  rcases h with rfl | ⟨ty, x, y, a, b, rfl, rfl⟩
  · rfl
  · cases k <;> rfl

theorem castAt_sameUpToOr {F F2 : Function} (h : F.sameUpToOr F2) (k : Kind) (n : OnNull)
    (q : InstPtr) : castAt F2 k n q = castAt F k n q := by
  unfold castAt
  rcases optionRel_cases (h.inst_rel q) with ⟨h1, h2⟩ | ⟨i, i2, h1, h2, hi⟩
  · rw [h1, h2]
  · rw [h1, h2]
    dsimp only
    rw [Op.isKind_sameUpToOr hi.2]

/-- A statement group whose pattern looks at the operands of an `or` only
through `m_Value` acts alike on both functions. -/
theorem Check.run_sameUpToOr {F F2 : Function} (h : F.sameUpToOr F2) (c : Check)
    (hc : c.orOperandsFree = true) (p : InstPtr) : c.run F2 p = c.run F p := by
  cases c with
  | isa k n => exact castAt_sameUpToOr h k n p
  | prev k n =>
    simp only [Check.run]
    rw [castAt_sameUpToOr h]
  | prevBlockBack nBB k n =>
    simp only [Check.run]
    rcases optionRel_cases (forall₂_getElem? h.2 (p.bb - 1)) with
      ⟨h1, h2⟩ | ⟨B, B2, h1, h2, hB⟩
    · rw [h1, h2]
    · rw [h1, h2]
      dsimp only
      have hlen := List.Forall₂.length_eq hB
      have hemp : B2.insts.isEmpty = B.insts.isEmpty := by
        cases hB1 : B.insts <;> cases hB2 : B2.insts <;> simp_all
      rw [hemp, ← hlen, castAt_sameUpToOr h]
  | test pat =>
    simp only [Check.run]
    rcases optionRel_cases (h.inst_rel p) with ⟨h1, h2⟩ | ⟨i, i2, h1, h2, hi⟩
    · rw [h1, h2]
    · rw [h1, h2]
      dsimp only
      have : pat.matchInst F2 i2 = pat.matchInst F i := by
        unfold Pat.matchInst
        rw [hi.1]
        exact Pat.matchSubj_sameUpToOr h pat hc _ _ _ (Option.Rel.some hi.2)
      rw [this]
  | isUnconditional =>
    simp only [Check.run]
    rcases optionRel_cases (h.inst_rel p) with ⟨h1, h2⟩ | ⟨i, i2, h1, h2, hi⟩
    · rw [h1, h2]
    · rw [h1, h2]
      obtain ⟨id, name, op⟩ := i
      obtain ⟨id2, name2, op2⟩ := i2
      rcases hi.2 with hop | ⟨ty, x, y, a, b, hop, hop2⟩
      · simp only at hop
        subst hop
        cases op2 <;> rfl
      · simp only at hop hop2
        subst hop hop2
        rfl
  | isConditional =>
    simp only [Check.run]
    rcases optionRel_cases (h.inst_rel p) with ⟨h1, h2⟩ | ⟨i, i2, h1, h2, hi⟩
    · rw [h1, h2]
    · rw [h1, h2]
      obtain ⟨id, name, op⟩ := i
      obtain ⟨id2, name2, op2⟩ := i2
      rcases hi.2 with hop | ⟨ty, x, y, a, b, hop, hop2⟩
      · simp only at hop
        subst hop
        cases op2 <;> rfl
      · simp only at hop hop2
        subst hop hop2
        rfl

/-- A sequence of such statement groups acts alike on both functions. -/
theorem runChecks_sameUpToOr {F F2 : Function} (h : F.sameUpToOr F2) :
    ∀ (cs : List Check), cs.all Check.orOperandsFree = true → ∀ p : InstPtr,
      runChecks F2 cs p = runChecks F cs p
  | [], _, _ => rfl
  | c :: cs, hcs, p => by
    simp only [List.all_cons, Bool.and_eq_true] at hcs
    rw [runChecks, runChecks, Check.run_sameUpToOr h c hcs.1]
    cases c.run F p with
    | fault => rfl
    | reject => rfl
    | «at» q => exact runChecks_sameUpToOr h cs hcs.2 q

/-- The recognizer of the crc-recognition pass answers alike on two
functions that are the same up to the operands of an `or`. -/
theorem crcRecognition_sameUpToOr {F F2 : Function} (h : F.sameUpToOr F2) (I : InstPtr) :
    CrcRecognition.recognizingUnoptimizedCRCInstructions F2 I
      = CrcRecognition.recognizingUnoptimizedCRCInstructions F I := by
  unfold CrcRecognition.recognizingUnoptimizedCRCInstructions CrcRecognition.walkIfThen
  rw [h.1, runChecks_sameUpToOr h _ (by decide)]
  split
  · rfl
  · cases runChecks F CrcRecognition.checksToIfThen I with
    | fault => rfl
    | reject => rfl
    | «at» BI =>
      dsimp only
      rw [runChecks_sameUpToOr h _ (by decide), runChecks_sameUpToOr h _ (by decide)]
      cases runChecks F CrcRecognition.checksIfThenLoop BI with
      | fault => rfl
      | reject =>
        dsimp only
        cases runChecks F CrcRecognition.checksIfThenOther BI with
        | fault => rfl
        | reject => rfl
        | «at» LI =>
          dsimp only
          rw [runChecks_sameUpToOr h _ (by decide)]
      | «at» LI =>
        dsimp only
        rw [runChecks_sameUpToOr h _ (by decide)]

/-- The recognizers of `src/RecognizingCRC.cpp` answer alike on two
functions that are the same up to the operands of an `or`. -/
theorem recognizingCRC_sameUpToOr {F F2 : Function} (h : F.sameUpToOr F2) (I : InstPtr) :
    RecognizingCRC.matches_v1 F2 I = RecognizingCRC.matches_v1 F I ∧
    RecognizingCRC.matches_v2 F2 I = RecognizingCRC.matches_v2 F I := by
  unfold RecognizingCRC.matches_v1 RecognizingCRC.matches_v2
  rw [runChecks_sameUpToOr h _ (by decide), runChecks_sameUpToOr h _ (by decide)]
  exact ⟨rfl, rfl⟩

/-- A statement group that goes on leaves the pointer where `Check.move`
says. -/
theorem Check.run_move {F : Function} {c : Check} {p q : InstPtr} (h : c.run F p = .at q) :
    q = c.move F p := by
  cases c with
  | isa k n => exact (castAt_at h).1
  | prev k n =>
    simp only [Check.run] at h
    split at h
    · split at h
      · cases n <;> exact absurd h (by simp [OnNull.walk])
      · exact absurd h (by simp)
    · exact (castAt_at h).1
  | prevBlockBack nBB k n =>
    simp only [Check.run] at h
    split at h
    · cases nBB <;> exact absurd h (by simp [OnNull.walk])
    · split at h
      · exact absurd h (by simp)
      · rename_i B hB
        split at h
        · exact absurd h (by simp)
        · rw [(castAt_at h).1]
          simp only [Check.move, hB, Option.map_some', Option.getD_some]
  | test pat =>
    simp only [Check.run] at h
    split at h
    · exact absurd h (by simp)
    · split at h
      · exact (Walk.at.inj h).symm
      · exact absurd h (by simp)
  | isUnconditional =>
    simp only [Check.run] at h
    split at h
    · exact (Walk.at.inj h).symm
    · exact absurd h (by simp)
    · exact absurd h (by simp)
  | isConditional =>
    simp only [Check.run] at h
    split at h
    · exact (Walk.at.inj h).symm
    · exact absurd h (by simp)
    · exact absurd h (by simp)

/-- A sequence of statement groups that goes on leaves the pointer where
their moves lead. -/
theorem runChecks_move {F : Function} : ∀ (cs : List Check) (p q : InstPtr),
    runChecks F cs p = .at q → q = cs.foldl (fun m c => c.move F m) p
  | [], p, q, h => (Walk.at.inj h).symm
  | c :: cs, p, q, h => by
    rw [runChecks] at h
    cases hc : c.run F p with
    | fault => rw [hc] at h; exact absurd h (by simp)
    | reject => rw [hc] at h; exact absurd h (by simp)
    | «at» m =>
      rw [hc] at h
      rw [List.foldl_cons, ← Check.run_move hc]
      exact runChecks_move cs m q h

/-- A sequence that goes on through `cs1 ++ c :: cs2` goes on through `cs1`
and through `c` after it. -/
theorem runChecks_at_split {F : Function} {cs1 cs2 : List Check} {c : Check} {p q : InstPtr}
    (h : runChecks F (cs1 ++ c :: cs2) p = .at q) :
    ∃ m m2, runChecks F cs1 p = .at m ∧ c.run F m = .at m2 := by
  rw [runChecks_append] at h
  cases h1 : runChecks F cs1 p with
  | fault => rw [h1] at h; exact absurd h (by simp)
  | reject => rw [h1] at h; exact absurd h (by simp)
  | «at» m =>
    rw [h1] at h
    dsimp only at h
    rw [runChecks] at h
    cases hc : c.run F m with
    | fault => rw [hc] at h; exact absurd h (by simp)
    | reject => rw [hc] at h; exact absurd h (by simp)
    | «at» m2 => exact ⟨m, m2, rfl, hc⟩

/-- An instruction that passes the test for an `or` is an `or`. -/
theorem test_or_at {F : Function} {m m2 : InstPtr}
    (h : (Check.test (.binop .or .value .value)).run F m = .at m2) :
    ∃ i ty x y, F.inst? m = some i ∧ i.op = .binop .or ty x y := by
  simp only [Check.run] at h
  split at h
  · exact absurd h (by simp)
  · rename_i i hi
    split at h
    · rename_i hm
      obtain ⟨id, name, op⟩ := i
      cases op with
      | binop o ty x y =>
        cases o
        case or => exact ⟨_, ty, x, y, hi, rfl⟩
        all_goals exact absurd hm (by simp [Pat.matchInst, Pat.matchSubj])
      | _ => exact absurd hm (by simp [Pat.matchInst, Pat.matchSubj])
    · exact absurd h (by simp)

/-- In a function that the recognizer of the crc-recognition pass accepts
at `I`, the instruction at `orOfIfThen18 F I` is an `or`. -/
theorem crcRecognition_or_at {F : Function} {I : InstPtr}
    (h : CrcRecognition.recognizingUnoptimizedCRCInstructions F I = some true) :
    ∃ i ty x y, F.inst? (orOfIfThen18 F I) = some i ∧ i.op = .binop .or ty x y := by
  unfold CrcRecognition.recognizingUnoptimizedCRCInstructions at h
  split at h
  · exact absurd h (by simp)
  cases h1 : runChecks F CrcRecognition.checksToIfThen I with
  | fault => rw [h1] at h; exact absurd h (by simp [Walk.toResult])
  | reject => rw [h1] at h; exact absurd h (by simp [Walk.toResult])
  | «at» BI =>
    have hsplit : CrcRecognition.checksToIfThen
        = CrcRecognition.checksToIfThen.take 23
          ++ Check.test (.binop .or .value .value) :: CrcRecognition.checksToIfThen.drop 24 := rfl
    rw [hsplit] at h1
    obtain ⟨m, m2, hm, hc⟩ := runChecks_at_split h1
    have hpos : m = orOfIfThen18 F I := by
      rw [runChecks_move _ _ _ hm]
      rfl
    rw [← hpos]
    exact test_or_at hc

/-- The element at the position that `modifyAt` changes. -/
theorem modifyAt_getElem?_self {α : Type} (f : α → α) : ∀ (n : Nat) (l : List α),
    (modifyAt f n l)[n]? = l[n]?.map f
  | n, [] => by cases n <;> rfl
  | 0, _ :: _ => by simp [modifyAt]
  | n + 1, _ :: xs => by
    simp only [modifyAt, List.getElem?_cons_succ]
    exact modifyAt_getElem?_self f n xs

/-- The instruction at the pointer that `modifyOp` changes. -/
theorem Function.modifyOp_inst?_self (F : Function) (p : InstPtr) (f : Op → Op) :
    (F.modifyOp p f).inst? p = (F.inst? p).map fun i => { i with op := f i.op } := by
  unfold Function.modifyOp Function.inst?
  dsimp only
  rw [modifyAt_getElem?_self]
  cases F.blocks[p.bb]? with
  | none => rfl
  | some B =>
    simp only [Option.map_some']
    rw [modifyAt_getElem?_self]

/-- C24: the recognizers do not constrain the operands of the `or` of
`if.then18`. For every function `F` that
`recognizingUnoptimizedCRCInstructions` accepts at `I`, the instruction four
blocks before `I`, fourth from the end of its block, is an `or`; the function
with the two operands of that `or` replaced by arbitrary values `a` and `b`
is accepted as well, and `tryToRecognizeCRC32_v1` and `_v2` of
`src/RecognizingCRC.cpp` match it exactly when they match `F`. -/
theorem C24_or_operands_unconstrained (F : Function) (I : InstPtr) (a b : Value)
    (h : CrcRecognition.recognizingUnoptimizedCRCInstructions F I = some true) :
    (∃ i ty x y, F.inst? (orOfIfThen18 F I) = some i ∧ i.op = .binop .or ty x y ∧
      (F.modifyOp (orOfIfThen18 F I) (Op.setOrOperands a b)).inst? (orOfIfThen18 F I)
        = some { i with op := .binop .or ty a b }) ∧
    CrcRecognition.recognizingUnoptimizedCRCInstructions
      (F.modifyOp (orOfIfThen18 F I) (Op.setOrOperands a b)) I = some true ∧
    RecognizingCRC.matches_v1 (F.modifyOp (orOfIfThen18 F I) (Op.setOrOperands a b)) I
      = RecognizingCRC.matches_v1 F I ∧
    RecognizingCRC.matches_v2 (F.modifyOp (orOfIfThen18 F I) (Op.setOrOperands a b)) I
      = RecognizingCRC.matches_v2 F I := by
  have hs := Function.sameUpToOr_modifyOp F (orOfIfThen18 F I) a b
  obtain ⟨i, ty, x, y, hi, hop⟩ := crcRecognition_or_at h
  refine ⟨⟨i, ty, x, y, hi, hop, ?_⟩, ?_, (recognizingCRC_sameUpToOr hs I).1,
    (recognizingCRC_sameUpToOr hs I).2⟩
  · rw [Function.modifyOp_inst?_self, hi, Option.map_some', hop]
    rfl
  · rw [crcRecognition_sameUpToOr hs I, h]

set_option maxRecDepth 8192 in
/-- C24 on the documented `crcu8`, with `or i32 %44, 32768` replaced by
`or i32 %43, 12345`. -/
theorem C24_or_operands_unconstrained_witness :
    CrcRecognition.recognizingUnoptimizedCRCInstructions (crcu8_ir 16386 false) ⟨10, 1⟩
      = some true ∧
    orOfIfThen18 (crcu8_ir 16386 false) ⟨10, 1⟩ = ⟨6, 2⟩ ∧
    (crcu8_ir 16386 false).inst? ⟨6, 2⟩
      = some (ins 45 (.binop .or 32 (.inst 44) (.const 32 32768))) ∧
    ((∃ i ty x y, (crcu8_ir 16386 false).inst? (orOfIfThen18 (crcu8_ir 16386 false) ⟨10, 1⟩)
          = some i ∧ i.op = .binop .or ty x y ∧
        ((crcu8_ir 16386 false).modifyOp (orOfIfThen18 (crcu8_ir 16386 false) ⟨10, 1⟩)
            (Op.setOrOperands (.inst 43) (.const 32 12345))).inst?
            (orOfIfThen18 (crcu8_ir 16386 false) ⟨10, 1⟩)
          = some { i with op := .binop .or ty (.inst 43) (.const 32 12345) }) ∧
      CrcRecognition.recognizingUnoptimizedCRCInstructions
        ((crcu8_ir 16386 false).modifyOp (orOfIfThen18 (crcu8_ir 16386 false) ⟨10, 1⟩)
          (Op.setOrOperands (.inst 43) (.const 32 12345))) ⟨10, 1⟩ = some true ∧
      RecognizingCRC.matches_v1
        ((crcu8_ir 16386 false).modifyOp (orOfIfThen18 (crcu8_ir 16386 false) ⟨10, 1⟩)
          (Op.setOrOperands (.inst 43) (.const 32 12345))) ⟨10, 1⟩
        = RecognizingCRC.matches_v1 (crcu8_ir 16386 false) ⟨10, 1⟩ ∧
      RecognizingCRC.matches_v2
        ((crcu8_ir 16386 false).modifyOp (orOfIfThen18 (crcu8_ir 16386 false) ⟨10, 1⟩)
          (Op.setOrOperands (.inst 43) (.const 32 12345))) ⟨10, 1⟩
        = RecognizingCRC.matches_v2 (crcu8_ir 16386 false) ⟨10, 1⟩) :=
  ⟨rfl, rfl, rfl,
    C24_or_operands_unconstrained (crcu8_ir 16386 false) ⟨10, 1⟩ (.inst 43) (.const 32 12345) rfl⟩

/-! ## What the recognizers do not check -/

set_option maxRecDepth 100000 in
/-- C23 (code at the failing input): the recognizers accept the documented
`crcu8` with the comparison of `for.cond` against any other bound, since
they test the class of that instruction only. With the bound 9 instead of 8
the function is `crcu8_bound_ir 9`, which differs from the documented
function in `%11 = icmp slt i32 %10, 9` alone; all three recognizers return
`true` on it, and the rewrites replace it by the same code as the documented
function. On `data = 241`, `crc = 40261` the function with bound 9 returns
39887; the reference `crcu8` and the loop put in its place return 30621. -/
theorem C23_loop_bound_not_checked :
    crcu8_bound_ir 8 = crcu8_ir 16386 false ∧
    (crcu8_bound_ir 9).inst? ⟨1, 2⟩ = some (ins 11 (.icmp .slt 32 (.inst 10) (.const 32 9))) ∧
    (crcu8_ir 16386 false).modifyOp ⟨1, 2⟩ (fun _ => .icmp .slt 32 (.inst 10) (.const 32 9))
      = crcu8_bound_ir 9 ∧
    (∀ bound : Nat,
      CrcRecognition.recognizingUnoptimizedCRCInstructions (crcu8_bound_ir bound) ⟨10, 1⟩
        = some true ∧
      RecognizingCRC.matches_v1 (crcu8_bound_ir bound) ⟨10, 1⟩ = some true ∧
      RecognizingCRC.matches_v2 (crcu8_bound_ir bound) ⟨10, 1⟩ = some true) ∧
    (crcu8_bound_ir 9).backBack = some ⟨10, 1⟩ ∧
    CrcRecognition.tryToRecognizeCRC32_v1 (crcu8_bound_ir 9) ⟨10, 1⟩
      = some (true, crcu8_loop_ir (.inst 133)) ∧
    CrcRecognition.tryToRecognizeCRC32_v2 (crcu8_bound_ir 9) ⟨10, 1⟩
      = some (true, crcu8_intrinsic_ir) ∧
    RecognizingCRC.tryToRecognizeCRC32_v1 (crcu8_bound_ir 9) ⟨10, 1⟩
      = some (true, crcu8_intrinsic_ir) ∧
    (crcu8_bound_ir 9).exec [241, 40261] 100 = some 39887 ∧
    (crcu8_ir 16386 false).exec [241, 40261] 100 = some 30621 ∧
    syrmia_crc_unoptimized.crcu8 241 40261 = some 30621 ∧
    (crcu8_loop_ir (.inst 133)).exec [241, 40261] 100 = some 30621 := by
  refine ⟨rfl, rfl, rfl, fun bound => ⟨rfl, rfl, rfl⟩, rfl, rfl, rfl, rfl, rfl, rfl, rfl, rfl⟩

set_option maxRecDepth 100000 in
/-- C25 (code at the failing input): `recognizingUnoptimizedCRCInstructions`
returns `true` on the documented `crcu8` whatever type any one of the five
allocas of the first block allocates: the comparison of the allocated type
stands behind `!AI &&` and is not evaluated for an alloca. With
`%7 = alloca i32` the first block opens with allocas of i8, i16, i8, i8, i32
and the function is accepted. -/
theorem C25_alloca_types_not_checked :
    (∀ slot ty : Nat, slot < 5 →
      CrcRecognition.recognizingUnoptimizedCRCInstructions (crcu8_alloca_ir slot ty) ⟨10, 1⟩
        = some true) ∧
    ((crcu8_ir 16386 false).blocks.head?.map fun B => (B.insts.take 5).map fun i => i.op)
      = some [.alloca 8, .alloca 16, .alloca 8, .alloca 8, .alloca 8] ∧
    ((crcu8_alloca_ir 4 32).blocks.head?.map fun B => (B.insts.take 5).map fun i => i.op)
      = some [.alloca 8, .alloca 16, .alloca 8, .alloca 8, .alloca 32] ∧
    (crcu8_ir 16386 false).modifyOp ⟨0, 4⟩ (fun _ => .alloca 32) = crcu8_alloca_ir 4 32 ∧
    (crcu8_alloca_ir 4 32).backBack = some ⟨10, 1⟩ ∧
    CrcRecognition.recognizingUnoptimizedCRCInstructions (crcu8_alloca_ir 4 32) ⟨10, 1⟩
      = some true := by
  refine ⟨?_, rfl, rfl, rfl, rfl, rfl⟩
  intro slot ty h
  have h5 : slot = 0 ∨ slot = 1 ∨ slot = 2 ∨ slot = 3 ∨ slot = 4 := by omega
  rcases h5 with rfl | rfl | rfl | rfl | rfl <;> rfl

namespace AggressiveInstCombine

namespace ConsecutiveLoads

/-- The scan returns `false` on a range of more instructions than the
bound leaves room for. -/
theorem scanRange_long (A : Analyses) (Max : Nat) (Loc : MemoryLocation) :
    ∀ (l : List Instruction) (n : Nat), n ≤ Max → Max < n + l.length →
      scanRange A Max Loc l n = false := by
  intro l
  induction l with
  | nil => intro n h1 h2; simp at h2; omega
  | cons J rest ih =>
    intro n h1 h2
    rw [scanRange]
    split
    · rfl
    · split
      · rfl
      · rename_i hn
        apply ih
        · omega
        · simp only [List.length_cons] at h2
          omega

/-- On a range within the bound the scan returns `true` exactly when no
instruction of the range both may write and is reported as modifying the
location. -/
theorem scanRange_short (A : Analyses) (Max : Nat) (Loc : MemoryLocation) :
    ∀ (l : List Instruction) (n : Nat), n + l.length ≤ Max →
      (scanRange A Max Loc l n = true ↔
        ∀ Inst ∈ l, ¬ (Inst.mayWriteToMemory = true ∧
          isModSet (A.getModRefInfo Inst Loc) = true)) := by
  intro l
  induction l with
  | nil => intro n _; simp [scanRange]
  | cons J rest ih =>
    intro n h
    simp only [List.length_cons] at h
    rw [scanRange]
    by_cases hJ : (J.mayWriteToMemory && isModSet (A.getModRefInfo J Loc)) = true
    · rw [if_pos hJ]
      simp only [Bool.and_eq_true] at hJ
      constructor
      · intro hf
        exact absurd hf (by simp)
      · intro hall
        exact absurd hJ (hall J (List.mem_cons_self _ _))
    · rw [if_neg hJ, if_neg (by omega), ih (n + 1) (by omega)]
      simp only [Bool.and_eq_true] at hJ
      constructor
      · intro hall Inst hin
        rcases List.mem_cons.1 hin with rfl | hin
        · exact hJ
        · exact hall Inst hin
      · intro hall Inst hin
        exact hall Inst (List.mem_cons_of_mem _ hin)

/-- The scan of the two loads of a first pair returns `false` when the range
from the earlier load up to the later one holds more instructions than the
bound. -/
theorem scan_between_long (A : Analyses) (Max : Nat) (LOps : LoadOps)
    (hroot : LOps.FoundRoot = false) (pre mid post : List Instruction)
    (first second : Instruction) (LI1 LI2 : LoadInst) (hne : LI1.id ≠ LI2.id)
    (horder : (first.id = LI1.id ∧ second.id = LI2.id) ∨
      (first.id = LI2.id ∧ second.id = LI1.id))
    (hpre : ∀ i ∈ pre, i.id ≠ LI1.id ∧ i.id ≠ LI2.id)
    (hmid : ∀ i ∈ mid, i.id ≠ second.id)
    (hlong : Max < mid.length + 1) :
    scanRange A Max (scanBounds (pre ++ first :: (mid ++ second :: post)) LOps LI1 LI2).2.2
      (instructionRange (pre ++ first :: (mid ++ second :: post))
        (scanBounds (pre ++ first :: (mid ++ second :: post)) LOps LI1 LI2).1
        (scanBounds (pre ++ first :: (mid ++ second :: post)) LOps LI1 LI2).2.1) 0 = false := by
  rcases horder with ⟨h1, h2⟩ | ⟨h1, h2⟩
  · obtain ⟨p1, p2, hr⟩ := instructionRange_between pre mid post first second LI1 LI2 h1 h2
      hne hpre (fun i hi => by rw [← h2]; exact hmid i hi)
    have hcb : comesBefore (pre ++ first :: (mid ++ second :: post)) LI1 LI2 = true := by
      simp only [comesBefore, p1, p2, decide_eq_true_eq]; omega
    simp only [scanBounds, hroot, hcb, Bool.not_true, Bool.false_eq_true, if_false]
    rw [hr]
    exact scanRange_long A Max _ _ 0 (Nat.zero_le _) (by simp only [List.length_cons]; omega)
  · obtain ⟨p1, p2, hr⟩ := instructionRange_between pre mid post first second LI2 LI1 h1 h2
      (Ne.symm hne) (fun i hi => ⟨(hpre i hi).2, (hpre i hi).1⟩)
      (fun i hi => by rw [← h2]; exact hmid i hi)
    have hcb : comesBefore (pre ++ first :: (mid ++ second :: post)) LI1 LI2 = false := by
      simp only [comesBefore, p1, p2, decide_eq_false_iff_not]; omega
    simp only [scanBounds, hroot, hcb, Bool.not_false, if_true, Bool.false_eq_true, if_false]
    rw [hr]
    exact scanRange_long A Max _ _ 0 (Nat.zero_le _) (by simp only [List.length_cons]; omega)

/-- The body of `foldLoadsRecursive` on a first pair of extended loads
returns `false` when the scan of the two loads does. -/
theorem foldLoadsAfter_scan (A : Analyses) (Max : Nat) (La Lb : LoadInst) (X V : Value)
    (ShAmt2 : Option Nat) (hX : IsExtendedLoad La X) (hV : V = .load Lb)
    (hs : La.id ≠ Lb.id →
      scanRange A Max (scanBounds (A.block La.parent) LoadOps.init La Lb).2.2
        (instructionRange (A.block La.parent)
          (scanBounds (A.block La.parent) LoadOps.init La Lb).1
          (scanBounds (A.block La.parent) LoadOps.init La Lb).2.1) 0 = false) :
    (foldLoadsAfter A Max X V ShAmt2 (foldLoadsRecursive A Max X LoadOps.init)).1 = false := by
  rw [foldLoadsRecursive_extended A Max La X _ hX]
  unfold foldLoadsAfter
  simp only [LoadOps.init, Bool.not_false, Bool.true_and, Bool.false_eq_true, if_false]
  rcases rootLoad_extended La X LoadOps.init hX rfl rfl with h1 | h1
  · exact foldLoadsStep_scan A Max X V ShAmt2 _ La Lb h1 (by rw [hV]; rfl) hs
  · exact foldLoadsStep_no_load A Max X V ShAmt2 _ (Or.inl h1)

/-- The merge of two extended loads of one block is refused when the range
from the earlier load up to the later one holds more instructions than the
bound. -/
theorem foldLoadsRecursive_long (A : Analyses) (Max : Nat) (L1 L2 : LoadInst)
    (X Y : Value) (id uses bits : Nat) (pre mid post : List Instruction)
    (first second : Instruction)
    (hX : IsExtendedLoad L1 X) (hY : IsExtendedLoad L2 Y) (hparent : L1.parent = L2.parent)
    (hblock : A.block L1.parent = pre ++ first :: (mid ++ second :: post))
    (horder : (first.id = L1.id ∧ second.id = L2.id) ∨
      (first.id = L2.id ∧ second.id = L1.id))
    (hpre : ∀ i ∈ pre, i.id ≠ L1.id ∧ i.id ≠ L2.id)
    (hmid : ∀ i ∈ mid, i.id ≠ second.id)
    (hlong : Max < mid.length + 1) :
    (foldLoadsRecursive A Max (.or id uses bits X Y) LoadOps.init).1 = false := by
  have h12 : L1.id ≠ L2.id →
      scanRange A Max (scanBounds (A.block L1.parent) LoadOps.init L1 L2).2.2
        (instructionRange (A.block L1.parent)
          (scanBounds (A.block L1.parent) LoadOps.init L1 L2).1
          (scanBounds (A.block L1.parent) LoadOps.init L1 L2).2.1) 0 = false := by
    intro hne
    rw [hblock]
    exact scan_between_long A Max _ rfl pre mid post first second L1 L2 hne horder hpre hmid
      hlong
  have h21 : L2.id ≠ L1.id →
      scanRange A Max (scanBounds (A.block L2.parent) LoadOps.init L2 L1).2.2
        (instructionRange (A.block L2.parent)
          (scanBounds (A.block L2.parent) LoadOps.init L2 L1).1
          (scanBounds (A.block L2.parent) LoadOps.init L2 L1).2.1) 0 = false := by
    intro hne
    rw [← hparent, hblock]
    exact scan_between_long A Max _ rfl pre mid post first second L2 L1 hne horder.symm
      (fun i hi => ⟨(hpre i hi).2, (hpre i hi).1⟩) hmid hlong
  rw [foldLoadsRecursive]
  split
  · cases hb : matchShlZExtInst Y with
    | some p =>
      obtain ⟨V, Sh⟩ := p
      exact foldLoadsAfter_scan A Max L1 L2 X V _ hX (matchShlZExtInst_extended L2 Y V Sh hY hb)
        h12
    | none =>
      cases ha : matchShlZExtInst X with
      | some p =>
        obtain ⟨V, Sh⟩ := p
        exact foldLoadsAfter_scan A Max L2 L1 Y V _ hY
          (matchShlZExtInst_extended L1 X V Sh hX ha) h21
      | none =>
        cases hz : matchZExtOneUseInst Y with
        | some V =>
          exact foldLoadsAfter_scan A Max L1 L2 X V _ hX
            (matchZExtOneUseInst_extended L2 Y V hY hz) h12
        | none => rfl
  · rfl

set_option maxRecDepth 8192 in
/-- C27: the scan between the two loads of the consecutive-load merge is
bounded by `MaxInstrsToScan`, 64 by default. The scan loop returns `false`
on every range of more than 64 instructions, and for an `or` of two
zero-extended loads of one block `foldLoadsRecursive` returns `false` and
`foldConsecutiveLoads` refuses when the range from the earlier load up to
but excluding the later one holds more than 64 instructions. On a range of
at most 64 instructions the scan returns `true` unless an instruction of the
range may write and is reported as modifying the location: the count refuses
no such range. On `twoByteOr` the merge is made with 64 instructions in the
range and refused with 65. -/
theorem C27_scan_bounded_by_MaxInstrsToScan :
    MaxInstrsToScan = 64 ∧
    (∀ (A : Analyses) (Loc : MemoryLocation) (l : List Instruction),
      64 < l.length → scanRange A MaxInstrsToScan Loc l 0 = false) ∧
    (∀ (A : Analyses) (L1 L2 : LoadInst) (X Y : Value) (id uses bits : Nat)
        (pre mid post : List Instruction) (first second : Instruction),
      IsExtendedLoad L1 X → IsExtendedLoad L2 Y → L1.parent = L2.parent →
      A.block L1.parent = pre ++ first :: (mid ++ second :: post) →
      ((first.id = L1.id ∧ second.id = L2.id) ∨ (first.id = L2.id ∧ second.id = L1.id)) →
      (∀ i ∈ pre, i.id ≠ L1.id ∧ i.id ≠ L2.id) → (∀ i ∈ mid, i.id ≠ second.id) →
      64 < (first :: mid).length →
      (foldLoadsRecursive A MaxInstrsToScan (.or id uses bits X Y) LoadOps.init).1 = false ∧
      foldConsecutiveLoads A MaxInstrsToScan (.or id uses bits X Y) = MergeResult.refused) ∧
    (∀ (A : Analyses) (Loc : MemoryLocation) (l : List Instruction),
      l.length ≤ 64 →
      (scanRange A MaxInstrsToScan Loc l 0 = true ↔
        ∀ Inst ∈ l, ¬ (Inst.mayWriteToMemory = true ∧
          isModSet (A.getModRefInfo Inst Loc) = true))) ∧
    (instructionRange (paddedBlock 63) (byteLoad 1 0) (byteLoad 4 1)).length = 64 ∧
    foldConsecutiveLoads (permissive (paddedBlock 63)) MaxInstrsToScan twoByteOr
      = { changed := true,
          created := [.CreateBitCast 16 0, .CreateAlignedLoad 16 1 false, .CreateZExt 16],
          replaced := true } ∧
    (instructionRange (paddedBlock 64) (byteLoad 1 0) (byteLoad 4 1)).length = 65 ∧
    (foldLoadsRecursive (permissive (paddedBlock 64)) MaxInstrsToScan twoByteOr
      LoadOps.init).1 = false ∧
    foldConsecutiveLoads (permissive (paddedBlock 64)) MaxInstrsToScan twoByteOr
      = MergeResult.refused := by
  refine ⟨rfl, ?_, ?_, ?_, by decide, by decide, by decide, by decide, by decide⟩
  · intro A Loc l h
    exact scanRange_long A MaxInstrsToScan Loc l 0 (Nat.zero_le _) (by
      simp only [MaxInstrsToScan]; omega)
  · intro A L1 L2 X Y id uses bits pre mid post first second hX hY hp hb ho hpre hmid hlong
    have h := foldLoadsRecursive_long A MaxInstrsToScan L1 L2 X Y id uses bits pre mid post
      first second hX hY hp hb ho hpre hmid (by
        simp only [List.length_cons] at hlong
        simp only [MaxInstrsToScan]; omega)
    exact ⟨h, foldConsecutiveLoads_of_false A MaxInstrsToScan _ h⟩
  · intro A Loc l h
    exact scanRange_short A MaxInstrsToScan Loc l 0 (by simp only [MaxInstrsToScan]; omega)

end ConsecutiveLoads

end AggressiveInstCombine

namespace AggressiveInstCombine

namespace UnusualPatterns

theorem fullCatalogOn_append (v1 v2 : List (Nat × Nat × Nat)) :
    fullCatalogOn (v1 ++ v2) = fullCatalogOn v1 ++ fullCatalogOn v2 := by
  simp [fullCatalogOn, List.flatMap_append]

/-- The folds of the list are all called on the instruction, in order,
whatever they return; `MadeChange` collects what they return. -/
theorem runCatalog_spec (C : Callees) (fn b i : Nat) :
    ∀ (es : List CatalogEntry) (s : Scan),
      ∃ new, (runCatalog C fn b i es s).attempts = s.attempts ++ new ∧
        new.map Attempt.key = es.map (fun e => (fn, b, i, e)) ∧
        (runCatalog C fn b i es s).MadeChange
          = (s.MadeChange || new.any fun a => a.succeeded) := by
  intro es
  induction es with
  | nil => intro s; exact ⟨[], by simp [runCatalog], rfl, by simp [runCatalog]⟩
  | cons e es ih =>
    intro s
    obtain ⟨new, h1, h2, h3⟩ := ih
      { MadeChange := s.MadeChange || (C.apply e b i s.G).1,
        G := (C.apply e b i s.G).2,
        attempts := s.attempts ++ [⟨fn, b, i, e, (C.apply e b i s.G).1⟩] }
    refine ⟨⟨fn, b, i, e, (C.apply e b i s.G).1⟩ :: new, ?_, ?_, ?_⟩
    · rw [runCatalog, h1]
      simp
    · simp only [List.map_cons, h2]
      rfl
    · rw [runCatalog, h3]
      simp [Bool.or_assoc]

/-- The loop over the instructions calls the whole catalog on each of
them. -/
theorem scanInsts_spec (C : Callees) (fn b : Nat) :
    ∀ (is : List Nat) (s : Scan),
      ∃ new, (scanInsts C fn b is s).attempts = s.attempts ++ new ∧
        new.map Attempt.key = fullCatalogOn (is.map fun i => (fn, b, i)) ∧
        (scanInsts C fn b is s).MadeChange
          = (s.MadeChange || new.any fun a => a.succeeded) := by
  intro is
  induction is with
  | nil => intro s; exact ⟨[], by simp [scanInsts], rfl, by simp [scanInsts]⟩
  | cons i is ih =>
    intro s
    obtain ⟨n1, a1, a2, a3⟩ := runCatalog_spec C fn b i catalog s
    obtain ⟨n2, b1, b2, b3⟩ := ih (runCatalog C fn b i catalog s)
    refine ⟨n1 ++ n2, ?_, ?_, ?_⟩
    · rw [scanInsts, b1, a1, List.append_assoc]
    · rw [List.map_append, a2, b2]
      simp [fullCatalogOn]
    · rw [scanInsts, b3, a3]
      simp [Bool.or_assoc]

/-- The loop over the blocks calls the whole catalog on each instruction it
visits; the blocks it visits have a node in the dominator tree. -/
theorem scanBlocks_spec (C : Callees) (DT : DominatorTree) (fn : Nat) :
    ∀ (bs : List Nat) (s : Scan),
      ∃ visited new, (scanBlocks C DT fn bs s).attempts = s.attempts ++ new ∧
        new.map Attempt.key = fullCatalogOn visited ∧
        (scanBlocks C DT fn bs s).MadeChange
          = (s.MadeChange || new.any fun a => a.succeeded) ∧
        ∀ v ∈ visited, v.1 = fn ∧ DT.isReachableFromEntry fn v.2.1 = true ∧ v.2.1 ∈ bs := by
  intro bs
  induction bs with
  | nil =>
    intro s
    exact ⟨[], [], by simp [scanBlocks], rfl, by simp [scanBlocks], by simp⟩
  | cons b bs ih =>
    intro s
    rw [scanBlocks]
    split
    · obtain ⟨v, n, c1, c2, c3, c4⟩ := ih s
      exact ⟨v, n, c1, c2, c3, fun w hw =>
        ⟨(c4 w hw).1, (c4 w hw).2.1, List.mem_cons_of_mem _ (c4 w hw).2.2⟩⟩
    · rename_i hb
      obtain ⟨n1, a1, a2, a3⟩ := scanInsts_spec C fn b (reverseInsts s.G b) s
      obtain ⟨v2, n2, b1, b2, b3, b4⟩ := ih (scanInsts C fn b (reverseInsts s.G b) s)
      refine ⟨(reverseInsts s.G b).map (fun i => (fn, b, i)) ++ v2, n1 ++ n2, ?_, ?_, ?_, ?_⟩
      · rw [b1, a1, List.append_assoc]
      · rw [List.map_append, a2, b2, fullCatalogOn_append]
      · rw [b3, a3]
        simp [Bool.or_assoc]
      · intro v hv
        rcases List.mem_append.1 hv with hv | hv
        · obtain ⟨i, _, rfl⟩ := List.mem_map.1 hv
          exact ⟨rfl, by simpa using hb, List.mem_cons_self _ _⟩
        · exact ⟨(b4 v hv).1, (b4 v hv).2.1, List.mem_cons_of_mem _ (b4 v hv).2.2⟩

/-- The blocks of a function other than the one of the dominator tree are
all skipped. -/
theorem scanBlocks_other (C : Callees) (DT : DominatorTree) (fn : Nat) (h : fn ≠ DT.function) :
    ∀ (bs : List Nat) (s : Scan), scanBlocks C DT fn bs s = s := by
  intro bs
  induction bs with
  | nil => intro s; rfl
  | cons b bs ih =>
    intro s
    rw [scanBlocks]
    have : DT.isReachableFromEntry fn b = false := by
      simp [DominatorTree.isReachableFromEntry, h]
    simp only [this, Bool.not_false, if_true]
    exact ih s

/-- The loop over the functions of the module: the whole catalog is called
on each instruction visited, the instructions visited are in blocks of the
function of the dominator tree that have a node in it, and every other
function is left as it was. -/
theorem scanModule_spec (C : Callees) (DT : DominatorTree) :
    ∀ (M : List Function) (fn : Nat) (mc : Bool) (log : List Attempt),
      ∃ visited new, (scanModule C DT fn M mc log).2.2 = log ++ new ∧
        new.map Attempt.key = fullCatalogOn visited ∧
        (scanModule C DT fn M mc log).1 = (mc || new.any fun a => a.succeeded) ∧
        (∀ v ∈ visited, v.1 = DT.function ∧ DT.nodes.contains v.2.1 = true ∧
          ∃ j G, fn + j = DT.function ∧ M[j]? = some G ∧
            v.2.1 ∈ G.blocks.map fun B => B.id) ∧
        (scanModule C DT fn M mc log).2.1.length = M.length ∧
        ∀ j, fn + j ≠ DT.function → (scanModule C DT fn M mc log).2.1[j]? = M[j]? := by
  intro M
  induction M with
  | nil =>
    intro fn mc log
    exact ⟨[], [], by simp [scanModule], rfl, by simp [scanModule], by simp, rfl,
      fun j _ => rfl⟩
  | cons G rest ih =>
    intro fn mc log
    obtain ⟨v1, n1, a1, a2, a3, a4⟩ := scanBlocks_spec C DT fn (G.blocks.map fun B => B.id)
      { MadeChange := mc, G := G, attempts := log }
    obtain ⟨v2, n2, b1, b2, b3, b4, b5, b6⟩ := ih (fn + 1)
      (scanBlocks C DT fn (G.blocks.map fun B => B.id)
        { MadeChange := mc, G := G, attempts := log }).MadeChange
      (scanBlocks C DT fn (G.blocks.map fun B => B.id)
        { MadeChange := mc, G := G, attempts := log }).attempts
    refine ⟨v1 ++ v2, n1 ++ n2, ?_, ?_, ?_, ?_, ?_, ?_⟩
    · simp only [scanModule]
      rw [b1, a1, List.append_assoc]
    · rw [List.map_append, a2, b2, fullCatalogOn_append]
    · simp only [scanModule]
      rw [b3, a3]
      simp [Bool.or_assoc]
    · intro v hv
      rcases List.mem_append.1 hv with hv | hv
      · obtain ⟨h1, h2, h3⟩ := a4 v hv
        simp only [DominatorTree.isReachableFromEntry, Bool.and_eq_true, beq_iff_eq] at h2
        exact ⟨by rw [h1]; exact h2.1, h2.2, 0, G, h2.1, by simp, h3⟩
      · obtain ⟨h1, h2, j, G2, h3, h4, h5⟩ := b4 v hv
        exact ⟨h1, h2, j + 1, G2, by omega, by simpa using h4, h5⟩
    · simp only [scanModule, List.length_cons, b5]
    · intro j hj
      simp only [scanModule]
      cases j with
      | zero =>
        simp only [List.getElem?_cons_zero]
        rw [scanBlocks_other C DT fn (by simpa using hj)]
      | succ j =>
        simp only [List.getElem?_cons_succ]
        exact b6 j (by omega)

/-- The instructions of a block are the same in two functions of one
shape. -/
theorem reverseInsts_shape {G1 G2 : Function} (h : shape G1 = shape G2) (b : Nat) :
    reverseInsts G1 b = reverseInsts G2 b := by
  have key : ∀ (l1 l2 : List BasicBlock),
      (l1.map fun B => (B.id, B.insts.map fun i => i.id))
        = (l2.map fun B => (B.id, B.insts.map fun i => i.id)) →
      ((l1.find? fun B => B.id == b).map fun B => B.insts.map fun i => i.id)
        = ((l2.find? fun B => B.id == b).map fun B => B.insts.map fun i => i.id) := by
    intro l1
    induction l1 with
    | nil =>
      intro l2 h
      cases l2 with
      | nil => rfl
      | cons _ _ => simp at h
    | cons B1 l1 ih =>
      intro l2 h
      cases l2 with
      | nil => simp at h
      | cons B2 l2 =>
        simp only [List.map_cons, List.cons.injEq, Prod.mk.injEq] at h
        simp only [List.find?_cons, h.1.1]
        cases B2.id == b
        · exact ih l2 h.2
        · simp only [Option.map_some', h.1.2]
  have := key G1.blocks G2.blocks h
  unfold reverseInsts Function.blockById
  cases h1 : G1.blocks.find? (fun B => B.id == b) <;>
    cases h2 : G2.blocks.find? (fun B => B.id == b) <;>
    simp_all

theorem runCatalog_shape (C : Callees) (hC : C.keepsShape) (fn b i : Nat) :
    ∀ (es : List CatalogEntry) (s : Scan), shape (runCatalog C fn b i es s).G = shape s.G := by
  intro es
  induction es with
  | nil => intro s; rfl
  | cons e es ih =>
    intro s
    rw [runCatalog, ih]
    exact hC e b i s.G

theorem scanInsts_shape (C : Callees) (hC : C.keepsShape) (fn b : Nat) :
    ∀ (is : List Nat) (s : Scan), shape (scanInsts C fn b is s).G = shape s.G := by
  intro is
  induction is with
  | nil => intro s; rfl
  | cons i is ih =>
    intro s
    rw [scanInsts, ih, runCatalog_shape C hC]

/-- With folds that keep the shape, the loop over the blocks visits the
instructions of every block that has a node in the dominator tree, last
instruction first. -/
theorem scanBlocks_visits (C : Callees) (hC : C.keepsShape) (DT : DominatorTree) (fn : Nat) :
    ∀ (bs : List Nat) (s : Scan),
      shape (scanBlocks C DT fn bs s).G = shape s.G ∧
      ∃ new, (scanBlocks C DT fn bs s).attempts = s.attempts ++ new ∧
        new.map Attempt.key = fullCatalogOn
          ((bs.filter fun b => DT.isReachableFromEntry fn b).flatMap
            fun b => (reverseInsts s.G b).map fun i => (fn, b, i)) := by
  intro bs
  induction bs with
  | nil => intro s; exact ⟨rfl, [], by simp [scanBlocks], rfl⟩
  | cons b bs ih =>
    intro s
    rw [scanBlocks]
    by_cases hb : DT.isReachableFromEntry fn b = true
    · simp only [hb, Bool.not_true, Bool.false_eq_true, if_false]
      obtain ⟨n1, a1, a2, _⟩ := scanInsts_spec C fn b (reverseInsts s.G b) s
      have hsh := scanInsts_shape C hC fn b (reverseInsts s.G b) s
      obtain ⟨hsh2, n2, b1, b2⟩ := ih (scanInsts C fn b (reverseInsts s.G b) s)
      refine ⟨by rw [hsh2, hsh], n1 ++ n2, by rw [b1, a1, List.append_assoc], ?_⟩
      rw [List.map_append, a2, b2, ← fullCatalogOn_append]
      congr 1
      simp only [List.filter_cons, hb, if_true, List.flatMap_cons]
      congr 1
      apply List.flatMap_congr
      intro c _
      rw [reverseInsts_shape hsh]
    · simp only [Bool.not_eq_true] at hb
      simp only [hb, Bool.not_false, if_true]
      obtain ⟨hsh2, n2, b1, b2⟩ := ih s
      refine ⟨hsh2, n2, b1, ?_⟩
      rw [b2]
      simp [List.filter_cons, hb]

/-- Nothing is expected to be visited in a function other than the one of
the dominator tree. -/
theorem filter_other (DT : DominatorTree) (fn : Nat) (h : fn ≠ DT.function) (bs : List Nat) :
    bs.filter (fun b => DT.isReachableFromEntry fn b) = [] := by
  apply List.filter_eq_nil_iff.2
  intro b _
  simp [DominatorTree.isReachableFromEntry, h]

/-- With folds that keep the shape, the loop over the functions visits the
instructions of the function of the dominator tree that are in blocks with a
node in it. -/
theorem scanModule_visits (C : Callees) (hC : C.keepsShape) (DT : DominatorTree) :
    ∀ (M : List Function) (fn : Nat) (mc : Bool) (log : List Attempt),
      ∃ new, (scanModule C DT fn M mc log).2.2 = log ++ new ∧
        new.map Attempt.key = fullCatalogOn
          (if fn ≤ DT.function then
            ((M[DT.function - fn]?).map (expectedVisits DT DT.function)).getD []
          else []) := by
  intro M
  induction M with
  | nil =>
    intro fn mc log
    refine ⟨[], by simp [scanModule], ?_⟩
    split <;> rfl
  | cons G rest ih =>
    intro fn mc log
    obtain ⟨_, n1, a1, a2⟩ := scanBlocks_visits C hC DT fn (G.blocks.map fun B => B.id)
      { MadeChange := mc, G := G, attempts := log }
    obtain ⟨n2, b1, b2⟩ := ih (fn + 1)
      (scanBlocks C DT fn (G.blocks.map fun B => B.id)
        { MadeChange := mc, G := G, attempts := log }).MadeChange
      (scanBlocks C DT fn (G.blocks.map fun B => B.id)
        { MadeChange := mc, G := G, attempts := log }).attempts
    refine ⟨n1 ++ n2, ?_, ?_⟩
    · simp only [scanModule]
      rw [b1, a1, List.append_assoc]
    · rw [List.map_append, a2, b2, ← fullCatalogOn_append]
      congr 1
      rcases Nat.lt_trichotomy fn DT.function with hlt | heq | hgt
      · rw [filter_other DT fn (by omega)]
        have e : DT.function - fn = (DT.function - (fn + 1)) + 1 := by omega
        simp only [List.flatMap_nil, List.nil_append, if_pos (show fn + 1 ≤ DT.function by omega),
          if_pos (show fn ≤ DT.function by omega)]
        rw [e, List.getElem?_cons_succ]
      · subst heq
        simp only [if_neg (show ¬ DT.function + 1 ≤ DT.function by omega), List.append_nil,
          le_refl, if_true,
          Nat.sub_self, List.getElem?_cons_zero, Option.map_some', Option.getD_some]
        rfl
      · rw [filter_other DT fn (by omega)]
        simp only [List.flatMap_nil, List.nil_append, if_neg (show ¬ fn + 1 ≤ DT.function by omega),
          if_neg (show ¬ fn ≤ DT.function by omega)]

/-- A call recorded in a run of the whole catalog is a call on one of the
instructions visited. -/
theorem mem_fullCatalogOn {visited : List (Nat × Nat × Nat)} {x : Nat × Nat × Nat × CatalogEntry}
    (h : x ∈ fullCatalogOn visited) : (x.1, x.2.1, x.2.2.1) ∈ visited := by
  unfold fullCatalogOn at h
  obtain ⟨v, hv, hx⟩ := List.mem_flatMap.1 h
  obtain ⟨e, _, rfl⟩ := List.mem_map.1 hx
  exact hv

/-- What a run of `foldUnusualPatterns` that returns is made of. -/
theorem foldUnusualPatterns_eq {C : Callees} {UseOptionOne UseOptionTwo : Bool}
    {DT : DominatorTree} {M : List Function} {k : Nat} {mc : Bool} {M2 : List Function}
    {log : List Attempt}
    (h : foldUnusualPatterns C UseOptionOne UseOptionTwo DT M k = some (mc, M2, log)) :
    ∃ F, M[k]? = some F ∧
      ((F.name = "reverse" ∧ mc = false ∧ M2 = M ∧ log = []) ∨
        (F.name ≠ "reverse" ∧ ∃ F1, recognizeCRC C UseOptionOne UseOptionTwo F = some F1 ∧
          mc = (scanModule C DT 0 (M.set k F1) false []).1 ∧
          log = (scanModule C DT 0 (M.set k F1) false []).2.2 ∧
          M2.length = M.length ∧
          ∀ j, j ≠ k → M2[j]? = (scanModule C DT 0 (M.set k F1) false []).2.1[j]?)) := by
  unfold foldUnusualPatterns at h
  cases hF : M[k]? with
  | none => rw [hF] at h; exact absurd h (by simp)
  | some F =>
    rw [hF] at h
    dsimp only at h
    refine ⟨F, rfl, ?_⟩
    split at h
    · rename_i hn
      simp only [Option.some.injEq, Prod.mk.injEq] at h
      exact Or.inl ⟨hn, h.1.symm, h.2.1.symm, h.2.2.symm⟩
    · rename_i hn
      cases hR : recognizeCRC C UseOptionOne UseOptionTwo F with
      | none => rw [hR] at h; exact absurd h (by simp)
      | some F1 =>
        rw [hR] at h
        dsimp only at h
        obtain ⟨_, _, _, _, _, _, hlen, _⟩ := scanModule_spec C DT (M.set k F1) 0 false []
        rw [List.length_set] at hlen
        refine Or.inr ⟨hn, F1, rfl, ?_⟩
        split at h
        · rename_i hmc
          split at h
          · simp only [Option.some.injEq, Prod.mk.injEq] at h
            refine ⟨by rw [← h.1, hmc], h.2.2.symm, by rw [← h.2.1, List.length_set, hlen], ?_⟩
            intro j hj
            rw [← h.2.1, List.getElem?_set_ne (Ne.symm hj)]
          · simp only [Option.some.injEq, Prod.mk.injEq] at h
            exact ⟨by rw [← h.1, hmc], h.2.2.symm, by rw [← h.2.1, hlen],
              fun j _ => by rw [← h.2.1]⟩
        · rename_i hmc
          simp only [Option.some.injEq, Prod.mk.injEq] at h
          refine ⟨by rw [← h.1]; simpa using hmc, h.2.2.symm, by rw [← h.2.1, hlen],
            fun j _ => by rw [← h.2.1]⟩

/-- Folds that all return false on an instruction and leave the function as
it is: the calls are recorded, nothing else changes. -/
theorem runCatalog_false (C : Callees) (fn b i : Nat) (G : Function) :
    ∀ (es : List CatalogEntry) (s : Scan), s.G = G →
      (∀ e ∈ es, C.apply e b i G = (false, G)) →
      runCatalog C fn b i es s
        = { MadeChange := s.MadeChange, G := G,
            attempts := s.attempts ++ es.map fun e => ⟨fn, b, i, e, false⟩ }
  | [], s, hG, _ => by
    cases s
    cases hG
    simp [runCatalog]
  | e :: es, s, hG, h => by
    have he := h e (List.mem_cons_self _ _)
    rw [runCatalog, hG, he]
    rw [runCatalog_false C fn b i G es _ rfl (fun x hx => h x (List.mem_cons_of_mem _ hx))]
    simp

/-- On the `ret` of `and_chain_ir` every fold fails its first test. -/
theorem sourceCallees_ret (C : Callees) (e : CatalogEntry) :
    (sourceCallees C).apply e 0 3 and_chain_ir = (false, and_chain_ir) := by
  cases e <;> rfl

/-- On `%2` of `and_chain_ir` the source's `foldAnyOrAllBitsSet` succeeds. -/
theorem sourceCallees_fold (C : Callees) :
    (sourceCallees C).apply .foldAnyOrAllBitsSet 0 2 and_chain_ir
      = (true, and_chain_folded_ir) := by
  rfl

/-- After that, every other fold fails its first test on `%2`. -/
theorem sourceCallees_after (C : Callees) (e : CatalogEntry) (he : e ≠ .foldAnyOrAllBitsSet) :
    (sourceCallees C).apply e 0 2 and_chain_folded_ir = (false, and_chain_folded_ir) := by
  cases e <;> first | rfl | exact absurd rfl he

/-- On `%1` every fold returns false: `foldAnyOrAllBitsSet` finds neither of
its two shapes, the other folds fail their first test. -/
theorem sourceCallees_first (C : Callees) (e : CatalogEntry) :
    (sourceCallees C).apply e 0 1 and_chain_folded_ir = (false, and_chain_folded_ir) := by
  cases e <;> rfl

/-- The scan of `and_chain_ir` with the folds of the source. -/
theorem scanModule_and_chain (C : Callees) :
    scanModule (sourceCallees C) (dominatorTreeOf 0 and_chain_ir) 0 [and_chain_ir] false []
      = (true, [and_chain_folded_ir], and_chain_calls) := by
  have hDT : (dominatorTreeOf 0 and_chain_ir).isReachableFromEntry 0 0 = true := by decide
  have hids : and_chain_ir.blocks.map (fun B => B.id) = [0] := rfl
  have hrev : reverseInsts and_chain_ir 0 = [3, 2, 1] := rfl
  have h3 := runCatalog_false (sourceCallees C) 0 0 3 and_chain_ir catalog
    { MadeChange := false, G := and_chain_ir, attempts := [] } rfl
    (fun e _ => sourceCallees_ret C e)
  have h2 : ∀ s : Scan, s.G = and_chain_ir →
      runCatalog (sourceCallees C) 0 0 2 catalog s
        = { MadeChange := true, G := and_chain_folded_ir,
            attempts := s.attempts ++ ⟨0, 0, 2, .foldAnyOrAllBitsSet, true⟩ ::
              (catalog.drop 1).map fun e => ⟨0, 0, 2, e, false⟩ } := by
    intro s hs
    rw [show catalog = .foldAnyOrAllBitsSet :: catalog.drop 1 from rfl, runCatalog, hs,
      sourceCallees_fold]
    rw [runCatalog_false (sourceCallees C) 0 0 2 and_chain_folded_ir _ _ rfl
      (fun e he => sourceCallees_after C e (by
        intro h
        subst h
        exact absurd he (by decide)))]
    simp
  have h1 := fun s hs => runCatalog_false (sourceCallees C) 0 0 1 and_chain_folded_ir catalog
    s hs (fun e _ => sourceCallees_first C e)
  rw [scanModule, scanModule, hids, scanBlocks, hDT]
  simp only [Bool.not_true, Bool.false_eq_true, if_false]
  rw [scanBlocks, hrev, scanInsts, h3, scanInsts, h2 _ rfl, scanInsts, h1 _ rfl, scanInsts]
  rfl

/-- The run of `foldUnusualPatterns` on `and_chain_ir` with the folds of the
source. -/
theorem foldUnusualPatterns_and_chain (C : Callees) :
    foldUnusualPatterns (sourceCallees C) false false (dominatorTreeOf 0 and_chain_ir)
        [and_chain_ir] 0
      = some (true, [simplifyBlocks (sourceCallees C) and_chain_folded_ir], and_chain_calls) := by
  have hname : ¬ and_chain_ir.name = "reverse" := by decide
  have hget : [and_chain_ir][0]? = some and_chain_ir := rfl
  have hrec : recognizeCRC (sourceCallees C) false false and_chain_ir = some and_chain_ir := rfl
  have hset : [and_chain_ir].set 0 and_chain_ir = [and_chain_ir] := rfl
  unfold foldUnusualPatterns
  rw [hget]
  dsimp only
  rw [if_neg hname, hrec]
  dsimp only
  rw [hset, scanModule_and_chain]
  rfl

/-- C21 (the claim fails): on `%1 = and i32 %a, 1 ; %2 = and i32 %1, %a ;
ret i32 %2` the expression of `%2` is an `and` chain that
`matchAnyOrAllBitsSet` accepts with root `%a` and mask 1, so
`foldAnyOrAllBitsSet` succeeds on `%2` and puts `%4 = and i32 %a, 1 ; %5 =
icmp eq i32 %4, 1 ; %6 = zext i1 %5 to i32` before it; `foldUnusualPatterns`
goes on to call the seven later folds on `%2` after that success, and then
all folds on `%1`. This holds whatever the other folds do beyond their first
test and whatever `SimplifyInstructionsInBlock` does afterwards. -/
theorem C21_later_entries_attempted_after_success :
    valOf and_chain_ir 32 4 (.inst 2)
      = some (.bin 2 1 .and (.bin 1 1 .and (.arg 0 32) (.const 32 1)) (.arg 0 32)) ∧
    matchAnyOrAllBitsSet (.bin 2 1 .and (.bin 1 1 .and (.arg 0 32) (.const 32 1)) (.arg 0 32))
      = some (true, .arg 0 32, 1) ∧
    (∀ C : Callees,
      (sourceCallees C).apply .foldAnyOrAllBitsSet 0 2 and_chain_ir
        = (true, and_chain_folded_ir) ∧
      foldUnusualPatterns (sourceCallees C) false false (dominatorTreeOf 0 and_chain_ir)
          [and_chain_ir] 0
        = some (true, [simplifyBlocks (sourceCallees C) and_chain_folded_ir],
            and_chain_calls)) ∧
    and_chain_calls.drop 8
      = [⟨0, 0, 2, .foldAnyOrAllBitsSet, true⟩, ⟨0, 0, 2, .foldGuardedFunnelShift, false⟩,
         ⟨0, 0, 2, .tryToRecognizePopCount, false⟩, ⟨0, 0, 2, .tryToFPToSat, false⟩,
         ⟨0, 0, 2, .tryToRecognizeTableBasedCttz, false⟩,
         ⟨0, 0, 2, .foldConsecutiveLoads, false⟩, ⟨0, 0, 2, .foldPatternedLoads, false⟩,
         ⟨0, 0, 2, .foldSqrt, false⟩] ++ callsOn 0 0 1 false :=
  ⟨by decide, by decide,
    fun C => ⟨sourceCallees_fold C, foldUnusualPatterns_and_chain C⟩, by decide⟩

/-- C21 (amended): in every run of `foldUnusualPatterns` that returns, each
instruction visited has all eight folds called on it, in the order of the
catalog, whatever the earlier folds returned on it, before the scan goes on
to the next instruction. With folds that keep the blocks and their
instruction lists, and the dominator tree of the function `F` at position
`k`, the instructions visited are those of every block of `F` (as the CRC
step leaves it) that has a node in the tree, each block last instruction
first. -/
theorem C21_every_entry_attempted (C : Callees) (UseOptionOne UseOptionTwo : Bool)
    (DT : DominatorTree) (M : List Function) (k : Nat) (mc : Bool) (M2 : List Function)
    (log : List Attempt)
    (h : foldUnusualPatterns C UseOptionOne UseOptionTwo DT M k = some (mc, M2, log)) :
    (∃ visited, log.map Attempt.key = fullCatalogOn visited) ∧
    (C.keepsShape → DT.function = k → ∀ F F1, M[k]? = some F → F.name ≠ "reverse" →
      recognizeCRC C UseOptionOne UseOptionTwo F = some F1 →
      log.map Attempt.key = fullCatalogOn (expectedVisits DT k F1)) := by
  obtain ⟨F, hF, hcase⟩ := foldUnusualPatterns_eq h
  rcases hcase with ⟨hn, rfl, _, rfl⟩ | ⟨hn, F1, hR, rfl, rfl, _, _⟩
  · refine ⟨⟨[], rfl⟩, ?_⟩
    intro _ _ F2 _ hF2 hn2 _
    rw [hF] at hF2
    cases hF2
    exact absurd hn hn2
  · obtain ⟨visited, new, a1, a2, a3, _⟩ := scanModule_spec C DT (M.set k F1) 0 false []
    simp only [List.nil_append] at a1
    refine ⟨⟨visited, by rw [a1, a2]⟩, ?_⟩
    intro hC hk F2 F3 hF2 _ hR2
    rw [hF] at hF2
    cases hF2
    rw [hR] at hR2
    cases hR2
    obtain ⟨new2, b1, b2⟩ := scanModule_visits C hC DT (M.set k F1) 0 false []
    simp only [List.nil_append] at b1
    rw [b1, b2]
    have hlt : k < M.length := by
      rcases List.getElem?_eq_some.1 hF with ⟨hlt, _⟩
      exact hlt
    simp only [Nat.zero_le, if_true, Nat.sub_zero, hk, List.getElem?_set_self hlt,
      Option.map_some', Option.getD_some]

/-- C21 (amended) on `and_chain_ir`: with the folds of the source, where
`foldAnyOrAllBitsSet` succeeds on `%2`, and with folds that all return false
and change nothing, where the instructions visited are `ret`, `%2`, `%1`. -/
theorem C21_every_entry_attempted_witness :
    (foldUnusualPatterns (sourceCallees (callees fun _ _ _ => false)) false false
        (dominatorTreeOf 0 and_chain_ir) [and_chain_ir] 0
      = some (true, [and_chain_folded_ir], and_chain_calls) ∧
     ((∃ visited, and_chain_calls.map Attempt.key = fullCatalogOn visited) ∧
      ((sourceCallees (callees fun _ _ _ => false)).keepsShape →
        (dominatorTreeOf 0 and_chain_ir).function = 0 →
        ∀ F F1, [and_chain_ir][0]? = some F → F.name ≠ "reverse" →
        recognizeCRC (sourceCallees (callees fun _ _ _ => false)) false false F = some F1 →
        and_chain_calls.map Attempt.key
          = fullCatalogOn (expectedVisits (dominatorTreeOf 0 and_chain_ir) 0 F1)))) ∧
    (foldUnusualPatterns (callees fun _ _ _ => false) false false
        (dominatorTreeOf 0 and_chain_ir) [and_chain_ir] 0
      = some (false, [and_chain_ir],
          callsOn 0 0 3 false ++ callsOn 0 0 2 false ++ callsOn 0 0 1 false) ∧
     (callees fun _ _ _ => false).keepsShape ∧
     expectedVisits (dominatorTreeOf 0 and_chain_ir) 0 and_chain_ir
       = [(0, 0, 3), (0, 0, 2), (0, 0, 1)] ∧
     ((∃ visited,
        (callsOn 0 0 3 false ++ callsOn 0 0 2 false ++ callsOn 0 0 1 false).map Attempt.key
          = fullCatalogOn visited) ∧
      ((callees fun _ _ _ => false).keepsShape →
        (dominatorTreeOf 0 and_chain_ir).function = 0 →
        ∀ F F1, [and_chain_ir][0]? = some F → F.name ≠ "reverse" →
        recognizeCRC (callees fun _ _ _ => false) false false F = some F1 →
        (callsOn 0 0 3 false ++ callsOn 0 0 2 false ++ callsOn 0 0 1 false).map Attempt.key
          = fullCatalogOn (expectedVisits (dominatorTreeOf 0 and_chain_ir) 0 F1)))) :=
  ⟨⟨foldUnusualPatterns_and_chain _,
    C21_every_entry_attempted (sourceCallees (callees fun _ _ _ => false)) false false
      (dominatorTreeOf 0 and_chain_ir) [and_chain_ir] 0 true [and_chain_folded_ir] _
      (foldUnusualPatterns_and_chain _)⟩,
   ⟨by decide, fun _ _ _ _ => rfl, by decide,
    C21_every_entry_attempted (callees fun _ _ _ => false) false false
      (dominatorTreeOf 0 and_chain_ir) [and_chain_ir] 0 false [and_chain_ir] _ (by decide)⟩⟩

/-- C22: `foldUnusualPatterns` called on the function `F` at position `k` of
a module, with the dominator tree of `F`, calls folds only on instructions
of `F`, in blocks that are reachable from the entry of `F` and that `F` has
when the scan starts; every other function of the module is left as it
was. The loop of the source runs over all functions of the module, and the
dominator tree of `F` has no node for a block of another function. -/
theorem C22_only_reachable_blocks_of_F (C : Callees) (UseOptionOne UseOptionTwo : Bool)
    (M : List Function) (k : Nat) (F : Function) (mc : Bool) (M2 : List Function)
    (log : List Attempt) (hF : M[k]? = some F)
    (h : foldUnusualPatterns C UseOptionOne UseOptionTwo (dominatorTreeOf k F) M k
      = some (mc, M2, log)) :
    (∀ a ∈ log, a.function = k ∧ a.block ∈ F.reachable ∧
      ∃ F1, recognizeCRC C UseOptionOne UseOptionTwo F = some F1 ∧
        a.block ∈ F1.blocks.map fun B => B.id) ∧
    M2.length = M.length ∧
    ∀ j, j ≠ k → M2[j]? = M[j]? := by
  obtain ⟨F0, hF0, hcase⟩ := foldUnusualPatterns_eq h
  rw [hF] at hF0
  cases hF0
  have hlt : k < M.length := by
    rcases List.getElem?_eq_some.1 hF with ⟨hlt, _⟩
    exact hlt
  rcases hcase with ⟨hn, rfl, rfl, rfl⟩ | ⟨hn, F1, hR, rfl, rfl, hlen, hother⟩
  · exact ⟨fun a ha => absurd ha (by simp), rfl, fun _ _ => rfl⟩
  · obtain ⟨visited, new, a1, a2, a3, a4, a5, a6⟩ :=
      scanModule_spec C (dominatorTreeOf k F) (M.set k F1) 0 false []
    simp only [List.nil_append] at a1
    refine ⟨?_, hlen, ?_⟩
    · intro a ha
      rw [a1] at ha
      have hkey : a.key ∈ fullCatalogOn visited := by
        rw [← a2]
        exact List.mem_map_of_mem _ ha
      obtain ⟨h1, h2, j, G, h3, h4, h5⟩ := a4 _ (mem_fullCatalogOn hkey)
      simp only [dominatorTreeOf, Nat.zero_add] at h1 h2 h3
      subst h3
      rw [List.getElem?_set_self hlt] at h4
      cases h4
      exact ⟨h1, by simpa using h2, F1, hR, h5⟩
    · intro j hj
      rw [hother j hj, a6 j (by simpa [dominatorTreeOf] using hj),
        List.getElem?_set_ne (Ne.symm hj)]

/-- C22 on the module of `zero` and `sum`, called on `zero` with every fold
succeeding wherever it is called: the eight folds are called on the `ret` of
`zero`, and `sum` is left as it was. -/
theorem C22_only_reachable_blocks_of_F_witness :
    ([ret_only_ir, sum_ir][0]? = some ret_only_ir ∧
      foldUnusualPatterns (callees fun _ _ _ => true) false false
          (dominatorTreeOf 0 ret_only_ir) [ret_only_ir, sum_ir] 0
        = some (true, [ret_only_ir, sum_ir], callsOn 0 0 101 true)) ∧
    ((∀ a ∈ callsOn 0 0 101 true,
        a.function = 0 ∧ a.block ∈ ret_only_ir.reachable ∧
        ∃ F1, recognizeCRC (callees fun _ _ _ => true) false false ret_only_ir = some F1 ∧
          a.block ∈ F1.blocks.map fun B => B.id) ∧
      [ret_only_ir, sum_ir].length = [ret_only_ir, sum_ir].length ∧
      ∀ j, j ≠ 0 → [ret_only_ir, sum_ir][j]? = [ret_only_ir, sum_ir][j]?) :=
  ⟨⟨rfl, by decide⟩,
    C22_only_reachable_blocks_of_F (callees fun _ _ _ => true) false false
      [ret_only_ir, sum_ir] 0 ret_only_ir true [ret_only_ir, sum_ir] _ rfl (by decide)⟩

end UnusualPatterns

end AggressiveInstCombine

namespace ExpressionOptimizer

/-- The function `binomial_ir` returns `(a + b) * (a + b)` modulo `2^32`. -/
theorem binomial_ir_exec (a b : Nat) (addr : Nat → Nat) (ha : a < 2 ^ 32) (hb : b < 2 ^ 32) :
    binomial_ir.exec [a, b] addr = some ((a + b) * (a + b) % 2 ^ 32) := by
  simp only [Function.exec, binomial_ir, ins, execInsts, evalValue, lookupReg, setSlot,
    List.length_nil, List.length_cons, List.nil_append, List.cons_append,
    List.getElem?_cons_zero, List.getElem?_cons_succ, Option.map_some', if_true, if_false,
    Nat.reduceEqDiff, Nat.reduceAdd, OfNat.ofNat_ne_zero, one_ne_zero, Nat.succ_ne_self,
    reduceCtorEq]
  simp only [Nat.mod_eq_of_lt ha, Nat.mod_eq_of_lt hb, Nat.add_mod_mod, Nat.mod_add_mod,
    Nat.mul_mod_mod, Nat.mod_mul_mod]
  congr 2
  ring

/-- What `findBinomialSquare` leaves of `binomial_ir` returns the square of
the sum of the addresses of its two stack slots, whatever the arguments. -/
theorem binomial_rewritten_ir_exec (a b : Nat) (addr : Nat → Nat) :
    binomial_rewritten_ir.exec [a, b] addr
      = some ((addr 0 % 2 ^ 32 + addr 1 % 2 ^ 32) % 2 ^ 32
          * ((addr 0 % 2 ^ 32 + addr 1 % 2 ^ 32) % 2 ^ 32) % 2 ^ 32) := by
  simp only [Function.exec, binomial_rewritten_ir, ins, execInsts, evalValue, lookupReg, setSlot,
    List.length_nil, List.length_cons, List.nil_append, List.cons_append,
    List.getElem?_cons_zero, List.getElem?_cons_succ, Option.map_some', if_true, if_false,
    Nat.reduceEqDiff, Nat.reduceAdd, OfNat.ofNat_ne_zero, one_ne_zero, Nat.succ_ne_self,
    reduceCtorEq]

/-- C26 (code at the failing input): on `binomial_ir`, the function that
returns `a*a + 2*a*b + b*b`, in a module that has a function `f2`,
`findBinomialSquare` succeeds and leaves `binomial_rewritten_ir`: the operands
of the new `add` are `ptrtoint` of the pointer operands of the two stores,
the stack slots of `a` and `b`, not the values stored. The original returns
`(a + b) * (a + b)` modulo `2^32` for all `a` and `b` below `2^32`; the
rewritten function returns the square of the sum of the two addresses
whatever `a` and `b` are, so for every placement of the stack slots it
differs from the original on some arguments. With `a = 1`, `b = 2` and the
slots at 4096 and 4100 the original returns 9 and the rewritten function
67174416. -/
theorem C26_rewrite_squares_addresses :
    findBinomialSquare [] ["f1", "f2"] binomial_ir
      = some (true, binomial_rewritten_ir, ["f1"]) ∧
    (∀ (a b : Nat) (addr : Nat → Nat), a < 2 ^ 32 → b < 2 ^ 32 →
      binomial_ir.exec [a, b] addr = some ((a + b) * (a + b) % 2 ^ 32)) ∧
    (∀ (a b : Nat) (addr : Nat → Nat),
      binomial_rewritten_ir.exec [a, b] addr
        = some ((addr 0 % 2 ^ 32 + addr 1 % 2 ^ 32) % 2 ^ 32
            * ((addr 0 % 2 ^ 32 + addr 1 % 2 ^ 32) % 2 ^ 32) % 2 ^ 32)) ∧
    (∀ addr : Nat → Nat, ∃ a b, a < 2 ^ 32 ∧ b < 2 ^ 32 ∧
      binomial_rewritten_ir.exec [a, b] addr ≠ binomial_ir.exec [a, b] addr) ∧
    binomial_ir.exec [1, 2] (fun s => 4096 + 4 * s) = some 9 ∧
    binomial_rewritten_ir.exec [1, 2] (fun s => 4096 + 4 * s) = some 67174416 := by
  refine ⟨by decide, binomial_ir_exec, binomial_rewritten_ir_exec, ?_, by decide, by decide⟩
  intro addr
  by_cases h0 : (addr 0 % 2 ^ 32 + addr 1 % 2 ^ 32) % 2 ^ 32
      * ((addr 0 % 2 ^ 32 + addr 1 % 2 ^ 32) % 2 ^ 32) % 2 ^ 32 = 0
  · refine ⟨1, 0, by norm_num, by norm_num, ?_⟩
    rw [binomial_rewritten_ir_exec, binomial_ir_exec 1 0 addr (by norm_num) (by norm_num), h0]
    simp
  · refine ⟨0, 0, by norm_num, by norm_num, ?_⟩
    rw [binomial_rewritten_ir_exec, binomial_ir_exec 0 0 addr (by norm_num) (by norm_num)]
    simpa using h0

end ExpressionOptimizer

end CRC
